import Mathlib

/-! # json-print: template compiler and value serializer

A shallow embedding of `src/json_print_compile.hpp`, `src/json_print_arg.hpp`,
`src/json_print_arg_string.hpp`, `src/json_print_arg_file.hpp` and `src/json_print.hpp`.

Conventions of the embedding.

* A byte (`char`) is a natural number; a text range `[begin, end)` is a `List Nat`.
  Inside the compiler a pointer into the range is its offset from `begin`, so the
  `end` pointer is `text.length`.
* A C++ `throw std::runtime_error(msg)` is `Outcome.throw msg`.  A dereference of a
  position outside `[begin, end)`, a store outside the `parts` array and a malformed
  `printf` conversion are undefined behaviour in C++; they are kept apart from both
  success and `throw` as `Outcome.undefined`.
* The mutually recursive parser functions take a fuel argument; running out of it is
  `Outcome.out_of_fuel`, which is shown never to happen for the fuel `compile` passes.
-/

namespace JsonPrint

/-! ## Outcomes -/

/-- The kinds of undefined behaviour the embedding tracks. -/
inductive Fault where
  | read_outside
  | write_outside
  | bad_conversion
  | bad_range
  deriving DecidableEq, Repr

/-- Result of running a piece of the program. -/
inductive Outcome (α : Type) where
  | ok (a : α) : Outcome α
  | throw (what : String) : Outcome α
  | undefined (f : Fault) : Outcome α
  | out_of_fuel : Outcome α
  deriving DecidableEq, Repr

namespace Outcome

/-- Sequencing: the first outcome that is not `ok` ends the run. -/
def bind {α β : Type} : Outcome α → (α → Outcome β) → Outcome β
  | .ok a, f => f a
  | .throw w, _ => .throw w
  | .undefined u, _ => .undefined u
  | .out_of_fuel, _ => .out_of_fuel

instance : Monad Outcome where
  pure := Outcome.ok
  bind := Outcome.bind

/-- Whether the run completed normally. -/
def isOk {α : Type} : Outcome α → Bool
  | .ok _ => true
  | _ => false

/-- Whether the run ended in a C++ exception. -/
def isThrow {α : Type} : Outcome α → Bool
  | .throw _ => true
  | _ => false

/-- Postcondition of a run of the compiler: a completed run satisfies `Q`, undefined
behaviour, if any, is a read outside the range, and the fuel is not used up. -/
def sat {α : Type} (r : Outcome α) (Q : α → Prop) : Prop :=
  match r with
  | .ok a => Q a
  | .undefined f => f = .read_outside
  | .out_of_fuel => False
  | .throw _ => True

end Outcome

/-- ASCII bytes of a string literal of the source. -/
def bytes (s : String) : List Nat := s.toList.map Char.toNat

/-! ## json_print_compile.hpp -/

/-- The macro `JP_MAX_PLACEHOLDERS` (default value). -/
def JP_MAX_PLACEHOLDERS : Nat := 14

/-- The struct `json_print_context`: `parts` has `JP_MAX_PLACEHOLDERS + 2` slots, each a
pointer (an offset into the format string, `none` for the null pointer of `= { 0 }`). -/
structure json_print_context where
  parts : List (Option Nat)
  count : Nat
  deriving DecidableEq, Repr

/-- The initializer `json_print_context context = { 0 }`. -/
def context_zero : json_print_context :=
  { parts := List.replicate (JP_MAX_PLACEHOLDERS + 2) none, count := 0 }

/-- The store `context.parts[i] = p`; outside the array it is undefined behaviour. -/
def store_part (ctx : json_print_context) (i p : Nat) : Outcome json_print_context :=
  if i < JP_MAX_PLACEHOLDERS + 2 then .ok { ctx with parts := ctx.parts.set i (some p) }
  else .undefined .write_outside

/-- The dereference `*p` of a position of the range. -/
def rd (text : List Nat) (p : Nat) : Outcome Nat :=
  match text[p]? with
  | some c => .ok c
  | none => .undefined .read_outside

/-- The case list `JP_WHITESPACE`: space, tab, carriage return, line feed. -/
def is_whitespace (c : Nat) : Bool := c == 32 || c == 9 || c == 13 || c == 10

/-- The case list `JP_OTHER_CONTROL`: 0x00..0x07, 0x0B, 0x0E..0x1F. -/
def JP_OTHER_CONTROL (c : Nat) : Bool := c ≤ 7 || c == 11 || (14 ≤ c && c ≤ 31)

/-- The case list `JP_CONTROL`: `JP_OTHER_CONTROL` and `\b \t \n \f \r`. -/
def JP_CONTROL (c : Nat) : Bool :=
  JP_OTHER_CONTROL c || c == 8 || c == 9 || c == 10 || c == 12 || c == 13

/-- The case list `JP_NONZERO_DIGIT`. -/
def JP_NONZERO_DIGIT (c : Nat) : Bool := 49 ≤ c && c ≤ 57

/-- The function `is_decimal` (case list `JP_DIGIT`). -/
def is_decimal (c : Nat) : Bool := c == 48 || JP_NONZERO_DIGIT c

/-- The case list `JP_HEX_ALPHA`: a..f, A..F. -/
def JP_HEX_ALPHA (c : Nat) : Bool := (97 ≤ c && c ≤ 102) || (65 ≤ c && c ≤ 70)

/-- The function `is_hexadecimal`. -/
def is_hexadecimal (c : Nat) : Bool := is_decimal c || JP_HEX_ALPHA c

/-- The function `is_string_char`. -/
def is_string_char (c : Nat) : Bool := !(JP_CONTROL c || c == 92 || c == 34)

/-- The loop `for (; begin != end && p(*begin); begin++)` on the bytes of `[begin, end)`. -/
def skip_run (p : Nat → Bool) : List Nat → Nat → Nat
  | [], begin => begin
  | c :: rest, begin => if p c then skip_run p rest (begin + 1) else begin

/-- The function `skip_whitespace`.  With `begin` past `end` the loop condition
`begin != end` holds and `*begin` is read outside the range. -/
def skip_whitespace (text : List Nat) (begin : Nat) : Outcome Nat :=
  if text.length < begin then .undefined .read_outside
  else .ok (skip_run is_whitespace (text.drop begin) begin)

/-- The function `skip_decimal`. -/
def skip_decimal (text : List Nat) (begin : Nat) : Outcome Nat :=
  if text.length < begin then .undefined .read_outside
  else .ok (skip_run is_decimal (text.drop begin) begin)

/-- The one-character escapes of `parse_string`: `" \ / b f n r t`. -/
def is_escape_letter (c : Nat) : Bool :=
  c == 34 || c == 92 || c == 47 || c == 98 || c == 102 || c == 110 || c == 114 || c == 116

/-- The `while (begin != end)` loop of `parse_string`, on the bytes of `[begin, end)`. -/
def parse_string_loop : List Nat → Nat → Outcome Nat
  | [], begin => .ok begin
  | c :: rest, begin =>
    if JP_CONTROL c then .throw "control characters not allowed inside strings"
    else if c = 92 then
      match rest with
      | [] => .throw "expected escape character, reached end of text"
      | e :: rest1 =>
        if is_escape_letter e then parse_string_loop rest1 (begin + 2)
        else if e = 117 then
          match rest1 with
          | h1 :: h2 :: h3 :: h4 :: rest2 =>
            if is_hexadecimal h1 && is_hexadecimal h2 && is_hexadecimal h3 && is_hexadecimal h4
            then parse_string_loop rest2 (begin + 6)
            else .throw "expected hexadecimal digit"
          | _ => .throw "expected 4 hexadecimal digits, reached end of text"
        else .throw "unsupported escape character"
    else if c = 34 then .ok (begin + 1)
    else parse_string_loop rest (begin + 1)

/-- The function `parse_string`: `begin++` without a look at `*begin`, then the loop. -/
def parse_string (text : List Nat) (begin : Nat) : Outcome Nat :=
  if text.length < begin + 1 then .undefined .read_outside
  else parse_string_loop (text.drop (begin + 1)) (begin + 1)

/-- The test `begin != end && p(*begin)`. -/
def at_is (text : List Nat) (begin : Nat) (p : Nat → Bool) : Outcome Bool :=
  if begin = text.length then .ok false
  else (rd text begin).bind fun c => .ok (p c)

/-- The function `parse_number`. -/
def parse_number (text : List Nat) (begin : Nat) : Outcome Nat := do
  let c ← rd text begin
  let begin ←
    (if c = 45 then
      if begin + 1 = text.length then
        Outcome.throw "expected digit after '-', reached end of text"
      else Outcome.ok (begin + 1)
    else Outcome.ok begin)
  -- integer part
  let d ← rd text begin
  let begin ←
    (if d = 48 then Outcome.ok (begin + 1)
    else if JP_NONZERO_DIGIT d then skip_decimal text (begin + 1)
    else Outcome.throw "expected digit after '-'")
  -- decimal point and decimal part
  let dot ← at_is text begin (fun c => c == 46)
  let begin ←
    (if dot then
      if begin + 1 = text.length then
        Outcome.throw "expected digit after '.', reached end of text"
      else
        (rd text (begin + 1)).bind fun c =>
          if !is_decimal c then Outcome.throw "expected digit after '.'"
          else skip_decimal text (begin + 2)
    else Outcome.ok begin)
  -- exponent
  let ex ← at_is text begin (fun c => c == 69 || c == 101)
  (if ex then
    (at_is text (begin + 1) (fun c => c == 45 || c == 43)).bind fun sign =>
      let begin := if sign then begin + 2 else begin + 1
      if begin = text.length then
        Outcome.throw "expected digit after exponent, reached end of text"
      else
        (rd text begin).bind fun c =>
          if !is_decimal c then Outcome.throw "expected digit after exponent"
          else skip_decimal text (begin + 1)
  else Outcome.ok begin)

/-- The function `parse_null`: the lookahead bytes are compared only when
`end - begin < 4`; otherwise `begin + 4` is returned at once. -/
def parse_null (text : List Nat) (begin : Nat) : Outcome Nat :=
  if text.length < begin + 4 then do
    let c1 ← rd text (begin + 1)
    if c1 ≠ 117 then Outcome.throw "unrecognized token" else
    let c2 ← rd text (begin + 2)
    if c2 ≠ 108 then Outcome.throw "unrecognized token" else
    let c3 ← rd text (begin + 3)
    if c3 ≠ 108 then Outcome.throw "unrecognized token" else
    Outcome.ok (begin + 4)
  else .ok (begin + 4)

/-- The function `parse_true`. -/
def parse_true (text : List Nat) (begin : Nat) : Outcome Nat :=
  if text.length < begin + 4 then do
    let c1 ← rd text (begin + 1)
    if c1 ≠ 114 then Outcome.throw "unrecognized token" else
    let c2 ← rd text (begin + 2)
    if c2 ≠ 117 then Outcome.throw "unrecognized token" else
    let c3 ← rd text (begin + 3)
    if c3 ≠ 101 then Outcome.throw "unrecognized token" else
    Outcome.ok (begin + 4)
  else .ok (begin + 4)

/-- The function `parse_false`. -/
def parse_false (text : List Nat) (begin : Nat) : Outcome Nat :=
  if text.length < begin + 5 then do
    let c1 ← rd text (begin + 1)
    if c1 ≠ 97 then Outcome.throw "unrecognized token" else
    let c2 ← rd text (begin + 2)
    if c2 ≠ 108 then Outcome.throw "unrecognized token" else
    let c3 ← rd text (begin + 3)
    if c3 ≠ 115 then Outcome.throw "unrecognized token" else
    let c4 ← rd text (begin + 4)
    if c4 ≠ 101 then Outcome.throw "unrecognized token" else
    Outcome.ok (begin + 5)
  else .ok (begin + 5)

mutual

/-- The function `parse_value`. -/
def parse_value : Nat → List Nat → Nat → json_print_context →
    Outcome (Nat × json_print_context)
  | 0, _, _, _ => .out_of_fuel
  | fuel + 1, text, begin, context => do
    let begin ← skip_whitespace text begin
    let c ← rd text begin
    if c = 91 then parse_array fuel text begin context
    else if c = 123 then parse_object fuel text begin context
    else if c = 34 then (parse_string text begin).bind fun e => .ok (e, context)
    else if c = 45 || is_decimal c then (parse_number text begin).bind fun e => .ok (e, context)
    else if c = 110 then (parse_null text begin).bind fun e => .ok (e, context)
    else if c = 116 then (parse_true text begin).bind fun e => .ok (e, context)
    else if c = 102 then (parse_false text begin).bind fun e => .ok (e, context)
    else if c = 63 then
      if context.count = JP_MAX_PLACEHOLDERS then
        Outcome.throw "too many placeholder values"
      else
        (store_part { context with count := context.count + 1 } (context.count + 1) begin).bind
          fun context => .ok (begin + 1, context)
    else Outcome.throw "expected value"
termination_by structural fuel => fuel

/-- The function `parse_array` up to its `while (true)` loop. -/
def parse_array : Nat → List Nat → Nat → json_print_context →
    Outcome (Nat × json_print_context)
  | 0, _, _, _ => .out_of_fuel
  | fuel + 1, text, begin, context => do
    let begin ← skip_whitespace text (begin + 1)
    if begin = text.length then
      Outcome.throw "expected value or ']', reached end of text"
    else do
      let c ← rd text begin
      if c = 93 then Outcome.ok (begin + 1, context)
      else parse_array_loop fuel text begin context
termination_by structural fuel => fuel

/-- The `while (true)` loop of `parse_array`. -/
def parse_array_loop : Nat → List Nat → Nat → json_print_context →
    Outcome (Nat × json_print_context)
  | 0, _, _, _ => .out_of_fuel
  | fuel + 1, text, begin, context => do
    let (begin, context) ← parse_value fuel text begin context
    let begin ← skip_whitespace text begin
    if begin = text.length then
      Outcome.throw "expected ',' or ']', reached end of text"
    else do
      let c ← rd text begin
      if c = 93 then Outcome.ok (begin + 1, context)
      else if c ≠ 44 then Outcome.throw "expected ',' or ']'"
      else parse_array_loop fuel text (begin + 1) context
termination_by structural fuel => fuel

/-- The function `parse_object` up to its `while (true)` loop. -/
def parse_object : Nat → List Nat → Nat → json_print_context →
    Outcome (Nat × json_print_context)
  | 0, _, _, _ => .out_of_fuel
  | fuel + 1, text, begin, context => do
    let begin ← skip_whitespace text (begin + 1)
    if begin = text.length then
      Outcome.throw "expected '\"' or '\x7d', reached end of text"
    else do
      let c ← rd text begin
      if c = 125 then Outcome.ok (begin + 1, context)
      else if c ≠ 34 then Outcome.throw "expected '\"' or '\x7d'"
      else parse_object_loop fuel text begin context
termination_by structural fuel => fuel

/-- The `while (true)` loop of `parse_object`. -/
def parse_object_loop : Nat → List Nat → Nat → json_print_context →
    Outcome (Nat × json_print_context)
  | 0, _, _, _ => .out_of_fuel
  | fuel + 1, text, begin, context => do
    -- member name
    let begin ← parse_string text begin
    let begin ← skip_whitespace text begin
    if begin = text.length then Outcome.throw "expected ':', reached end of text"
    else do
      let c ← rd text begin
      if c ≠ 58 then Outcome.throw "expected ':'"
      else do
        let (begin, context) ← parse_value fuel text (begin + 1) context
        let begin ← skip_whitespace text begin
        if begin = text.length then
          Outcome.throw "expected ',' or '\x7d', reached end of text"
        else do
          let c ← rd text begin
          if c = 125 then Outcome.ok (begin + 1, context)
          else if c ≠ 44 then Outcome.throw "expected ',' or '\x7d'"
          else do
            let begin ← skip_whitespace text (begin + 1)
            parse_object_loop fuel text begin context
termination_by structural fuel => fuel

end

/-- Fuel that `compile` hands to `parse_value`: three units for each byte of the range
and three more. -/
def compile_fuel (text : List Nat) : Nat := 3 * text.length + 3

/-- The function `compile(begin, end)` on the bytes of `[begin, end)`. -/
def compile (text : List Nat) : Outcome json_print_context := do
  let context ← store_part context_zero 0 0
  let (begin, context) ← parse_value (compile_fuel text) text 0 context
  let begin ← skip_whitespace text begin
  let nul ← at_is text begin (fun c => c == 0)
  let begin := if nul then begin + 1 else begin
  if begin ≠ text.length then
    Outcome.throw "expected end of text, reached additional content"
  else
    store_part { context with count := context.count + 1 } (context.count + 1) text.length

/-! ## Invariant of the context during compilation -/

/-- The `parts` array that holds the start of the format string followed by the
placeholder offsets `qs`, the remaining slots still null. -/
def parts_of (qs : List Nat) : List (Option Nat) :=
  (some 0 :: qs.map some) ++ List.replicate (JP_MAX_PLACEHOLDERS + 1 - qs.length) none

/-- The context holds exactly the offsets `qs`: they are at most `JP_MAX_PLACEHOLDERS`
many, strictly increasing, below `bound`, and each one is the offset of a `?` byte. -/
structure Marks (text : List Nat) (bound : Nat) (context : json_print_context)
    (qs : List Nat) : Prop where
  parts_eq : context.parts = parts_of qs
  count_eq : context.count = qs.length
  le_max : qs.length ≤ JP_MAX_PLACEHOLDERS
  sorted : qs.Pairwise (· < ·)
  marks : ∀ q ∈ qs, q < bound ∧ text[q]? = some 63

/-- What a parser function called at `b` with `fuel` guarantees, when the fuel is at least
three units for each byte from `b` to the end and `extra` more: it does not run out of
fuel, a completed run ends at a position in `(b, end]` and only appends offsets to the
context, and it never stores outside `parts`. -/
def Step (extra fuel : Nat)
    (F : List Nat → Nat → json_print_context → Outcome (Nat × json_print_context)) : Prop :=
  ∀ text b context qs, Marks text b context qs → 3 * (text.length - b) + extra ≤ fuel →
    (F text b context).sat fun r =>
      b < r.1 ∧ r.1 ≤ text.length ∧ ∃ qs', Marks text r.1 r.2 (qs ++ qs')

/-- The placeholder offsets recorded in a compiled context: the interior boundaries
`parts[1] .. parts[count - 1]`. -/
def placeholder_offsets (context : json_print_context) : List Nat :=
  ((context.parts.take context.count).drop 1).filterMap id

/-! ## The C library: `printf` conversions

Only the conversions the source uses are given a meaning; any other conversion
specification is undefined behaviour, as in the C standard. -/

/-- The largest `int` (32 bits wide). -/
def INT_MAX : Nat := 2147483647

/-- The conversion `static_cast<int>(x)` of a wider integer, with wrap-around. -/
def to_int (x : Int) : Int := (x + 2147483648) % 4294967296 - 2147483648

/-- The conversion `static_cast<unsigned>(x)`. -/
def to_unsigned (x : Int) : Nat := (x % 4294967296).toNat

/-- The value of a `char` holding byte `b`, as an `int`: plain `char` is signed on some
targets (x86, x86-64) and unsigned on others (ARM, PowerPC). -/
def char_value (char_is_signed : Bool) (b : Nat) : Int :=
  if char_is_signed && 128 ≤ b then (b : Int) - 256 else (b : Int)

/-- Decimal digits of a natural number. -/
def decimal (n : Nat) : List Nat := (Nat.toDigits 10 n).map Char.toNat

/-- Decimal text of an integer, with a minus sign when negative. -/
def signed_decimal (n : Int) : List Nat :=
  if n < 0 then 45 :: decimal n.natAbs else decimal n.natAbs

/-- Left padding with `0` up to a minimum field width (flag `0`). -/
def zero_pad (width : Nat) (digits : List Nat) : List Nat :=
  List.replicate (width - digits.length) 48 ++ digits

/-- A value of floating type, by what the serializer looks at: `std::isnan`, `std::isinf`
and the text `printf` gives for `%g`. -/
structure Floating where
  isnan : Bool
  isinf : Bool
  g_text : List Nat
  deriving DecidableEq, Repr

/-- The variadic argument of a `printf` call, after the default promotions. -/
inductive PrintfArg where
  | signed (n : Int)
  | unsigned (n : Nat)
  | double (x : Floating)
  | long_double (x : Floating)
  deriving DecidableEq, Repr

/-- Text produced by `printf(format, arg)` for the format strings of the source. -/
def c_printf (format : String) (arg : PrintfArg) : Outcome (List Nat) :=
  match format, arg with
  | "%d", .signed n => .ok (signed_decimal n)
  | "%ld", .signed n => .ok (signed_decimal n)
  | "%lld", .signed n => .ok (signed_decimal n)
  | "%hu", .unsigned n => .ok (decimal n)
  | "%u", .unsigned n => .ok (decimal n)
  | "%lu", .unsigned n => .ok (decimal n)
  | "%llu", .unsigned n => .ok (decimal n)
  | "\\%04u", .unsigned n => .ok (92 :: zero_pad 4 (decimal n))
  | "%g", .double x => .ok x.g_text
  | _, _ => .undefined .bad_conversion

/-- The function `strlen`, as the bytes before the first NUL. -/
def c_str (text : List Nat) : List Nat := text.takeWhile (fun c => c != 0)

/-! ## json_print_arg_string.hpp and json_print_arg_file.hpp: the two sinks -/

/-- The struct `string_buffer` over a caller buffer of `cap` bytes: `pos` is
`begin - buffer`, and `mem` holds the bytes of the buffer from its start up to the last
one stored so far (bytes after that are not represented). -/
structure string_buffer where
  cap : Nat
  mem : List Nat
  pos : Nat
  deriving DecidableEq, Repr

/-- A store of `data` at offset `at_` of the buffer (`memcpy`, `*p = c`). -/
def poke (mem : List Nat) (at_ : Nat) (data : List Nat) : List Nat :=
  mem.take at_ ++ data ++ mem.drop (at_ + data.length)

/-- The destination of a write: `string_buffer*` or `FILE*` (the bytes sent to the stream
so far). -/
inductive Dest where
  | buffer (b : string_buffer)
  | file (f : List Nat)
  deriving DecidableEq, Repr

/-- The overloads of `write_char`. -/
def write_char (dest : Dest) (c : Nat) : Dest :=
  match dest with
  | .buffer b =>
    if b.pos < b.cap then .buffer { b with mem := poke b.mem b.pos [c], pos := b.pos + 1 }
    else .buffer b
  | .file f => .file (f ++ [c])

/-- The overloads of `write_string(dest, begin, end)` on the bytes of `[begin, end)`,
with the `int` they return (for the string buffer, the `size_t` count converted to
`int`). -/
def write_string (dest : Dest) (data : List Nat) : Dest × Int :=
  match dest with
  | .buffer b =>
    let size := min data.length (b.cap - b.pos)
    (.buffer { b with mem := poke b.mem b.pos (data.take size), pos := b.pos + size },
      to_int size)
  | .file f => (.file (f ++ data), if data.length = 0 then 0 else 1)

/-- The overloads of `write_string_unsafe(dest, text)`: the string-buffer one is
`write_string(buffer, text, text + strlen(text))`, the stream one is `fputs`. -/
def write_string_unsafe (dest : Dest) (text : List Nat) : Dest × Int :=
  match dest with
  | .buffer b => write_string (.buffer b) (c_str text)
  | .file f => (.file (f ++ c_str text), 1)

/-- The call `snprintf(buffer->begin, remaining, ...)` on the buffer memory: at most
`remaining - 1` bytes of the text and a terminating NUL are stored. -/
def snprintf_store (b : string_buffer) (out : List Nat) : List Nat :=
  let remaining := b.cap - b.pos
  if remaining = 0 then b.mem
  else poke b.mem b.pos (out.take (remaining - 1) ++ [0])

/-- The overloads of `write_printf`.  The string-buffer one advances the cursor by
`min(snprintf(...), static_cast<int>(end - begin))`; a cursor moved before the start of
the buffer is undefined behaviour. -/
def write_printf (dest : Dest) (format : String) (arg : PrintfArg) : Outcome (Dest × Int) :=
  (c_printf format arg).bind fun out =>
    match dest with
    | .buffer b =>
      let result : Int := min (out.length : Int) (to_int ((b.cap : Int) - (b.pos : Int)))
      if (b.pos : Int) + result < 0 then .undefined .bad_range
      else .ok (.buffer { b with mem := snprintf_store b out,
                                 pos := ((b.pos : Int) + result).toNat }, result)
    | .file f => .ok (.file (f ++ out), (out.length : Int))

/-! ## json_print_arg.hpp -/

/-- The function `is_special_character`: `c < 32 || c == '\\' || c == '"'` on a plain
`char`. -/
def is_special_character (char_is_signed : Bool) (c : Nat) : Bool :=
  decide (char_value char_is_signed c < 32) || c == 92 || c == 34

/-- The body of the outer `for` loop of `json_print_string` on the bytes of
`[begin, end)`; one unit of fuel per iteration. -/
def json_print_string_loop (char_is_signed : Bool) :
    Nat → List Nat → Dest → Outcome Dest
  | _, [], dest => .ok dest
  | 0, _ :: _, _ => .out_of_fuel
  | fuel + 1, text, dest =>
    -- for (c = begin; c != end && !is_special_character(*c); c++) {}
    let run := text.takeWhile (fun c => !is_special_character char_is_signed c)
    let rest := text.dropWhile (fun c => !is_special_character char_is_signed c)
    let dest := (write_string dest run).1
    match rest with
    | [] => .ok dest
    | c :: rest =>
      if rest = [] ∧ c = 0 then .ok dest
      else
        (if c = 34 then .ok ( write_string_unsafe dest (bytes "\\\"")).1
         else if c = 92 then .ok ( write_string_unsafe dest (bytes "\\\\")).1
         else if c = 8 then .ok ( write_string_unsafe dest (bytes "\\b")).1
         else if c = 12 then .ok ( write_string_unsafe dest (bytes "\\f")).1
         else if c = 10 then .ok ( write_string_unsafe dest (bytes "\\n")).1
         else if c = 13 then .ok ( write_string_unsafe dest (bytes "\\r")).1
         else if c = 9 then .ok ( write_string_unsafe dest (bytes "\\t")).1
         else
          (write_printf dest "\\%04u"
            (.unsigned (to_unsigned (char_value char_is_signed c)))).bind
            fun r => .ok r.1).bind
          fun dest => json_print_string_loop char_is_signed fuel rest dest

/-- The function `json_print_string(dest, begin, end)` on the bytes of `[begin, end)`. -/
def json_print_string (char_is_signed : Bool) (dest : Dest) (text : List Nat) :
    Outcome Dest :=
  (json_print_string_loop char_is_signed text.length text (write_char dest 34)).bind
    fun dest => .ok (write_char dest 34)

/-- The key of a mapping: `std::string` or `std::string_view` (its bytes), or
`const char*` (the memory it points to, read up to the first NUL). -/
inductive Key where
  | string (s : List Nat)
  | c_string (s : List Nat)
  deriving DecidableEq, Repr

/-- A value handed to a placeholder, one constructor per overload of `json_print_arg`.
A `std::vector` or `std::array` is its element sequence, a `std::map` or
`std::unordered_map` its entries in iteration order. -/
inductive Arg where
  | string (s : List Nat)
  | c_string (s : List Nat)
  | char (c : Nat)
  | unsigned_char (n : Nat)
  | bool (b : Bool)
  | nullptr
  | short (n : Int)
  | unsigned_short (n : Nat)
  | int (n : Int)
  | unsigned (n : Nat)
  | long (n : Int)
  | unsigned_long (n : Nat)
  | long_long (n : Int)
  | unsigned_long_long (n : Nat)
  | float (x : Floating)
  | double (x : Floating)
  | long_double (x : Floating)
  | vector (xs : List Arg)
  | map (entries : List (Key × Arg))

/-- The function `json_print_float_arg`. -/
def json_print_float_arg (dest : Dest) (x : Floating) (n : PrintfArg) : Outcome Dest :=
  if x.isnan || x.isinf then .ok ( write_string_unsafe dest (bytes "null")).1
  else (write_printf dest "%g" n).bind fun r => .ok r.1

/-- The call `json_print_arg(dest, it->first)` on a key. -/
def json_print_key (char_is_signed : Bool) (dest : Dest) : Key → Outcome Dest
  | .string s => json_print_string char_is_signed dest s
  | .c_string s => json_print_string char_is_signed dest (c_str s)

mutual

/-- The overloads of `json_print_arg`, with `json_print_array_arg` and
`json_print_object_arg` up to their `while` loops. -/
def json_print_arg (char_is_signed : Bool) (dest : Dest) : Arg → Outcome Dest
  | .string s => json_print_string char_is_signed dest s
  | .c_string s => json_print_string char_is_signed dest (c_str s)
  | .char c => json_print_string char_is_signed dest [c]
  | .unsigned_char n => (write_printf dest "%d" (.signed n)).bind fun r => .ok r.1
  | .bool b =>
    .ok ( write_string_unsafe dest (if b then bytes "true" else bytes "false")).1
  | .nullptr => .ok ( write_string_unsafe dest (bytes "null")).1
  | .short n => (write_printf dest "%h" (.signed n)).bind fun r => .ok r.1
  | .unsigned_short n => (write_printf dest "%hu" (.unsigned n)).bind fun r => .ok r.1
  | .int n => (write_printf dest "%d" (.signed n)).bind fun r => .ok r.1
  | .unsigned n => (write_printf dest "%u" (.unsigned n)).bind fun r => .ok r.1
  | .long n => (write_printf dest "%ld" (.signed n)).bind fun r => .ok r.1
  | .unsigned_long n => (write_printf dest "%lu" (.unsigned n)).bind fun r => .ok r.1
  | .long_long n => (write_printf dest "%lld" (.signed n)).bind fun r => .ok r.1
  | .unsigned_long_long n => (write_printf dest "%llu" (.unsigned n)).bind fun r => .ok r.1
  | .float x => json_print_float_arg dest x (.double x)
  | .double x => json_print_float_arg dest x (.double x)
  | .long_double x => json_print_float_arg dest x (.long_double x)
  | .vector [] => .ok (write_char (write_char dest 91) 93)
  | .vector (x :: xs) =>
    (json_print_arg char_is_signed (write_char dest 91) x).bind fun dest =>
      (json_print_array_loop char_is_signed dest xs).bind fun dest =>
        .ok (write_char dest 93)
  | .map [] => .ok (write_char (write_char dest 123) 125)
  | .map ((k, v) :: entries) =>
    (json_print_key char_is_signed (write_char dest 123) k).bind fun dest =>
      (json_print_arg char_is_signed (write_char dest 58) v).bind fun dest =>
        (json_print_object_loop char_is_signed dest entries).bind fun dest =>
          .ok (write_char dest 125)

/-- The loop `while (it != n.end())` of `json_print_array_arg`. -/
def json_print_array_loop (char_is_signed : Bool) (dest : Dest) : List Arg → Outcome Dest
  | [] => .ok dest
  | x :: xs =>
    (json_print_arg char_is_signed (write_char dest 44) x).bind fun dest =>
      json_print_array_loop char_is_signed dest xs

/-- The loop `while (it != n.end())` of `json_print_object_arg`. -/
def json_print_object_loop (char_is_signed : Bool) (dest : Dest) :
    List (Key × Arg) → Outcome Dest
  | [] => .ok dest
  | (k, v) :: entries =>
    (json_print_key char_is_signed (write_char dest 44) k).bind fun dest =>
      (json_print_arg char_is_signed (write_char dest 58) v).bind fun dest =>
        json_print_object_loop char_is_signed dest entries

end

/-- The function `json_print_part(dest, begin, end)` for two pointers into the format
string `text`; a null pointer or a range that is not inside the string is undefined
behaviour. -/
def json_print_part (dest : Dest) (text : List Nat) (b e : Option Nat) : Outcome Dest :=
  match b, e with
  | some b, some e =>
    if b ≤ e ∧ e ≤ text.length then .ok (write_string dest ((text.drop b).take (e - b))).1
    else .undefined .bad_range
  | _, _ => .undefined .bad_range

/-! ## json_print.hpp -/

/-- The element `context.parts[i]`; outside the array the read is undefined behaviour. -/
def part_at (context : json_print_context) (i : Nat) : Outcome (Option Nat) :=
  match context.parts[i]? with
  | some p => .ok p
  | none => .undefined .read_outside

/-- The pack expansion of `detail::json_print`: for the argument with index `Is`, print
it and then the part of the format string after its placeholder. -/
def json_print_args (char_is_signed : Bool) (text : List Nat)
    (context : json_print_context) : Nat → Dest → List Arg → Outcome Dest
  | _, dest, [] => .ok dest
  | Is, dest, arg :: args =>
    (json_print_arg char_is_signed dest arg).bind fun dest =>
      (part_at context (Is + 1)).bind fun p1 =>
        (part_at context (Is + 2)).bind fun p2 =>
          (json_print_part dest text (p1.map (· + 1)) p2).bind fun dest =>
            json_print_args char_is_signed text context (Is + 1) dest args

/-- The function `detail::json_print(dest, context, args...)`; `text` is the format
string the pointers of `context` point into. -/
def json_print (char_is_signed : Bool) (dest : Dest) (text : List Nat)
    (context : json_print_context) (args : List Arg) : Outcome Dest :=
  (part_at context 0).bind fun p0 =>
    (part_at context 1).bind fun p1 =>
      (json_print_part dest text p0 p1).bind fun dest =>
        json_print_args char_is_signed text context 0 dest args

/-- The function `json_sprint(buffer, size, context, args...)`. -/
def json_sprint (char_is_signed : Bool) (size : Nat) (text : List Nat)
    (context : json_print_context) (args : List Arg) : Outcome Dest :=
  json_print char_is_signed (.buffer { cap := size, mem := [], pos := 0 }) text context args

/-- The function `json_fprint(file, context, args...)` on a stream that has received the
bytes `file` so far. -/
def json_fprint (char_is_signed : Bool) (file : List Nat) (text : List Nat)
    (context : json_print_context) (args : List Arg) : Outcome Dest :=
  json_print char_is_signed (.file file) text context args


/-! ## The grammar of section 4.2 of the specification

These definitions follow the words of the specification, not the code: they say which
byte strings are JSON values with `?` allowed as a value, and how many placeholders in
value positions such a string has. -/

/-- Whitespace: space, tab, CR, LF. -/
def Spec.ws_byte (c : Nat) : Prop := c = 32 ∨ c = 9 ∨ c = 13 ∨ c = 10

/-- A run of whitespace, possibly empty. -/
def Spec.Ws (w : List Nat) : Prop := ∀ c ∈ w, Spec.ws_byte c

/-- A decimal digit. -/
def Spec.digit (c : Nat) : Prop := 48 ≤ c ∧ c ≤ 57

/-- A run of decimal digits, possibly empty. -/
def Spec.Digits (ds : List Nat) : Prop := ∀ d ∈ ds, Spec.digit d

/-- A hexadecimal digit: 0-9, a-f, A-F. -/
def Spec.hex_digit (c : Nat) : Prop :=
  Spec.digit c ∨ (97 ≤ c ∧ c ≤ 102) ∨ (65 ≤ c ∧ c ≤ 70)

/-- The characters that may follow a backslash: `" \ / b f n r t`. -/
def Spec.escape_letter (c : Nat) : Prop :=
  c = 34 ∨ c = 92 ∨ c = 47 ∨ c = 98 ∨ c = 102 ∨ c = 110 ∨ c = 114 ∨ c = 116

/-- The text between the quotes of a string: unescaped bytes other than control
characters (0x00..0x1F), `"` and `\`; one-letter escapes; `\u` and exactly four
hexadecimal digits. -/
inductive Spec.StringBody : List Nat → Prop where
  | nil : Spec.StringBody []
  | plain {c : Nat} {s : List Nat} : 32 ≤ c → c ≠ 34 → c ≠ 92 →
      Spec.StringBody s → Spec.StringBody (c :: s)
  | escape {e : Nat} {s : List Nat} : Spec.escape_letter e →
      Spec.StringBody s → Spec.StringBody (92 :: e :: s)
  | unicode {h1 h2 h3 h4 : Nat} {s : List Nat} : Spec.hex_digit h1 → Spec.hex_digit h2 →
      Spec.hex_digit h3 → Spec.hex_digit h4 →
      Spec.StringBody s → Spec.StringBody (92 :: 117 :: h1 :: h2 :: h3 :: h4 :: s)

/-- A string: a body delimited by `"`. -/
def Spec.IsString (s : List Nat) : Prop :=
  ∃ body, Spec.StringBody body ∧ s = 34 :: (body ++ [34])

/-- The integer part of a number: `0`, or a non-zero digit followed by digits. -/
def Spec.IsInteger (s : List Nat) : Prop :=
  s = [48] ∨ ∃ d ds, 49 ≤ d ∧ d ≤ 57 ∧ Spec.Digits ds ∧ s = d :: ds

/-- The optional fraction: `.` and one or more digits. -/
def Spec.IsFraction (s : List Nat) : Prop :=
  s = [] ∨ ∃ d ds, Spec.digit d ∧ Spec.Digits ds ∧ s = 46 :: d :: ds

/-- The optional exponent: `e` or `E`, an optional sign, one or more digits. -/
def Spec.IsExponent (s : List Nat) : Prop :=
  s = [] ∨ ∃ e sign d ds, (e = 101 ∨ e = 69) ∧ (sign = [] ∨ sign = [43] ∨ sign = [45]) ∧
    Spec.digit d ∧ Spec.Digits ds ∧ s = e :: (sign ++ d :: ds)

/-- A number: optional `-`, integer part, optional fraction, optional exponent. -/
def Spec.IsNumber (s : List Nat) : Prop :=
  ∃ sign i f e, (sign = [] ∨ sign = [45]) ∧ Spec.IsInteger i ∧ Spec.IsFraction f ∧
    Spec.IsExponent e ∧ s = sign ++ (i ++ (f ++ e))

mutual

/-- The rule `value := object | array | string | number | "true" | "false" | "null" |
placeholder`; `Value s k` says that `s` is a value with `k` placeholders. -/
inductive Spec.Value : List Nat → Nat → Prop where
  | placeholder : Spec.Value [63] 1
  | null : Spec.Value [110, 117, 108, 108] 0
  | true_ : Spec.Value [116, 114, 117, 101] 0
  | false_ : Spec.Value [102, 97, 108, 115, 101] 0
  | string {s : List Nat} : Spec.IsString s → Spec.Value s 0
  | number {s : List Nat} : Spec.IsNumber s → Spec.Value s 0
  | empty_array {w : List Nat} : Spec.Ws w → Spec.Value (91 :: (w ++ [93])) 0
  | array {w es : List Nat} {k : Nat} : Spec.Ws w → Spec.Elements es k →
      Spec.Value (91 :: (w ++ (es ++ [93]))) k
  | empty_object {w : List Nat} : Spec.Ws w → Spec.Value (123 :: (w ++ [125])) 0
  | object {w ms : List Nat} {k : Nat} : Spec.Ws w → Spec.Members ms k →
      Spec.Value (123 :: (w ++ (ms ++ [125]))) k

/-- The inside of a non-empty array: `value ws (',' ws value ws)*`. -/
inductive Spec.Elements : List Nat → Nat → Prop where
  | last {v w : List Nat} {k : Nat} : Spec.Value v k → Spec.Ws w → Spec.Elements (v ++ w) k
  | more {v w1 w2 es : List Nat} {k k' : Nat} : Spec.Value v k → Spec.Ws w1 → Spec.Ws w2 →
      Spec.Elements es k' → Spec.Elements (v ++ (w1 ++ 44 :: (w2 ++ es))) (k + k')

/-- The inside of a non-empty object:
`string ws ':' ws value ws (',' ws string ws ':' ws value ws)*`. -/
inductive Spec.Members : List Nat → Nat → Prop where
  | last {n w1 w2 v w3 : List Nat} {k : Nat} : Spec.IsString n → Spec.Ws w1 → Spec.Ws w2 →
      Spec.Value v k → Spec.Ws w3 → Spec.Members (n ++ (w1 ++ 58 :: (w2 ++ (v ++ w3)))) k
  | more {n w1 w2 v w3 w4 ms : List Nat} {k k' : Nat} : Spec.IsString n → Spec.Ws w1 →
      Spec.Ws w2 → Spec.Value v k → Spec.Ws w3 → Spec.Ws w4 → Spec.Members ms k' →
      Spec.Members (n ++ (w1 ++ 58 :: (w2 ++ (v ++ (w3 ++ 44 :: (w4 ++ ms)))))) (k + k')

end

/-- A template text: a value between optional whitespace (the terminating NUL of the
range not included); `k` is its number of placeholders. -/
def Spec.Template (text : List Nat) (k : Nat) : Prop :=
  ∃ w1 v w2, Spec.Ws w1 ∧ Spec.Value v k ∧ Spec.Ws w2 ∧ text = w1 ++ (v ++ w2)

/-- The cursor `b` of the range `text` stands before the bytes `l`, which run to the end
of the range. -/
def At (text : List Nat) (b : Nat) (l : List Nat) : Prop :=
  text.drop b = l ∧ b ≤ text.length

/-- The byte after a value, if there is one, cannot continue a number: it is not a
digit, `.`, `e` or `E`. -/
def Spec.Follow (post : List Nat) : Prop :=
  ∀ c rest, post = c :: rest → ¬ Spec.digit c ∧ c ≠ 46 ∧ c ≠ 69 ∧ c ≠ 101

/-- The outcome a parser function must have on a derivable input that ends at `p` and
has `k` placeholders, when called with `c` placeholders already recorded. -/
def Expect (r : Outcome (Nat × json_print_context)) (p c k : Nat) : Prop :=
  if c + k ≤ JP_MAX_PLACEHOLDERS then ∃ context', r = .ok (p, context') ∧ context'.count = c + k
  else r = .throw "too many placeholder values"

/-- The exponent stage of `parse_number`, from the cursor after the fraction. -/
def number_exponent (text : List Nat) (begin : Nat) : Outcome Nat :=
  (at_is text begin (fun c => c == 69 || c == 101)).bind fun ex =>
    (if ex then
      (at_is text (begin + 1) (fun c => c == 45 || c == 43)).bind fun sign =>
        let begin := if sign then begin + 2 else begin + 1
        if begin = text.length then
          Outcome.throw "expected digit after exponent, reached end of text"
        else
          (rd text begin).bind fun c =>
            if !is_decimal c then Outcome.throw "expected digit after exponent"
            else skip_decimal text (begin + 1)
    else Outcome.ok begin)

/-- The fraction stage of `parse_number` and what follows it. -/
def number_fraction (text : List Nat) (begin : Nat) : Outcome Nat :=
  (at_is text begin (fun c => c == 46)).bind fun dot =>
    (if dot then
      if begin + 1 = text.length then
        Outcome.throw "expected digit after '.', reached end of text"
      else
        (rd text (begin + 1)).bind fun c =>
          if !is_decimal c then Outcome.throw "expected digit after '.'"
          else skip_decimal text (begin + 2)
    else Outcome.ok begin).bind fun begin => number_exponent text begin

/-- The integer-part stage of `parse_number` and what follows it. -/
def number_integer (text : List Nat) (begin : Nat) : Outcome Nat :=
  (rd text begin).bind fun d =>
    (if d = 48 then Outcome.ok (begin + 1)
    else if JP_NONZERO_DIGIT d then skip_decimal text (begin + 1)
    else Outcome.throw "expected digit after '-'").bind fun begin => number_fraction text begin

/-- The function `parse_value` accepts the value `s` wherever it stands, after any
whitespace `w`, and counts its `k` placeholders. -/
def ValueParses (s : List Nat) (k : Nat) : Prop :=
  ∀ (fuel : Nat) (text : List Nat) (b : Nat) (w post : List Nat) (context : json_print_context),
    Spec.Ws w → At text b (w ++ (s ++ post)) → Spec.Follow post →
    context.count ≤ JP_MAX_PLACEHOLDERS → 3 * (text.length - b) + 1 ≤ fuel →
    Expect (parse_value fuel text b context) (b + w.length + s.length) context.count k

/-- The loop of `parse_array` accepts the elements `es` up to the closing bracket. -/
def ElementsParse (es : List Nat) (k : Nat) : Prop :=
  ∀ (fuel : Nat) (text : List Nat) (b : Nat) (w post : List Nat) (context : json_print_context),
    Spec.Ws w → At text b (w ++ (es ++ 93 :: post)) →
    context.count ≤ JP_MAX_PLACEHOLDERS → 3 * (text.length - b) + 2 ≤ fuel →
    Expect (parse_array_loop fuel text b context) (b + w.length + es.length + 1)
      context.count k

/-- The loop of `parse_object` accepts the members `ms` up to the closing brace. -/
def MembersParse (ms : List Nat) (k : Nat) : Prop :=
  ∀ (fuel : Nat) (text : List Nat) (b : Nat) (post : List Nat) (context : json_print_context),
    At text b (ms ++ 125 :: post) →
    context.count ≤ JP_MAX_PLACEHOLDERS → 3 * (text.length - b) + 2 ≤ fuel →
    Expect (parse_object_loop fuel text b context) (b + ms.length + 1) context.count k

/-! ## What the serializer writes -/

/-- What the `switch` of `json_print_string` writes for the special byte `c`. -/
def escape_text (char_is_signed : Bool) (c : Nat) : List Nat :=
  if c = 34 then [92, 34]
  else if c = 92 then [92, 92]
  else if c = 8 then [92, 98]
  else if c = 12 then [92, 102]
  else if c = 10 then [92, 110]
  else if c = 13 then [92, 114]
  else if c = 9 then [92, 116]
  else 92 :: zero_pad 4 (decimal (to_unsigned (char_value char_is_signed c)))

/-- What `json_print_string` writes for one byte of the text. -/
def byte_image (char_is_signed : Bool) (c : Nat) : List Nat :=
  if is_special_character char_is_signed c then escape_text char_is_signed c else [c]

/-- What `json_print_string` writes between the two quotes: the image of every byte, a
NUL in last position left out. -/
def string_body (char_is_signed : Bool) : List Nat → List Nat
  | [] => []
  | [c] => if c = 0 then [] else byte_image char_is_signed c
  | c :: rest => byte_image char_is_signed c ++ string_body char_is_signed rest

/-- The capacity of a destination: `none` for a stream. -/
def Dest.cap : Dest → Option Nat
  | .buffer b => some b.cap
  | .file _ => none

/-- The bytes a destination has received: all bytes sent to a stream, the bytes of a
buffer before its cursor. -/
def Dest.written : Dest → List Nat
  | .buffer b => b.mem.take b.pos
  | .file f => f

/-- A destination takes `n` more bytes without truncation: a stream always does, a
buffer when `n` bytes and the NUL of `snprintf` fit after the cursor and its capacity is
at most `INT_MAX`. -/
def Dest.room : Dest → Nat → Prop
  | .buffer b, n => b.pos ≤ b.mem.length ∧ b.pos + n < b.cap ∧ b.cap ≤ INT_MAX
  | .file _, _ => True

/-- The action `F` appends exactly `out` to any destination that has room for it. -/
def Writes (F : Dest → Outcome Dest) (out : List Nat) : Prop :=
  ∀ (dest : Dest) (m : Nat), dest.room (out.length + m) →
    ∃ dest', F dest = .ok dest' ∧ dest'.written = dest.written ++ out ∧
      dest'.room m ∧ dest'.cap = dest.cap

/-- The per-byte image of section 4.3 of the specification for ordinary bytes and the
seven bytes with a two-character escape. -/
def Spec.byte_image (c : Nat) : List Nat :=
  if c = 34 then [92, 34]
  else if c = 92 then [92, 92]
  else if c = 8 then [92, 98]
  else if c = 12 then [92, 102]
  else if c = 10 then [92, 110]
  else if c = 13 then [92, 114]
  else if c = 9 then [92, 116]
  else [c]

/-- The `switch` of `json_print_string` on the special byte `c`. -/
def escape_action (char_is_signed : Bool) (c : Nat) (dest : Dest) : Outcome Dest :=
  if c = 34 then .ok ( write_string_unsafe dest (bytes "\\\"")).1
  else if c = 92 then .ok ( write_string_unsafe dest (bytes "\\\\")).1
  else if c = 8 then .ok ( write_string_unsafe dest (bytes "\\b")).1
  else if c = 12 then .ok ( write_string_unsafe dest (bytes "\\f")).1
  else if c = 10 then .ok ( write_string_unsafe dest (bytes "\\n")).1
  else if c = 13 then .ok ( write_string_unsafe dest (bytes "\\r")).1
  else if c = 9 then .ok ( write_string_unsafe dest (bytes "\\t")).1
  else
    (write_printf dest "\\%04u"
      (.unsigned (to_unsigned (char_value char_is_signed c)))).bind
      fun r => .ok r.1

/-- The action `F` has a serialization: when it completes on a stream, it appended some
bytes `out`, and it appends the same bytes to every destination with room for them. -/
def Ser (F : Dest → Outcome Dest) : Prop :=
  ∀ (f : List Nat) (dest' : Dest), F (.file f) = .ok dest' →
    ∃ out, dest' = .file (f ++ out) ∧ Writes F out

/-- The bytes `T[a, b)` of the template. -/
def Spec.slice (text : List Nat) (a b : Nat) : List Nat := (text.drop a).take (b - a)

/-- From the placeholder at `p` on: the serialization of its value, then the fragment
strictly after its marker up to the next boundary, and so on for the later
placeholders.  The list of boundaries ends with the end of the template. -/
def Spec.after (text : List Nat) : List Nat → List (List Nat) → List Nat
  | p :: q :: rest, s :: ss => s ++ (Spec.slice text (p + 1) q ++ Spec.after text (q :: rest) ss)
  | _, _ => []

/-- The rendering of section 4.4 of the specification for placeholders at offsets `ps`
and serialized values `ss`: fragment 0, then for each placeholder its serialized value
and the next fragment, i.e. `T[0,p1) ++ s1 ++ T[p1+1,p2) ++ ... ++ sk ++ T[pk+1,end)`. -/
def Spec.render (text : List Nat) (ps : List Nat) (ss : List (List Nat)) : List Nat :=
  Spec.slice text 0 ((ps ++ [text.length]).headD 0)
    ++ Spec.after text (ps ++ [text.length]) ss

/-! ## Deciding the byte classes of the grammar -/

instance (c : Nat) : Decidable (Spec.ws_byte c) :=
  inferInstanceAs (Decidable (c = 32 ∨ c = 9 ∨ c = 13 ∨ c = 10))

instance (w : List Nat) : Decidable (Spec.Ws w) :=
  inferInstanceAs (Decidable (∀ c ∈ w, Spec.ws_byte c))

instance (c : Nat) : Decidable (Spec.digit c) :=
  inferInstanceAs (Decidable (48 ≤ c ∧ c ≤ 57))

instance (ds : List Nat) : Decidable (Spec.Digits ds) :=
  inferInstanceAs (Decidable (∀ d ∈ ds, Spec.digit d))

instance (c : Nat) : Decidable (Spec.hex_digit c) :=
  inferInstanceAs (Decidable (Spec.digit c ∨ (97 ≤ c ∧ c ≤ 102) ∨ (65 ≤ c ∧ c ≤ 70)))

instance (c : Nat) : Decidable (Spec.escape_letter c) :=
  inferInstanceAs (Decidable
    (c = 34 ∨ c = 92 ∨ c = 47 ∨ c = 98 ∨ c = 102 ∨ c = 110 ∨ c = 114 ∨ c = 116))

/-! ## Templates with a malformed string literal

These definitions follow the words of the specification: they say what it is for a
template to hold, where the grammar wants a string, a string literal that breaks one of
the rules for strings. -/

mutual

/-- The rest of a range from the start of a value on, when that value is, or holds at some
depth, a string literal of the kind `bad` standing where the grammar wants a value or a
member name; everything before that literal is well formed and has `k` placeholders. -/
inductive Spec.BrokenValue (bad : List Nat → Prop) : List Nat → Nat → Prop where
  | string {r : List Nat} : bad r → Spec.BrokenValue bad r 0
  | array {w r : List Nat} {k : Nat} : Spec.Ws w → Spec.BrokenElements bad r k →
      Spec.BrokenValue bad (91 :: (w ++ r)) k
  | object {w r : List Nat} {k : Nat} : Spec.Ws w → Spec.BrokenMembers bad r k →
      Spec.BrokenValue bad (123 :: (w ++ r)) k

/-- The rest of a range from an element of an array on: complete elements, each followed
by a comma, and then a broken one. -/
inductive Spec.BrokenElements (bad : List Nat → Prop) : List Nat → Nat → Prop where
  | first {r : List Nat} {k : Nat} : Spec.BrokenValue bad r k → Spec.BrokenElements bad r k
  | later {v w1 w2 r : List Nat} {k k' : Nat} : Spec.Value v k → Spec.Ws w1 → Spec.Ws w2 →
      Spec.BrokenElements bad r k' →
      Spec.BrokenElements bad (v ++ (w1 ++ 44 :: (w2 ++ r))) (k + k')

/-- The rest of a range from a member of an object on: complete members, each followed by
a comma, and then a member whose name is the bad literal or whose value is broken. -/
inductive Spec.BrokenMembers (bad : List Nat → Prop) : List Nat → Nat → Prop where
  | name {r : List Nat} : bad r → Spec.BrokenMembers bad r 0
  | value {n w1 w2 r : List Nat} {k : Nat} : Spec.IsString n → Spec.Ws w1 → Spec.Ws w2 →
      Spec.BrokenValue bad r k → Spec.BrokenMembers bad (n ++ (w1 ++ 58 :: (w2 ++ r))) k
  | later {n w1 w2 v w3 w4 r : List Nat} {k k' : Nat} : Spec.IsString n → Spec.Ws w1 →
      Spec.Ws w2 → Spec.Value v k → Spec.Ws w3 → Spec.Ws w4 → Spec.BrokenMembers bad r k' →
      Spec.BrokenMembers bad (n ++ (w1 ++ 58 :: (w2 ++ (v ++ (w3 ++ 44 :: (w4 ++ r))))))
        (k + k')

end

/-- The bytes of a key that `json_print_arg(dest, it->first)` hands to
`json_print_string`: all bytes of a `std::string` or `std::string_view`, the bytes before
the first NUL of a `const char*`. -/
def Key.text : Key → List Nat
  | .string s => s
  | .c_string s => c_str s

/-! ## Writes that may be cut short -/

/-- The action `F` writes `out`, cut short where the buffer ends: a stream receives `out`;
on a buffer of at most `INT_MAX` bytes whose cursor and stored bytes are inside it, `F`
completes, leaves cursor and stored bytes inside the buffer, and advances the cursor by
the length of `out` or up to the end of the buffer, whichever comes first. -/
def Fills (F : Dest → Outcome Dest) (out : List Nat) : Prop :=
  (∀ f, F (.file f) = .ok (.file (f ++ out))) ∧
  ∀ b : string_buffer, b.pos ≤ b.mem.length → b.mem.length ≤ b.cap → b.cap ≤ INT_MAX →
    ∃ b' : string_buffer, F (.buffer b) = .ok (.buffer b') ∧ b'.cap = b.cap ∧
      b'.pos = min (b.pos + out.length) b.cap ∧ b'.pos ≤ b'.mem.length ∧
      b'.mem.length ≤ b'.cap

/-- A property of sink actions and their output that holds of the four sink operations
and is kept by the ways the serializer puts them together. -/
structure SinkLaw (P : (Dest → Outcome Dest) → List Nat → Prop) : Prop where
  file : ∀ {F : Dest → Outcome Dest} {out : List Nat}, P F out →
    ∀ f, F (.file f) = .ok (.file (f ++ out))
  nothing : P (fun d => .ok d) []
  bind : ∀ {F G : Dest → Outcome Dest} {o1 o2 : List Nat}, P F o1 → P G o2 →
    P (fun d => (F d).bind G) (o1 ++ o2)
  congr : ∀ {F G : Dest → Outcome Dest} {out : List Nat}, P F out → (∀ d, G d = F d) →
    P G out
  char : ∀ c : Nat, P (fun d => .ok (write_char d c)) [c]
  string : ∀ data : List Nat, P (fun d => .ok (write_string d data).1) data
  literal : ∀ text : List Nat, (∀ c ∈ text, c ≠ 0) →
    P (fun d => .ok ( write_string_unsafe d text).1) text
  printf : ∀ {format : String} {arg : PrintfArg} {out : List Nat},
    c_printf format arg = .ok out →
    P (fun d => (write_printf d format arg).bind fun r => .ok r.1) out

/-- The action `F` has a serialization with the property `P`: when it completes on a
stream, it appended some bytes `out`, and `P F out` holds. -/
def SerLaw (P : (Dest → Outcome Dest) → List Nat → Prop) (F : Dest → Outcome Dest) : Prop :=
  ∀ (f : List Nat) (dest' : Dest), F (.file f) = .ok dest' →
    ∃ out, dest' = .file (f ++ out) ∧ P F out

/-! ## Where the placeholders of a template are

These definitions follow the grammar of the specification once more, this time keeping
the offsets of the placeholders: `ValueAt o s ps` says that `s` is a value which, when its
first byte stands at offset `o` of the template, has its placeholders at the offsets
`ps`, listed from left to right. -/

mutual

/-- The rule for values, with the offsets of the placeholders. -/
inductive Spec.ValueAt : Nat → List Nat → List Nat → Prop where
  | placeholder {o : Nat} : Spec.ValueAt o [63] [o]
  | null {o : Nat} : Spec.ValueAt o [110, 117, 108, 108] []
  | true_ {o : Nat} : Spec.ValueAt o [116, 114, 117, 101] []
  | false_ {o : Nat} : Spec.ValueAt o [102, 97, 108, 115, 101] []
  | string {o : Nat} {s : List Nat} : Spec.IsString s → Spec.ValueAt o s []
  | number {o : Nat} {s : List Nat} : Spec.IsNumber s → Spec.ValueAt o s []
  | empty_array {o : Nat} {w : List Nat} : Spec.Ws w → Spec.ValueAt o (91 :: (w ++ [93])) []
  | array {o : Nat} {w es ps : List Nat} : Spec.Ws w →
      Spec.ElementsAt (o + 1 + w.length) es ps →
      Spec.ValueAt o (91 :: (w ++ (es ++ [93]))) ps
  | empty_object {o : Nat} {w : List Nat} : Spec.Ws w →
      Spec.ValueAt o (123 :: (w ++ [125])) []
  | object {o : Nat} {w ms ps : List Nat} : Spec.Ws w →
      Spec.MembersAt (o + 1 + w.length) ms ps →
      Spec.ValueAt o (123 :: (w ++ (ms ++ [125]))) ps

/-- The inside of a non-empty array, with the offsets of the placeholders. -/
inductive Spec.ElementsAt : Nat → List Nat → List Nat → Prop where
  | last {o : Nat} {v w ps : List Nat} : Spec.ValueAt o v ps → Spec.Ws w →
      Spec.ElementsAt o (v ++ w) ps
  | more {o : Nat} {v w1 w2 es ps ps' : List Nat} : Spec.ValueAt o v ps → Spec.Ws w1 →
      Spec.Ws w2 → Spec.ElementsAt (o + v.length + w1.length + 1 + w2.length) es ps' →
      Spec.ElementsAt o (v ++ (w1 ++ 44 :: (w2 ++ es))) (ps ++ ps')

/-- The inside of a non-empty object, with the offsets of the placeholders. -/
inductive Spec.MembersAt : Nat → List Nat → List Nat → Prop where
  | last {o : Nat} {n w1 w2 v w3 ps : List Nat} : Spec.IsString n → Spec.Ws w1 →
      Spec.Ws w2 → Spec.ValueAt (o + n.length + w1.length + 1 + w2.length) v ps →
      Spec.Ws w3 → Spec.MembersAt o (n ++ (w1 ++ 58 :: (w2 ++ (v ++ w3)))) ps
  | more {o : Nat} {n w1 w2 v w3 w4 ms ps ps' : List Nat} : Spec.IsString n → Spec.Ws w1 →
      Spec.Ws w2 → Spec.ValueAt (o + n.length + w1.length + 1 + w2.length) v ps →
      Spec.Ws w3 → Spec.Ws w4 →
      Spec.MembersAt
        (o + n.length + w1.length + 1 + w2.length + v.length + w3.length + 1 + w4.length)
        ms ps' →
      Spec.MembersAt o (n ++ (w1 ++ 58 :: (w2 ++ (v ++ (w3 ++ 44 :: (w4 ++ ms))))))
        (ps ++ ps')

end

/-- A template text whose placeholders, from left to right, stand at the offsets `ps`. -/
def Spec.TemplateAt (text : List Nat) (ps : List Nat) : Prop :=
  ∃ w1 v w2, Spec.Ws w1 ∧ Spec.ValueAt w1.length v ps ∧ Spec.Ws w2 ∧ text = w1 ++ (v ++ w2)

/-- The outcome a parser function must have on a derivable input that ends at `p` and
has its placeholders at `ps`, when called with the offsets `qs` already recorded: it
returns `p` and a context that holds `qs` followed by `ps`, or throws when that is more
than the ceiling allows. -/
def ExpectAt (text : List Nat) (r : Outcome (Nat × json_print_context)) (p : Nat)
    (qs ps : List Nat) : Prop :=
  if qs.length + ps.length ≤ JP_MAX_PLACEHOLDERS then
    ∃ context', r = .ok (p, context') ∧ Marks text p context' (qs ++ ps)
  else r = .throw "too many placeholder values"

/-- The function `parse_value` records the placeholders of the value `s` at their
offsets. -/
def ValueAtParses (o : Nat) (s ps : List Nat) : Prop :=
  ∀ (fuel : Nat) (text : List Nat) (b : Nat) (w post : List Nat) (context : json_print_context)
    (qs : List Nat),
    Spec.Ws w → At text b (w ++ (s ++ post)) → o = b + w.length → Spec.Follow post →
    Marks text b context qs → 3 * (text.length - b) + 1 ≤ fuel →
    ExpectAt text (parse_value fuel text b context) (b + w.length + s.length) qs ps

/-- The loop of `parse_array` records the placeholders of the elements `es`. -/
def ElementsAtParse (o : Nat) (es ps : List Nat) : Prop :=
  ∀ (fuel : Nat) (text : List Nat) (b : Nat) (w post : List Nat) (context : json_print_context)
    (qs : List Nat),
    Spec.Ws w → At text b (w ++ (es ++ 93 :: post)) → o = b + w.length →
    Marks text b context qs → 3 * (text.length - b) + 2 ≤ fuel →
    ExpectAt text (parse_array_loop fuel text b context) (b + w.length + es.length + 1) qs ps

/-- The loop of `parse_object` records the placeholders of the members `ms`. -/
def MembersAtParse (o : Nat) (ms ps : List Nat) : Prop :=
  ∀ (fuel : Nat) (text : List Nat) (b : Nat) (post : List Nat) (context : json_print_context)
    (qs : List Nat),
    At text b (ms ++ 125 :: post) → o = b →
    Marks text b context qs → 3 * (text.length - b) + 2 ≤ fuel →
    ExpectAt text (parse_object_loop fuel text b context) (b + ms.length + 1) qs ps

/-! ## Runs that stay inside the range -/

/-- Postcondition of a run without undefined behaviour: the run threw, or it completed
with a result that satisfies `Q`; no byte outside the range was read, no store went
outside `parts`, and the fuel was not used up. -/
def Outcome.safe {α : Type} (r : Outcome α) (Q : α → Prop) : Prop :=
  match r with
  | .ok a => Q a
  | .throw _ => True
  | .undefined _ => False
  | .out_of_fuel => False

/-- The range is not empty and its last byte is NUL. -/
def NulTerminated (text : List Nat) : Prop := ∃ t, text = t ++ [0]

/-- What a parser function guarantees on a NUL-terminated range when it is called at a
position `b` inside the range (with fuel as in `Step`): it reads no byte outside the
range, and a completed run ends at a position in `(b, end]`. -/
def SafeStep (extra fuel : Nat)
    (F : List Nat → Nat → json_print_context → Outcome (Nat × json_print_context)) : Prop :=
  ∀ text b context qs, NulTerminated text → b < text.length → Marks text b context qs →
    3 * (text.length - b) + extra ≤ fuel →
    (F text b context).safe fun r =>
      b < r.1 ∧ r.1 ≤ text.length ∧ ∃ qs', Marks text r.1 r.2 (qs ++ qs')

/-- Postcondition of the completed runs alone: if the run completed, its result
satisfies `Q`. -/
def Outcome.returns {α : Type} (r : Outcome α) (Q : α → Prop) : Prop :=
  ∀ a, r = .ok a → Q a

/-- Every completed call of the parser function `F` ends at a position in `(b, end]`,
whatever the range, the position `b`, the context and the fuel. -/
def Progress (F : List Nat → Nat → json_print_context → Outcome (Nat × json_print_context)) :
    Prop :=
  ∀ text b context, (F text b context).returns fun r => b < r.1 ∧ r.1 ≤ text.length

/-! ## Moving a template along its range -/

/-- The result of a completed run carried through `f`; any other outcome is kept. -/
def Outcome.map {α β : Type} (f : α → β) : Outcome α → Outcome β
  | .ok a => .ok (f a)
  | .throw w => .throw w
  | .undefined u => .undefined u
  | .out_of_fuel => .out_of_fuel

/-- The `parts` array with every pointer but `parts[0]` moved `n` bytes on (`parts[0]`
is the start of the range). -/
def shift_parts (n : Nat) : List (Option Nat) → List (Option Nat)
  | [] => []
  | p0 :: rest => p0 :: rest.map (Option.map (· + n))

/-- The context of a template that stands `n` bytes further on in its range. -/
def shift_context (n : Nat) (context : json_print_context) : json_print_context :=
  { parts := shift_parts n context.parts, count := context.count }

/-- The result of a parser function on a text that stands `n` bytes further on. -/
def shift_result (n : Nat) (r : Nat × json_print_context) : Nat × json_print_context :=
  (r.1 + n, shift_context n r.2)

/-- The parser function `F` does the same on a text wherever it stands in the range:
behind `pre`, it returns the position and the context moved on by the length of `pre`. -/
def Shifts (F : List Nat → Nat → json_print_context → Outcome (Nat × json_print_context)) :
    Prop :=
  ∀ (pre text : List Nat) (b : Nat) (context : json_print_context),
    F (pre ++ text) (b + pre.length) (shift_context pre.length context)
      = (F text b context).map (shift_result pre.length)

/-- More fuel does not change a run of the parser function `F` that did not use up its
fuel. -/
def FuelStable (F : Nat → List Nat → Nat → json_print_context →
    Outcome (Nat × json_print_context)) (fuel : Nat) : Prop :=
  ∀ (text : List Nat) (b : Nat) (context : json_print_context),
    F fuel text b context ≠ .out_of_fuel → F (fuel + 1) text b context = F fuel text b context

/-! ## Text that stays inside its quotes -/

/-- The number of consecutive backslashes at the end of the byte string `l`. -/
def backslash_run (l : List Nat) : Nat := (l.reverse.takeWhile (fun c => c == 92)).length

/-- Text made of bytes from 0x20 on in which every double quote is the second byte of a
pair that starts with a backslash: a byte other than `"` and `\`, or a backslash followed
by any one byte, at each step. -/
inductive Enclosed : List Nat → Prop where
  | nil : Enclosed []
  | plain {c : Nat} {s : List Nat} : 32 ≤ c → c ≠ 34 → c ≠ 92 → Enclosed s → Enclosed (c :: s)
  | pair {x : Nat} {s : List Nat} : 32 ≤ x → Enclosed s → Enclosed (92 :: x :: s)

/-! ## Outcomes: rewriting rules -/

@[simp] theorem Outcome.bind_ok {α β : Type} (a : α) (f : α → Outcome β) :
    (Outcome.ok a).bind f = f a := rfl

@[simp] theorem Outcome.bind_throw {α β : Type} (w : String) (f : α → Outcome β) :
    (Outcome.throw w : Outcome α).bind f = .throw w := rfl

@[simp] theorem Outcome.bind_undefined {α β : Type} (u : Fault) (f : α → Outcome β) :
    (Outcome.undefined u : Outcome α).bind f = .undefined u := rfl

@[simp] theorem Outcome.bind_out_of_fuel {α β : Type} (f : α → Outcome β) :
    (Outcome.out_of_fuel : Outcome α).bind f = .out_of_fuel := rfl

@[simp] theorem Outcome.bind_eq_bind {α β : Type} (x : Outcome α) (f : α → Outcome β) :
    (x >>= f) = x.bind f := rfl

@[simp] theorem Outcome.pure_eq_ok {α : Type} (a : α) : (pure a : Outcome α) = .ok a := rfl

theorem Outcome.bind_eq_ok {α β : Type} {x : Outcome α} {f : α → Outcome β} {b : β}
    (h : x.bind f = .ok b) : ∃ a, x = .ok a ∧ f a = .ok b := by
  cases x with
  | ok a => exact ⟨a, rfl, h⟩
  | throw w => simp at h
  | undefined u => simp at h
  | out_of_fuel => simp at h

/-! ## Reading the range -/

theorem rd_eq_ok {text : List Nat} {p c : Nat} (h : rd text p = .ok c) :
    p < text.length ∧ text[p]? = some c := by
  unfold rd at h
  split at h
  · next c' hc =>
    simp only [Outcome.ok.injEq] at h
    subst h
    exact ⟨(List.getElem?_eq_some.mp hc).1, hc⟩
  · simp at h

theorem rd_of_drop {text : List Nat} {p c : Nat} {rest : List Nat}
    (h : text.drop p = c :: rest) : rd text p = .ok c := by
  have : text[p]? = some c := by
    rw [← List.head?_drop, h]; rfl
  simp [rd, this]

theorem drop_succ_of_drop {text : List Nat} {p c : Nat} {rest : List Nat}
    (h : text.drop p = c :: rest) : text.drop (p + 1) = rest := by
  have : text.drop (p + 1) = (text.drop p).drop 1 := by
    rw [List.drop_drop]
  rw [this, h]; rfl

theorem lt_length_of_drop {text : List Nat} {p c : Nat} {rest : List Nat}
    (h : text.drop p = c :: rest) : p < text.length := by
  by_contra hn
  rw [List.drop_eq_nil_of_le (by omega)] at h
  cases h

theorem skip_run_bounds (q : Nat → Bool) (l : List Nat) (b : Nat) :
    b ≤ skip_run q l b ∧ skip_run q l b ≤ b + l.length := by
  induction l generalizing b with
  | nil => simp [skip_run]
  | cons c rest ih =>
    simp only [skip_run, List.length_cons]
    split
    · have := ih (b + 1); omega
    · omega

theorem skip_whitespace_eq_ok {text : List Nat} {b p : Nat}
    (h : skip_whitespace text b = .ok p) : b ≤ p ∧ p ≤ text.length := by
  unfold skip_whitespace at h
  split at h
  · simp at h
  · simp only [Outcome.ok.injEq] at h
    have := skip_run_bounds is_whitespace (text.drop b) b
    rw [List.length_drop] at this
    omega

theorem skip_decimal_eq_ok {text : List Nat} {b p : Nat}
    (h : skip_decimal text b = .ok p) : b ≤ p ∧ p ≤ text.length := by
  unfold skip_decimal at h
  split at h
  · simp at h
  · simp only [Outcome.ok.injEq] at h
    have := skip_run_bounds is_decimal (text.drop b) b
    rw [List.length_drop] at this
    omega

theorem at_is_eq_ok {text : List Nat} {b : Nat} {q : Nat → Bool} {r : Bool}
    (h : at_is text b q = .ok r) : r = true → b < text.length := by
  intro hr
  unfold at_is at h
  split at h
  · simp only [Outcome.ok.injEq] at h; subst h; simp at hr
  · obtain ⟨c, hc, _⟩ := Outcome.bind_eq_ok h
    exact (rd_eq_ok hc).1


/-! ## A postcondition calculus for the parser

`r.sat Q` says: if the run completed, its result satisfies `Q`, and if it ran into
undefined behaviour, that was a read outside the range (never a store outside `parts`). -/

@[simp] theorem Outcome.sat_ok {α : Type} (a : α) (Q : α → Prop) :
    (Outcome.ok a).sat Q ↔ Q a := Iff.rfl

@[simp] theorem Outcome.sat_throw {α : Type} (w : String) (Q : α → Prop) :
    (Outcome.throw w : Outcome α).sat Q := trivial

@[simp] theorem Outcome.sat_out_of_fuel {α : Type} (Q : α → Prop) :
    (Outcome.out_of_fuel : Outcome α).sat Q ↔ False := Iff.rfl

@[simp] theorem Outcome.sat_undefined {α : Type} (f : Fault) (Q : α → Prop) :
    (Outcome.undefined f : Outcome α).sat Q ↔ f = .read_outside := Iff.rfl

theorem Outcome.sat_bind {α β : Type} {x : Outcome α} {g : α → Outcome β}
    {Q : α → Prop} {R : β → Prop} (hx : x.sat Q) (hg : ∀ a, Q a → (g a).sat R) :
    (x.bind g).sat R := by
  cases x with
  | ok a => exact hg a hx
  | throw w => trivial
  | undefined u => exact hx
  | out_of_fuel => exact hx

theorem Outcome.sat_mono {α : Type} {x : Outcome α} {Q R : α → Prop} (hx : x.sat Q)
    (h : ∀ a, Q a → R a) : x.sat R := by
  cases x with
  | ok a => exact h a hx
  | throw w => trivial
  | undefined u => exact hx
  | out_of_fuel => exact hx

theorem Outcome.sat_elim {α : Type} {x : Outcome α} {Q : α → Prop} {a : α} (hx : x.sat Q)
    (h : x = .ok a) : Q a := by
  subst h; exact hx

theorem rd_sat (text : List Nat) (p : Nat) :
    (rd text p).sat (fun c => p < text.length ∧ text[p]? = some c) := by
  unfold rd
  split
  · next c hc => exact ⟨(List.getElem?_eq_some.mp hc).1, hc⟩
  · rfl

theorem skip_whitespace_sat (text : List Nat) (b : Nat) :
    (skip_whitespace text b).sat (fun p => b ≤ p ∧ p ≤ text.length) := by
  unfold skip_whitespace
  split
  · rfl
  · have := skip_run_bounds is_whitespace (text.drop b) b
    rw [List.length_drop] at this
    simp only [Outcome.sat_ok]
    omega

theorem skip_decimal_sat (text : List Nat) (b : Nat) :
    (skip_decimal text b).sat (fun p => b ≤ p ∧ p ≤ text.length) := by
  unfold skip_decimal
  split
  · rfl
  · have := skip_run_bounds is_decimal (text.drop b) b
    rw [List.length_drop] at this
    simp only [Outcome.sat_ok]
    omega

theorem at_is_sat (text : List Nat) (b : Nat) (q : Nat → Bool) :
    (at_is text b q).sat (fun r => r = true → b < text.length) := by
  unfold at_is
  split
  · simp
  · exact Outcome.sat_bind (rd_sat text b) (fun c hc => by simp [hc.1])

theorem parse_string_loop_sat : ∀ (n : Nat) (l : List Nat) (b : Nat), l.length ≤ n →
    (parse_string_loop l b).sat (fun p => b ≤ p ∧ p ≤ b + l.length)
  | _, [], b, _ => by simp [parse_string_loop]
  | 0, _ :: _, _, hn => by simp at hn
  | n + 1, c :: rest, b, hn => by
    simp only [List.length_cons] at hn ⊢
    unfold parse_string_loop
    split
    · trivial
    · split
      · split
        · trivial
        · next e rest1 =>
          simp only [List.length_cons] at hn ⊢
          split
          · exact Outcome.sat_mono (parse_string_loop_sat n rest1 _ (by omega)) (fun p hp => by omega)
          · split
            · split
              · next h1 h2 h3 h4 rest2 =>
                simp only [List.length_cons] at hn ⊢
                split
                · exact Outcome.sat_mono (parse_string_loop_sat n rest2 _ (by omega))
                    (fun p hp => by omega)
                · trivial
              · trivial
            · trivial
      · split
        · simp only [Outcome.sat_ok]; omega
        · exact Outcome.sat_mono (parse_string_loop_sat n rest _ (by omega)) (fun p hp => by omega)

theorem parse_string_sat (text : List Nat) (b : Nat) :
    (parse_string text b).sat (fun p => b < p ∧ p ≤ text.length) := by
  unfold parse_string
  split
  · rfl
  · refine Outcome.sat_mono (parse_string_loop_sat _ _ _ (Nat.le_refl _)) (fun p hp => ?_)
    rw [List.length_drop] at hp
    omega

theorem parse_null_sat (text : List Nat) (b : Nat) :
    (parse_null text b).sat (fun p => b < p ∧ p ≤ text.length) := by
  unfold parse_null
  split
  · simp only [Outcome.bind_eq_bind, ne_eq, ite_not]
    refine Outcome.sat_bind (rd_sat _ _) (fun c1 _ => ?_)
    split
    · refine Outcome.sat_bind (rd_sat _ _) (fun c2 _ => ?_)
      split
      · refine Outcome.sat_bind (rd_sat _ _) (fun c3 h3 => ?_)
        split
        · simp only [Outcome.sat_ok]; omega
        · trivial
      · trivial
    · trivial
  · simp only [Outcome.sat_ok]; omega

theorem parse_true_sat (text : List Nat) (b : Nat) :
    (parse_true text b).sat (fun p => b < p ∧ p ≤ text.length) := by
  unfold parse_true
  split
  · simp only [Outcome.bind_eq_bind, ne_eq, ite_not]
    refine Outcome.sat_bind (rd_sat _ _) (fun c1 _ => ?_)
    split
    · refine Outcome.sat_bind (rd_sat _ _) (fun c2 _ => ?_)
      split
      · refine Outcome.sat_bind (rd_sat _ _) (fun c3 h3 => ?_)
        split
        · simp only [Outcome.sat_ok]; omega
        · trivial
      · trivial
    · trivial
  · simp only [Outcome.sat_ok]; omega

theorem parse_false_sat (text : List Nat) (b : Nat) :
    (parse_false text b).sat (fun p => b < p ∧ p ≤ text.length) := by
  unfold parse_false
  split
  · simp only [Outcome.bind_eq_bind, ne_eq, ite_not]
    refine Outcome.sat_bind (rd_sat _ _) (fun c1 _ => ?_)
    split
    · refine Outcome.sat_bind (rd_sat _ _) (fun c2 _ => ?_)
      split
      · refine Outcome.sat_bind (rd_sat _ _) (fun c3 _ => ?_)
        split
        · refine Outcome.sat_bind (rd_sat _ _) (fun c4 h4 => ?_)
          split
          · simp only [Outcome.sat_ok]; omega
          · trivial
        · trivial
      · trivial
    · trivial
  · simp only [Outcome.sat_ok]; omega

theorem parse_number_sat (text : List Nat) (b : Nat) :
    (parse_number text b).sat (fun p => b < p ∧ p ≤ text.length) := by
  unfold parse_number
  simp only [Outcome.bind_eq_bind]
  refine Outcome.sat_bind (rd_sat _ _) (fun c _ => ?_)
  refine Outcome.sat_bind (Q := fun b1 => b ≤ b1) ?_ (fun b1 h1 => ?_)
  · split
    · split
      · trivial
      · simp
    · simp
  refine Outcome.sat_bind (rd_sat _ _) (fun d hd => ?_)
  refine Outcome.sat_bind (Q := fun b2 => b1 < b2 ∧ b2 ≤ text.length) ?_ (fun b2 h2 => ?_)
  · split
    · simp only [Outcome.sat_ok]; omega
    · split
      · exact Outcome.sat_mono (skip_decimal_sat _ _) (fun p hp => by omega)
      · trivial
  refine Outcome.sat_bind (at_is_sat _ _ _) (fun dot _ => ?_)
  refine Outcome.sat_bind (Q := fun b3 => b2 ≤ b3 ∧ b3 ≤ text.length) ?_ (fun b3 h3 => ?_)
  · split
    · split
      · trivial
      · refine Outcome.sat_bind (rd_sat _ _) (fun c' _ => ?_)
        split
        · trivial
        · exact Outcome.sat_mono (skip_decimal_sat _ _) (fun p hp => by omega)
    · simp only [Outcome.sat_ok]; omega
  refine Outcome.sat_bind (at_is_sat _ _ _) (fun ex _ => ?_)
  split
  · refine Outcome.sat_bind (at_is_sat _ _ _) (fun sign _ => ?_)
    dsimp only
    have hb4 : b3 < (if sign = true then b3 + 2 else b3 + 1) := by split <;> omega
    generalize (if sign = true then b3 + 2 else b3 + 1) = b4 at hb4 ⊢
    split
    · trivial
    · refine Outcome.sat_bind (rd_sat _ _) (fun c' _ => ?_)
      split
      · trivial
      · exact Outcome.sat_mono (skip_decimal_sat _ _) (fun p hp => by omega)
  · simp only [Outcome.sat_ok]; omega


/-! ## The context invariant is kept by every parser function -/

theorem Marks.mono {text : List Nat} {b b' : Nat} {context : json_print_context}
    {qs : List Nat} (h : Marks text b context qs) (hb : b ≤ b') : Marks text b' context qs :=
  { h with marks := fun q hq => ⟨Nat.lt_of_lt_of_le (h.marks q hq).1 hb, (h.marks q hq).2⟩ }

theorem parts_of_set_last (qs : List Nat) (x : Option Nat)
    (h : qs.length ≤ JP_MAX_PLACEHOLDERS) :
    (parts_of qs).set (qs.length + 1) x
      = (some 0 :: qs.map some ++ [x]) ++ List.replicate (JP_MAX_PLACEHOLDERS - qs.length) none := by
  unfold parts_of
  have e : JP_MAX_PLACEHOLDERS + 1 - qs.length = (JP_MAX_PLACEHOLDERS - qs.length) + 1 := by
    omega
  rw [e, List.replicate_succ]
  simp only [List.cons_append, List.set_cons_succ, List.append_assoc, List.singleton_append]
  rw [List.set_append_right _ _ (by simp)]
  simp

theorem parts_of_set (qs : List Nat) (q : Nat) (h : qs.length < JP_MAX_PLACEHOLDERS) :
    (parts_of qs).set (qs.length + 1) (some q) = parts_of (qs ++ [q]) := by
  rw [parts_of_set_last qs _ (by omega)]
  unfold parts_of
  have e : JP_MAX_PLACEHOLDERS - qs.length = JP_MAX_PLACEHOLDERS + 1 - (qs ++ [q]).length := by
    simp only [List.length_append, List.length_singleton]; omega
  rw [e]
  simp

theorem store_part_mark {text : List Nat} {b q : Nat} {context : json_print_context}
    {qs : List Nat} (h : Marks text b context qs) (hc : context.count ≠ JP_MAX_PLACEHOLDERS)
    (hq : b ≤ q) (hm : text[q]? = some 63) :
    ∃ context', store_part { context with count := context.count + 1 } (context.count + 1) q
        = .ok context' ∧ Marks text (q + 1) context' (qs ++ [q]) := by
  have hlt : qs.length < JP_MAX_PLACEHOLDERS := by
    have := h.le_max; have := h.count_eq; omega
  refine ⟨_, by unfold store_part; rw [if_pos (by have := h.count_eq; omega)], ?_⟩
  constructor
  · simp only [h.parts_eq, h.count_eq]
    exact parts_of_set qs q hlt
  · simp [h.count_eq]
  · simp only [List.length_append, List.length_singleton]; omega
  · rw [List.pairwise_append]
    refine ⟨h.sorted, List.pairwise_singleton _ _, fun a ha c hc' => ?_⟩
    simp only [List.mem_singleton] at hc'
    have := (h.marks a ha).1
    omega
  · intro a ha
    rw [List.mem_append, List.mem_singleton] at ha
    rcases ha with ha | rfl
    · exact ⟨by have := (h.marks a ha).1; omega, (h.marks a ha).2⟩
    · exact ⟨by omega, hm⟩

theorem parse_step : ∀ fuel : Nat,
    Step 2 fuel (parse_value fuel) ∧ Step 1 fuel (parse_array fuel) ∧
      Step 3 fuel (parse_array_loop fuel) ∧ Step 1 fuel (parse_object fuel) ∧
      Step 3 fuel (parse_object_loop fuel)
  | 0 => by
    refine ⟨?_, ?_, ?_, ?_, ?_⟩ <;> intro text b context qs _ hfuel <;> omega
  | fuel + 1 => by
    obtain ⟨ihv, iha, ihal, iho, ihol⟩ := parse_step fuel
    have token : ∀ (text : List Nat) (b b1 : Nat) (context : json_print_context)
        (qs : List Nat) (x : Outcome Nat), Marks text b context qs → b ≤ b1 →
        x.sat (fun p => b1 < p ∧ p ≤ text.length) →
        (x.bind fun e => Outcome.ok (e, context)).sat fun r =>
          b < r.1 ∧ r.1 ≤ text.length ∧ ∃ qs', Marks text r.1 r.2 (qs ++ qs') := by
      intro text b b1 context qs x hm hb hx
      refine Outcome.sat_bind hx (fun p hp => ?_)
      simp only [Outcome.sat_ok]
      exact ⟨by omega, hp.2, [], by simpa using hm.mono (by omega)⟩
    refine ⟨?_, ?_, ?_, ?_, ?_⟩ <;> intro text b context qs hm hfuel
    · -- parse_value
      rw [parse_value]
      simp only [Outcome.bind_eq_bind]
      refine Outcome.sat_bind (skip_whitespace_sat _ _) (fun b1 hb1 => ?_)
      refine Outcome.sat_bind (rd_sat _ _) (fun c hc => ?_)
      split
      · exact Outcome.sat_mono (iha text b1 context qs (hm.mono hb1.1) (by omega))
          (fun r hr => ⟨by omega, hr.2⟩)
      split
      · exact Outcome.sat_mono (iho text b1 context qs (hm.mono hb1.1) (by omega))
          (fun r hr => ⟨by omega, hr.2⟩)
      split
      · exact token _ _ _ _ _ _ hm hb1.1 (parse_string_sat _ _)
      split
      · exact token _ _ _ _ _ _ hm hb1.1 (parse_number_sat _ _)
      split
      · exact token _ _ _ _ _ _ hm hb1.1 (parse_null_sat _ _)
      split
      · exact token _ _ _ _ _ _ hm hb1.1 (parse_true_sat _ _)
      split
      · exact token _ _ _ _ _ _ hm hb1.1 (parse_false_sat _ _)
      split
      · next h63 =>
        subst h63
        split
        · trivial
        · next hcount =>
          obtain ⟨context', hs, hm'⟩ := store_part_mark hm hcount hb1.1 hc.2
          rw [hs]
          simp only [Outcome.bind_ok, Outcome.sat_ok]
          exact ⟨by omega, by omega, [b1], hm'⟩
      · trivial
    · -- parse_array
      rw [parse_array]
      simp only [Outcome.bind_eq_bind]
      refine Outcome.sat_bind (skip_whitespace_sat _ _) (fun b1 hb1 => ?_)
      split
      · trivial
      refine Outcome.sat_bind (rd_sat _ _) (fun c hc => ?_)
      split
      · simp only [Outcome.sat_ok]
        exact ⟨by omega, by omega, [], by simpa using hm.mono (by omega)⟩
      · exact Outcome.sat_mono (ihal text b1 context qs (hm.mono (by omega)) (by omega))
          (fun r hr => ⟨by omega, hr.2⟩)
    · -- parse_array_loop
      rw [parse_array_loop]
      simp only [Outcome.bind_eq_bind]
      refine Outcome.sat_bind (ihv text b context qs hm (by omega)) (fun r hr => ?_)
      obtain ⟨p, context1⟩ := r
      obtain ⟨hp1, hp2, qs1, hm1⟩ := hr
      dsimp only at hp1 hp2 hm1 ⊢
      refine Outcome.sat_bind (skip_whitespace_sat _ _) (fun b1 hb1 => ?_)
      split
      · trivial
      refine Outcome.sat_bind (rd_sat _ _) (fun c hc => ?_)
      split
      · simp only [Outcome.sat_ok]
        exact ⟨by omega, by omega, qs1, hm1.mono (by omega)⟩
      split
      · trivial
      · refine Outcome.sat_mono (ihal text (b1 + 1) context1 _ (hm1.mono (by omega)) (by omega))
          (fun r hr => ⟨by omega, hr.2.1, ?_⟩)
        obtain ⟨qs2, h2⟩ := hr.2.2
        exact ⟨qs1 ++ qs2, by simpa using h2⟩
    · -- parse_object
      rw [parse_object]
      simp only [Outcome.bind_eq_bind]
      refine Outcome.sat_bind (skip_whitespace_sat _ _) (fun b1 hb1 => ?_)
      split
      · trivial
      refine Outcome.sat_bind (rd_sat _ _) (fun c hc => ?_)
      split
      · simp only [Outcome.sat_ok]
        exact ⟨by omega, by omega, [], by simpa using hm.mono (by omega)⟩
      split
      · trivial
      · exact Outcome.sat_mono (ihol text b1 context qs (hm.mono (by omega)) (by omega))
          (fun r hr => ⟨by omega, hr.2⟩)
    · -- parse_object_loop
      rw [parse_object_loop]
      simp only [Outcome.bind_eq_bind]
      refine Outcome.sat_bind (parse_string_sat _ _) (fun b0 hb0 => ?_)
      refine Outcome.sat_bind (skip_whitespace_sat _ _) (fun b1 hb1 => ?_)
      split
      · trivial
      refine Outcome.sat_bind (rd_sat _ _) (fun c hc => ?_)
      split
      · trivial
      refine Outcome.sat_bind (ihv text (b1 + 1) context qs (hm.mono (by omega)) (by omega)) (fun r hr => ?_)
      obtain ⟨p, context1⟩ := r
      obtain ⟨hp1, hp2, qs1, hm1⟩ := hr
      dsimp only at hp1 hp2 hm1 ⊢
      refine Outcome.sat_bind (skip_whitespace_sat _ _) (fun b2 hb2 => ?_)
      split
      · trivial
      refine Outcome.sat_bind (rd_sat _ _) (fun c2 hc2 => ?_)
      split
      · simp only [Outcome.sat_ok]
        exact ⟨by omega, by omega, qs1, hm1.mono (by omega)⟩
      split
      · trivial
      refine Outcome.sat_bind (skip_whitespace_sat _ _) (fun b3 hb3 => ?_)
      refine Outcome.sat_mono (ihol text b3 context1 _ (hm1.mono (by omega)) (by omega))
        (fun r hr => ⟨by omega, hr.2.1, ?_⟩)
      obtain ⟨qs2, h2⟩ := hr.2.2
      exact ⟨qs1 ++ qs2, by simpa using h2⟩


/-! ## What a successful `compile` returns -/

/-- The shape of every context returned by `compile`. -/
theorem compile_sat (text : List Nat) :
    (compile text).sat fun context =>
      ∃ qs : List Nat, context.count = qs.length + 1 ∧ qs.length ≤ JP_MAX_PLACEHOLDERS ∧
        context.parts = (some 0 :: qs.map some ++ [some text.length])
          ++ List.replicate (JP_MAX_PLACEHOLDERS - qs.length) none ∧
        qs.Pairwise (· < ·) ∧ ∀ q ∈ qs, q < text.length ∧ text[q]? = some 63 := by
  unfold compile
  simp only [Outcome.bind_eq_bind]
  have h0 : store_part context_zero 0 0 = .ok ⟨parts_of [], 0⟩ := by decide
  rw [h0, Outcome.bind_ok]
  have hm : Marks text 0 ⟨parts_of [], 0⟩ [] :=
    ⟨rfl, rfl, by simp, List.Pairwise.nil, by simp⟩
  refine Outcome.sat_bind ((parse_step _).1 text 0 _ [] hm (by unfold compile_fuel; omega))
    (fun r hr => ?_)
  obtain ⟨p, context⟩ := r
  obtain ⟨_, hp, qs, hq⟩ := hr
  simp only [List.nil_append] at hq
  dsimp only at hp hq ⊢
  refine Outcome.sat_bind (skip_whitespace_sat _ _) (fun b1 hb1 => ?_)
  refine Outcome.sat_bind (at_is_sat _ _ _) (fun nul hnul => ?_)
  dsimp only
  generalize (if nul = true then b1 + 1 else b1) = b2
  split
  · trivial
  · unfold store_part
    have hle := hq.le_max
    rw [if_pos (by have := hq.count_eq; unfold JP_MAX_PLACEHOLDERS at *; omega)]
    simp only [Outcome.sat_ok]
    refine ⟨qs, by simp [hq.count_eq], hle, ?_, hq.sorted, fun q hq' => ?_⟩
    · simp only [hq.parts_eq, hq.count_eq]
      exact parts_of_set_last qs _ hle
    · exact ⟨by have := (hq.marks q hq').1; omega, (hq.marks q hq').2⟩


theorem filterMap_id_map_some (qs : List Nat) : (qs.map some).filterMap id = qs := by
  induction qs with
  | nil => rfl
  | cons q qs ih => simp [List.filterMap_cons, ih]

theorem placeholder_offsets_eq (qs : List Nat) (x : Option Nat) (rest : List (Option Nat)) :
    placeholder_offsets ⟨(some 0 :: qs.map some ++ [x]) ++ rest, qs.length + 1⟩ = qs := by
  unfold placeholder_offsets
  simp only [List.cons_append, List.take_succ_cons, List.drop_succ_cons, List.drop_zero,
    List.append_assoc]
  rw [List.take_append_of_le_length (by simp), List.take_of_length_le (by simp)]
  exact filterMap_id_map_some qs

/-- C4: a context returned by `compile` over `[begin, end)` has `parts[0] = begin` and
`parts[count] = end`; its boundaries `parts[0] .. parts[count]` are exactly the start,
the recorded placeholder offsets and the end, in non-decreasing order; and the
`count - 1` interior boundaries are the placeholders found: strictly increasing offsets
of `?` bytes. -/
theorem compile_boundaries (text : List Nat) (context : json_print_context)
    (h : compile text = .ok context) :
    context.parts[0]? = some (some 0) ∧
    context.parts[context.count]? = some (some text.length) ∧
    context.parts.take (context.count + 1)
      = ((0 :: placeholder_offsets context) ++ [text.length]).map some ∧
    ((0 :: placeholder_offsets context) ++ [text.length]).Pairwise (· ≤ ·) ∧
    context.count - 1 = (placeholder_offsets context).length ∧
    (placeholder_offsets context).Pairwise (· < ·) ∧
    ∀ q ∈ placeholder_offsets context, text[q]? = some 63 := by
  obtain ⟨qs, hc, hle, hp, hs, hq⟩ := Outcome.sat_elim (compile_sat text) h
  obtain ⟨parts, count⟩ := context
  dsimp only at hc hp ⊢
  subst hc hp
  rw [placeholder_offsets_eq]
  refine ⟨by simp, ?_, ?_, ?_, by simp, hs, fun q hq' => (hq q hq').2⟩
  · rw [List.getElem?_append_left (by simp)]
    have : (some 0 :: List.map some qs ++ [some text.length])
        = (some 0 :: List.map some qs) ++ [some text.length] := by simp
    rw [this, List.getElem?_append_right (by simp)]
    simp
  · rw [List.take_append_of_le_length (by simp), List.take_of_length_le (by simp)]
    simp
  · simp only [List.cons_append, List.pairwise_cons, List.pairwise_append,
      List.pairwise_singleton, List.mem_append, List.mem_singleton, Nat.zero_le, implies_true,
      true_and, List.Pairwise.nil]
    refine ⟨hs.imp (fun hab => Nat.le_of_lt hab), ⟨by simp, trivial⟩, fun a ha b hb => ?_⟩
    subst hb
    exact Nat.le_of_lt (hq a ha).1

/-- C4, at a template with one placeholder inside an array: the last boundary is the
end of the range and the one before it is the offset of the `?`. -/
theorem compile_boundaries_witness :
    compile (bytes "[42,?]" ++ [0])
        = .ok ⟨[some 0, some 4, some 7] ++ List.replicate 13 none, 2⟩ ∧
      (([some 0, some 4, some 7] ++ List.replicate 13 none : List (Option Nat))[2]?
          = some (some (bytes "[42,?]" ++ [0]).length) ∧
        ([some 0, some 4, some 7] ++ List.replicate 13 none).take (2 + 1)
          = ((0 :: placeholder_offsets ⟨[some 0, some 4, some 7] ++ List.replicate 13 none, 2⟩)
              ++ [(bytes "[42,?]" ++ [0]).length]).map some) :=
  ⟨by decide,
    (compile_boundaries (bytes "[42,?]" ++ [0])
      ⟨[some 0, some 4, some 7] ++ List.replicate 13 none, 2⟩ (by decide)).2.1,
    (compile_boundaries (bytes "[42,?]" ++ [0])
      ⟨[some 0, some 4, some 7] ++ List.replicate 13 none, 2⟩ (by decide)).2.2.1⟩

/-! ## Cursors -/

theorem At.length {text : List Nat} {b : Nat} {l : List Nat} (h : At text b l) :
    b + l.length = text.length := by
  have := congrArg List.length h.1
  rw [List.length_drop] at this
  have := h.2
  omega

theorem At.add {text : List Nat} {b : Nat} {l1 l2 : List Nat} (h : At text b (l1 ++ l2)) :
    At text (b + l1.length) l2 := by
  refine ⟨?_, ?_⟩
  · rw [← List.drop_drop, h.1, List.drop_left]
  · have := h.length; simp only [List.length_append] at this; omega

theorem At.succ {text : List Nat} {b c : Nat} {l : List Nat} (h : At text b (c :: l)) :
    At text (b + 1) l :=
  At.add (show At text b ([c] ++ l) from h)

theorem At.rd_eq {text : List Nat} {b c : Nat} {l : List Nat} (h : At text b (c :: l)) :
    rd text b = .ok c := rd_of_drop h.1

theorem At.ne_length {text : List Nat} {b c : Nat} {l : List Nat} (h : At text b (c :: l)) :
    b ≠ text.length := by
  have := h.length; simp only [List.length_cons] at this; omega

theorem At.at_is_eq {text : List Nat} {b c : Nat} {l : List Nat} (h : At text b (c :: l))
    (q : Nat → Bool) : at_is text b q = .ok (q c) := by
  unfold at_is
  rw [if_neg h.ne_length, h.rd_eq]; rfl

theorem At.at_is_eq_nil {text : List Nat} {b : Nat} (h : At text b []) (q : Nat → Bool) :
    at_is text b q = .ok false := by
  unfold at_is
  rw [if_pos (by have := h.length; simpa using this)]

/-- The loop `skip_run` over a run of bytes that satisfy `q`, stopped by the next byte. -/
theorem skip_run_append (q : Nat → Bool) (run rest : List Nat) (b : Nat)
    (hrun : ∀ c ∈ run, q c = true) (hrest : ∀ c l, rest = c :: l → q c = false) :
    skip_run q (run ++ rest) b = b + run.length := by
  induction run generalizing b with
  | nil =>
    cases rest with
    | nil => rfl
    | cons c l => simp [skip_run, hrest c l rfl]
  | cons c run ih =>
    rw [List.cons_append, skip_run, if_pos (hrun c (List.mem_cons_self _ _)),
      ih _ (fun d hd => hrun d (List.mem_cons_of_mem _ hd)), List.length_cons]
    omega

theorem is_whitespace_iff (c : Nat) : is_whitespace c = true ↔ Spec.ws_byte c := by
  simp [is_whitespace, Spec.ws_byte, or_assoc]

theorem is_decimal_iff (c : Nat) : is_decimal c = true ↔ Spec.digit c := by
  simp only [is_decimal, JP_NONZERO_DIGIT, Spec.digit, Bool.or_eq_true, beq_iff_eq,
    Bool.and_eq_true, decide_eq_true_eq]
  omega

theorem At.skip_whitespace_eq {text : List Nat} {b : Nat} {w rest : List Nat}
    (h : At text b (w ++ rest)) (hw : Spec.Ws w)
    (hrest : ∀ c l, rest = c :: l → ¬ Spec.ws_byte c) :
    skip_whitespace text b = .ok (b + w.length) := by
  unfold skip_whitespace
  rw [if_neg (by have := h.2; omega), h.1, skip_run_append]
  · exact fun c hc => (is_whitespace_iff c).mpr (hw c hc)
  · intro c l hcl
    have := hrest c l hcl
    rw [← is_whitespace_iff] at this
    simpa using this

theorem At.skip_decimal_eq {text : List Nat} {b : Nat} {ds rest : List Nat}
    (h : At text b (ds ++ rest)) (hd : Spec.Digits ds)
    (hrest : ∀ c l, rest = c :: l → ¬ Spec.digit c) :
    skip_decimal text b = .ok (b + ds.length) := by
  unfold skip_decimal
  rw [if_neg (by have := h.2; omega), h.1, skip_run_append]
  · exact fun c hc => (is_decimal_iff c).mpr (hd c hc)
  · intro c l hcl
    have := hrest c l hcl
    rw [← is_decimal_iff] at this
    simpa using this

/-! ## The token parsers accept what the grammar derives -/

theorem parse_string_loop_complete {body : List Nat} (h : Spec.StringBody body) :
    ∀ (post : List Nat) (b : Nat),
      parse_string_loop (body ++ 34 :: post) b = .ok (b + body.length + 1) := by
  induction h with
  | nil =>
    intro post b
    rw [List.nil_append, parse_string_loop.eq_def]
    simp [show JP_CONTROL 34 = false by decide]
  | @plain c s h32 h34 h92 _ ih =>
    intro post b
    have hc : JP_CONTROL c = false := by
      simp only [JP_CONTROL, JP_OTHER_CONTROL, Bool.or_eq_false_iff, decide_eq_false_iff_not,
        beq_eq_false_iff_ne, ne_eq, Bool.and_eq_false_imp, decide_eq_true_eq]
      omega
    rw [List.cons_append, parse_string_loop.eq_def]
    simp only [hc, h92, h34, if_false, Bool.false_eq_true]
    rw [ih]; simp only [List.length_cons, Outcome.ok.injEq]; omega
  | @escape e s he _ ih =>
    intro post b
    have he' : is_escape_letter e = true := by
      simp only [Spec.escape_letter] at he
      simp only [is_escape_letter, Bool.or_eq_true, beq_iff_eq]
      omega
    rw [List.cons_append, List.cons_append, parse_string_loop.eq_def]
    simp only [show JP_CONTROL 92 = false by decide, he', if_true, if_false,
      Bool.false_eq_true]
    rw [ih]; simp only [List.length_cons, Outcome.ok.injEq]; omega
  | @unicode h1 h2 h3 h4 s hh1 hh2 hh3 hh4 _ ih =>
    intro post b
    have hex : ∀ c, Spec.hex_digit c → is_hexadecimal c = true := by
      intro c hc
      simp only [Spec.hex_digit, Spec.digit] at hc
      simp only [is_hexadecimal, is_decimal, JP_NONZERO_DIGIT, JP_HEX_ALPHA, Bool.or_eq_true,
        beq_iff_eq, Bool.and_eq_true, decide_eq_true_eq]
      omega
    simp only [List.cons_append]
    rw [parse_string_loop.eq_def]
    simp only [show JP_CONTROL 92 = false by decide, show is_escape_letter 117 = false by decide,
      hex _ hh1, hex _ hh2, hex _ hh3, hex _ hh4, if_true, if_false, Bool.false_eq_true,
      Bool.and_self]
    rw [ih]; simp only [List.length_cons, Outcome.ok.injEq]; omega

theorem parse_string_complete {text : List Nat} {b : Nat} {s post : List Nat}
    (hs : Spec.IsString s) (h : At text b (s ++ post)) :
    parse_string text b = .ok (b + s.length) := by
  obtain ⟨body, hb, rfl⟩ := hs
  unfold parse_string
  have h1 : At text (b + 1) (body ++ 34 :: post) := by
    have := At.succ (c := 34) (l := body ++ 34 :: post) (by simpa using h)
    exact this
  rw [if_neg (by have := h1.2; omega), h1.1, parse_string_loop_complete hb]
  simp only [List.length_cons, List.length_append, List.length_nil, Outcome.ok.injEq]
  omega

/-- The function `parse_number` is its sign stage followed by the three later stages. -/
theorem parse_number_stages (text : List Nat) (b : Nat) :
    parse_number text b = (rd text b).bind fun c =>
      (if c = 45 then
        if b + 1 = text.length then
          Outcome.throw "expected digit after '-', reached end of text"
        else Outcome.ok (b + 1)
      else Outcome.ok b).bind fun b1 => number_integer text b1 := rfl

theorem Spec.digit_ne {c : Nat} (h : Spec.digit c) :
    c ≠ 45 ∧ c ≠ 43 ∧ c ≠ 46 ∧ c ≠ 69 ∧ c ≠ 101 := by
  unfold Spec.digit at h; omega

theorem number_exponent_complete {text : List Nat} {b : Nat} {e post : List Nat}
    (he : Spec.IsExponent e) (hp : Spec.Follow post) (h : At text b (e ++ post)) :
    number_exponent text b = .ok (b + e.length) := by
  unfold number_exponent
  rcases he with rfl | ⟨ex, sign, d, ds, hex, hsign, hd, hds, rfl⟩
  · simp only [List.nil_append] at h
    have : at_is text b (fun c => c == 69 || c == 101) = .ok false := by
      cases post with
      | nil => exact h.at_is_eq_nil _
      | cons c l =>
        rw [h.at_is_eq]
        have := hp c l rfl
        simp [this.2.2.1, this.2.2.2]
    rw [this]; simp
  · have h0 : At text b (ex :: (sign ++ (d :: (ds ++ post)))) := by simpa using h
    have hpost : ∀ c l, post = c :: l → ¬ Spec.digit c := fun c l hc => (hp c l hc).1
    rw [h0.at_is_eq]
    have : (ex == 69 || ex == 101) = true := by rcases hex with rfl | rfl <;> rfl
    simp only [this, Outcome.bind_ok, if_true]
    have h1 := h0.succ
    have hdd : is_decimal d = true := (is_decimal_iff d).mpr hd
    rcases hsign with rfl | rfl | rfl
    · simp only [List.nil_append] at h1
      rw [h1.at_is_eq]
      have : (d == 45 || d == 43) = false := by
        have := Spec.digit_ne hd; simp [this.1, this.2.1]
      simp only [this, Outcome.bind_ok, Bool.false_eq_true, if_false]
      rw [if_neg h1.ne_length, h1.rd_eq]
      simp only [Outcome.bind_ok, hdd, Bool.not_true, Bool.false_eq_true, if_false]
      rw [h1.succ.skip_decimal_eq hds hpost]
      simp only [List.length_cons, List.length_append, List.length_nil, Outcome.ok.injEq]
      omega
    · have h2 : At text (b + 1 + 1) (d :: (ds ++ post)) := h1.succ
      rw [h1.at_is_eq]
      simp only [Outcome.bind_ok, show (43 == 45 || 43 == 43) = true by rfl, if_true]
      rw [if_neg h2.ne_length, h2.rd_eq]
      simp only [Outcome.bind_ok, hdd, Bool.not_true, Bool.false_eq_true, if_false]
      rw [h2.succ.skip_decimal_eq hds hpost]
      simp only [List.length_cons, List.length_append, List.length_nil, Outcome.ok.injEq]
      omega
    · have h2 : At text (b + 1 + 1) (d :: (ds ++ post)) := h1.succ
      rw [h1.at_is_eq]
      simp only [Outcome.bind_ok, show (45 == 45 || 45 == 43) = true by rfl, if_true]
      rw [if_neg h2.ne_length, h2.rd_eq]
      simp only [Outcome.bind_ok, hdd, Bool.not_true, Bool.false_eq_true, if_false]
      rw [h2.succ.skip_decimal_eq hds hpost]
      simp only [List.length_cons, List.length_append, List.length_nil, Outcome.ok.injEq]
      omega

/-- The bytes after the digits of a fraction or integer part do not start with a digit. -/
theorem exponent_head {e post : List Nat} (he : Spec.IsExponent e) (hp : Spec.Follow post) :
    ∀ c l, e ++ post = c :: l → ¬ Spec.digit c ∧ c ≠ 46 := by
  intro c l hc
  rcases he with rfl | ⟨ex, sign, d, ds, hex, _, _, _, rfl⟩
  · exact ⟨(hp c l hc).1, (hp c l hc).2.1⟩
  · simp only [List.cons_append, List.cons.injEq] at hc
    obtain ⟨rfl, _⟩ := hc
    unfold Spec.digit
    rcases hex with rfl | rfl <;> omega

theorem number_fraction_complete {text : List Nat} {b : Nat} {f e post : List Nat}
    (hf : Spec.IsFraction f) (he : Spec.IsExponent e) (hp : Spec.Follow post)
    (h : At text b (f ++ (e ++ post))) :
    number_fraction text b = .ok (b + f.length + e.length) := by
  unfold number_fraction
  rcases hf with rfl | ⟨d, ds, hd, hds, rfl⟩
  · simp only [List.nil_append] at h
    have : at_is text b (fun c => c == 46) = .ok false := by
      cases hl : e ++ post with
      | nil => rw [hl] at h; exact h.at_is_eq_nil _
      | cons c l =>
        rw [hl] at h
        rw [h.at_is_eq]
        have := (exponent_head he hp c l hl).2
        simp [this]
    rw [this]
    simp only [Outcome.bind_ok, Bool.false_eq_true, if_false]
    rw [number_exponent_complete he hp h]
    simp
  · have h0 : At text b (46 :: (d :: (ds ++ (e ++ post)))) := by simpa using h
    have h1 := h0.succ
    have h2 := h1.succ
    rw [h0.at_is_eq]
    simp only [Outcome.bind_ok, show (46 == 46) = true by rfl, if_true]
    rw [if_neg h1.ne_length, h1.rd_eq]
    simp only [Outcome.bind_ok, (is_decimal_iff d).mpr hd, Bool.not_true, Bool.false_eq_true,
      if_false]
    rw [h2.skip_decimal_eq hds (fun c l hc => (exponent_head he hp c l hc).1)]
    simp only [Outcome.bind_ok]
    rw [number_exponent_complete he hp h2.add]
    simp only [List.length_cons, Outcome.ok.injEq]
    omega

theorem fraction_head {f e post : List Nat} (hf : Spec.IsFraction f) (he : Spec.IsExponent e)
    (hp : Spec.Follow post) : ∀ c l, f ++ (e ++ post) = c :: l → ¬ Spec.digit c := by
  intro c l hc
  rcases hf with rfl | ⟨d, ds, _, _, rfl⟩
  · exact (exponent_head he hp c l hc).1
  · simp only [List.cons_append, List.cons.injEq] at hc
    obtain ⟨rfl, _⟩ := hc
    unfold Spec.digit; omega

theorem number_integer_complete {text : List Nat} {b : Nat} {i f e post : List Nat}
    (hi : Spec.IsInteger i) (hf : Spec.IsFraction f) (he : Spec.IsExponent e)
    (hp : Spec.Follow post) (h : At text b (i ++ (f ++ (e ++ post)))) :
    number_integer text b = .ok (b + i.length + f.length + e.length) := by
  unfold number_integer
  rcases hi with rfl | ⟨d, ds, hd1, hd2, hds, rfl⟩
  · have h0 : At text b (48 :: (f ++ (e ++ post))) := by simpa using h
    rw [h0.rd_eq]
    simp only [Outcome.bind_ok, if_true]
    rw [number_fraction_complete hf he hp h0.succ]
    simp only [List.length_cons, List.length_nil, Outcome.ok.injEq]
  · have h0 : At text b (d :: (ds ++ (f ++ (e ++ post)))) := by simpa using h
    rw [h0.rd_eq]
    have hnz : JP_NONZERO_DIGIT d = true := by
      simp only [JP_NONZERO_DIGIT, Bool.and_eq_true, decide_eq_true_eq]; omega
    simp only [Outcome.bind_ok, show ¬ d = 48 by omega, if_false, hnz, if_true]
    rw [h0.succ.skip_decimal_eq hds (fraction_head hf he hp)]
    simp only [Outcome.bind_ok]
    rw [number_fraction_complete hf he hp h0.succ.add]
    simp only [List.length_cons, Outcome.ok.injEq]
    omega

theorem integer_head {i : List Nat} (hi : Spec.IsInteger i) :
    ∃ d ds, i = d :: ds ∧ Spec.digit d := by
  rcases hi with rfl | ⟨d, ds, hd1, hd2, _, rfl⟩
  · exact ⟨48, [], rfl, by unfold Spec.digit; omega⟩
  · exact ⟨d, ds, rfl, by unfold Spec.digit; omega⟩

theorem parse_number_complete {text : List Nat} {b : Nat} {s post : List Nat}
    (hs : Spec.IsNumber s) (hp : Spec.Follow post) (h : At text b (s ++ post)) :
    parse_number text b = .ok (b + s.length) := by
  obtain ⟨sign, i, f, e, hsign, hi, hf, he, rfl⟩ := hs
  obtain ⟨d, ds, rfl, hd⟩ := integer_head hi
  rw [parse_number_stages]
  rcases hsign with rfl | rfl
  · have h0 : At text b (d :: (ds ++ (f ++ (e ++ post)))) := by simpa using h
    rw [h0.rd_eq]
    simp only [Outcome.bind_ok, (Spec.digit_ne hd).1, if_false]
    rw [number_integer_complete hi hf he hp (by simpa using h0)]
    simp only [List.length_cons, List.length_append, List.nil_append, Outcome.ok.injEq]
    omega
  · have h0 : At text b (45 :: (d :: (ds ++ (f ++ (e ++ post))))) := by simpa using h
    rw [h0.rd_eq]
    simp only [Outcome.bind_ok, if_true]
    rw [if_neg h0.succ.ne_length]
    simp only [Outcome.bind_ok]
    rw [number_integer_complete hi hf he hp (by simpa using h0.succ)]
    simp only [List.length_cons, List.length_append, List.length_nil, Outcome.ok.injEq]
    omega

theorem parse_null_complete {text : List Nat} {b : Nat} {post : List Nat}
    (h : At text b (110 :: 117 :: 108 :: 108 :: post)) : parse_null text b = .ok (b + 4) := by
  unfold parse_null
  rw [if_neg (by have := h.length; simp only [List.length_cons] at this; omega)]

theorem parse_true_complete {text : List Nat} {b : Nat} {post : List Nat}
    (h : At text b (116 :: 114 :: 117 :: 101 :: post)) : parse_true text b = .ok (b + 4) := by
  unfold parse_true
  rw [if_neg (by have := h.length; simp only [List.length_cons] at this; omega)]

theorem parse_false_complete {text : List Nat} {b : Nat} {post : List Nat}
    (h : At text b (102 :: 97 :: 108 :: 115 :: 101 :: post)) :
    parse_false text b = .ok (b + 5) := by
  unfold parse_false
  rw [if_neg (by have := h.length; simp only [List.length_cons] at this; omega)]

/-! ## `parse_value` accepts what the grammar derives -/

theorem Expect.of_ok {r : Outcome (Nat × json_print_context)} {p : Nat}
    {context : json_print_context} (h : r = .ok (p, context))
    (hc : context.count ≤ JP_MAX_PLACEHOLDERS) : Expect r p context.count 0 := by
  unfold Expect
  rw [if_pos (by omega)]
  exact ⟨context, h, rfl⟩

theorem Expect.bind_expect {r1 : Outcome (Nat × json_print_context)}
    {g : Nat × json_print_context → Outcome (Nat × json_print_context)} {p q c k k' : Nat}
    (h1 : Expect r1 p c k)
    (h2 : ∀ context1 : json_print_context, context1.count = c + k →
      c + k ≤ JP_MAX_PLACEHOLDERS → Expect (g (p, context1)) q (c + k) k') :
    Expect (r1.bind g) q c (k + k') := by
  unfold Expect at h1 ⊢
  by_cases hk : c + k ≤ JP_MAX_PLACEHOLDERS
  · rw [if_pos hk] at h1
    obtain ⟨context1, rfl, hc1⟩ := h1
    have := h2 context1 hc1 hk
    unfold Expect at this
    rw [Outcome.bind_ok]
    by_cases hk' : c + (k + k') ≤ JP_MAX_PLACEHOLDERS
    · rw [if_pos hk']
      rw [if_pos (by omega)] at this
      obtain ⟨context2, h, hc2⟩ := this
      exact ⟨context2, h, by omega⟩
    · rw [if_neg hk']
      rw [if_neg (by omega)] at this
      exact this
  · rw [if_neg hk] at h1
    rw [if_neg (by omega), h1]
    rfl

/-- The first byte of a value is not whitespace and is not a closing bracket. -/
theorem Spec.Value.head_byte {s : List Nat} {k : Nat} (h : Spec.Value s k) :
    ∃ c rest, s = c :: rest ∧ ¬ Spec.ws_byte c ∧ c ≠ 93 ∧ c ≠ 125 := by
  cases h with
  | placeholder => exact ⟨_, _, rfl, by unfold Spec.ws_byte; omega, by omega, by omega⟩
  | null => exact ⟨_, _, rfl, by unfold Spec.ws_byte; omega, by omega, by omega⟩
  | true_ => exact ⟨_, _, rfl, by unfold Spec.ws_byte; omega, by omega, by omega⟩
  | false_ => exact ⟨_, _, rfl, by unfold Spec.ws_byte; omega, by omega, by omega⟩
  | string hs =>
    obtain ⟨body, _, rfl⟩ := hs
    exact ⟨_, _, rfl, by unfold Spec.ws_byte; omega, by omega, by omega⟩
  | number hn =>
    obtain ⟨sign, i, f, e, hsign, hi, _, _, rfl⟩ := hn
    obtain ⟨d, ds, rfl, hd⟩ := integer_head hi
    unfold Spec.digit at hd
    rcases hsign with rfl | rfl
    · exact ⟨d, _, rfl, by unfold Spec.ws_byte; omega, by omega, by omega⟩
    · exact ⟨45, _, rfl, by unfold Spec.ws_byte; omega, by omega, by omega⟩
  | empty_array _ => exact ⟨_, _, rfl, by unfold Spec.ws_byte; omega, by omega, by omega⟩
  | array _ _ => exact ⟨_, _, rfl, by unfold Spec.ws_byte; omega, by omega, by omega⟩
  | empty_object _ => exact ⟨_, _, rfl, by unfold Spec.ws_byte; omega, by omega, by omega⟩
  | object _ _ => exact ⟨_, _, rfl, by unfold Spec.ws_byte; omega, by omega, by omega⟩

theorem Spec.Elements.head_element {es : List Nat} {k : Nat} (h : Spec.Elements es k) :
    ∃ c rest, es = c :: rest ∧ ¬ Spec.ws_byte c ∧ c ≠ 93 := by
  cases h with
  | last hv _ =>
    obtain ⟨c, rest, rfl, h1, h2, _⟩ := hv.head_byte
    exact ⟨c, _, rfl, h1, h2⟩
  | more hv _ _ _ =>
    obtain ⟨c, rest, rfl, h1, h2, _⟩ := hv.head_byte
    exact ⟨c, _, rfl, h1, h2⟩

theorem Spec.Members.head_quote {ms : List Nat} {k : Nat} (h : Spec.Members ms k) :
    ∃ rest, ms = 34 :: rest := by
  cases h with
  | last hn _ _ _ _ =>
    obtain ⟨body, _, rfl⟩ := hn
    exact ⟨_, rfl⟩
  | more hn _ _ _ _ _ _ =>
    obtain ⟨body, _, rfl⟩ := hn
    exact ⟨_, rfl⟩

/-- The first two steps of `parse_value` on whitespace followed by the byte `c`. -/
theorem parse_value_head {fuel : Nat} {text : List Nat} {b c : Nat} {w rest : List Nat}
    (context : json_print_context) (hw : Spec.Ws w) (h : At text b (w ++ c :: rest))
    (hc : ¬ Spec.ws_byte c) :
    parse_value (fuel + 1) text b context =
      (if c = 91 then parse_array fuel text (b + w.length) context
      else if c = 123 then parse_object fuel text (b + w.length) context
      else if c = 34 then
        (parse_string text (b + w.length)).bind fun e => .ok (e, context)
      else if c = 45 || is_decimal c then
        (parse_number text (b + w.length)).bind fun e => .ok (e, context)
      else if c = 110 then (parse_null text (b + w.length)).bind fun e => .ok (e, context)
      else if c = 116 then (parse_true text (b + w.length)).bind fun e => .ok (e, context)
      else if c = 102 then (parse_false text (b + w.length)).bind fun e => .ok (e, context)
      else if c = 63 then
        if context.count = JP_MAX_PLACEHOLDERS then
          Outcome.throw "too many placeholder values"
        else
          (store_part { context with count := context.count + 1 } (context.count + 1)
            (b + w.length)).bind fun context => .ok (b + w.length + 1, context)
      else Outcome.throw "expected value") := by
  rw [parse_value]
  simp only [Outcome.bind_eq_bind]
  rw [h.skip_whitespace_eq hw (fun c' l hl => by
    simp only [List.cons.injEq] at hl; rw [← hl.1]; exact hc)]
  simp only [Outcome.bind_ok]
  rw [h.add.rd_eq]
  simp only [Outcome.bind_ok]

theorem fuel_succ {m n : Nat} (h : n + 1 ≤ m) : ∃ f, m = f + 1 :=
  ⟨m - 1, by omega⟩

theorem placeholder_parses : ValueParses [63] 1 := by
  intro fuel text b w post context hw h _ hc hfuel
  obtain ⟨f, rfl⟩ := fuel_succ hfuel
  rw [parse_value_head context hw h (by unfold Spec.ws_byte; omega)]
  simp only [show ¬ (63 = 91) by omega, show ¬ (63 = 123) by omega, show ¬ (63 = 34) by omega,
    show ¬ (63 = 110) by omega, show ¬ (63 = 116) by omega, show ¬ (63 = 102) by omega,
    show (decide (63 = 45) || is_decimal 63) = false by decide, if_false, if_true,
    Bool.false_eq_true]
  unfold Expect
  by_cases hk : context.count + 1 ≤ JP_MAX_PLACEHOLDERS
  · rw [if_pos hk, if_neg (by omega)]
    unfold store_part
    rw [if_pos (by omega)]
    exact ⟨_, rfl, rfl⟩
  · rw [if_neg hk, if_pos (by omega)]

theorem null_parses : ValueParses [110, 117, 108, 108] 0 := by
  intro fuel text b w post context hw h _ hc hfuel
  obtain ⟨f, rfl⟩ := fuel_succ hfuel
  rw [parse_value_head context hw h (by unfold Spec.ws_byte; omega)]
  simp only [show ¬ (110 = 91) by omega, show ¬ (110 = 123) by omega,
    show ¬ (110 = 34) by omega,
    show (decide (110 = 45) || is_decimal 110) = false by decide, if_false, if_true,
    Bool.false_eq_true]
  rw [parse_null_complete h.add]
  exact Expect.of_ok rfl hc

theorem true_parses : ValueParses [116, 114, 117, 101] 0 := by
  intro fuel text b w post context hw h _ hc hfuel
  obtain ⟨f, rfl⟩ := fuel_succ hfuel
  rw [parse_value_head context hw h (by unfold Spec.ws_byte; omega)]
  simp only [show ¬ (116 = 91) by omega, show ¬ (116 = 123) by omega,
    show ¬ (116 = 34) by omega, show ¬ (116 = 110) by omega,
    show (decide (116 = 45) || is_decimal 116) = false by decide, if_false, if_true,
    Bool.false_eq_true]
  rw [parse_true_complete h.add]
  exact Expect.of_ok rfl hc

theorem false_parses : ValueParses [102, 97, 108, 115, 101] 0 := by
  intro fuel text b w post context hw h _ hc hfuel
  obtain ⟨f, rfl⟩ := fuel_succ hfuel
  rw [parse_value_head context hw h (by unfold Spec.ws_byte; omega)]
  simp only [show ¬ (102 = 91) by omega, show ¬ (102 = 123) by omega,
    show ¬ (102 = 34) by omega, show ¬ (102 = 110) by omega, show ¬ (102 = 116) by omega,
    show (decide (102 = 45) || is_decimal 102) = false by decide, if_false, if_true,
    Bool.false_eq_true]
  rw [parse_false_complete h.add]
  exact Expect.of_ok rfl hc

theorem string_parses {s : List Nat} (hs : Spec.IsString s) : ValueParses s 0 := by
  intro fuel text b w post context hw h _ hc hfuel
  obtain ⟨f, rfl⟩ := fuel_succ hfuel
  have hs' := hs
  obtain ⟨body, _, rfl⟩ := hs
  rw [parse_value_head context hw (by simpa using h) (by unfold Spec.ws_byte; omega)]
  simp only [show ¬ (34 = 91) by omega, show ¬ (34 = 123) by omega, if_false, if_true]
  rw [parse_string_complete hs' h.add]
  exact Expect.of_ok rfl hc

theorem number_parses {s : List Nat} (hs : Spec.IsNumber s) : ValueParses s 0 := by
  intro fuel text b w post context hw h hf hc hfuel
  obtain ⟨f, rfl⟩ := fuel_succ hfuel
  obtain ⟨c, rest, hcr, hws, _, _⟩ := (Spec.Value.number hs).head_byte
  have hnum := parse_number_complete hs hf h.add
  have hc' : (c = 45 ∨ Spec.digit c) := by
    obtain ⟨sign, i, fr, e, hsign, hi, _, _, rfl⟩ := hs
    obtain ⟨d, ds, rfl, hd⟩ := integer_head hi
    rcases hsign with rfl | rfl
    · simp only [List.nil_append, List.cons_append, List.cons.injEq] at hcr
      exact Or.inr (hcr.1 ▸ hd)
    · simp only [List.cons_append, List.cons.injEq] at hcr
      exact Or.inl hcr.1.symm
  subst hcr
  rw [parse_value_head context hw (by simpa using h) hws]
  have h1 : (decide (c = 45) || is_decimal c) = true := by
    rcases hc' with rfl | hd
    · rfl
    · simp [(is_decimal_iff c).mpr hd]
  have h2 : c ≠ 91 ∧ c ≠ 123 ∧ c ≠ 34 := by
    rcases hc' with rfl | hd
    · omega
    · unfold Spec.digit at hd; omega
  simp only [h2.1, h2.2.1, h2.2.2, h1, if_false, if_true]
  rw [hnum]
  exact Expect.of_ok rfl hc

theorem ws_93 : ¬ Spec.ws_byte 93 := by unfold Spec.ws_byte; omega
theorem ws_125 : ¬ Spec.ws_byte 125 := by unfold Spec.ws_byte; omega
theorem ws_44 : ¬ Spec.ws_byte 44 := by unfold Spec.ws_byte; omega
theorem ws_58 : ¬ Spec.ws_byte 58 := by unfold Spec.ws_byte; omega
theorem ws_34 : ¬ Spec.ws_byte 34 := by unfold Spec.ws_byte; omega

theorem head_not_ws {c : Nat} {rest : List Nat} (hc : ¬ Spec.ws_byte c) :
    ∀ c' l, c :: rest = c' :: l → ¬ Spec.ws_byte c' := by
  intro c' l hl
  simp only [List.cons.injEq] at hl
  rw [← hl.1]; exact hc

theorem follow_of_head {c : Nat} {w rest : List Nat} (hw : Spec.Ws w)
    (hc : c = 93 ∨ c = 125 ∨ c = 44 ∨ c = 0) : Spec.Follow (w ++ c :: rest) := by
  intro c' l hl
  have : Spec.ws_byte c' ∨ c' = 93 ∨ c' = 125 ∨ c' = 44 ∨ c' = 0 := by
    cases w with
    | nil =>
      simp only [List.nil_append, List.cons.injEq] at hl
      rw [← hl.1]; exact Or.inr hc
    | cons a w' =>
      simp only [List.cons_append, List.cons.injEq] at hl
      rw [← hl.1]; exact Or.inl (hw a (List.mem_cons_self _ _))
  unfold Spec.ws_byte at this
  unfold Spec.digit
  omega

theorem parse_array_empty {f : Nat} {text : List Nat} {b : Nat} {w post : List Nat}
    (context : json_print_context) (hw : Spec.Ws w) (h : At text b (91 :: (w ++ 93 :: post))) :
    parse_array (f + 1) text b context = .ok (b + 1 + w.length + 1, context) := by
  rw [parse_array]
  simp only [Outcome.bind_eq_bind]
  rw [h.succ.skip_whitespace_eq hw (head_not_ws ws_93)]
  simp only [Outcome.bind_ok]
  rw [if_neg h.succ.add.ne_length, h.succ.add.rd_eq]
  simp only [Outcome.bind_ok, if_true]

theorem parse_array_nonempty {f : Nat} {text : List Nat} {b c : Nat} {w rest : List Nat}
    (context : json_print_context) (hw : Spec.Ws w) (h : At text b (91 :: (w ++ c :: rest)))
    (hc : ¬ Spec.ws_byte c) (h93 : c ≠ 93) :
    parse_array (f + 1) text b context = parse_array_loop f text (b + 1 + w.length) context := by
  rw [parse_array]
  simp only [Outcome.bind_eq_bind]
  rw [h.succ.skip_whitespace_eq hw (head_not_ws hc)]
  simp only [Outcome.bind_ok]
  rw [if_neg h.succ.add.ne_length, h.succ.add.rd_eq]
  simp only [Outcome.bind_ok, h93, if_false]

theorem parse_object_empty {f : Nat} {text : List Nat} {b : Nat} {w post : List Nat}
    (context : json_print_context) (hw : Spec.Ws w)
    (h : At text b (123 :: (w ++ 125 :: post))) :
    parse_object (f + 1) text b context = .ok (b + 1 + w.length + 1, context) := by
  rw [parse_object]
  simp only [Outcome.bind_eq_bind]
  rw [h.succ.skip_whitespace_eq hw (head_not_ws ws_125)]
  simp only [Outcome.bind_ok]
  rw [if_neg h.succ.add.ne_length, h.succ.add.rd_eq]
  simp only [Outcome.bind_ok, if_true]

theorem parse_object_nonempty {f : Nat} {text : List Nat} {b : Nat} {w rest : List Nat}
    (context : json_print_context) (hw : Spec.Ws w)
    (h : At text b (123 :: (w ++ 34 :: rest))) :
    parse_object (f + 1) text b context
      = parse_object_loop f text (b + 1 + w.length) context := by
  rw [parse_object]
  simp only [Outcome.bind_eq_bind]
  rw [h.succ.skip_whitespace_eq hw (head_not_ws ws_34)]
  simp only [Outcome.bind_ok]
  rw [if_neg h.succ.add.ne_length, h.succ.add.rd_eq]
  simp only [Outcome.bind_ok, show ¬ (34 = 125) by omega, ne_eq, not_true_eq_false, if_false]

theorem empty_array_parses {w' : List Nat} (hw' : Spec.Ws w') :
    ValueParses (91 :: (w' ++ [93])) 0 := by
  intro fuel text b w post context hw h _ hc hfuel
  obtain ⟨f, rfl⟩ := fuel_succ hfuel
  have h' : At text b (w ++ 91 :: (w' ++ 93 :: post)) := by simpa using h
  have hlen := h'.add.length
  simp only [List.length_cons] at hlen
  obtain ⟨f', rfl⟩ := fuel_succ (n := 0) (m := f) (by omega)
  rw [parse_value_head context hw h' (by unfold Spec.ws_byte; omega)]
  simp only [if_true]
  rw [parse_array_empty context hw' h'.add]
  have e : b + w.length + (91 :: (w' ++ [93])).length = b + w.length + 1 + w'.length + 1 := by
    simp only [List.length_cons, List.length_append, List.length_nil]; omega
  rw [e]; exact Expect.of_ok rfl hc

theorem empty_object_parses {w' : List Nat} (hw' : Spec.Ws w') :
    ValueParses (123 :: (w' ++ [125])) 0 := by
  intro fuel text b w post context hw h _ hc hfuel
  obtain ⟨f, rfl⟩ := fuel_succ hfuel
  have h' : At text b (w ++ 123 :: (w' ++ 125 :: post)) := by simpa using h
  have hlen := h'.add.length
  simp only [List.length_cons] at hlen
  obtain ⟨f', rfl⟩ := fuel_succ (n := 0) (m := f) (by omega)
  rw [parse_value_head context hw h' (by unfold Spec.ws_byte; omega)]
  simp only [show ¬ (123 = 91) by omega, if_false, if_true]
  rw [parse_object_empty context hw' h'.add]
  have e : b + w.length + (123 :: (w' ++ [125])).length = b + w.length + 1 + w'.length + 1 := by
    simp only [List.length_cons, List.length_append, List.length_nil]; omega
  rw [e]; exact Expect.of_ok rfl hc

theorem array_parses {w' es : List Nat} {k : Nat} (hw' : Spec.Ws w')
    (he : Spec.Elements es k) (ih : ElementsParse es k) :
    ValueParses (91 :: (w' ++ (es ++ [93]))) k := by
  intro fuel text b w post context hw h _ hc hfuel
  obtain ⟨f, rfl⟩ := fuel_succ hfuel
  obtain ⟨c, rest, rfl, hcw, hc93⟩ := he.head_element
  have h' : At text b (w ++ 91 :: (w' ++ c :: (rest ++ 93 :: post))) := by simpa using h
  have hlen := h'.add.length
  simp only [List.length_cons] at hlen
  obtain ⟨f', rfl⟩ := fuel_succ (n := 0) (m := f) (by omega)
  rw [parse_value_head context hw h' (by unfold Spec.ws_byte; omega)]
  simp only [if_true]
  rw [parse_array_nonempty context hw' h'.add hcw hc93]
  have h2 : At text (b + w.length + 1 + w'.length) ([] ++ ((c :: rest) ++ 93 :: post)) := by
    simpa using h'.add.succ.add
  have := ih f' text _ [] post context (by intro x hx; cases hx) h2 hc (by omega)
  simp only [List.length_nil, Nat.add_zero] at this
  have e : b + w.length + (91 :: (w' ++ (c :: rest ++ [93]))).length
      = b + w.length + 1 + w'.length + (c :: rest).length + 1 := by
    simp only [List.length_cons, List.length_append, List.length_nil]; omega
  rw [e]; exact this

theorem object_parses {w' ms : List Nat} {k : Nat} (hw' : Spec.Ws w')
    (hm : Spec.Members ms k) (ih : MembersParse ms k) :
    ValueParses (123 :: (w' ++ (ms ++ [125]))) k := by
  intro fuel text b w post context hw h _ hc hfuel
  obtain ⟨f, rfl⟩ := fuel_succ hfuel
  obtain ⟨rest, rfl⟩ := hm.head_quote
  have h' : At text b (w ++ 123 :: (w' ++ 34 :: (rest ++ 125 :: post))) := by simpa using h
  have hlen := h'.add.length
  simp only [List.length_cons] at hlen
  obtain ⟨f', rfl⟩ := fuel_succ (n := 0) (m := f) (by omega)
  rw [parse_value_head context hw h' (by unfold Spec.ws_byte; omega)]
  simp only [show ¬ (123 = 91) by omega, if_false, if_true]
  rw [parse_object_nonempty context hw' h'.add]
  have h2 : At text (b + w.length + 1 + w'.length) ((34 :: rest) ++ 125 :: post) := by
    simpa using h'.add.succ.add
  have := ih f' text _ post context h2 hc (by omega)
  have e : b + w.length + (123 :: (w' ++ (34 :: rest ++ [125]))).length
      = b + w.length + 1 + w'.length + (34 :: rest).length + 1 := by
    simp only [List.length_cons, List.length_append, List.length_nil]; omega
  rw [e]; exact this

theorem elements_last_parses {v w1 : List Nat} {k : Nat} (_ : Spec.Value v k)
    (hw1 : Spec.Ws w1) (ih : ValueParses v k) : ElementsParse (v ++ w1) k := by
  intro fuel text b w post context hw h hc hfuel
  obtain ⟨f, rfl⟩ := fuel_succ hfuel
  have h' : At text b (w ++ (v ++ (w1 ++ 93 :: post))) := by simpa using h
  have h1 : At text (b + w.length + v.length) (w1 ++ 93 :: post) := h'.add.add
  rw [parse_array_loop]
  simp only [Outcome.bind_eq_bind]
  rw [← Nat.add_zero k]
  refine Expect.bind_expect (p := b + w.length + v.length)
    (ih f text b w _ context hw h' (follow_of_head hw1 (Or.inl rfl)) hc (by omega))
    (fun context1 hc1 hk => ?_)
  dsimp only
  rw [h1.skip_whitespace_eq hw1 (head_not_ws ws_93)]
  simp only [Outcome.bind_ok]
  rw [if_neg h1.add.ne_length, h1.add.rd_eq]
  simp only [Outcome.bind_ok, if_true]
  have e : b + w.length + (v ++ w1).length + 1 = b + w.length + v.length + w1.length + 1 := by
    simp only [List.length_append]; omega
  rw [e, ← hc1]
  exact Expect.of_ok rfl (by omega)

theorem elements_more_parses {v w1 w2 es : List Nat} {k k' : Nat} (hv : Spec.Value v k)
    (hw1 : Spec.Ws w1) (hw2 : Spec.Ws w2) (ihv : ValueParses v k) (ihe : ElementsParse es k') :
    ElementsParse (v ++ (w1 ++ 44 :: (w2 ++ es))) (k + k') := by
  intro fuel text b w post context hw h hc hfuel
  obtain ⟨f, rfl⟩ := fuel_succ hfuel
  have h' : At text b (w ++ (v ++ (w1 ++ 44 :: (w2 ++ (es ++ 93 :: post))))) := by
    simpa using h
  have h1 : At text (b + w.length + v.length) (w1 ++ 44 :: (w2 ++ (es ++ 93 :: post))) :=
    h'.add.add
  obtain ⟨c, rest, hcr, _, _, _⟩ := hv.head_byte
  have hvlen : 0 < v.length := by rw [hcr]; simp
  have hlen := h1.add.length
  simp only [List.length_cons] at hlen
  rw [parse_array_loop]
  simp only [Outcome.bind_eq_bind]
  refine Expect.bind_expect (p := b + w.length + v.length)
    (ihv f text b w _ context hw h' (follow_of_head hw1 (Or.inr (Or.inr (Or.inl rfl)))) hc (by omega))
    (fun context1 hc1 hk => ?_)
  dsimp only
  rw [h1.skip_whitespace_eq hw1 (head_not_ws ws_44)]
  simp only [Outcome.bind_ok]
  rw [if_neg h1.add.ne_length, h1.add.rd_eq]
  simp only [Outcome.bind_ok, show ¬ (44 = 93) by omega, ne_eq, not_true_eq_false, if_false]
  have := ihe f text _ w2 post context1 hw2 h1.add.succ (by omega) (by omega)
  have e : b + w.length + (v ++ (w1 ++ 44 :: (w2 ++ es))).length + 1
      = b + w.length + v.length + w1.length + 1 + w2.length + es.length + 1 := by
    simp only [List.length_append, List.length_cons]; omega
  rw [e, ← hc1]
  exact this

theorem members_last_parses {n w1 w2 v w3 : List Nat} {k : Nat} (hn : Spec.IsString n)
    (hw1 : Spec.Ws w1) (hw2 : Spec.Ws w2) (_ : Spec.Value v k) (hw3 : Spec.Ws w3)
    (ih : ValueParses v k) : MembersParse (n ++ (w1 ++ 58 :: (w2 ++ (v ++ w3)))) k := by
  intro fuel text b post context h hc hfuel
  obtain ⟨f, rfl⟩ := fuel_succ hfuel
  have h' : At text b (n ++ (w1 ++ 58 :: (w2 ++ (v ++ (w3 ++ 125 :: post))))) := by
    simpa using h
  have h1 : At text (b + n.length) (w1 ++ 58 :: (w2 ++ (v ++ (w3 ++ 125 :: post)))) := h'.add
  have h2 := h1.add
  have h3 : At text (b + n.length + w1.length + 1 + w2.length + v.length)
      (w3 ++ 125 :: post) := h2.succ.add.add
  rw [parse_object_loop]
  simp only [Outcome.bind_eq_bind]
  rw [parse_string_complete hn h']
  simp only [Outcome.bind_ok]
  rw [h1.skip_whitespace_eq hw1 (head_not_ws ws_58)]
  simp only [Outcome.bind_ok]
  rw [if_neg h2.ne_length, h2.rd_eq]
  simp only [Outcome.bind_ok, ne_eq, not_true_eq_false, if_false]
  rw [← Nat.add_zero k]
  refine Expect.bind_expect (p := b + n.length + w1.length + 1 + w2.length + v.length)
    (ih f text _ w2 _ context hw2 h2.succ (follow_of_head hw3 (Or.inr (Or.inl rfl))) hc
      (by omega))
    (fun context1 hc1 hk => ?_)
  dsimp only
  rw [h3.skip_whitespace_eq hw3 (head_not_ws ws_125)]
  simp only [Outcome.bind_ok]
  rw [if_neg h3.add.ne_length, h3.add.rd_eq]
  simp only [Outcome.bind_ok, if_true]
  have e : b + (n ++ (w1 ++ 58 :: (w2 ++ (v ++ w3)))).length + 1
      = b + n.length + w1.length + 1 + w2.length + v.length + w3.length + 1 := by
    simp only [List.length_append, List.length_cons]; omega
  rw [e, ← hc1]
  exact Expect.of_ok rfl (by omega)

theorem members_more_parses {n w1 w2 v w3 w4 ms : List Nat} {k k' : Nat}
    (hn : Spec.IsString n) (hw1 : Spec.Ws w1) (hw2 : Spec.Ws w2) (_ : Spec.Value v k)
    (hw3 : Spec.Ws w3) (hw4 : Spec.Ws w4) (hm : Spec.Members ms k')
    (ihv : ValueParses v k) (ihm : MembersParse ms k') :
    MembersParse (n ++ (w1 ++ 58 :: (w2 ++ (v ++ (w3 ++ 44 :: (w4 ++ ms)))))) (k + k') := by
  intro fuel text b post context h hc hfuel
  obtain ⟨f, rfl⟩ := fuel_succ hfuel
  obtain ⟨rest, rfl⟩ := hm.head_quote
  have h' : At text b (n ++ (w1 ++ 58 :: (w2 ++ (v ++ (w3 ++ 44 :: (w4 ++
      (34 :: (rest ++ 125 :: post)))))))) := by
    simpa using h
  have h1 := h'.add
  have h2 := h1.add
  have h3 : At text (b + n.length + w1.length + 1 + w2.length + v.length)
      (w3 ++ 44 :: (w4 ++ (34 :: (rest ++ 125 :: post)))) := h2.succ.add.add
  have h4 := h3.add
  have h5 := h4.succ.add
  have hlen := h5.length
  simp only [List.length_cons] at hlen
  rw [parse_object_loop]
  simp only [Outcome.bind_eq_bind]
  rw [parse_string_complete hn h']
  simp only [Outcome.bind_ok]
  rw [h1.skip_whitespace_eq hw1 (head_not_ws ws_58)]
  simp only [Outcome.bind_ok]
  rw [if_neg h2.ne_length, h2.rd_eq]
  simp only [Outcome.bind_ok, ne_eq, not_true_eq_false, if_false]
  refine Expect.bind_expect (p := b + n.length + w1.length + 1 + w2.length + v.length)
    (ihv f text _ w2 _ context hw2 h2.succ (follow_of_head hw3 (Or.inr (Or.inr (Or.inl rfl)))) hc
      (by omega))
    (fun context1 hc1 hk => ?_)
  dsimp only
  rw [h3.skip_whitespace_eq hw3 (head_not_ws ws_44)]
  simp only [Outcome.bind_ok]
  rw [if_neg h4.ne_length, h4.rd_eq]
  simp only [Outcome.bind_ok, show ¬ (44 = 125) by omega, ne_eq, not_true_eq_false, if_false]
  rw [h4.succ.skip_whitespace_eq hw4 (head_not_ws ws_34)]
  simp only [Outcome.bind_ok]
  have := ihm f text _ post context1 (by simpa using h5) (by omega) (by omega)
  have e : b + (n ++ (w1 ++ 58 :: (w2 ++ (v ++ (w3 ++ 44 :: (w4 ++ 34 :: rest)))))).length + 1
      = b + n.length + w1.length + 1 + w2.length + v.length + w3.length + 1 + w4.length
        + (34 :: rest).length + 1 := by
    simp only [List.length_append, List.length_cons]; omega
  rw [e, ← hc1]
  exact this

/-- Every derivation of the grammar is accepted by the parser function of its rule. -/
theorem value_parses {s : List Nat} {k : Nat} (h : Spec.Value s k) : ValueParses s k :=
  @Spec.Value.rec
    (fun s k _ => ValueParses s k)
    (fun es k _ => ElementsParse es k)
    (fun ms k _ => MembersParse ms k)
    placeholder_parses null_parses true_parses false_parses
    (fun hs => string_parses hs) (fun hn => number_parses hn)
    (fun hw => empty_array_parses hw)
    (fun hw he ih => array_parses hw he ih)
    (fun hw => empty_object_parses hw)
    (fun hw hm ih => object_parses hw hm ih)
    (fun hv hw ih => elements_last_parses hv hw ih)
    (fun hv hw1 hw2 _ ihv ihe => elements_more_parses hv hw1 hw2 ihv ihe)
    (fun hn hw1 hw2 hv hw3 ih => members_last_parses hn hw1 hw2 hv hw3 ih)
    (fun hn hw1 hw2 hv hw3 hw4 hm ihv ihm =>
      members_more_parses hn hw1 hw2 hv hw3 hw4 hm ihv ihm)
    s k h

/-- The outcome of `compile` on a NUL-terminated template that the grammar derives. -/
theorem compile_template {text : List Nat} {k : Nat} (h : Spec.Template text k) :
    if k ≤ JP_MAX_PLACEHOLDERS then
      ∃ context, compile (text ++ [0]) = .ok context ∧ context.count = k + 1
    else compile (text ++ [0]) = .throw "too many placeholder values" := by
  obtain ⟨w1, v, w2, hw1, hv, hw2, rfl⟩ := h
  have hat : At (w1 ++ (v ++ w2) ++ [0]) 0 (w1 ++ (v ++ (w2 ++ [0]))) :=
    ⟨by simp, Nat.zero_le _⟩
  have hp := value_parses hv (compile_fuel (w1 ++ (v ++ w2) ++ [0])) _ 0 w1 (w2 ++ [0])
    ⟨parts_of [], 0⟩ hw1 hat (follow_of_head hw2 (Or.inr (Or.inr (Or.inr rfl))))
    (Nat.zero_le _) (by unfold compile_fuel; omega)
  have h0 : store_part context_zero 0 0 = .ok ⟨parts_of [], 0⟩ := by decide
  unfold compile
  simp only [Outcome.bind_eq_bind]
  rw [h0, Outcome.bind_ok]
  unfold Expect at hp
  simp only [Nat.zero_add] at hp
  split
  · next hk =>
    rw [if_pos hk] at hp
    obtain ⟨context1, hr, hc1⟩ := hp
    rw [hr, Outcome.bind_ok]
    dsimp only
    have h1 : At (w1 ++ (v ++ w2) ++ [0]) (w1.length + v.length) (w2 ++ [0]) := by
      have := hat.add.add
      simpa using this
    rw [h1.skip_whitespace_eq hw2 (head_not_ws (by unfold Spec.ws_byte; omega))]
    simp only [Outcome.bind_ok]
    rw [h1.add.at_is_eq]
    simp only [Outcome.bind_ok, beq_self_eq_true, if_true]
    have hlen := h1.add.length
    simp only [List.length_cons, List.length_nil] at hlen
    rw [if_neg (by omega)]
    unfold store_part
    rw [if_pos (by unfold JP_MAX_PLACEHOLDERS at *; omega)]
    exact ⟨_, rfl, by simp [hc1]⟩
  · next hk =>
    rw [if_neg hk] at hp
    rw [hp]; rfl

/-- C2: a NUL-terminated text that is a JSON value with `?` allowed as a value (between
optional whitespace) and that has `k` placeholders in value positions, `k` at most 14,
compiles, and the returned context has `count = k + 1`. -/
theorem compile_accepts_grammar (text : List Nat) (k : Nat) (h : Spec.Template text k)
    (hk : k ≤ 14) :
    ∃ context, compile (text ++ [0]) = .ok context ∧ context.count = k + 1 := by
  have := compile_template h
  rw [if_pos (by unfold JP_MAX_PLACEHOLDERS; omega)] at this
  exact this

/-- C2, at the template `[?, 1]`. -/
theorem compile_accepts_grammar_witness :
    Spec.Template (bytes "[?, 1]") 1 ∧ 1 ≤ 14 ∧
      ∃ context, compile (bytes "[?, 1]" ++ [0]) = .ok context ∧ context.count = 1 + 1 :=
  have ws_nil : Spec.Ws [] := fun _ h => nomatch h
  have ws_sp : Spec.Ws [32] := fun c h => by
    simp only [List.mem_singleton] at h; subst h; exact Or.inl rfl
  have one : Spec.IsNumber [49] :=
    ⟨[], [49], [], [], Or.inl rfl, Or.inr ⟨49, [], by omega, by omega, (fun _ h => nomatch h), rfl⟩,
      Or.inl rfl, Or.inl rfl, rfl⟩
  have tpl : Spec.Template (bytes "[?, 1]") 1 :=
    ⟨[], _, [], ws_nil,
      Spec.Value.array ws_nil
        (Spec.Elements.more Spec.Value.placeholder ws_nil ws_sp
          (Spec.Elements.last (Spec.Value.number one) ws_nil)),
      ws_nil, by decide⟩
  ⟨tpl, by omega, compile_accepts_grammar (bytes "[?, 1]") 1 tpl (by omega)⟩

/-- C5: the placeholder ceiling is `JP_MAX_PLACEHOLDERS = 14`.  A NUL-terminated template
that the grammar derives compiles with `count = 15` when it has exactly 14 placeholders
and fails with "too many placeholder values" when it has 15 or more; and no run of
`compile`, successful or not, stores to `parts` outside its `JP_MAX_PLACEHOLDERS + 2`
slots. -/
theorem placeholder_ceiling :
    JP_MAX_PLACEHOLDERS = 14 ∧
    (∀ text, Spec.Template text 14 →
      ∃ context, compile (text ++ [0]) = .ok context ∧ context.count = 15) ∧
    (∀ text k, Spec.Template text k → 15 ≤ k →
      compile (text ++ [0]) = .throw "too many placeholder values") ∧
    (∀ text, compile text ≠ .undefined .write_outside) := by
  refine ⟨rfl, fun text h => ?_, fun text k h hk => ?_, fun text h => ?_⟩
  · have := compile_template h
    rw [if_pos (by unfold JP_MAX_PLACEHOLDERS; omega)] at this
    exact this
  · have := compile_template h
    rw [if_neg (by unfold JP_MAX_PLACEHOLDERS; omega)] at this
    exact this
  · have := compile_sat text
    rw [h] at this
    cases this

/-- C5, at the template with 14 placeholders in one array. -/
theorem placeholder_ceiling_witness :
    Spec.Template (bytes "[?,?,?,?,?,?,?,?,?,?,?,?,?,?]") 14 ∧
      ∃ context, compile (bytes "[?,?,?,?,?,?,?,?,?,?,?,?,?,?]" ++ [0]) = .ok context ∧
        context.count = 15 :=
  have ws_nil : Spec.Ws [] := fun _ h => nomatch h
  have tpl : Spec.Template (bytes "[?,?,?,?,?,?,?,?,?,?,?,?,?,?]") 14 :=
    ⟨[], _, [], ws_nil,
      Spec.Value.array ws_nil
        (Spec.Elements.more Spec.Value.placeholder ws_nil ws_nil
        (Spec.Elements.more Spec.Value.placeholder ws_nil ws_nil
        (Spec.Elements.more Spec.Value.placeholder ws_nil ws_nil
        (Spec.Elements.more Spec.Value.placeholder ws_nil ws_nil
        (Spec.Elements.more Spec.Value.placeholder ws_nil ws_nil
        (Spec.Elements.more Spec.Value.placeholder ws_nil ws_nil
        (Spec.Elements.more Spec.Value.placeholder ws_nil ws_nil
        (Spec.Elements.more Spec.Value.placeholder ws_nil ws_nil
        (Spec.Elements.more Spec.Value.placeholder ws_nil ws_nil
        (Spec.Elements.more Spec.Value.placeholder ws_nil ws_nil
        (Spec.Elements.more Spec.Value.placeholder ws_nil ws_nil
        (Spec.Elements.more Spec.Value.placeholder ws_nil ws_nil
        (Spec.Elements.more Spec.Value.placeholder ws_nil ws_nil
        (Spec.Elements.last Spec.Value.placeholder ws_nil)))))))))))))),
      ws_nil, by decide⟩
  ⟨tpl, placeholder_ceiling.2.1 _ tpl⟩

/-! ## The two sinks receive the same bytes while the buffer has room -/

theorem poke_take (mem : List Nat) (pos : Nat) (data extra : List Nat)
    (h : pos ≤ mem.length) :
    (poke mem pos (data ++ extra)).take (pos + data.length) = mem.take pos ++ data := by
  unfold poke
  have h1 : (mem.take pos ++ data).length = pos + data.length := by
    simp only [List.length_append, List.length_take]; omega
  have h2 : mem.take pos ++ (data ++ extra) ++ mem.drop (pos + (data ++ extra).length)
      = (mem.take pos ++ data) ++ (extra ++ mem.drop (pos + (data ++ extra).length)) := by
    simp only [List.append_assoc]
  rw [h2, List.take_left' h1]

theorem poke_length (mem : List Nat) (pos : Nat) (data : List Nat) (h : pos ≤ mem.length) :
    pos + data.length ≤ (poke mem pos data).length := by
  unfold poke
  simp only [List.length_append, List.length_take, List.length_drop]
  omega

theorem Dest.cap_file {dest : Dest} {f : List Nat} (h : dest.cap = (Dest.file f).cap) :
    ∃ f', dest = .file f' := by
  cases dest with
  | buffer b => simp [Dest.cap] at h
  | file f' => exact ⟨f', rfl⟩

theorem write_char_writes (c : Nat) : Writes (fun d => .ok (write_char d c)) [c] := by
  intro dest m hroom
  cases dest with
  | file f => exact ⟨_, rfl, rfl, trivial, rfl⟩
  | buffer b =>
    obtain ⟨h1, h2, h3⟩ := hroom
    simp only [List.length_singleton] at h2
    refine ⟨.buffer { b with mem := poke b.mem b.pos [c], pos := b.pos + 1 }, ?_, ?_, ?_, rfl⟩
    · simp only [write_char]; rw [if_pos (by omega)]
    · simpa using poke_take b.mem b.pos [c] [] h1
    · show _ ∧ _ ∧ _
      refine ⟨?_, ?_, h3⟩
      · simpa using poke_length b.mem b.pos [c] h1
      · show b.pos + 1 + m < b.cap
        omega

theorem write_string_writes (data : List Nat) :
    Writes (fun d => .ok (write_string d data).1) data := by
  intro dest m hroom
  cases dest with
  | file f => exact ⟨_, rfl, rfl, trivial, rfl⟩
  | buffer b =>
    obtain ⟨h1, h2, h3⟩ := hroom
    have hmin : min data.length (b.cap - b.pos) = data.length := by omega
    refine ⟨.buffer { b with mem := poke b.mem b.pos data, pos := b.pos + data.length },
      ?_, ?_, ?_, rfl⟩
    · simp only [write_string, hmin, List.take_length]
    · simpa using poke_take b.mem b.pos data [] h1
    · show _ ∧ _ ∧ _
      refine ⟨poke_length b.mem b.pos data h1, ?_, h3⟩
      show b.pos + data.length + m < b.cap
      omega

theorem c_str_eq_self {text : List Nat} (h : ∀ c ∈ text, c ≠ 0) : c_str text = text := by
  unfold c_str
  rw [List.takeWhile_eq_self_iff]
  intro c hc
  simpa using h c hc

theorem write_string_unsafe_writes (text : List Nat) (h : ∀ c ∈ text, c ≠ 0) :
    Writes (fun d => .ok ( write_string_unsafe d text).1) text := by
  intro dest m hroom
  cases dest with
  | file f =>
    refine ⟨_, rfl, ?_, trivial, rfl⟩
    simp only [ write_string_unsafe, Dest.written, c_str_eq_self h]
  | buffer b =>
    have := write_string_writes text (.buffer b) m hroom
    simpa only [ write_string_unsafe, c_str_eq_self h] using this

theorem to_int_of_lt {x : Int} (h0 : 0 ≤ x) (h1 : x ≤ 2147483647) : to_int x = x := by
  unfold to_int; omega

theorem write_printf_writes {format : String} {arg : PrintfArg} {out : List Nat}
    (h : c_printf format arg = .ok out) :
    Writes (fun d => (write_printf d format arg).bind fun r => .ok r.1) out := by
  intro dest m hroom
  cases dest with
  | file f =>
    refine ⟨.file (f ++ out), ?_, rfl, trivial, rfl⟩
    simp only [write_printf, h, Outcome.bind_ok]
  | buffer b =>
    obtain ⟨h1, h2, h3⟩ := hroom
    unfold INT_MAX at h3
    have hmin : min (out.length : Int) (to_int ((b.cap : Int) - (b.pos : Int)))
        = (out.length : Int) := by
      rw [to_int_of_lt (by omega) (by omega)]; omega
    have hstore : snprintf_store b out = poke b.mem b.pos (out ++ [0]) := by
      unfold snprintf_store
      simp only
      rw [if_neg (by omega), List.take_of_length_le (by omega)]
    refine ⟨.buffer { b with mem := poke b.mem b.pos (out ++ [0]), pos := b.pos + out.length },
      ?_, ?_, ?_, rfl⟩
    · simp only [write_printf, h, Outcome.bind_ok, hmin, hstore]
      rw [if_neg (by omega)]
      simp only [Outcome.bind_ok]
      congr 3
    · exact poke_take b.mem b.pos out [0] h1
    · show _ ∧ _ ∧ _
      have := poke_length b.mem b.pos (out ++ [0]) h1
      simp only [List.length_append, List.length_singleton] at this
      refine ⟨?_, ?_, h3⟩
      · show b.pos + out.length ≤ (poke b.mem b.pos (out ++ [0])).length
        omega
      · show b.pos + out.length + m < b.cap
        omega

theorem Writes.bind_writes {F G : Dest → Outcome Dest} {o1 o2 : List Nat} (hF : Writes F o1)
    (hG : Writes G o2) : Writes (fun d => (F d).bind G) (o1 ++ o2) := by
  intro dest m hroom
  obtain ⟨d1, e1, w1, r1, c1⟩ := hF dest (o2.length + m)
    (by rw [List.length_append, Nat.add_assoc] at hroom; exact hroom)
  obtain ⟨d2, e2, w2, r2, c2⟩ := hG d1 m r1
  refine ⟨d2, by simp only [e1, Outcome.bind_ok, e2], ?_, r2, c2.trans c1⟩
  rw [w2, w1, List.append_assoc]

theorem Writes.nothing : Writes (fun d => .ok d) [] := by
  intro dest m hroom
  exact ⟨dest, rfl, by simp, by simpa using hroom, rfl⟩

theorem Writes.congr_writes {F G : Dest → Outcome Dest} {out : List Nat} (hF : Writes F out)
    (h : ∀ d, G d = F d) : Writes G out := by
  intro dest m hroom
  rw [h]; exact hF dest m hroom

theorem Writes.file {F : Dest → Outcome Dest} {out : List Nat} (hF : Writes F out)
    (f : List Nat) : F (.file f) = .ok (.file (f ++ out)) := by
  obtain ⟨d, e, w, _, c⟩ := hF (.file f) 0 trivial
  obtain ⟨f', rfl⟩ := Dest.cap_file c
  rw [e]
  simp only [Dest.written] at w
  rw [w]

/-! ## What `json_print_string` writes -/

theorem escape_action_writes (sgn : Bool) (c : Nat) :
    Writes (escape_action sgn c) (escape_text sgn c) := by
  unfold escape_action escape_text
  split
  · exact write_string_unsafe_writes [92, 34] (by decide)
  split
  · exact write_string_unsafe_writes [92, 92] (by decide)
  split
  · exact write_string_unsafe_writes [92, 98] (by decide)
  split
  · exact write_string_unsafe_writes [92, 102] (by decide)
  split
  · exact write_string_unsafe_writes [92, 110] (by decide)
  split
  · exact write_string_unsafe_writes [92, 114] (by decide)
  split
  · exact write_string_unsafe_writes [92, 116] (by decide)
  · exact write_printf_writes rfl

theorem json_print_string_loop_nil (sgn : Bool) (fuel : Nat) (dest : Dest) :
    json_print_string_loop sgn fuel [] dest = .ok dest := by
  cases fuel <;> rfl

/-- One iteration of the outer loop of `json_print_string` on a non-empty range. -/
theorem json_print_string_loop_cons (sgn : Bool) (fuel : Nat) (a : Nat) (t : List Nat)
    (dest : Dest) :
    json_print_string_loop sgn (fuel + 1) (a :: t) dest =
      match (a :: t).dropWhile (fun c => !is_special_character sgn c) with
      | [] => .ok (write_string dest
          ((a :: t).takeWhile (fun c => !is_special_character sgn c))).1
      | c :: rest =>
        if rest = [] ∧ c = 0 then
          .ok (write_string dest
            ((a :: t).takeWhile (fun c => !is_special_character sgn c))).1
        else
          (escape_action sgn c (write_string dest
            ((a :: t).takeWhile (fun c => !is_special_character sgn c))).1).bind
            fun dest => json_print_string_loop sgn fuel rest dest := rfl

theorem special_zero (sgn : Bool) : is_special_character sgn 0 = true := by
  cases sgn <;> decide

theorem string_body_run (sgn : Bool) (run rest : List Nat)
    (h : ∀ c ∈ run, is_special_character sgn c = false) :
    string_body sgn (run ++ rest) = run ++ string_body sgn rest := by
  induction run with
  | nil => rfl
  | cons a run ih =>
    have ha : is_special_character sgn a = false := h a (List.mem_cons_self _ _)
    have ha0 : a ≠ 0 := by
      intro h0; subst h0; rw [special_zero] at ha; cases ha
    have himg : byte_image sgn a = [a] := by simp [byte_image, ha]
    cases hr : run ++ rest with
    | nil =>
      have h1 : run = [] := (List.append_eq_nil.mp hr).1
      have h2 : rest = [] := (List.append_eq_nil.mp hr).2
      subst h1 h2
      simp [string_body, ha0, himg]
    | cons x l =>
      rw [List.cons_append, hr, string_body, ← hr, himg,
        ih (fun c hc => h c (List.mem_cons_of_mem _ hc))]
      · rfl
      · intro hx; cases hx

theorem string_body_special (sgn : Bool) (c : Nat) (rest : List Nat)
    (hc : is_special_character sgn c = true) (h : ¬ (rest = [] ∧ c = 0)) :
    string_body sgn (c :: rest) = escape_text sgn c ++ string_body sgn rest := by
  have himg : byte_image sgn c = escape_text sgn c := by simp [byte_image, hc]
  cases rest with
  | nil =>
    have : c ≠ 0 := fun h0 => h ⟨rfl, h0⟩
    simp [string_body, this, himg]
  | cons x l => rw [string_body, himg]; intro hx; cases hx

theorem dropWhile_head {p : Nat → Bool} {l : List Nat} {c : Nat} {rest : List Nat}
    (h : l.dropWhile p = c :: rest) : p c = false := by
  induction l with
  | nil => cases h
  | cons a l ih =>
    rw [List.dropWhile_cons] at h
    split at h
    · exact ih h
    · next hp =>
      simp only [List.cons.injEq] at h
      rw [← h.1]; simpa using hp

theorem dropWhile_length_le (p : Nat → Bool) (l : List Nat) :
    (l.dropWhile p).length ≤ l.length := by
  induction l with
  | nil => simp
  | cons a l ih =>
    rw [List.dropWhile_cons]
    split
    · simp only [List.length_cons]; omega
    · exact Nat.le_refl _

theorem json_print_string_loop_writes (sgn : Bool) :
    ∀ (n : Nat) (text : List Nat) (fuel : Nat), text.length ≤ n → text.length ≤ fuel →
      Writes (json_print_string_loop sgn fuel text) (string_body sgn text)
  | _, [], fuel, _, _ =>
    Writes.congr_writes Writes.nothing (fun d => json_print_string_loop_nil sgn fuel d)
  | 0, _ :: _, _, hn, _ => by simp at hn
  | _, _ :: _, 0, _, hf => by simp at hf
  | n + 1, a :: t, fuel + 1, hn, hf => by
    have hsplit := List.takeWhile_append_dropWhile
      (fun c => !is_special_character sgn c) (a :: t)
    have hrun : ∀ c ∈ (a :: t).takeWhile (fun c => !is_special_character sgn c),
        is_special_character sgn c = false := by
      intro c hc
      simpa using List.mem_takeWhile_imp hc
    have hlen := dropWhile_length_le (fun c => !is_special_character sgn c) (a :: t)
    have hstep := fun d => json_print_string_loop_cons sgn fuel a t d
    generalize (a :: t).takeWhile (fun c => !is_special_character sgn c) = run
      at hsplit hrun hstep
    cases hd : (a :: t).dropWhile (fun c => !is_special_character sgn c) with
    | nil =>
      rw [hd, List.append_nil] at hsplit
      subst hsplit
      have hb : string_body sgn (a :: t) = a :: t := by
        have := string_body_run sgn (a :: t) [] hrun
        rw [List.append_nil] at this
        rw [this]; simp [string_body]
      rw [hb]
      refine Writes.congr_writes (write_string_writes _) (fun d => ?_)
      rw [hstep, hd]
    | cons c rest =>
      rw [hd] at hsplit hlen
      have hc : is_special_character sgn c = true := by
        have := dropWhile_head hd
        simpa using this
      simp only [List.length_cons] at hlen hn hf
      by_cases hstop : rest = [] ∧ c = 0
      · have hb : string_body sgn (a :: t) = run := by
          rw [← hsplit, string_body_run sgn _ _ hrun, hstop.1, hstop.2]
          simp [string_body]
        rw [hb]
        refine Writes.congr_writes (write_string_writes _) (fun d => ?_)
        rw [hstep, hd]
        simp only [hstop, and_self, if_true]
      · have hb : string_body sgn (a :: t)
            = run ++ (escape_text sgn c ++ string_body sgn rest) := by
          rw [← string_body_special sgn c rest hc hstop, ← string_body_run sgn _ _ hrun,
            hsplit]
        rw [hb]
        refine Writes.congr_writes
          (Writes.bind_writes (write_string_writes _)
            (Writes.bind_writes (escape_action_writes sgn c)
              (json_print_string_loop_writes sgn n rest fuel (by omega) (by omega))))
          (fun d => ?_)
        rw [hstep, hd]
        simp only [hstop, if_false, Outcome.bind_ok]

/-- Everything `json_print_string` writes: a quote, the body, a quote. -/
theorem json_print_string_writes (sgn : Bool) (text : List Nat) :
    Writes (fun d => json_print_string sgn d text) (34 :: (string_body sgn text ++ [34])) := by
  have h := Writes.bind_writes (write_char_writes 34)
    (Writes.bind_writes (json_print_string_loop_writes sgn _ text text.length (Nat.le_refl _)
      (Nat.le_refl _)) (write_char_writes 34))
  refine Writes.congr_writes h (fun d => ?_)
  simp only [json_print_string, Outcome.bind_ok]

theorem write_string_nil (dest : Dest) : (write_string dest []).1 = dest := by
  cases dest with
  | file f => simp [write_string]
  | buffer b =>
    cases b with
    | mk cap mem pos => simp [write_string, poke]

/-- The outer loop of `json_print_string` on a run of ordinary bytes followed by the
special byte `c`. -/
theorem json_print_string_loop_step (sgn : Bool) (fuel : Nat) (run : List Nat) (c : Nat)
    (rest : List Nat) (dest : Dest)
    (hrun : ∀ x ∈ run, is_special_character sgn x = false)
    (hc : is_special_character sgn c = true) :
    json_print_string_loop sgn (fuel + 1) (run ++ c :: rest) dest =
      if rest = [] ∧ c = 0 then .ok (write_string dest run).1
      else (escape_action sgn c (write_string dest run).1).bind
        fun dest => json_print_string_loop sgn fuel rest dest := by
  have hp : ∀ x ∈ run, (fun c => !is_special_character sgn c) x = true := by
    intro x hx; simp [hrun x hx]
  have htake : (run ++ c :: rest).takeWhile (fun c => !is_special_character sgn c) = run := by
    rw [List.takeWhile_append_of_pos hp, List.takeWhile_cons_of_neg (by simp [hc])]
    simp
  have hdrop : (run ++ c :: rest).dropWhile (fun c => !is_special_character sgn c)
      = c :: rest := by
    rw [List.dropWhile_append_of_pos hp, List.dropWhile_cons_of_neg (by simp [hc])]
  cases hl : run ++ c :: rest with
  | nil => simp at hl
  | cons a t =>
    rw [json_print_string_loop_cons, ← hl, htake, hdrop]

/-- The outer loop of `json_print_string` on a run of ordinary bytes up to the end. -/
theorem json_print_string_loop_run (sgn : Bool) (fuel : Nat) (run : List Nat) (dest : Dest)
    (hrun : ∀ x ∈ run, is_special_character sgn x = false) :
    json_print_string_loop sgn (fuel + 1) run dest = .ok (write_string dest run).1 := by
  have hp : ∀ x ∈ run, (fun c => !is_special_character sgn c) x = true := by
    intro x hx; simp [hrun x hx]
  cases run with
  | nil => rw [json_print_string_loop_nil, write_string_nil]
  | cons a t =>
    rw [json_print_string_loop_cons, List.dropWhile_eq_nil_iff.mpr hp,
      List.takeWhile_eq_self_iff.mpr hp]

/-- Every text is a run of ordinary bytes, followed by nothing or by a special byte and
the rest. -/
theorem split_at_special (sgn : Bool) (t : List Nat) :
    ∃ run rest, t = run ++ rest ∧ (∀ x ∈ run, is_special_character sgn x = false) ∧
      (rest = [] ∨ ∃ c rest', rest = c :: rest' ∧ is_special_character sgn c = true) := by
  refine ⟨t.takeWhile (fun c => !is_special_character sgn c),
    t.dropWhile (fun c => !is_special_character sgn c),
    (List.takeWhile_append_dropWhile _ _).symm, ?_, ?_⟩
  · intro x hx
    simpa using List.mem_takeWhile_imp hx
  · cases hd : t.dropWhile (fun c => !is_special_character sgn c) with
    | nil => exact Or.inl rfl
    | cons c rest' =>
      refine Or.inr ⟨c, rest', rfl, ?_⟩
      simpa using dropWhile_head hd

theorem trailing_nul_loop (sgn : Bool) :
    ∀ (n : Nat) (t : List Nat) (fuel1 fuel2 : Nat) (dest : Dest), t.length ≤ n →
      t.length + 1 ≤ fuel1 → t.length ≤ fuel2 → t.getLast? ≠ some 0 →
      json_print_string_loop sgn fuel1 (t ++ [0]) dest
        = json_print_string_loop sgn fuel2 t dest := by
  intro n
  induction n with
  | zero =>
    intro t fuel1 fuel2 dest hn hf1 _ _
    have : t = [] := List.length_eq_zero.mp (by omega)
    subst this
    obtain ⟨f1, rfl⟩ := fuel_succ hf1
    have := json_print_string_loop_step sgn f1 [] 0 [] dest (by simp) (special_zero sgn)
    simp only [List.nil_append, and_self, if_true] at this
    rw [List.nil_append, this, json_print_string_loop_nil, write_string_nil]
  | succ n ih =>
    intro t fuel1 fuel2 dest hn hf1 hf2 hlast
    obtain ⟨f1, rfl⟩ := fuel_succ hf1
    obtain ⟨run, rest, rfl, hrun, hrest⟩ := split_at_special sgn t
    rcases hrest with rfl | ⟨c, rest', rfl, hc⟩
    · -- no special byte in `t`
      rw [List.append_nil] at hlast hf2 hn ⊢
      have h1 := json_print_string_loop_step sgn f1 run 0 [] dest hrun (special_zero sgn)
      simp only [and_self, if_true] at h1
      rw [h1]
      cases fuel2 with
      | zero =>
        have : run = [] := List.length_eq_zero.mp (by omega)
        subst this
        rw [json_print_string_loop_nil, write_string_nil]
      | succ f2 => rw [json_print_string_loop_run sgn f2 run dest hrun]
    · simp only [List.length_append, List.length_cons] at hn hf1 hf2
      obtain ⟨f2, rfl⟩ := fuel_succ (n := 0) (m := fuel2) (by omega)
      have h1 := json_print_string_loop_step sgn f1 run c (rest' ++ [0]) dest hrun hc
      rw [if_neg (by simp)] at h1
      have h2 := json_print_string_loop_step sgn f2 run c rest' dest hrun hc
      have hstop : ¬ (rest' = [] ∧ c = 0) := by
        rintro ⟨rfl, rfl⟩
        exact hlast (by simp)
      rw [if_neg hstop] at h2
      rw [List.append_assoc, List.cons_append, h1, h2]
      congr 1
      funext d
      refine ih rest' f1 f2 d (by omega) (by omega) (by omega) ?_
      intro hl
      apply hlast
      cases rest' with
      | nil => simp at hl
      | cons x l =>
        rw [List.getLast?_append, List.getLast?_cons_cons, hl]
        rfl

theorem byte_image_eq_spec (sgn : Bool) (c : Nat)
    (h : is_special_character sgn c = true → c ∈ [34, 92, 8, 12, 10, 13, 9]) :
    byte_image sgn c = Spec.byte_image c := by
  unfold byte_image
  split
  · next hs =>
    have := h hs
    simp only [List.mem_cons, List.mem_singleton, List.not_mem_nil, or_false] at this
    rcases this with rfl | rfl | rfl | rfl | rfl | rfl | rfl <;> rfl
  · next hs =>
    have h7 : ∀ x ∈ [34, 92, 8, 12, 10, 13, 9], is_special_character sgn x = true := by
      cases sgn <;> decide
    have hne : c ≠ 34 ∧ c ≠ 92 ∧ c ≠ 8 ∧ c ≠ 12 ∧ c ≠ 10 ∧ c ≠ 13 ∧ c ≠ 9 := by
      refine ⟨?_, ?_, ?_, ?_, ?_, ?_, ?_⟩ <;> intro hc <;> subst hc <;>
        exact hs (h7 _ (by decide))
    simp [Spec.byte_image, hne]

theorem string_body_eq_spec (sgn : Bool) (text : List Nat)
    (h : ∀ c ∈ text, is_special_character sgn c = true → c ∈ [34, 92, 8, 12, 10, 13, 9]) :
    string_body sgn text = text.flatMap Spec.byte_image := by
  induction text with
  | nil => rfl
  | cons c rest ih =>
    have hc := byte_image_eq_spec sgn c (h c (List.mem_cons_self _ _))
    have ih' := ih (fun x hx => h x (List.mem_cons_of_mem _ hx))
    cases rest with
    | nil =>
      have h0 : c ≠ 0 := by
        intro h0; subst h0
        have := h 0 (List.mem_cons_self _ _) (special_zero sgn)
        simp at this
      simp [string_body, h0, hc]
    | cons x l =>
      rw [string_body, hc, ih']
      · simp only [List.flatMap_cons]
      · intro hx; cases hx

/-- The texts on which the per-byte description holds: when every byte that the code
takes for special is among the seven with a two-character escape (quote, backslash,
backspace, form feed, line feed, carriage return, tab), `json_print_string` writes a
quote, then for each byte in order the byte itself or its substitution, then a quote: a
stream receives exactly these bytes, and so does a bounded buffer that has room for
them. -/
theorem json_print_string_per_byte (char_is_signed : Bool) (text : List Nat)
    (h : ∀ c ∈ text, is_special_character char_is_signed c = true →
      c ∈ [34, 92, 8, 12, 10, 13, 9]) :
    (∀ f, json_print_string char_is_signed (.file f) text
      = .ok (.file (f ++ 34 :: (text.flatMap Spec.byte_image ++ [34])))) ∧
    (∀ dest : Dest, dest.room (text.flatMap Spec.byte_image).length.succ.succ →
      ∃ dest', json_print_string char_is_signed dest text = .ok dest' ∧
        dest'.written = dest.written ++ 34 :: (text.flatMap Spec.byte_image ++ [34])) := by
  have hw := json_print_string_writes char_is_signed text
  rw [string_body_eq_spec char_is_signed text h] at hw
  refine ⟨fun f => hw.file f, fun dest hroom => ?_⟩
  obtain ⟨dest', e, w, _, _⟩ := hw dest 0 (by
    simpa [Nat.succ_eq_add_one, Nat.add_assoc] using hroom)
  exact ⟨dest', e, w⟩

/-- The lemma `json_print_string_per_byte` at the text `a"b\c` followed by a line
feed. -/
theorem json_print_string_per_byte_witness :
    (∀ c ∈ [97, 34, 98, 92, 99, 10], is_special_character true c = true →
      c ∈ [34, 92, 8, 12, 10, 13, 9]) ∧
    json_print_string true (.file []) [97, 34, 98, 92, 99, 10]
      = .ok (.file ([] ++ 34 :: ([97, 34, 98, 92, 99, 10].flatMap Spec.byte_image ++ [34]))) :=
  ⟨by decide, (json_print_string_per_byte true [97, 34, 98, 92, 99, 10] (by decide)).1 []⟩

/-- C7 (what the code does): where plain `char` is signed, the text of the two bytes
0xC3 0xA9 (the UTF-8 encoding of U+00E9) and a double quote is not written as a quote,
the two bytes unchanged, the substitution `\"` and a quote: the two bytes from 0x80 on
are below 32 as a `char`, pass for special and are written through the default branch
as a backslash and a decimal number.  Where plain `char` is unsigned the same text is
written as described.  On every text that holds no control byte other than the five
with a substitution and, where plain `char` is signed, no byte from 0x80 on, the output
is the quote-delimited concatenation of the per-byte images. -/
theorem per_byte_image_fails_on_high_byte :
    json_print_string true (.file []) [195, 169, 34]
      = .ok (.file (bytes "\"\\4294967235\\4294967209\\\"\"")) ∧
    bytes "\"\\4294967235\\4294967209\\\"\""
      ≠ 34 :: ([195, 169, 34].flatMap Spec.byte_image ++ [34]) ∧
    34 :: ([195, 169, 34].flatMap Spec.byte_image ++ [34]) = [34, 195, 169, 92, 34, 34] ∧
    json_print_string false (.file []) [195, 169, 34]
      = .ok (.file (34 :: ([195, 169, 34].flatMap Spec.byte_image ++ [34]))) ∧
    (∀ (char_is_signed : Bool) (text : List Nat),
      (∀ c ∈ text, (char_is_signed = true → c < 128) ∧
        (c < 32 → c ∈ [8, 12, 10, 13, 9])) →
      ∀ f, json_print_string char_is_signed (.file f) text
        = .ok (.file (f ++ 34 :: (text.flatMap Spec.byte_image ++ [34])))) := by
  refine ⟨by decide, by decide, by decide, by decide, fun sgn text h f => ?_⟩
  have hsp : ∀ c ∈ text, is_special_character sgn c = true →
      c ∈ [34, 92, 8, 12, 10, 13, 9] := by
    intro c hc hs
    obtain ⟨h1, h2⟩ := h c hc
    simp only [is_special_character, char_value, Bool.or_eq_true, decide_eq_true_eq,
      beq_iff_eq] at hs
    rcases hs with (hs | hs) | hs
    · have hlt : c < 32 := by
        cases sgn with
        | false => simpa using hs
        | true =>
          have := h1 rfl
          rw [if_neg (by simp; omega)] at hs
          omega
      have := h2 hlt
      simp only [List.mem_cons, List.mem_singleton, List.not_mem_nil, or_false] at this ⊢
      omega
    · simp [hs]
    · simp [hs]
  have hw := json_print_string_writes sgn text
  rw [string_body_eq_spec sgn text hsp] at hw
  exact hw.file f

/-- C8 (what the code does): for the control byte 0x1F, whether plain `char` is signed
or not, `json_print_string` writes a backslash and the four decimal digits `0031`, not
the six characters `\u001F`; the result is the 7 bytes `"\0031"`. -/
theorem control_byte_written_in_decimal :
    json_print_string true (.file []) [31] = .ok (.file (bytes "\"\\0031\"")) ∧
    json_print_string false (.file []) [31] = .ok (.file (bytes "\"\\0031\"")) ∧
    bytes "\"\\0031\"" ≠ bytes "\"\\u001F\"" ∧ bytes "\"\\0031\"" ≠ bytes "\"\\u001f\"" := by
  decide

/-- C9 (what the code does): where plain `char` is signed, the two bytes 0xC3 0xA9 (the
UTF-8 encoding of U+00E9) are not copied: each one is below 32 as a `char`, takes the
default branch and is written as a backslash and the decimal value of its conversion to
`unsigned`.  Where plain `char` is unsigned the same text is copied unchanged. -/
theorem high_bytes_escaped_when_char_is_signed :
    json_print_string true (.file []) [195, 169]
      = .ok (.file (bytes "\"\\4294967235\\4294967209\"")) ∧
    json_print_string false (.file []) [195, 169] = .ok (.file [34, 195, 169, 34]) := by
  decide

theorem string_body_append_cons (sgn : Bool) (a : List Nat) (c : Nat) (b : List Nat) :
    string_body sgn (a ++ c :: b) = a.flatMap (byte_image sgn) ++ string_body sgn (c :: b) := by
  induction a with
  | nil => rfl
  | cons x a ih =>
    cases hl : a ++ c :: b with
    | nil => simp at hl
    | cons y l =>
      rw [List.cons_append, hl, string_body, ← hl, ih, List.flatMap_cons, List.append_assoc]
      intro hx; cases hx

/-- C10: exactly one trailing NUL is a terminator.  For a text `t` that does not end in
NUL, `json_print_string` on `t` followed by one NUL does to any destination (stream or
buffer, in any state) exactly what it does on `t` alone.  A NUL that is not the last
byte is written like the other control bytes without a two-character escape: through
the default branch, as a backslash and its value zero-padded to four decimal digits. -/
theorem trailing_nul_is_terminator (char_is_signed : Bool) (t : List Nat)
    (h : t.getLast? ≠ some 0) :
    (∀ dest, json_print_string char_is_signed dest (t ++ [0])
      = json_print_string char_is_signed dest t) ∧
    (∀ a b f, b ≠ [] → json_print_string char_is_signed (.file f) (a ++ 0 :: b)
      = .ok (.file (f ++ 34 :: (a.flatMap (byte_image char_is_signed)
          ++ (92 :: zero_pad 4 (decimal 0) ++ string_body char_is_signed b) ++ [34])))) ∧
    (∀ c, JP_OTHER_CONTROL c = true →
      byte_image char_is_signed c = 92 :: zero_pad 4 (decimal c)) := by
  refine ⟨fun dest => ?_, fun a b f hb => ?_, fun c hc => ?_⟩
  · have := trailing_nul_loop char_is_signed t.length t (t ++ [0]).length t.length
      (write_char dest 34) (Nat.le_refl _) (by simp) (Nat.le_refl _) h
    unfold json_print_string
    rw [this]
  · have h0 : escape_text char_is_signed 0 = 92 :: zero_pad 4 (decimal 0) := by
      cases char_is_signed <;> rfl
    rw [(json_print_string_writes char_is_signed (a ++ 0 :: b)).file f,
      string_body_append_cons,
      string_body_special char_is_signed 0 b (special_zero char_is_signed)
        (fun hh => hb hh.1), h0]
  · have hlt : c < 32 := by
      simp only [JP_OTHER_CONTROL, Bool.or_eq_true, decide_eq_true_eq, beq_iff_eq,
        Bool.and_eq_true] at hc
      omega
    have hne : c ≠ 8 ∧ c ≠ 9 ∧ c ≠ 10 ∧ c ≠ 12 ∧ c ≠ 13 := by
      simp only [JP_OTHER_CONTROL, Bool.or_eq_true, decide_eq_true_eq, beq_iff_eq,
        Bool.and_eq_true] at hc
      omega
    have hv : char_value char_is_signed c = (c : Int) := by
      unfold char_value
      rw [if_neg]
      simp only [Bool.and_eq_true, decide_eq_true_eq, not_and, Nat.not_le]
      intro _; omega
    have hs : is_special_character char_is_signed c = true := by
      simp only [is_special_character, hv, Bool.or_eq_true, decide_eq_true_eq, beq_iff_eq]
      exact Or.inl (Or.inl (by omega))
    have hu : to_unsigned (c : Int) = c := by
      unfold to_unsigned; omega
    simp only [byte_image, hs, if_true, escape_text, hv, hu]
    rw [if_neg (by omega), if_neg (by omega), if_neg hne.1, if_neg hne.2.2.2.1,
      if_neg hne.2.2.1, if_neg hne.2.2.2.2, if_neg hne.2.1]

/-- C10, at the text `hi`: `hi` followed by NUL is written as `"hi"`. -/
theorem trailing_nul_is_terminator_witness :
    ([104, 105] : List Nat).getLast? ≠ some 0 ∧
    json_print_string true (.file []) ([104, 105] ++ [0])
      = json_print_string true (.file []) [104, 105] :=
  ⟨by decide, (trailing_nul_is_terminator true [104, 105] (by decide)).1 (.file [])⟩

/-! ## Every value that has a serialization is written alike to both sinks -/

theorem Ser.of_writes {F : Dest → Outcome Dest} {out : List Nat} (h : Writes F out) :
    Ser F := by
  intro f dest' hd
  rw [h.file f] at hd
  simp only [Outcome.ok.injEq] at hd
  exact ⟨out, hd.symm, h⟩

theorem Ser.bind_ser {F G : Dest → Outcome Dest} (hF : Ser F) (hG : Ser G) :
    Ser (fun d => (F d).bind G) := by
  intro f dest' hd
  obtain ⟨d1, h1, h2⟩ := Outcome.bind_eq_ok hd
  obtain ⟨o1, rfl, w1⟩ := hF f d1 h1
  obtain ⟨o2, rfl, w2⟩ := hG _ dest' h2
  exact ⟨o1 ++ o2, by rw [List.append_assoc], w1.bind_writes w2⟩

theorem Ser.congr_ser {F G : Dest → Outcome Dest} (hF : Ser F) (h : ∀ d, G d = F d) : Ser G := by
  intro f dest' hd
  rw [h] at hd
  obtain ⟨out, e, w⟩ := hF f dest' hd
  exact ⟨out, e, w.congr_writes h⟩

theorem Ser.writes {F : Dest → Outcome Dest} {s : List Nat} (hF : Ser F)
    (h : F (.file []) = .ok (.file s)) : Writes F s := by
  obtain ⟨out, e, w⟩ := hF [] _ h
  simp only [List.nil_append, Dest.file.injEq] at e
  rw [e]; exact w

theorem ser_printf (format : String) (arg : PrintfArg) :
    Ser (fun d => (write_printf d format arg).bind fun r => .ok r.1) := by
  cases h : c_printf format arg with
  | ok out => exact Ser.of_writes (write_printf_writes h)
  | throw w => intro f d' hd; simp [write_printf, h] at hd
  | undefined u => intro f d' hd; simp [write_printf, h] at hd
  | out_of_fuel => intro f d' hd; simp [write_printf, h] at hd

theorem ser_string (sgn : Bool) (text : List Nat) :
    Ser (fun d => json_print_string sgn d text) :=
  Ser.of_writes (json_print_string_writes sgn text)

theorem ser_literal (text : List Nat) (h : ∀ c ∈ text, c ≠ 0) :
    Ser (fun d => .ok ( write_string_unsafe d text).1) :=
  Ser.of_writes (write_string_unsafe_writes text h)

theorem ser_char (c : Nat) : Ser (fun d => .ok (write_char d c)) :=
  Ser.of_writes (write_char_writes c)

theorem ser_float (x : Floating) (n : PrintfArg) :
    Ser (fun d => json_print_float_arg d x n) := by
  unfold json_print_float_arg
  split
  · exact ser_literal _ (by decide)
  · exact ser_printf _ _

theorem ser_key (sgn : Bool) (k : Key) : Ser (fun d => json_print_key sgn d k) := by
  cases k with
  | string s => exact ser_string sgn s
  | c_string s => exact ser_string sgn (c_str s)

mutual

theorem ser_arg (sgn : Bool) : ∀ a : Arg, Ser (fun d => json_print_arg sgn d a)
  | .string s => (ser_string sgn s).congr_ser (fun d => by rw [json_print_arg])
  | .c_string s => (ser_string sgn (c_str s)).congr_ser (fun d => by rw [json_print_arg])
  | .char c => (ser_string sgn [c]).congr_ser (fun d => by rw [json_print_arg])
  | .unsigned_char n => (ser_printf _ _).congr_ser (fun d => by rw [json_print_arg])
  | .bool b => by
    cases b
    · exact (ser_literal (bytes "false") (by decide)).congr_ser
        (fun d => by rw [json_print_arg]; rfl)
    · exact (ser_literal (bytes "true") (by decide)).congr_ser
        (fun d => by rw [json_print_arg]; rfl)
  | .nullptr => (ser_literal (bytes "null") (by decide)).congr_ser
      (fun d => by rw [json_print_arg])
  | .short n => (ser_printf _ _).congr_ser (fun d => by rw [json_print_arg])
  | .unsigned_short n => (ser_printf _ _).congr_ser (fun d => by rw [json_print_arg])
  | .int n => (ser_printf _ _).congr_ser (fun d => by rw [json_print_arg])
  | .unsigned n => (ser_printf _ _).congr_ser (fun d => by rw [json_print_arg])
  | .long n => (ser_printf _ _).congr_ser (fun d => by rw [json_print_arg])
  | .unsigned_long n => (ser_printf _ _).congr_ser (fun d => by rw [json_print_arg])
  | .long_long n => (ser_printf _ _).congr_ser (fun d => by rw [json_print_arg])
  | .unsigned_long_long n => (ser_printf _ _).congr_ser (fun d => by rw [json_print_arg])
  | .float x => (ser_float x _).congr_ser (fun d => by rw [json_print_arg])
  | .double x => (ser_float x _).congr_ser (fun d => by rw [json_print_arg])
  | .long_double x => (ser_float x _).congr_ser (fun d => by rw [json_print_arg])
  | .vector [] =>
    (Ser.bind_ser (ser_char 91) (ser_char 93)).congr_ser (fun d => by rw [json_print_arg]; rfl)
  | .vector (x :: xs) =>
    (Ser.bind_ser (ser_char 91) (Ser.bind_ser (ser_arg sgn x)
      (Ser.bind_ser (ser_array_loop sgn xs) (ser_char 93)))).congr_ser
      (fun d => by rw [json_print_arg]; rfl)
  | .map [] =>
    (Ser.bind_ser (ser_char 123) (ser_char 125)).congr_ser (fun d => by rw [json_print_arg]; rfl)
  | .map ((k, v) :: entries) =>
    (Ser.bind_ser (ser_char 123) (Ser.bind_ser (ser_key sgn k) (Ser.bind_ser (ser_char 58)
      (Ser.bind_ser (ser_arg sgn v) (Ser.bind_ser (ser_object_loop sgn entries) (ser_char 125)))))).congr_ser
      (fun d => by rw [json_print_arg]; rfl)

theorem ser_array_loop (sgn : Bool) :
    ∀ xs : List Arg, Ser (fun d => json_print_array_loop sgn d xs)
  | [] => (Ser.of_writes Writes.nothing).congr_ser (fun d => by rw [json_print_array_loop])
  | x :: xs =>
    (Ser.bind_ser (ser_char 44) (Ser.bind_ser (ser_arg sgn x) (ser_array_loop sgn xs))).congr_ser
      (fun d => by rw [json_print_array_loop]; rfl)

theorem ser_object_loop (sgn : Bool) :
    ∀ entries : List (Key × Arg), Ser (fun d => json_print_object_loop sgn d entries)
  | [] => (Ser.of_writes Writes.nothing).congr_ser (fun d => by rw [json_print_object_loop])
  | (k, v) :: entries =>
    (Ser.bind_ser (ser_char 44) (Ser.bind_ser (ser_key sgn k) (Ser.bind_ser (ser_char 58)
      (Ser.bind_ser (ser_arg sgn v) (ser_object_loop sgn entries))))).congr_ser
      (fun d => by rw [json_print_object_loop]; rfl)

end

/-! ## Rendering a compiled template -/

theorem json_print_part_writes (text : List Nat) (b e : Nat) (hbe : b ≤ e)
    (he : e ≤ text.length) :
    Writes (fun d => json_print_part d text (some b) (some e)) (Spec.slice text b e) := by
  refine Writes.congr_writes (write_string_writes _) (fun d => ?_)
  simp only [json_print_part]
  rw [if_pos ⟨hbe, he⟩]
  rfl

/-- The boundaries `parts[0 .. count]` of a compiled context. -/
theorem part_at_boundary (qs : List Nat) (x : Nat) (rest : List (Option Nat)) (count i : Nat)
    (h : i < qs.length + 2) :
    part_at ⟨(some 0 :: qs.map some ++ [some x]) ++ rest, count⟩ i
      = .ok ((0 :: qs ++ [x])[i]?) := by
  unfold part_at
  have e : (some 0 :: qs.map some ++ [some x]) = (0 :: qs ++ [x]).map some := by simp
  simp only [e]
  rw [List.getElem?_append_left (by simp; omega), List.getElem?_map]
  have : i < (0 :: qs ++ [x]).length := by simp; omega
  rw [List.getElem?_eq_getElem this]
  rfl

theorem json_print_args_writes (sgn : Bool) (text : List Nat) (context : json_print_context)
    (B : List Nat)
    (hB : ∀ i, i < B.length → part_at context i = .ok (B[i]?))
    (hsorted : (B.drop 1).Pairwise (· < ·)) (hlen : ∀ q ∈ B, q ≤ text.length) :
    ∀ (args : List Arg) (sers : List (List Nat)) (Is : Nat),
      List.Forall₂ (fun a s => json_print_arg sgn (.file []) a = .ok (.file s)) args sers →
      Is + 2 + args.length = B.length →
      Writes (fun d => json_print_args sgn text context Is d args)
        (Spec.after text (B.drop (Is + 1)) sers) := by
  intro args
  induction args with
  | nil =>
    intro sers Is hs hl
    cases hs
    have : Spec.after text (B.drop (Is + 1)) [] = [] := by
      unfold Spec.after; split <;> simp_all
    rw [this]
    exact Writes.congr_writes Writes.nothing (fun d => by rw [json_print_args])
  | cons a args ih =>
    intro sers Is hs hl
    cases hs with
    | cons ha hrest =>
      rename_i s ss
      simp only [List.length_cons] at hl
      have h1 : Is + 1 < B.length := by omega
      have h2 : Is + 2 < B.length := by omega
      have hd : B.drop (Is + 1) = B[Is + 1] :: B[Is + 2] :: B.drop (Is + 1 + 1 + 1) := by
        rw [List.drop_eq_getElem_cons h1, List.drop_eq_getElem_cons h2]
      have hlt : B[Is + 1] < B[Is + 2] := by
        have hp : (B.drop (Is + 1)).Pairwise (· < ·) := by
          have e : B.drop (Is + 1) = (B.drop 1).drop Is := by
            rw [List.drop_drop, Nat.add_comm]
          rw [e]
          exact hsorted.sublist (List.drop_sublist _ _)
        rw [hd] at hp
        exact (List.pairwise_cons.mp hp).1 _ (List.mem_cons_self _ _)
      have hle : B[Is + 2] ≤ text.length := hlen _ (List.getElem_mem _)
      have hw := Writes.bind_writes (Ser.writes (ser_arg sgn a) ha)
        (Writes.bind_writes (json_print_part_writes text (B[Is + 1] + 1) B[Is + 2] hlt hle)
          (ih ss (Is + 1) hrest (by omega)))
      have hafter : Spec.after text (B.drop (Is + 1)) (s :: ss)
          = s ++ (Spec.slice text (B[Is + 1] + 1) B[Is + 2]
            ++ Spec.after text (B.drop (Is + 1 + 1)) ss) := by
        rw [hd, Spec.after, List.drop_eq_getElem_cons h2]
      rw [hafter]
      refine Writes.congr_writes hw (fun d => ?_)
      rw [json_print_args]
      congr 1
      funext d1
      rw [hB (Is + 1) h1, hB (Is + 2) h2, List.getElem?_eq_getElem h1,
        List.getElem?_eq_getElem h2]
      rfl

theorem json_print_writes (sgn : Bool) (text : List Nat) (context : json_print_context)
    (args : List Arg) (sers : List (List Nat))
    (hc : compile text = .ok context) (hk : args.length + 1 = context.count)
    (hs : List.Forall₂ (fun a s => json_print_arg sgn (.file []) a = .ok (.file s))
      args sers) :
    Writes (fun d => json_print sgn d text context args)
      (Spec.render text (placeholder_offsets context) sers) := by
  obtain ⟨qs, hcount, _, hp, hsorted, hq⟩ := Outcome.sat_elim (compile_sat text) hc
  obtain ⟨parts, count⟩ := context
  dsimp only at hcount hp hk
  subst hcount hp
  rw [placeholder_offsets_eq]
  have hB : ∀ i, i < (0 :: qs ++ [text.length]).length →
      part_at ⟨(some 0 :: qs.map some ++ [some text.length])
        ++ List.replicate (JP_MAX_PLACEHOLDERS - qs.length) none, qs.length + 1⟩ i
        = .ok ((0 :: qs ++ [text.length])[i]?) := by
    intro i hi
    exact part_at_boundary qs _ _ _ i (by simpa using hi)
  have hsB : ((0 :: qs ++ [text.length]).drop 1).Pairwise (· < ·) := by
    simp only [List.cons_append, List.drop_succ_cons, List.drop_zero, List.pairwise_append,
      List.pairwise_singleton, List.mem_singleton, true_and]
    exact ⟨hsorted, fun a ha b hb => hb ▸ (hq a ha).1⟩
  have hlB : ∀ q ∈ (0 :: qs ++ [text.length]), q ≤ text.length := by
    intro q hq'
    simp only [List.cons_append, List.mem_cons, List.mem_append, List.mem_singleton,
      List.not_mem_nil, or_false] at hq'
    rcases hq' with rfl | hq' | rfl
    · omega
    · exact Nat.le_of_lt (hq q hq').1
    · exact Nat.le_refl _
  have hargs := json_print_args_writes sgn text _ (0 :: qs ++ [text.length]) hB hsB hlB
    args sers 0 hs (by simp; omega)
  have h01 : (0 :: qs ++ [text.length])[1]? = some ((qs ++ [text.length]).headD 0) := by
    cases qs <;> simp
  have hle1 : (qs ++ [text.length]).headD 0 ≤ text.length := by
    cases qs with
    | nil => exact Nat.le_refl _
    | cons q l => exact Nat.le_of_lt (hq q (List.mem_cons_self _ _)).1
  have hw := Writes.bind_writes
    (json_print_part_writes text 0 ((qs ++ [text.length]).headD 0) (Nat.zero_le _) hle1) hargs
  refine Writes.congr_writes hw (fun d => ?_)
  unfold json_print
  rw [hB 0 (by simp), hB 1 (by simp), h01]
  simp only [List.cons_append, List.getElem?_cons_zero, Outcome.bind_ok]

/-- The fuel `compile` passes to `parse_value` is never used up. -/
theorem compile_fuel_suffices (text : List Nat) : compile text ≠ .out_of_fuel := by
  intro h
  have hs := compile_sat text
  rw [h] at hs
  exact hs

/-! ## Rendering into a bounded buffer -/

/-- Rendering into a buffer of at most `INT_MAX` bytes, where the code does what C1
says: for a template that compiles, a list of exactly as many values as it
has placeholders, each with a serialization (the bytes `json_print_arg` sends to a
stream), and a buffer larger than the output and of at most `INT_MAX` bytes,
`json_sprint` completes and the buffer holds, before its cursor,
`T[0,p1) ++ ser(v1) ++ T[p1+1,p2) ++ ... ++ ser(vk) ++ T[pk+1,end)`: the template with
each placeholder replaced, in order, by the serialization of its value and every other
byte copied. -/
theorem json_sprint_renders (char_is_signed : Bool) (size : Nat) (text : List Nat)
    (context : json_print_context) (args : List Arg) (sers : List (List Nat))
    (hc : compile text = .ok context) (hk : args.length + 1 = context.count)
    (hs : List.Forall₂
      (fun a s => json_print_arg char_is_signed (.file []) a = .ok (.file s)) args sers)
    (hroom : (Spec.render text (placeholder_offsets context) sers).length < size)
    (hsize : size ≤ INT_MAX) :
    ∃ b : string_buffer,
      json_sprint char_is_signed size text context args = .ok (.buffer b) ∧
      b.mem.take b.pos = Spec.render text (placeholder_offsets context) sers ∧
      b.pos = (Spec.render text (placeholder_offsets context) sers).length ∧
      b.cap = size := by
  have hw := json_print_writes char_is_signed text context args sers hc hk hs
  obtain ⟨dest', e, w, r, c⟩ := hw (.buffer { cap := size, mem := [], pos := 0 }) 0
    ⟨Nat.le_refl _, by simpa using hroom, hsize⟩
  cases dest' with
  | file f => simp [Dest.cap] at c
  | buffer b =>
    simp only [Dest.written, List.take_nil, List.nil_append] at w
    simp only [Dest.cap, Option.some.injEq] at c
    refine ⟨b, e, w, ?_, c⟩
    have hlen := congrArg List.length w
    rw [List.length_take] at hlen
    have hpos : b.pos ≤ b.mem.length := r.1
    omega

/-- The lemma `json_sprint_renders` at the template `[?,?,?]` with the values 42, false
and the one-element sequence of the text `hello`, in a buffer of 32 bytes: the buffer holds
`[42,false,["hello"]]` and the terminating NUL of the template. -/
theorem json_sprint_renders_witness :
    ∃ b : string_buffer,
      json_sprint false 32 (bytes "[?,?,?]" ++ [0])
        ⟨[some 0, some 1, some 3, some 5, some 8, none, none, none, none, none, none,
          none, none, none, none, none], 4⟩
        [.int 42, .bool false, .vector [.string (bytes "hello")]] = .ok (.buffer b) ∧
      b.mem.take b.pos = bytes "[42,false,[\"hello\"]]" ++ [0] := by
  obtain ⟨b, h1, h2, _⟩ := json_sprint_renders false 32 (bytes "[?,?,?]" ++ [0])
    ⟨[some 0, some 1, some 3, some 5, some 8, none, none, none, none, none, none,
      none, none, none, none, none], 4⟩
    [.int 42, .bool false, .vector [.string (bytes "hello")]]
    [bytes "42", bytes "false", bytes "[\"hello\"]"]
    (by decide) (by decide)
    (.cons (by decide) (.cons (by decide) (.cons (by decide) .nil)))
    (by decide) (by decide)
  exact ⟨b, h1, h2.trans (by decide)⟩

/-- C1 (what the code does): the template `?` compiles, the value 42 has the
serialization `42`, and a buffer of 2147483648 bytes is larger than the 3 bytes of
output; but `write_printf` takes the minimum of the length `snprintf` returns and
`static_cast<int>` of the remaining capacity, which wraps to a negative number, and moves
the cursor before the start of the buffer, so the render has no defined result.  With
one byte less the buffer holds `42` and the NUL of the range; and into the same buffer
of 2147483648 bytes the value `true`, which goes through `write_string`, is rendered as
C1 says. -/
theorem json_sprint_large_buffer :
    compile (bytes "?" ++ [0])
      = .ok ⟨[some 0, some 0, some 2, none, none, none, none, none, none, none, none,
          none, none, none, none, none], 2⟩ ∧
    json_print_arg false (.file []) (.int 42) = .ok (.file (bytes "42")) ∧
    (Spec.render (bytes "?" ++ [0]) [0] [bytes "42"]).length < 2147483648 ∧
    json_sprint false 2147483648 (bytes "?" ++ [0])
      ⟨[some 0, some 0, some 2, none, none, none, none, none, none, none, none,
        none, none, none, none, none], 2⟩ [.int 42] = .undefined .bad_range ∧
    json_sprint false 2147483647 (bytes "?" ++ [0])
      ⟨[some 0, some 0, some 2, none, none, none, none, none, none, none, none,
        none, none, none, none, none], 2⟩ [.int 42]
      = .ok (.buffer ⟨2147483647, bytes "42" ++ [0], 3⟩) ∧
    json_sprint false 2147483648 (bytes "?" ++ [0])
      ⟨[some 0, some 0, some 2, none, none, none, none, none, none, none, none,
        none, none, none, none, none], 2⟩ [.bool true]
      = .ok (.buffer ⟨2147483648, bytes "true" ++ [0], 5⟩) :=
  ⟨by decide, by decide, by decide, by decide, by decide, by decide⟩

/-! ## Texts outside the grammar -/

/-- A value that starts with `n` is `null`. -/
theorem Spec.Value.eq_null {s : List Nat} {k : Nat} (h : Spec.Value s k) (rest : List Nat)
    (hs : s = 110 :: rest) : s = [110, 117, 108, 108] := by
  cases h with
  | placeholder => simp at hs
  | null => rfl
  | true_ => simp at hs
  | false_ => simp at hs
  | string h1 =>
    obtain ⟨body, _, rfl⟩ := h1
    simp at hs
  | number hn =>
    obtain ⟨sign, i, f, e, hsign, hi, _, _, rfl⟩ := hn
    obtain ⟨d, ds, rfl, hd⟩ := integer_head hi
    unfold Spec.digit at hd
    rcases hsign with rfl | rfl
    · simp only [List.nil_append, List.cons_append, List.cons.injEq] at hs
      omega
    · simp at hs
  | empty_array _ => simp at hs
  | array _ _ => simp at hs
  | empty_object _ => simp at hs
  | object _ _ => simp at hs

/-- The text `nope` is not derivable from the grammar. -/
theorem nope_not_template (k : Nat) : ¬ Spec.Template (bytes "nope") k := by
  rintro ⟨w1, v, w2, hw1, hv, _, ht⟩
  have ht' : w1 ++ (v ++ w2) = [110, 111, 112, 101] := ht.symm
  cases w1 with
  | cons c w =>
    simp only [List.cons_append, List.cons.injEq] at ht'
    have := hw1 c (List.mem_cons_self _ _)
    unfold Spec.ws_byte at this
    omega
  | nil =>
    obtain ⟨c, rest, rfl, _⟩ := hv.head_byte
    simp only [List.nil_append, List.cons_append, List.cons.injEq] at ht'
    obtain ⟨hc, ht2⟩ := ht'
    subst hc
    have hnull := hv.eq_null rest rfl
    simp only [List.cons.injEq, true_and] at hnull
    subst hnull
    simp at ht2

/-- C3 (what the code does): the text `nope` is not derivable from the grammar, yet
`compile` succeeds on it, NUL-terminated, with `count = 1`: `parse_null` compares the
bytes after `n` only when fewer than four bytes remain.  The same holds of `{"a":1,xb":2}`,
where the loop of `parse_object` calls `parse_string` without looking at the byte it stands
on.  Texts with an unclosed or wrongly closed bracket, a trailing comma, a leading zero or
a bare `-` fail. -/
theorem compile_accepts_unrecognized_token :
    (∀ k, ¬ Spec.Template (bytes "nope") k) ∧
    compile (bytes "nope" ++ [0])
      = .ok ⟨[some 0, some 5, none, none, none, none, none, none, none, none, none,
          none, none, none, none, none], 1⟩ ∧
    (compile (bytes "\x7b\"a\":1,xb\":2\x7d" ++ [0])).isOk = true ∧
    compile (bytes "[1" ++ [0]) = .throw "expected ',' or ']'" ∧
    compile (bytes "[1\x7d" ++ [0]) = .throw "expected ',' or ']'" ∧
    compile (bytes "[1,]" ++ [0]) = .throw "expected value" ∧
    compile (bytes "01" ++ [0])
      = .throw "expected end of text, reached additional content" ∧
    compile (bytes "-" ++ [0]) = .throw "expected digit after '-'" :=
  ⟨nope_not_template, by decide, by decide, by decide, by decide, by decide, by decide,
    by decide⟩

/-! ## Compiling what was rendered -/

/-- C6 (what the code does): the template `?` compiles; rendering it with the one-byte
text 0x01 gives `"\0001"` and the NUL of the template; and `compile` rejects these bytes
with "unsupported escape character". -/
theorem rendered_control_byte_does_not_compile :
    compile (bytes "?" ++ [0])
      = .ok ⟨[some 0, some 0, some 2, none, none, none, none, none, none, none, none,
          none, none, none, none, none], 2⟩ ∧
    json_fprint false [] (bytes "?" ++ [0])
      ⟨[some 0, some 0, some 2, none, none, none, none, none, none, none, none,
        none, none, none, none, none], 2⟩ [.string [1]]
      = .ok (.file (bytes "\"\\0001\"" ++ [0])) ∧
    json_sprint false 16 (bytes "?" ++ [0])
      ⟨[some 0, some 0, some 2, none, none, none, none, none, none, none, none,
        none, none, none, none, none], 2⟩ [.string [1]]
      = .ok (.buffer ⟨16, bytes "\"\\0001\"" ++ [0], 8⟩) ∧
    compile (bytes "\"\\0001\"" ++ [0]) = .throw "unsupported escape character" :=
  ⟨by decide, by decide, by decide, by decide⟩

/-! ## Templates without placeholders -/

/-- C20: a template that compiles with zero placeholders (`count = 1`), rendered with no
values into a buffer of at least as many bytes as the template text, fills the buffer
with exactly the bytes of the template text, in order, and leaves the cursor after them;
sent to a stream, the stream receives the same bytes. -/
theorem json_sprint_no_placeholders (char_is_signed : Bool) (size : Nat) (text : List Nat)
    (context : json_print_context) (hc : compile text = .ok context)
    (h0 : context.count = 1) (hsize : text.length ≤ size) :
    json_sprint char_is_signed size text context []
      = .ok (.buffer ⟨size, text, text.length⟩) ∧
    ∀ f, json_fprint char_is_signed f text context [] = .ok (.file (f ++ text)) := by
  obtain ⟨qs, hcount, _, hp, _, _⟩ := Outcome.sat_elim (compile_sat text) hc
  have hqs : qs = [] := by
    rw [h0] at hcount
    exact List.eq_nil_of_length_eq_zero (by omega)
  subst hqs
  have h0' : part_at context 0 = .ok (some 0) := by
    unfold part_at; rw [hp]; rfl
  have h1' : part_at context 1 = .ok (some text.length) := by
    unfold part_at; rw [hp]; rfl
  refine ⟨?_, fun f => ?_⟩
  · unfold json_sprint json_print
    rw [h0', Outcome.bind_ok, h1', Outcome.bind_ok]
    simp only [json_print_part, Nat.zero_le, Nat.le_refl, and_self, if_true, List.drop_zero,
      Nat.sub_zero, List.take_length, Outcome.bind_ok, json_print_args, write_string,
      Nat.min_eq_left hsize, poke, List.take_nil, List.nil_append, List.drop_nil,
      List.append_nil, Nat.zero_add]
  · unfold json_fprint json_print
    rw [h0', Outcome.bind_ok, h1', Outcome.bind_ok]
    simp only [json_print_part, Nat.zero_le, Nat.le_refl, and_self, if_true, List.drop_zero,
      Nat.sub_zero, List.take_length, Outcome.bind_ok, json_print_args, write_string]

/-- C20, at the templates `null` and `true`, NUL-terminated, in a buffer of 128 bytes. -/
theorem json_sprint_no_placeholders_witness :
    json_sprint false 128 (bytes "null" ++ [0])
      ⟨[some 0, some 5, none, none, none, none, none, none, none, none, none, none, none,
        none, none, none], 1⟩ []
      = .ok (.buffer ⟨128, bytes "null" ++ [0], 5⟩) ∧
    json_sprint false 128 (bytes "true" ++ [0])
      ⟨[some 0, some 5, none, none, none, none, none, none, none, none, none, none, none,
        none, none, none], 1⟩ []
      = .ok (.buffer ⟨128, bytes "true" ++ [0], 5⟩) :=
  ⟨(json_sprint_no_placeholders false 128 (bytes "null" ++ [0]) _ (by decide) rfl
      (by decide)).1,
    (json_sprint_no_placeholders false 128 (bytes "true" ++ [0]) _ (by decide) rfl
      (by decide)).1⟩

/-! ## After the top-level value -/

theorem skip_run_takeWhile (q : Nat → Bool) (l : List Nat) (b : Nat) :
    skip_run q l b = b + (l.takeWhile q).length := by
  induction l generalizing b with
  | nil => rfl
  | cons c rest ih =>
    by_cases hc : q c = true
    · rw [skip_run, if_pos hc, ih, List.takeWhile_cons_of_pos hc, List.length_cons]; omega
    · rw [skip_run, if_neg hc, List.takeWhile_cons_of_neg hc]; rfl

theorem dropWhile_ws_append (w rest : List Nat) (hw : Spec.Ws w)
    (hrest : ∀ c l, rest = c :: l → ¬ Spec.ws_byte c) :
    (w ++ rest).dropWhile is_whitespace = rest := by
  induction w with
  | nil =>
    cases rest with
    | nil => rfl
    | cons c l =>
      have := hrest c l rfl
      rw [← is_whitespace_iff] at this
      simp [List.dropWhile_cons, this]
  | cons c w ih =>
    have hc := (is_whitespace_iff c).mpr (hw c (List.mem_cons_self _ _))
    rw [List.cons_append, List.dropWhile_cons, if_pos hc]
    exact ih (fun d hd => hw d (List.mem_cons_of_mem _ hd))

/-- The rest of a range is whitespace followed by at most one NUL exactly when what is
left after the whitespace is nothing or one NUL. -/
theorem trailing_iff (r : List Nat) :
    (∃ w, Spec.Ws w ∧ (r = w ∨ r = w ++ [0])) ↔
      (r.dropWhile is_whitespace = [] ∨ r.dropWhile is_whitespace = [0]) := by
  constructor
  · rintro ⟨w, hw, h | h⟩
    · left
      have := dropWhile_ws_append w [] hw (fun c l h => by cases h)
      rwa [List.append_nil, ← h] at this
    · right
      rw [h]
      exact dropWhile_ws_append w [0] hw (fun c l h => by
        cases h; unfold Spec.ws_byte; omega)
  · intro h
    refine ⟨r.takeWhile is_whitespace, ?_, ?_⟩
    · intro c hc
      exact (is_whitespace_iff c).mp (List.mem_takeWhile_imp hc)
    · have := List.takeWhile_append_dropWhile is_whitespace r
      rcases h with h | h
      · left; rw [h, List.append_nil] at this; exact this.symm
      · right; rw [h] at this; exact this.symm

/-- C18: once `parse_value` has returned from the top-level value at position `p`,
`compile` succeeds if the rest of the range is zero or more whitespace bytes followed by
at most one NUL byte, and otherwise fails with "expected end of text, reached additional
content". -/
theorem compile_end_of_text (text : List Nat) (p : Nat) (context0 context1 : json_print_context)
    (h0 : store_part context_zero 0 0 = .ok context0)
    (hv : parse_value (compile_fuel text) text 0 context0 = .ok (p, context1)) :
    ((∃ w, Spec.Ws w ∧ (text.drop p = w ∨ text.drop p = w ++ [0])) →
      ∃ context, compile text = .ok context ∧ context.count = context1.count + 1) ∧
    ((¬ ∃ w, Spec.Ws w ∧ (text.drop p = w ∨ text.drop p = w ++ [0])) →
      compile text = .throw "expected end of text, reached additional content") := by
  have h0' : store_part context_zero 0 0 = .ok ⟨parts_of [], 0⟩ := by decide
  rw [h0'] at h0
  simp only [Outcome.ok.injEq] at h0
  subst h0
  have hm : Marks text 0 ⟨parts_of [], 0⟩ [] :=
    ⟨rfl, rfl, by simp, List.Pairwise.nil, by simp⟩
  have hstep := Outcome.sat_elim
    ((parse_step _).1 text 0 _ [] hm (by unfold compile_fuel; omega)) hv
  obtain ⟨_, hp, qs, hq⟩ := hstep
  dsimp only at hp hq
  have hat : At text p ((text.drop p).takeWhile is_whitespace
      ++ (text.drop p).dropWhile is_whitespace) :=
    ⟨(List.takeWhile_append_dropWhile _ _).symm, hp⟩
  have hskip : skip_whitespace text p
      = .ok (p + ((text.drop p).takeWhile is_whitespace).length) := by
    unfold skip_whitespace
    rw [if_neg (by omega), skip_run_takeWhile]
  have hat2 := hat.add
  have hcount : context1.count + 1 < JP_MAX_PLACEHOLDERS + 2 := by
    have h1 := hq.le_max
    have h2 := hq.count_eq
    simp only [List.nil_append] at h1 h2
    omega
  have hstore : ∃ context, store_part { context1 with count := context1.count + 1 }
      (context1.count + 1) text.length = .ok context ∧ context.count = context1.count + 1 := by
    unfold store_part
    rw [if_pos hcount]
    exact ⟨_, rfl, rfl⟩
  have hcompile : compile text =
      (at_is text (p + ((text.drop p).takeWhile is_whitespace).length)
        (fun c => c == 0)).bind fun nul =>
        if (if nul = true then p + ((text.drop p).takeWhile is_whitespace).length + 1
            else p + ((text.drop p).takeWhile is_whitespace).length) ≠ text.length then
          Outcome.throw "expected end of text, reached additional content"
        else
          store_part { context1 with count := context1.count + 1 } (context1.count + 1)
            text.length := by
    unfold compile
    simp only [Outcome.bind_eq_bind]
    rw [h0', Outcome.bind_ok, hv, Outcome.bind_ok]
    dsimp only
    rw [hskip, Outcome.bind_ok]
  rw [trailing_iff, hcompile]
  generalize (text.drop p).dropWhile is_whitespace = d at hat2 ⊢
  generalize p + ((text.drop p).takeWhile is_whitespace).length = p1 at hat2 ⊢
  cases d with
  | nil =>
    have hlen := hat2.length
    rw [hat2.at_is_eq_nil, Outcome.bind_ok]
    simp only [List.length_nil, Nat.add_zero] at hlen
    simp only [Bool.false_eq_true, if_false, hlen, ne_eq, not_true_eq_false]
    exact ⟨fun _ => hstore, fun h => (h (by simp)).elim⟩
  | cons c rest =>
    have hlen := hat2.length
    simp only [List.length_cons] at hlen
    rw [hat2.at_is_eq, Outcome.bind_ok]
    by_cases hc : c = 0
    · subst hc
      cases rest with
      | nil =>
        simp only [List.length_nil] at hlen
        simp only [beq_self_eq_true, if_true, ne_eq]
        rw [if_neg (by omega)]
        exact ⟨fun _ => hstore, fun h => (h (by simp)).elim⟩
      | cons c2 rest2 =>
        simp only [List.length_cons] at hlen
        simp only [beq_self_eq_true, if_true, ne_eq]
        rw [if_pos (by omega)]
        exact ⟨fun h => by simp at h, fun _ => rfl⟩
    · have hb : (c == 0) = false := by simpa using hc
      simp only [hb, Bool.false_eq_true, if_false, ne_eq]
      rw [if_pos (by omega)]
      exact ⟨fun h => by simp [hc] at h, fun _ => rfl⟩

/-- C18, at the range `[1]`, a space and NUL (accepted), and at ranges with a second
value, a second NUL, or whitespace after the NUL (all rejected with the same message). -/
theorem compile_end_of_text_witness :
    (∃ context, compile (bytes "[1] " ++ [0]) = .ok context ∧ context.count = 0 + 1) ∧
    compile (bytes "[1] 2" ++ [0])
      = .throw "expected end of text, reached additional content" ∧
    compile (bytes "[1]" ++ [0, 0])
      = .throw "expected end of text, reached additional content" ∧
    compile (bytes "[1]" ++ [0, 32])
      = .throw "expected end of text, reached additional content" :=
  ⟨(compile_end_of_text (bytes "[1] " ++ [0]) 3 ⟨parts_of [], 0⟩ ⟨parts_of [], 0⟩
      (by decide) (by decide)).1 ⟨[32], fun c hc => by rw [List.mem_singleton.mp hc]; exact Or.inl rfl,
        Or.inr (by decide)⟩,
    by decide, by decide, by decide⟩

/-! ## What `parse_number` accepts is a number -/

theorem skip_decimal_sound {text : List Nat} {b p : Nat} (h : skip_decimal text b = .ok p) :
    ∃ ds post, text.drop b = ds ++ post ∧ p = b + ds.length ∧ Spec.Digits ds := by
  unfold skip_decimal at h
  split at h
  · simp at h
  · simp only [Outcome.ok.injEq] at h
    refine ⟨(text.drop b).takeWhile is_decimal, (text.drop b).dropWhile is_decimal,
      (List.takeWhile_append_dropWhile _ _).symm, ?_, ?_⟩
    · rw [← h, skip_run_takeWhile]
    · intro c hc
      exact (is_decimal_iff c).mp (List.mem_takeWhile_imp hc)

theorem number_exponent_sound {text : List Nat} {b p : Nat} {l : List Nat}
    (hat : At text b l) (h : number_exponent text b = .ok p) :
    ∃ e post, l = e ++ post ∧ p = b + e.length ∧ Spec.IsExponent e := by
  unfold number_exponent at h
  cases l with
  | nil =>
    rw [hat.at_is_eq_nil] at h
    simp only [Outcome.bind_ok, Bool.false_eq_true, if_false, Outcome.ok.injEq] at h
    exact ⟨[], [], rfl, by simp [h], Or.inl rfl⟩
  | cons c l1 =>
    rw [hat.at_is_eq] at h
    simp only [Outcome.bind_ok] at h
    by_cases hc : (c == 69 || c == 101) = true
    · rw [if_pos hc] at h
      have hc' : c = 101 ∨ c = 69 := by
        simp only [Bool.or_eq_true, beq_iff_eq] at hc; omega
      have hat1 := hat.succ
      cases l1 with
      | nil =>
        rw [hat1.at_is_eq_nil] at h
        have hlen := hat1.length
        simp only [List.length_nil, Nat.add_zero] at hlen
        simp [hlen] at h
      | cons c2 l2 =>
        rw [hat1.at_is_eq] at h
        simp only [Outcome.bind_ok] at h
        have hat2 := hat1.succ
        by_cases hs : (c2 == 45 || c2 == 43) = true
        · simp only [hs, if_true] at h
          have hs' : [c2] = [43] ∨ [c2] = [45] := by
            simp only [Bool.or_eq_true, beq_iff_eq] at hs
            rcases hs with rfl | rfl
            · exact Or.inr rfl
            · exact Or.inl rfl
          cases l2 with
          | nil =>
            have hlen := hat2.length
            simp only [List.length_nil, Nat.add_zero] at hlen
            rw [if_pos (by omega)] at h
            simp at h
          | cons c3 l3 =>
            have hne := hat2.ne_length
            rw [if_neg (by omega)] at h
            rw [show b + 2 = b + 1 + 1 from rfl, hat2.rd_eq] at h
            simp only [Outcome.bind_ok] at h
            by_cases hd : is_decimal c3 = true
            · simp only [hd, Bool.not_true, Bool.false_eq_true, if_false] at h
              obtain ⟨ds, post, hdrop, hp, hds⟩ := skip_decimal_sound h
              rw [hat2.succ.1] at hdrop
              refine ⟨c :: ([c2] ++ c3 :: ds), post, by simp [hdrop], by
                simp only [List.length_cons, List.length_append, List.length_nil]; omega,
                Or.inr ⟨c, [c2], c3, ds, hc', ?_, (is_decimal_iff c3).mp hd, hds, rfl⟩⟩
              rcases hs' with h1 | h1
              · exact Or.inr (Or.inl h1)
              · exact Or.inr (Or.inr h1)
            · simp [hd] at h
        · simp only [hs, Bool.false_eq_true, if_false] at h
          have hne := hat1.ne_length
          rw [if_neg hne, hat1.rd_eq] at h
          simp only [Outcome.bind_ok] at h
          by_cases hd : is_decimal c2 = true
          · simp only [hd, Bool.not_true, Bool.false_eq_true, if_false] at h
            obtain ⟨ds, post, hdrop, hp, hds⟩ := skip_decimal_sound h
            rw [hat2.1] at hdrop
            refine ⟨c :: ([] ++ c2 :: ds), post, by simp [hdrop], by
              simp only [List.length_cons, List.length_append, List.length_nil]; omega,
              Or.inr ⟨c, [], c2, ds, hc', Or.inl rfl, (is_decimal_iff c2).mp hd, hds, rfl⟩⟩
          · simp [hd] at h
    · rw [if_neg hc] at h
      simp only [Outcome.ok.injEq] at h
      exact ⟨[], c :: l1, rfl, by simp [h], Or.inl rfl⟩

theorem number_fraction_sound {text : List Nat} {b p : Nat} {l : List Nat}
    (hat : At text b l) (h : number_fraction text b = .ok p) :
    ∃ f e post, l = f ++ (e ++ post) ∧ p = b + f.length + e.length ∧
      Spec.IsFraction f ∧ Spec.IsExponent e := by
  unfold number_fraction at h
  obtain ⟨dot, hdot, h⟩ := Outcome.bind_eq_ok h
  obtain ⟨b1, h1, h2⟩ := Outcome.bind_eq_ok h
  have key : ∃ f rest, l = f ++ rest ∧ b1 = b + f.length ∧ Spec.IsFraction f := by
    cases l with
    | nil =>
      rw [hat.at_is_eq_nil] at hdot
      simp only [Outcome.ok.injEq] at hdot
      subst hdot
      simp only [Bool.false_eq_true, if_false, Outcome.ok.injEq] at h1
      exact ⟨[], [], rfl, by simp [h1], Or.inl rfl⟩
    | cons c l1 =>
      rw [hat.at_is_eq] at hdot
      simp only [Outcome.ok.injEq] at hdot
      subst hdot
      by_cases hc : (c == 46) = true
      · rw [if_pos hc] at h1
        have hc' : c = 46 := by simpa using hc
        have hat1 := hat.succ
        cases l1 with
        | nil =>
          have hlen := hat1.length
          simp only [List.length_nil, Nat.add_zero] at hlen
          rw [if_pos hlen] at h1
          simp at h1
        | cons c2 l2 =>
          rw [if_neg hat1.ne_length, hat1.rd_eq] at h1
          simp only [Outcome.bind_ok] at h1
          by_cases hd : is_decimal c2 = true
          · simp only [hd, Bool.not_true, Bool.false_eq_true, if_false] at h1
            obtain ⟨ds, post, hdrop, hp, hds⟩ := skip_decimal_sound h1
            rw [show b + 2 = b + 1 + 1 from rfl, hat1.succ.1] at hdrop
            refine ⟨c :: c2 :: ds, post, by simp [hdrop], by
              simp only [List.length_cons]; omega,
              Or.inr ⟨c2, ds, (is_decimal_iff c2).mp hd, hds, by rw [hc']⟩⟩
          · simp [hd] at h1
      · rw [if_neg hc] at h1
        simp only [Outcome.ok.injEq] at h1
        exact ⟨[], c :: l1, rfl, by simp [h1], Or.inl rfl⟩
  obtain ⟨f, rest, rfl, rfl, hf⟩ := key
  obtain ⟨e, post, rfl, rfl, he⟩ := number_exponent_sound hat.add h2
  exact ⟨f, e, post, rfl, rfl, hf, he⟩

theorem number_integer_sound {text : List Nat} {b p : Nat} {l : List Nat}
    (hat : At text b l) (h : number_integer text b = .ok p) :
    ∃ i f e post, l = i ++ (f ++ (e ++ post)) ∧ p = b + i.length + f.length + e.length ∧
      Spec.IsInteger i ∧ Spec.IsFraction f ∧ Spec.IsExponent e := by
  unfold number_integer at h
  obtain ⟨d, hd, h⟩ := Outcome.bind_eq_ok h
  obtain ⟨b1, h1, h2⟩ := Outcome.bind_eq_ok h
  have key : ∃ i rest, l = i ++ rest ∧ b1 = b + i.length ∧ Spec.IsInteger i := by
    cases l with
    | nil =>
      have := (rd_eq_ok hd).1
      have := hat.length
      simp only [List.length_nil] at this
      omega
    | cons c l1 =>
      rw [hat.rd_eq] at hd
      simp only [Outcome.ok.injEq] at hd
      subst hd
      by_cases h48 : c = 48
      · rw [if_pos h48] at h1
        simp only [Outcome.ok.injEq] at h1
        exact ⟨[c], l1, rfl, by simp [h1], Or.inl (by rw [h48])⟩
      · rw [if_neg h48] at h1
        by_cases hnz : JP_NONZERO_DIGIT c = true
        · rw [if_pos hnz] at h1
          obtain ⟨ds, post, hdrop, hp, hds⟩ := skip_decimal_sound h1
          rw [hat.succ.1] at hdrop
          have hnz' : 49 ≤ c ∧ c ≤ 57 := by
            simpa [JP_NONZERO_DIGIT] using hnz
          exact ⟨c :: ds, post, by simp [hdrop], by simp only [List.length_cons]; omega,
            Or.inr ⟨c, ds, hnz'.1, hnz'.2, hds, rfl⟩⟩
        · rw [if_neg hnz] at h1
          simp at h1
  obtain ⟨i, rest, rfl, rfl, hi⟩ := key
  obtain ⟨f, e, post, rfl, rfl, hf, he⟩ := number_fraction_sound hat.add h2
  exact ⟨i, f, e, post, rfl, rfl, hi, hf, he⟩

/-- What `parse_number` accepts from the cursor on is a number of the grammar. -/
theorem parse_number_sound {text : List Nat} {b p : Nat} {l : List Nat}
    (hat : At text b l) (h : parse_number text b = .ok p) :
    ∃ s post, l = s ++ post ∧ p = b + s.length ∧ Spec.IsNumber s := by
  rw [parse_number_stages] at h
  obtain ⟨c, hc, h⟩ := Outcome.bind_eq_ok h
  obtain ⟨b1, h1, h2⟩ := Outcome.bind_eq_ok h
  cases l with
  | nil =>
    have := (rd_eq_ok hc).1
    have := hat.length
    simp only [List.length_nil] at this
    omega
  | cons c' l1 =>
    rw [hat.rd_eq] at hc
    simp only [Outcome.ok.injEq] at hc
    subst hc
    by_cases h45 : c' = 45
    · rw [if_pos h45] at h1
      split at h1
      · simp at h1
      · simp only [Outcome.ok.injEq] at h1
        subst h1
        obtain ⟨i, f, e, post, rfl, rfl, hi, hf, he⟩ := number_integer_sound hat.succ h2
        exact ⟨c' :: (i ++ (f ++ e)), post, by simp, by
          simp only [List.length_cons, List.length_append]; omega,
          ⟨[45], i, f, e, Or.inr rfl, hi, hf, he, by rw [h45]; rfl⟩⟩
    · rw [if_neg h45] at h1
      simp only [Outcome.ok.injEq] at h1
      subst h1
      obtain ⟨i, f, e, post, hl, rfl, hi, hf, he⟩ := number_integer_sound hat h2
      exact ⟨i ++ (f ++ e), post, by simp [hl], by
        simp only [List.length_append]; omega,
        ⟨[], i, f, e, Or.inl rfl, hi, hf, he, rfl⟩⟩

/-- The bytes of a number: digits, `-`, `+`, `.`, `e`, `E`. -/
theorem number_bytes {s : List Nat} (h : Spec.IsNumber s) :
    ∀ c ∈ s, Spec.digit c ∨ c = 45 ∨ c = 43 ∨ c = 46 ∨ c = 69 ∨ c = 101 := by
  obtain ⟨sign, i, f, e, hsign, hi, hf, he, rfl⟩ := h
  intro c hc
  simp only [List.mem_append] at hc
  rcases hc with hc | hc | hc | hc
  · rcases hsign with rfl | rfl
    · cases hc
    · simp only [List.mem_singleton] at hc; omega
  · rcases hi with rfl | ⟨d, ds, hd1, hd2, hds, rfl⟩
    · simp only [List.mem_singleton] at hc; left; unfold Spec.digit; omega
    · simp only [List.mem_cons] at hc
      rcases hc with rfl | hc
      · left; unfold Spec.digit; omega
      · exact Or.inl (hds c hc)
  · rcases hf with rfl | ⟨d, ds, hd, hds, rfl⟩
    · cases hc
    · simp only [List.mem_cons] at hc
      rcases hc with rfl | rfl | hc
      · omega
      · exact Or.inl hd
      · exact Or.inl (hds c hc)
  · rcases he with rfl | ⟨ex, sg, d, ds, hex, hsg, hd, hds, rfl⟩
    · cases hc
    · simp only [List.mem_cons, List.mem_append] at hc
      rcases hc with rfl | hc | rfl | hc
      · omega
      · rcases hsg with rfl | rfl | rfl
        · cases hc
        · simp only [List.mem_singleton] at hc; omega
        · simp only [List.mem_singleton] at hc; omega
      · exact Or.inl hd
      · exact Or.inl (hds c hc)

/-- C15: for a byte string `s` without whitespace that starts with `-` or a decimal digit,
`compile` of `s` followed by the terminating NUL succeeds if and only if `s` is, in full,
a number of the grammar `-?(0|[1-9][0-9]*)(\.[0-9]+)?([eE][+-]?[0-9]+)?`. -/
theorem compile_number_iff (s : List Nat) (hws : ∀ c ∈ s, ¬ Spec.ws_byte c)
    (hhead : ∃ c rest, s = c :: rest ∧ (c = 45 ∨ Spec.digit c)) :
    (∃ context, compile (s ++ [0]) = .ok context) ↔ Spec.IsNumber s := by
  constructor
  · rintro ⟨context, hc⟩
    obtain ⟨c, rest, rfl, hc45⟩ := hhead
    have h0 : store_part context_zero 0 0 = .ok ⟨parts_of [], 0⟩ := by decide
    have hcomp := hc
    unfold compile at hcomp
    simp only [Outcome.bind_eq_bind] at hcomp
    rw [h0, Outcome.bind_ok] at hcomp
    obtain ⟨⟨p, context1⟩, hv, _⟩ := Outcome.bind_eq_ok hcomp
    have hat : At (c :: rest ++ [0]) 0 ([] ++ c :: (rest ++ [0])) := ⟨rfl, Nat.zero_le _⟩
    have hnws : ¬ Spec.ws_byte c := hws c (List.mem_cons_self _ _)
    have hv' := hv
    unfold compile_fuel at hv'
    rw [parse_value_head _ (fun _ h => by cases h) hat hnws] at hv'
    have hdec : (c = 45 ∨ is_decimal c = true) := by
      rcases hc45 with h | h
      · exact Or.inl h
      · exact Or.inr ((is_decimal_iff c).mpr h)
    have h91 : c ≠ 91 ∧ c ≠ 123 ∧ c ≠ 34 := by
      rcases hc45 with h | h
      · omega
      · unfold Spec.digit at h; omega
    rw [if_neg h91.1, if_neg h91.2.1, if_neg h91.2.2, if_pos (by simpa using hdec)] at hv'
    obtain ⟨p', hnum, hp'⟩ := Outcome.bind_eq_ok hv'
    simp only [Outcome.ok.injEq, Prod.mk.injEq] at hp'
    obtain ⟨rfl, _⟩ := hp'
    simp only [List.length_nil, Nat.add_zero] at hnum
    obtain ⟨n, post, hn, rfl, hnumber⟩ := parse_number_sound hat hnum
    simp only [List.nil_append, Nat.zero_add] at hn
    rw [Nat.zero_add] at hv
    have hend := compile_end_of_text (c :: rest ++ [0]) n.length _ context1 h0 hv
    have htrail : ∃ w, Spec.Ws w ∧ (post = w ∨ post = w ++ [0]) := by
      by_contra hno
      have hdrop : (c :: rest ++ [0]).drop n.length = post := by
        rw [List.cons_append, hn, List.drop_left]
      rw [hdrop] at hend
      rw [hend.2 hno] at hc
      cases hc
    obtain ⟨w, hw, hpost | hpost⟩ := htrail
    · exfalso
      have hmem : 0 ∈ n ++ post := by
        rw [← hn]; simp
      rw [List.mem_append] at hmem
      rcases hmem with h | h
      · have := number_bytes hnumber 0 h
        unfold Spec.digit at this
        omega
      · rw [hpost] at h
        have := hw 0 h
        unfold Spec.ws_byte at this
        omega
    · rw [hpost, ← List.append_assoc, ← List.cons_append] at hn
      have hs : c :: rest = n ++ w := List.append_cancel_right hn
      cases w with
      | nil => rw [List.append_nil] at hs; rw [hs]; exact hnumber
      | cons x w' =>
        exfalso
        have hx : x ∈ c :: rest := by rw [hs]; simp
        exact hws x hx (hw x (List.mem_cons_self _ _))
  · intro h
    have ht : Spec.Template s 0 :=
      ⟨[], s, [], by decide, Spec.Value.number h, by decide, by simp⟩
    have := compile_template ht
    rw [if_pos (Nat.zero_le _)] at this
    obtain ⟨context, hc, _⟩ := this
    exact ⟨context, hc⟩

/-- C15, at `-12.5e+3` (accepted), and at a bare `-`, a leading zero, a trailing `.` and an
exponent without digits (all rejected). -/
theorem compile_number_iff_witness :
    (∃ context, compile (bytes "-12.5e+3" ++ [0]) = .ok context) ∧
    compile (bytes "-" ++ [0]) = .throw "expected digit after '-'" ∧
    compile (bytes "01" ++ [0])
      = .throw "expected end of text, reached additional content" ∧
    compile (bytes "12." ++ [0]) = .throw "expected digit after '.'" ∧
    compile (bytes "1e" ++ [0]) = .throw "expected digit after exponent" ∧
    compile (bytes "1e+" ++ [0]) = .throw "expected digit after exponent" :=
  ⟨(compile_number_iff (bytes "-12.5e+3") (by decide) ⟨45, _, rfl, Or.inl rfl⟩).mpr
      ⟨[45], bytes "12", bytes ".5", bytes "e+3", Or.inr rfl,
        Or.inr ⟨49, [50], by decide, by decide, by decide, rfl⟩,
        Or.inr ⟨53, [], by decide, by decide, rfl⟩,
        Or.inr ⟨101, [43], 51, [], Or.inl rfl, Or.inr (Or.inl rfl), by decide, by decide,
          rfl⟩, rfl⟩,
    by decide, by decide, by decide, by decide, by decide⟩

/-! ## Evaluations -/

/-- C11 (what the code does): for the one-byte text 0x01 `json_print_string` writes
`"\0001"`, and `parse_string` rejects these bytes with "unsupported escape character",
so the escaper writes an escape the compiler does not accept.  A text of a quote, a
backslash, a line feed and `A` is written as `"\"\\\nA"`, which `parse_string` accepts in
full. -/
theorem escaper_output_rejected_by_parse_string :
    json_print_string false (.file []) [1] = .ok (.file (bytes "\"\\0001\"")) ∧
    json_print_string true (.file []) [1] = .ok (.file (bytes "\"\\0001\"")) ∧
    parse_string (bytes "\"\\0001\"") 0 = .throw "unsupported escape character" ∧
    json_print_string false (.file []) [34, 92, 10, 65]
      = .ok (.file (bytes "\"\\\"\\\\\\nA\"")) ∧
    parse_string (bytes "\"\\\"\\\\\\nA\"") 0 = .ok (bytes "\"\\\"\\\\\\nA\"").length := by
  decide

/-- C12 (what the code does): the words `nope`, `tree` and `fubar`, NUL-terminated,
compile, each with `count = 1`, and so does `[1,nope]`; "unrecognized token" is thrown
only when fewer bytes remain in the range than the literal has, as for the two-byte range
`no`. -/
theorem compile_accepts_words :
    compile (bytes "nope" ++ [0]) = .ok ⟨(parts_of []).set 1 (some 5), 1⟩ ∧
    compile (bytes "tree" ++ [0]) = .ok ⟨(parts_of []).set 1 (some 5), 1⟩ ∧
    compile (bytes "fubar" ++ [0]) = .ok ⟨(parts_of []).set 1 (some 6), 1⟩ ∧
    compile (bytes "[1,nope]" ++ [0]) = .ok ⟨(parts_of []).set 1 (some 9), 1⟩ ∧
    compile (bytes "no") = .throw "unrecognized token" := by
  decide

/-- C13 (what the code does): on the four-byte range `"abc`, which ends without a closing
quote and without a NUL, `compile` succeeds with `count = 1`: the loop of `parse_string`
ends at the end of the range and the function returns.  When the range holds the
terminating NUL the same text is rejected, the NUL being a control character. -/
theorem compile_accepts_unterminated_string :
    compile (bytes "\"abc") = .ok ⟨(parts_of []).set 1 (some 4), 1⟩ ∧
    parse_string (bytes "\"abc") 0 = .ok 4 ∧
    compile (bytes "\"abc" ++ [0])
      = .throw "control characters not allowed inside strings" := by
  decide

/-- C14 (what the code does): in `{"a":1,xb":2}` the comma is followed by `x`, not
by a quote, and `compile` succeeds with `count = 1`: the loop of `parse_object` calls
`parse_string`, which steps over the byte it stands on without looking at it.  Before the
first member the byte is checked, and `{xb":2}` is rejected. -/
theorem compile_accepts_unquoted_member_name :
    compile (bytes "\x7b\"a\":1,xb\":2\x7d" ++ [0])
      = .ok ⟨(parts_of []).set 1 (some 14), 1⟩ ∧
    compile (bytes "\x7bxb\":2\x7d" ++ [0]) = .throw "expected '\"' or '\x7d'" := by
  decide

/-- C19 (what the code does): in `{"a":1,?":2}` a `?` stands where a member name is
expected, and `compile` succeeds, with no placeholder recorded (`count = 1`).  A `?`
directly after a value in an array or object, as the first member name, or after the
top-level value is rejected. -/
theorem compile_accepts_placeholder_as_member_name :
    compile (bytes "\x7b\"a\":1,?\":2\x7d" ++ [0])
      = .ok ⟨(parts_of []).set 1 (some 13), 1⟩ ∧
    compile (bytes "[42?]" ++ [0]) = .throw "expected ',' or ']'" ∧
    compile (bytes "[42 ?]" ++ [0]) = .throw "expected ',' or ']'" ∧
    compile (bytes "\x7b\"a\":1?\x7d" ++ [0]) = .throw "expected ',' or '\x7d'" ∧
    compile (bytes "\x7b?:1\x7d" ++ [0]) = .throw "expected '\"' or '\x7d'" ∧
    compile (bytes "1?" ++ [0])
      = .throw "expected end of text, reached additional content" ∧
    compile (bytes "[1]?" ++ [0])
      = .throw "expected end of text, reached additional content" ∧
    compile (bytes "??" ++ [0])
      = .throw "expected end of text, reached additional content" := by
  decide

/-! ## String literals that break a rule -/

theorem json_print_arg_bool_writes (sgn : Bool) (b : Bool) :
    Writes (fun d => json_print_arg sgn d (.bool b))
      (if b then bytes "true" else bytes "false") := by
  cases b
  · exact (write_string_unsafe_writes (bytes "false") (by decide)).congr_writes
      (fun d => by rw [json_print_arg]; rfl)
  · exact (write_string_unsafe_writes (bytes "true") (by decide)).congr_writes
      (fun d => by rw [json_print_arg]; rfl)

theorem json_print_arg_null_writes (sgn : Bool) :
    Writes (fun d => json_print_arg sgn d .nullptr) (bytes "null") :=
  (write_string_unsafe_writes (bytes "null") (by decide)).congr_writes
    (fun d => by rw [json_print_arg])

/-- C21 (what the code does): the overload for `short` calls `printf` with the format
`"%h"`, which has a length modifier and no conversion specifier, so the call has no
defined result, on a stream and on a buffer alike; so has
`json_sprint(buf, 128, compile("?"), (short)42)`.  The overloads for the other eight
integer types use `%d`, `%hu`, `%u`, `%ld`, `%lu`, `%lld` and `%llu` and write the decimal
text of the value, as 42, -7 and 0 show. -/
theorem short_is_printed_with_bad_format (char_is_signed : Bool) :
    (∀ n dest, json_print_arg char_is_signed dest (.short n) = .undefined .bad_conversion) ∧
    compile (bytes "?" ++ [0]) = .ok ⟨(parts_of [0]).set 2 (some 2), 2⟩ ∧
    json_sprint char_is_signed 128 (bytes "?" ++ [0]) ⟨(parts_of [0]).set 2 (some 2), 2⟩
      [.short 42] = .undefined .bad_conversion ∧
    (∀ n, Writes (fun d => json_print_arg char_is_signed d (.unsigned_char n))
      (signed_decimal n)) ∧
    (∀ n, Writes (fun d => json_print_arg char_is_signed d (.unsigned_short n)) (decimal n)) ∧
    (∀ n, Writes (fun d => json_print_arg char_is_signed d (.int n)) (signed_decimal n)) ∧
    (∀ n, Writes (fun d => json_print_arg char_is_signed d (.unsigned n)) (decimal n)) ∧
    (∀ n, Writes (fun d => json_print_arg char_is_signed d (.long n)) (signed_decimal n)) ∧
    (∀ n, Writes (fun d => json_print_arg char_is_signed d (.unsigned_long n)) (decimal n)) ∧
    (∀ n, Writes (fun d => json_print_arg char_is_signed d (.long_long n))
      (signed_decimal n)) ∧
    (∀ n, Writes (fun d => json_print_arg char_is_signed d (.unsigned_long_long n))
      (decimal n)) ∧
    signed_decimal 42 = bytes "42" ∧ signed_decimal (-7) = bytes "-7" ∧
    signed_decimal 0 = bytes "0" ∧ decimal 0 = bytes "0" ∧ decimal 65535 = bytes "65535" := by
  refine ⟨fun n dest => ?_, by decide, ?_, fun n => ?_, fun n => ?_, fun n => ?_, fun n => ?_, fun n => ?_,
    fun n => ?_, fun n => ?_, fun n => ?_, by decide, by decide, by decide, by decide,
    by decide⟩
  · rw [json_print_arg]; rfl
  · cases char_is_signed <;> decide
  · exact (@write_printf_writes "%d" (.signed n) _ rfl).congr_writes
      (fun d => by rw [json_print_arg])
  · exact (@write_printf_writes "%hu" (.unsigned n) _ rfl).congr_writes
      (fun d => by rw [json_print_arg])
  · exact (@write_printf_writes "%d" (.signed n) _ rfl).congr_writes
      (fun d => by rw [json_print_arg])
  · exact (@write_printf_writes "%u" (.unsigned n) _ rfl).congr_writes
      (fun d => by rw [json_print_arg])
  · exact (@write_printf_writes "%ld" (.signed n) _ rfl).congr_writes
      (fun d => by rw [json_print_arg])
  · exact (@write_printf_writes "%lu" (.unsigned n) _ rfl).congr_writes
      (fun d => by rw [json_print_arg])
  · exact (@write_printf_writes "%lld" (.signed n) _ rfl).congr_writes
      (fun d => by rw [json_print_arg])
  · exact (@write_printf_writes "%llu" (.unsigned n) _ rfl).congr_writes
      (fun d => by rw [json_print_arg])

/-- C22: a boolean is written as exactly the four bytes `true` or the five bytes `false`
according to its value, and a null value as exactly the four bytes `null`, without
quotes: a stream receives these bytes and nothing else, and so does any buffer with room
for them. -/
theorem bool_and_null_are_bare_literals (char_is_signed : Bool) :
    (∀ (b : Bool) (f : List Nat), json_print_arg char_is_signed (.file f) (.bool b)
      = .ok (.file (f ++ if b then [116, 114, 117, 101] else [102, 97, 108, 115, 101]))) ∧
    (∀ f : List Nat, json_print_arg char_is_signed (.file f) .nullptr
      = .ok (.file (f ++ [110, 117, 108, 108]))) ∧
    (∀ b : Bool, Writes (fun d => json_print_arg char_is_signed d (.bool b))
      (if b then [116, 114, 117, 101] else [102, 97, 108, 115, 101])) ∧
    Writes (fun d => json_print_arg char_is_signed d .nullptr) [110, 117, 108, 108] := by
  have hb : ∀ b : Bool, Writes (fun d => json_print_arg char_is_signed d (.bool b))
      (if b then [116, 114, 117, 101] else [102, 97, 108, 115, 101]) := by
    intro b
    have := json_print_arg_bool_writes char_is_signed b
    cases b <;> exact this
  exact ⟨fun b f => (hb b).file f, fun f => (json_print_arg_null_writes char_is_signed).file f,
    hb, json_print_arg_null_writes char_is_signed⟩

/-- C23: a `float`, `double` or `long double` that is NaN or infinite (of either sign) is
written exactly as a null value is: on every destination `json_print_arg` does what it
does for `nullptr`, which is to write the four bytes `null`. -/
theorem nan_and_infinity_are_null (char_is_signed : Bool) (x : Floating)
    (h : x.isnan = true ∨ x.isinf = true) :
    (∀ dest, json_print_arg char_is_signed dest (.float x)
      = json_print_arg char_is_signed dest .nullptr) ∧
    (∀ dest, json_print_arg char_is_signed dest (.double x)
      = json_print_arg char_is_signed dest .nullptr) ∧
    (∀ dest, json_print_arg char_is_signed dest (.long_double x)
      = json_print_arg char_is_signed dest .nullptr) ∧
    (∀ f, json_print_arg char_is_signed (.file f) (.double x)
      = .ok (.file (f ++ [110, 117, 108, 108]))) := by
  have hx : (x.isnan || x.isinf) = true := by
    rcases h with h | h <;> simp [h]
  have key : ∀ dest n, json_print_float_arg dest x n
      = json_print_arg char_is_signed dest .nullptr := by
    intro dest n
    rw [json_print_arg]
    unfold json_print_float_arg
    rw [if_pos hx]
  refine ⟨fun dest => ?_, fun dest => ?_, fun dest => ?_, fun f => ?_⟩
  · rw [json_print_arg]; exact key dest _
  · rw [json_print_arg]; exact key dest _
  · rw [json_print_arg]; exact key dest _
  · rw [json_print_arg, key _ _]
    exact (json_print_arg_null_writes char_is_signed).file f

/-- C23, at a NaN and at an infinity held in a `double`, whatever text `printf` would give
for them: a stream receives `null`. -/
theorem nan_and_infinity_are_null_witness :
    json_print_arg false (.file []) (.double ⟨true, false, bytes "nan"⟩)
      = .ok (.file (bytes "null")) ∧
    json_print_arg false (.file []) (.long_double ⟨false, true, bytes "-inf"⟩)
      = json_print_arg false (.file []) .nullptr :=
  ⟨(nan_and_infinity_are_null false ⟨true, false, bytes "nan"⟩ (Or.inl rfl)).2.2.2 [],
    (nan_and_infinity_are_null false ⟨false, true, bytes "-inf"⟩ (Or.inr rfl)).2.2.1
      (.file [])⟩

/-! ## Sequences and mappings -/

theorem intercalate_cons {α : Type} (sep s : List α) (ss : List (List α)) :
    List.intercalate sep (s :: ss) = s ++ (ss.map (sep ++ ·)).flatten := by
  induction ss generalizing s with
  | nil => simp [List.intercalate]
  | cons t ss ih =>
    have := ih t
    simp only [List.intercalate] at this ⊢
    rw [List.intersperse_cons_cons, List.flatten_cons, List.flatten_cons, this]
    simp

theorem separated_length (sep : List Nat) (ss : List (List Nat)) :
    (ss.map (sep ++ ·)).flatten.length = (ss.map List.length).sum + sep.length * ss.length := by
  induction ss with
  | nil => rfl
  | cons t ss ih =>
    simp only [List.map_cons, List.flatten_cons, List.length_append, List.length_cons,
      List.sum_cons, ih, Nat.mul_succ]
    omega

theorem json_print_array_loop_writes (sgn : Bool) :
    ∀ (xs : List Arg) (sers : List (List Nat)),
      List.Forall₂ (fun a s => json_print_arg sgn (.file []) a = .ok (.file s)) xs sers →
      Writes (fun d => json_print_array_loop sgn d xs) (sers.map ([44] ++ ·)).flatten
  | [], _, h => by
    cases h
    exact Writes.nothing.congr_writes (fun d => by rw [json_print_array_loop])
  | x :: xs, _, h => by
    cases h with
    | cons hx hrest =>
      rename_i s ss
      have := Writes.bind_writes (write_char_writes 44)
        (Writes.bind_writes (Ser.writes (ser_arg sgn x) hx)
          (json_print_array_loop_writes sgn xs ss hrest))
      refine Writes.congr_writes (by simpa using this) (fun d => ?_)
      rw [json_print_array_loop]

/-- C24: a sequence whose elements have the serializations `sers` is written as `[`, the
serializations in iteration order joined by single commas, and `]`, on a stream and on any
buffer with room: the empty sequence gives `[]`, and a sequence of `n` elements, `n` at
least one, has `n - 1` commas between its elements and none after the last. -/
theorem sequence_is_comma_separated (char_is_signed : Bool) (xs : List Arg)
    (sers : List (List Nat))
    (hs : List.Forall₂
      (fun a s => json_print_arg char_is_signed (.file []) a = .ok (.file s)) xs sers) :
    Writes (fun d => json_print_arg char_is_signed d (.vector xs))
      (91 :: (List.intercalate [44] sers ++ [93])) ∧
    (∀ f, json_print_arg char_is_signed (.file f) (.vector xs)
      = .ok (.file (f ++ 91 :: (List.intercalate [44] sers ++ [93])))) ∧
    (List.intercalate [44] sers).length = (sers.map List.length).sum + (xs.length - 1) := by
  have hw : Writes (fun d => json_print_arg char_is_signed d (.vector xs))
      (91 :: (List.intercalate [44] sers ++ [93])) := by
    cases hs with
    | nil =>
      have := Writes.bind_writes (write_char_writes 91) (write_char_writes 93)
      exact Writes.congr_writes this (fun d => by rw [json_print_arg]; rfl)
    | cons hx hrest =>
      rename_i x s xs' ss
      have := Writes.bind_writes (write_char_writes 91)
        (Writes.bind_writes (Ser.writes (ser_arg char_is_signed x) hx)
          (Writes.bind_writes (json_print_array_loop_writes char_is_signed xs' ss hrest)
            (write_char_writes 93)))
      rw [intercalate_cons]
      refine Writes.congr_writes (by simpa using this) (fun d => ?_)
      rw [json_print_arg]
  refine ⟨hw, fun f => hw.file f, ?_⟩
  have hlen := hs.length_eq
  rw [hlen]
  clear hw hs hlen
  cases sers with
  | nil => rfl
  | cons s ss =>
    rw [intercalate_cons, List.length_append, separated_length]
    simp only [List.map_cons, List.sum_cons, List.length_cons, Nat.add_sub_cancel,
      List.length_nil, Nat.zero_add, Nat.one_mul]
    omega

/-- C24, at the sequence of the integers 24 and 42 and at the empty sequence. -/
theorem sequence_is_comma_separated_witness :
    json_print_arg false (.file []) (.vector [.int 24, .int 42])
      = .ok (.file (bytes "[24,42]")) ∧
    json_print_arg false (.file []) (.vector []) = .ok (.file (bytes "[]")) :=
  ⟨(sequence_is_comma_separated false [.int 24, .int 42] [bytes "24", bytes "42"]
      (.cons (by decide) (.cons (by decide) .nil))).2.1 [],
    (sequence_is_comma_separated false [] [] .nil).2.1 []⟩

theorem json_print_key_eq (sgn : Bool) (dest : Dest) (k : Key) :
    json_print_key sgn dest k = json_print_string sgn dest k.text := by
  cases k <;> rfl

theorem json_print_object_loop_writes (sgn : Bool) :
    ∀ (entries : List (Key × Arg)) (sers : List (List Nat)),
      List.Forall₂ (fun e s => ∃ ks vs,
        json_print_string sgn (.file []) e.1.text = .ok (.file ks) ∧
        json_print_arg sgn (.file []) e.2 = .ok (.file vs) ∧ s = ks ++ 58 :: vs)
        entries sers →
      Writes (fun d => json_print_object_loop sgn d entries) (sers.map ([44] ++ ·)).flatten
  | [], _, h => by
    cases h
    exact Writes.nothing.congr_writes (fun d => by rw [json_print_object_loop])
  | (k, v) :: entries, _, h => by
    cases h with
    | cons he hrest =>
      rename_i s ss
      obtain ⟨ks, vs, hk, hv, rfl⟩ := he
      have := Writes.bind_writes (write_char_writes 44)
        (Writes.bind_writes (Ser.writes (ser_string sgn k.text) hk)
          (Writes.bind_writes (write_char_writes 58)
            (Writes.bind_writes (Ser.writes (ser_arg sgn v) hv)
              (json_print_object_loop_writes sgn entries ss hrest))))
      refine Writes.congr_writes (by simpa using this) (fun d => ?_)
      rw [json_print_object_loop]
      simp only [json_print_key_eq, Outcome.bind_ok]

/-- C25: a mapping is written as an opening brace, its entries in iteration order joined
by single commas, and a closing brace, on a stream and on any buffer with room; each
entry is what the string escaper `json_print_string` writes for the key, a `:`, and the
serialization of the value, which may itself be a sequence or a mapping.  The empty
mapping gives the two bytes `{}`. -/
theorem mapping_is_comma_separated (char_is_signed : Bool) (entries : List (Key × Arg))
    (sers : List (List Nat))
    (hs : List.Forall₂ (fun e s => ∃ ks vs,
      json_print_string char_is_signed (.file []) e.1.text = .ok (.file ks) ∧
      json_print_arg char_is_signed (.file []) e.2 = .ok (.file vs) ∧ s = ks ++ 58 :: vs)
      entries sers) :
    Writes (fun d => json_print_arg char_is_signed d (.map entries))
      (123 :: (List.intercalate [44] sers ++ [125])) ∧
    (∀ f, json_print_arg char_is_signed (.file f) (.map entries)
      = .ok (.file (f ++ 123 :: (List.intercalate [44] sers ++ [125])))) := by
  have hw : Writes (fun d => json_print_arg char_is_signed d (.map entries))
      (123 :: (List.intercalate [44] sers ++ [125])) := by
    cases hs with
    | nil =>
      have := Writes.bind_writes (write_char_writes 123) (write_char_writes 125)
      exact Writes.congr_writes this (fun d => by rw [json_print_arg]; rfl)
    | cons he hrest =>
      rename_i e s entries' ss
      obtain ⟨k, v⟩ := e
      obtain ⟨ks, vs, hk, hv, rfl⟩ := he
      have := Writes.bind_writes (write_char_writes 123)
        (Writes.bind_writes (Ser.writes (ser_string char_is_signed k.text) hk)
          (Writes.bind_writes (write_char_writes 58)
            (Writes.bind_writes (Ser.writes (ser_arg char_is_signed v) hv)
              (Writes.bind_writes
                (json_print_object_loop_writes char_is_signed entries' ss hrest)
                (write_char_writes 125)))))
      rw [intercalate_cons]
      refine Writes.congr_writes (by simpa using this) (fun d => ?_)
      rw [json_print_arg]
      simp only [json_print_key_eq, Outcome.bind_ok]
  exact ⟨hw, fun f => hw.file f⟩

/-- C25, at the mapping of `a` to the sequence 24 and of `b` to the sequence 42, 25, with
keys held as `const char*`, and at the empty mapping. -/
theorem mapping_is_comma_separated_witness :
    json_print_arg false (.file [])
      (.map [(.c_string (bytes "a" ++ [0]), .vector [.int 24]),
        (.string (bytes "b"), .vector [.int 42, .int 25])])
      = .ok (.file (bytes "\x7b\"a\":[24],\"b\":[42,25]\x7d")) ∧
    json_print_arg false (.file []) (.map []) = .ok (.file (bytes "\x7b\x7d")) :=
  ⟨(mapping_is_comma_separated false
      [(.c_string (bytes "a" ++ [0]), .vector [.int 24]),
        (.string (bytes "b"), .vector [.int 42, .int 25])]
      [bytes "\"a\":[24]", bytes "\"b\":[42,25]"]
      (.cons ⟨bytes "\"a\"", bytes "[24]", by decide, by decide, by decide⟩
        (.cons ⟨bytes "\"b\"", bytes "[42,25]", by decide, by decide, by decide⟩ .nil))).2 [],
    (mapping_is_comma_separated false [] [] .nil).2 []⟩

/-! ## Writes that are cut short at the end of the buffer -/

theorem poke_length_eq (mem : List Nat) (pos : Nat) (data : List Nat) (h : pos ≤ mem.length) :
    (poke mem pos data).length = max mem.length (pos + data.length) := by
  unfold poke
  simp only [List.length_append, List.length_take, List.length_drop]
  omega

theorem fills_char (c : Nat) : Fills (fun d => .ok (write_char d c)) [c] := by
  refine ⟨fun f => rfl, fun b h1 h2 h3 => ?_⟩
  by_cases hlt : b.pos < b.cap
  · refine ⟨{ b with mem := poke b.mem b.pos [c], pos := b.pos + 1 }, ?_, rfl, ?_, ?_, ?_⟩
    · simp only [write_char]; rw [if_pos hlt]
    · show b.pos + 1 = min (b.pos + [c].length) b.cap
      simp only [List.length_singleton]; omega
    · show b.pos + 1 ≤ (poke b.mem b.pos [c]).length
      rw [poke_length_eq _ _ _ h1]; simp only [List.length_singleton]; omega
    · show (poke b.mem b.pos [c]).length ≤ b.cap
      rw [poke_length_eq _ _ _ h1]; simp only [List.length_singleton]; omega
  · refine ⟨b, ?_, rfl, ?_, h1, h2⟩
    · simp only [write_char]; rw [if_neg hlt]
    · simp only [List.length_singleton]; omega

theorem fills_string (data : List Nat) : Fills (fun d => .ok (write_string d data).1) data := by
  refine ⟨fun f => rfl, fun b h1 h2 h3 => ?_⟩
  refine ⟨{ b with mem := poke b.mem b.pos (data.take (min data.length (b.cap - b.pos))),
                   pos := b.pos + min data.length (b.cap - b.pos) }, rfl, rfl, ?_, ?_, ?_⟩
  · show b.pos + min data.length (b.cap - b.pos) = min (b.pos + data.length) b.cap
    omega
  · show b.pos + min data.length (b.cap - b.pos) ≤ (poke b.mem b.pos _).length
    rw [poke_length_eq _ _ _ h1, List.length_take]; omega
  · show (poke b.mem b.pos _).length ≤ b.cap
    rw [poke_length_eq _ _ _ h1, List.length_take]; omega

theorem fills_literal (text : List Nat) (h : ∀ c ∈ text, c ≠ 0) :
    Fills (fun d => .ok ( write_string_unsafe d text).1) text := by
  refine ⟨fun f => ?_, fun b h1 h2 h3 => ?_⟩
  · simp only [ write_string_unsafe, c_str_eq_self h]
  · have := (fills_string text).2 b h1 h2 h3
    simpa only [ write_string_unsafe, c_str_eq_self h] using this

theorem fills_printf {format : String} {arg : PrintfArg} {out : List Nat}
    (h : c_printf format arg = .ok out) :
    Fills (fun d => (write_printf d format arg).bind fun r => .ok r.1) out := by
  refine ⟨fun f => ?_, fun b h1 h2 h3 => ?_⟩
  · simp only [write_printf, h, Outcome.bind_ok]
  · unfold INT_MAX at h3
    have hmin : min (out.length : Int) (to_int ((b.cap : Int) - (b.pos : Int)))
        = ((min out.length (b.cap - b.pos) : Nat) : Int) := by
      rw [to_int_of_lt (by omega) (by omega)]; omega
    refine ⟨{ b with mem := snprintf_store b out,
                     pos := b.pos + min out.length (b.cap - b.pos) }, ?_, rfl, ?_, ?_, ?_⟩
    · simp only [write_printf, h, Outcome.bind_ok, hmin]
      rw [if_neg (by omega)]
      simp only [Outcome.bind_ok]
      congr 3
    · show b.pos + min out.length (b.cap - b.pos) = min (b.pos + out.length) b.cap
      omega
    · show b.pos + min out.length (b.cap - b.pos) ≤ (snprintf_store b out).length
      unfold snprintf_store
      simp only
      split
      · omega
      · rw [poke_length_eq _ _ _ h1]
        simp only [List.length_append, List.length_take, List.length_singleton]
        omega
    · show (snprintf_store b out).length ≤ b.cap
      unfold snprintf_store
      simp only
      split
      · exact h2
      · rw [poke_length_eq _ _ _ h1]
        simp only [List.length_append, List.length_take, List.length_singleton]
        omega

theorem fills_bind {F G : Dest → Outcome Dest} {o1 o2 : List Nat} (hF : Fills F o1)
    (hG : Fills G o2) : Fills (fun d => (F d).bind G) (o1 ++ o2) := by
  refine ⟨fun f => ?_, fun b h1 h2 h3 => ?_⟩
  · simp only [hF.1 f, Outcome.bind_ok, hG.1, List.append_assoc]
  · obtain ⟨b1, e1, c1, p1, m1, l1⟩ := hF.2 b h1 h2 h3
    obtain ⟨b2, e2, c2, p2, m2, l2⟩ := hG.2 b1 m1 l1 (by rw [c1]; exact h3)
    refine ⟨b2, by simp only [e1, Outcome.bind_ok, e2], c2.trans c1, ?_, m2, l2⟩
    rw [p2, p1, c1, List.length_append]
    omega

theorem fills_law : SinkLaw Fills where
  file := fun h f => h.1 f
  nothing := ⟨fun f => by simp, fun b h1 h2 h3 => ⟨b, rfl, rfl, by
    simp only [List.length_nil, Nat.add_zero]; omega, h1, h2⟩⟩
  bind := fills_bind
  congr := fun hF h => ⟨fun f => by rw [h]; exact hF.1 f, fun b h1 h2 h3 => by
    rw [h]; exact hF.2 b h1 h2 h3⟩
  char := fills_char
  string := fills_string
  literal := fills_literal
  printf := fills_printf

/-! ## The serializer under any law of the sink operations -/

theorem law_escape_action {P : (Dest → Outcome Dest) → List Nat → Prop} (hP : SinkLaw P)
    (sgn : Bool) (c : Nat) : P (escape_action sgn c) (escape_text sgn c) := by
  unfold escape_action escape_text
  split
  · exact hP.literal [92, 34] (by decide)
  split
  · exact hP.literal [92, 92] (by decide)
  split
  · exact hP.literal [92, 98] (by decide)
  split
  · exact hP.literal [92, 102] (by decide)
  split
  · exact hP.literal [92, 110] (by decide)
  split
  · exact hP.literal [92, 114] (by decide)
  split
  · exact hP.literal [92, 116] (by decide)
  · exact hP.printf rfl

theorem law_string_loop {P : (Dest → Outcome Dest) → List Nat → Prop} (hP : SinkLaw P)
    (sgn : Bool) :
    ∀ (n : Nat) (text : List Nat) (fuel : Nat), text.length ≤ n → text.length ≤ fuel →
      P (json_print_string_loop sgn fuel text) (string_body sgn text)
  | _, [], fuel, _, _ =>
    hP.congr hP.nothing (fun d => json_print_string_loop_nil sgn fuel d)
  | 0, _ :: _, _, hn, _ => by simp at hn
  | _, _ :: _, 0, _, hf => by simp at hf
  | n + 1, a :: t, fuel + 1, hn, hf => by
    have hsplit := List.takeWhile_append_dropWhile
      (fun c => !is_special_character sgn c) (a :: t)
    have hrun : ∀ c ∈ (a :: t).takeWhile (fun c => !is_special_character sgn c),
        is_special_character sgn c = false := by
      intro c hc
      simpa using List.mem_takeWhile_imp hc
    have hlen := dropWhile_length_le (fun c => !is_special_character sgn c) (a :: t)
    have hstep := fun d => json_print_string_loop_cons sgn fuel a t d
    generalize (a :: t).takeWhile (fun c => !is_special_character sgn c) = run
      at hsplit hrun hstep
    cases hd : (a :: t).dropWhile (fun c => !is_special_character sgn c) with
    | nil =>
      rw [hd, List.append_nil] at hsplit
      subst hsplit
      have hb : string_body sgn (a :: t) = a :: t := by
        have := string_body_run sgn (a :: t) [] hrun
        rw [List.append_nil] at this
        rw [this]; simp [string_body]
      rw [hb]
      refine hP.congr (hP.string _) (fun d => ?_)
      rw [hstep, hd]
    | cons c rest =>
      rw [hd] at hsplit hlen
      have hc : is_special_character sgn c = true := by
        have := dropWhile_head hd
        simpa using this
      simp only [List.length_cons] at hlen hn hf
      by_cases hstop : rest = [] ∧ c = 0
      · have hb : string_body sgn (a :: t) = run := by
          rw [← hsplit, string_body_run sgn _ _ hrun, hstop.1, hstop.2]
          simp [string_body]
        rw [hb]
        refine hP.congr (hP.string _) (fun d => ?_)
        rw [hstep, hd]
        simp only [hstop, and_self, if_true]
      · have hb : string_body sgn (a :: t)
            = run ++ (escape_text sgn c ++ string_body sgn rest) := by
          rw [← string_body_special sgn c rest hc hstop, ← string_body_run sgn _ _ hrun,
            hsplit]
        rw [hb]
        refine hP.congr
          (hP.bind (hP.string _)
            (hP.bind (law_escape_action hP sgn c)
              (law_string_loop hP sgn n rest fuel (by omega) (by omega))))
          (fun d => ?_)
        rw [hstep, hd]
        simp only [hstop, if_false, Outcome.bind_ok]

theorem law_string {P : (Dest → Outcome Dest) → List Nat → Prop} (hP : SinkLaw P)
    (sgn : Bool) (text : List Nat) :
    P (fun d => json_print_string sgn d text) (34 :: (string_body sgn text ++ [34])) := by
  have h := hP.bind (hP.char 34)
    (hP.bind (law_string_loop hP sgn _ text text.length (Nat.le_refl _) (Nat.le_refl _))
      (hP.char 34))
  refine hP.congr h (fun d => ?_)
  simp only [json_print_string, Outcome.bind_ok]

theorem SerLaw.of_law {P : (Dest → Outcome Dest) → List Nat → Prop} (hP : SinkLaw P)
    {F : Dest → Outcome Dest} {out : List Nat} (h : P F out) : SerLaw P F := by
  intro f dest' hd
  rw [hP.file h f] at hd
  simp only [Outcome.ok.injEq] at hd
  exact ⟨out, hd.symm, h⟩

theorem SerLaw.bind_law {P : (Dest → Outcome Dest) → List Nat → Prop} (hP : SinkLaw P)
    {F G : Dest → Outcome Dest} (hF : SerLaw P F) (hG : SerLaw P G) :
    SerLaw P (fun d => (F d).bind G) := by
  intro f dest' hd
  obtain ⟨d1, h1, h2⟩ := Outcome.bind_eq_ok hd
  obtain ⟨o1, rfl, w1⟩ := hF f d1 h1
  obtain ⟨o2, rfl, w2⟩ := hG _ dest' h2
  exact ⟨o1 ++ o2, by rw [List.append_assoc], hP.bind w1 w2⟩

theorem SerLaw.congr_law {P : (Dest → Outcome Dest) → List Nat → Prop} (hP : SinkLaw P)
    {F G : Dest → Outcome Dest} (hF : SerLaw P F) (h : ∀ d, G d = F d) : SerLaw P G := by
  intro f dest' hd
  rw [h] at hd
  obtain ⟨out, e, w⟩ := hF f dest' hd
  exact ⟨out, e, hP.congr w h⟩

theorem SerLaw.apply_law {P : (Dest → Outcome Dest) → List Nat → Prop}
    {F : Dest → Outcome Dest} {s : List Nat} (hF : SerLaw P F)
    (h : F (.file []) = .ok (.file s)) : P F s := by
  obtain ⟨out, e, w⟩ := hF [] _ h
  simp only [List.nil_append, Dest.file.injEq] at e
  rw [e]; exact w

theorem law_ser_printf {P : (Dest → Outcome Dest) → List Nat → Prop} (hP : SinkLaw P)
    (format : String) (arg : PrintfArg) :
    SerLaw P (fun d => (write_printf d format arg).bind fun r => .ok r.1) := by
  cases h : c_printf format arg with
  | ok out => exact SerLaw.of_law hP (hP.printf h)
  | throw w => intro f d' hd; simp [write_printf, h] at hd
  | undefined u => intro f d' hd; simp [write_printf, h] at hd
  | out_of_fuel => intro f d' hd; simp [write_printf, h] at hd

theorem law_ser_float {P : (Dest → Outcome Dest) → List Nat → Prop} (hP : SinkLaw P)
    (x : Floating) (n : PrintfArg) : SerLaw P (fun d => json_print_float_arg d x n) := by
  unfold json_print_float_arg
  split
  · exact SerLaw.of_law hP (hP.literal _ (by decide))
  · exact law_ser_printf hP _ _

theorem law_ser_key {P : (Dest → Outcome Dest) → List Nat → Prop} (hP : SinkLaw P)
    (sgn : Bool) (k : Key) : SerLaw P (fun d => json_print_key sgn d k) := by
  cases k with
  | string s => exact SerLaw.of_law hP (law_string hP sgn s)
  | c_string s => exact SerLaw.of_law hP (law_string hP sgn (c_str s))

mutual

theorem law_ser_arg {P : (Dest → Outcome Dest) → List Nat → Prop} (hP : SinkLaw P)
    (sgn : Bool) : ∀ a : Arg, SerLaw P (fun d => json_print_arg sgn d a)
  | .string s => (SerLaw.of_law hP (law_string hP sgn s)).congr_law hP
      (fun d => by rw [json_print_arg])
  | .c_string s => (SerLaw.of_law hP (law_string hP sgn (c_str s))).congr_law hP
      (fun d => by rw [json_print_arg])
  | .char c => (SerLaw.of_law hP (law_string hP sgn [c])).congr_law hP
      (fun d => by rw [json_print_arg])
  | .unsigned_char n => (law_ser_printf hP _ _).congr_law hP (fun d => by rw [json_print_arg])
  | .bool b => by
    cases b
    · exact (SerLaw.of_law hP (hP.literal (bytes "false") (by decide))).congr_law hP
        (fun d => by rw [json_print_arg]; rfl)
    · exact (SerLaw.of_law hP (hP.literal (bytes "true") (by decide))).congr_law hP
        (fun d => by rw [json_print_arg]; rfl)
  | .nullptr => (SerLaw.of_law hP (hP.literal (bytes "null") (by decide))).congr_law hP
      (fun d => by rw [json_print_arg])
  | .short n => (law_ser_printf hP _ _).congr_law hP (fun d => by rw [json_print_arg])
  | .unsigned_short n => (law_ser_printf hP _ _).congr_law hP (fun d => by rw [json_print_arg])
  | .int n => (law_ser_printf hP _ _).congr_law hP (fun d => by rw [json_print_arg])
  | .unsigned n => (law_ser_printf hP _ _).congr_law hP (fun d => by rw [json_print_arg])
  | .long n => (law_ser_printf hP _ _).congr_law hP (fun d => by rw [json_print_arg])
  | .unsigned_long n => (law_ser_printf hP _ _).congr_law hP (fun d => by rw [json_print_arg])
  | .long_long n => (law_ser_printf hP _ _).congr_law hP (fun d => by rw [json_print_arg])
  | .unsigned_long_long n =>
    (law_ser_printf hP _ _).congr_law hP (fun d => by rw [json_print_arg])
  | .float x => (law_ser_float hP x _).congr_law hP (fun d => by rw [json_print_arg])
  | .double x => (law_ser_float hP x _).congr_law hP (fun d => by rw [json_print_arg])
  | .long_double x => (law_ser_float hP x _).congr_law hP (fun d => by rw [json_print_arg])
  | .vector [] =>
    (SerLaw.of_law hP (hP.bind (hP.char 91) (hP.char 93))).congr_law hP
      (fun d => by rw [json_print_arg]; rfl)
  | .vector (x :: xs) =>
    (SerLaw.bind_law hP (SerLaw.of_law hP (hP.char 91))
      (SerLaw.bind_law hP (law_ser_arg hP sgn x)
        (SerLaw.bind_law hP (law_ser_array_loop hP sgn xs)
          (SerLaw.of_law hP (hP.char 93))))).congr_law hP
      (fun d => by rw [json_print_arg]; rfl)
  | .map [] =>
    (SerLaw.of_law hP (hP.bind (hP.char 123) (hP.char 125))).congr_law hP
      (fun d => by rw [json_print_arg]; rfl)
  | .map ((k, v) :: entries) =>
    (SerLaw.bind_law hP (SerLaw.of_law hP (hP.char 123))
      (SerLaw.bind_law hP (law_ser_key hP sgn k)
        (SerLaw.bind_law hP (SerLaw.of_law hP (hP.char 58))
          (SerLaw.bind_law hP (law_ser_arg hP sgn v)
            (SerLaw.bind_law hP (law_ser_object_loop hP sgn entries)
              (SerLaw.of_law hP (hP.char 125))))))).congr_law hP
      (fun d => by rw [json_print_arg]; rfl)

theorem law_ser_array_loop {P : (Dest → Outcome Dest) → List Nat → Prop} (hP : SinkLaw P)
    (sgn : Bool) : ∀ xs : List Arg, SerLaw P (fun d => json_print_array_loop sgn d xs)
  | [] => (SerLaw.of_law hP hP.nothing).congr_law hP
      (fun d => by rw [json_print_array_loop])
  | x :: xs =>
    (SerLaw.bind_law hP (SerLaw.of_law hP (hP.char 44))
      (SerLaw.bind_law hP (law_ser_arg hP sgn x) (law_ser_array_loop hP sgn xs))).congr_law hP
      (fun d => by rw [json_print_array_loop]; rfl)

theorem law_ser_object_loop {P : (Dest → Outcome Dest) → List Nat → Prop} (hP : SinkLaw P)
    (sgn : Bool) :
    ∀ entries : List (Key × Arg), SerLaw P (fun d => json_print_object_loop sgn d entries)
  | [] => (SerLaw.of_law hP hP.nothing).congr_law hP
      (fun d => by rw [json_print_object_loop])
  | (k, v) :: entries =>
    (SerLaw.bind_law hP (SerLaw.of_law hP (hP.char 44))
      (SerLaw.bind_law hP (law_ser_key hP sgn k)
        (SerLaw.bind_law hP (SerLaw.of_law hP (hP.char 58))
          (SerLaw.bind_law hP (law_ser_arg hP sgn v)
            (law_ser_object_loop hP sgn entries))))).congr_law hP
      (fun d => by rw [json_print_object_loop]; rfl)

end

theorem law_part {P : (Dest → Outcome Dest) → List Nat → Prop} (hP : SinkLaw P)
    (text : List Nat) (b e : Nat) (hbe : b ≤ e) (he : e ≤ text.length) :
    P (fun d => json_print_part d text (some b) (some e)) (Spec.slice text b e) := by
  refine hP.congr (hP.string _) (fun d => ?_)
  simp only [json_print_part]
  rw [if_pos ⟨hbe, he⟩]
  rfl

theorem law_args {P : (Dest → Outcome Dest) → List Nat → Prop} (hP : SinkLaw P)
    (sgn : Bool) (text : List Nat) (context : json_print_context)
    (B : List Nat)
    (hB : ∀ i, i < B.length → part_at context i = .ok (B[i]?))
    (hsorted : (B.drop 1).Pairwise (· < ·)) (hlen : ∀ q ∈ B, q ≤ text.length) :
    ∀ (args : List Arg) (sers : List (List Nat)) (Is : Nat),
      List.Forall₂ (fun a s => json_print_arg sgn (.file []) a = .ok (.file s)) args sers →
      Is + 2 + args.length = B.length →
      P (fun d => json_print_args sgn text context Is d args)
        (Spec.after text (B.drop (Is + 1)) sers) := by
  intro args
  induction args with
  | nil =>
    intro sers Is hs hl
    cases hs
    have : Spec.after text (B.drop (Is + 1)) [] = [] := by
      unfold Spec.after; split <;> simp_all
    rw [this]
    exact hP.congr hP.nothing (fun d => by rw [json_print_args])
  | cons a args ih =>
    intro sers Is hs hl
    cases hs with
    | cons ha hrest =>
      rename_i s ss
      simp only [List.length_cons] at hl
      have h1 : Is + 1 < B.length := by omega
      have h2 : Is + 2 < B.length := by omega
      have hd : B.drop (Is + 1) = B[Is + 1] :: B[Is + 2] :: B.drop (Is + 1 + 1 + 1) := by
        rw [List.drop_eq_getElem_cons h1, List.drop_eq_getElem_cons h2]
      have hlt : B[Is + 1] < B[Is + 2] := by
        have hp : (B.drop (Is + 1)).Pairwise (· < ·) := by
          have e : B.drop (Is + 1) = (B.drop 1).drop Is := by
            rw [List.drop_drop, Nat.add_comm]
          rw [e]
          exact hsorted.sublist (List.drop_sublist _ _)
        rw [hd] at hp
        exact (List.pairwise_cons.mp hp).1 _ (List.mem_cons_self _ _)
      have hle : B[Is + 2] ≤ text.length := hlen _ (List.getElem_mem _)
      have hw := hP.bind (SerLaw.apply_law (law_ser_arg hP sgn a) ha)
        (hP.bind (law_part hP text (B[Is + 1] + 1) B[Is + 2] hlt hle)
          (ih ss (Is + 1) hrest (by omega)))
      have hafter : Spec.after text (B.drop (Is + 1)) (s :: ss)
          = s ++ (Spec.slice text (B[Is + 1] + 1) B[Is + 2]
            ++ Spec.after text (B.drop (Is + 1 + 1)) ss) := by
        rw [hd, Spec.after, List.drop_eq_getElem_cons h2]
      rw [hafter]
      refine hP.congr hw (fun d => ?_)
      rw [json_print_args]
      congr 1
      funext d1
      rw [hB (Is + 1) h1, hB (Is + 2) h2, List.getElem?_eq_getElem h1,
        List.getElem?_eq_getElem h2]
      rfl

/-- Whatever law the sink operations obey, `json_print` obeys it with the rendering of the
template as its output. -/
theorem law_json_print {P : (Dest → Outcome Dest) → List Nat → Prop} (hP : SinkLaw P)
    (sgn : Bool) (text : List Nat) (context : json_print_context)
    (args : List Arg) (sers : List (List Nat))
    (hc : compile text = .ok context) (hk : args.length + 1 = context.count)
    (hs : List.Forall₂ (fun a s => json_print_arg sgn (.file []) a = .ok (.file s))
      args sers) :
    P (fun d => json_print sgn d text context args)
      (Spec.render text (placeholder_offsets context) sers) := by
  obtain ⟨qs, hcount, _, hp, hsorted, hq⟩ := Outcome.sat_elim (compile_sat text) hc
  obtain ⟨parts, count⟩ := context
  dsimp only at hcount hp hk
  subst hcount hp
  rw [placeholder_offsets_eq]
  have hB : ∀ i, i < (0 :: qs ++ [text.length]).length →
      part_at ⟨(some 0 :: qs.map some ++ [some text.length])
        ++ List.replicate (JP_MAX_PLACEHOLDERS - qs.length) none, qs.length + 1⟩ i
        = .ok ((0 :: qs ++ [text.length])[i]?) := by
    intro i hi
    exact part_at_boundary qs _ _ _ i (by simpa using hi)
  have hsB : ((0 :: qs ++ [text.length]).drop 1).Pairwise (· < ·) := by
    simp only [List.cons_append, List.drop_succ_cons, List.drop_zero, List.pairwise_append,
      List.pairwise_singleton, List.mem_singleton, true_and]
    exact ⟨hsorted, fun a ha b hb => hb ▸ (hq a ha).1⟩
  have hlB : ∀ q ∈ (0 :: qs ++ [text.length]), q ≤ text.length := by
    intro q hq'
    simp only [List.cons_append, List.mem_cons, List.mem_append, List.mem_singleton,
      List.not_mem_nil, or_false] at hq'
    rcases hq' with rfl | hq' | rfl
    · omega
    · exact Nat.le_of_lt (hq q hq').1
    · exact Nat.le_refl _
  have hargs := law_args hP sgn text _ (0 :: qs ++ [text.length]) hB hsB hlB
    args sers 0 hs (by simp; omega)
  have h01 : (0 :: qs ++ [text.length])[1]? = some ((qs ++ [text.length]).headD 0) := by
    cases qs <;> simp
  have hle1 : (qs ++ [text.length]).headD 0 ≤ text.length := by
    cases qs with
    | nil => exact Nat.le_refl _
    | cons q l => exact Nat.le_of_lt (hq q (List.mem_cons_self _ _)).1
  have hw := hP.bind
    (law_part hP text 0 ((qs ++ [text.length]).headD 0) (Nat.zero_le _) hle1) hargs
  refine hP.congr hw (fun d => ?_)
  unfold json_print
  rw [hB 0 (by simp), hB 1 (by simp), h01]
  simp only [List.cons_append, List.getElem?_cons_zero, Outcome.bind_ok]

/-! ## The bounded buffer -/

/-- The sink operations on a buffer of at most `INT_MAX` bytes, where the code does what
C26 says: on such a buffer whose cursor and stored bytes are inside it, each of `write_char`, `write_string` and `write_printf`, for input of any
length, completes, moves the cursor forward and not past the end, and stores no byte
outside the buffer; and so does a whole `json_print` of a compiled template, so that
after the render the cursor has advanced by at most the capacity. -/
theorem sink_stays_inside_buffer (b : string_buffer) (h1 : b.pos ≤ b.mem.length)
    (h2 : b.mem.length ≤ b.cap) (h3 : b.cap ≤ INT_MAX) :
    (∀ c, ∃ b' : string_buffer, write_char (.buffer b) c = .buffer b' ∧ b'.cap = b.cap ∧
      b.pos ≤ b'.pos ∧ b'.pos ≤ b'.mem.length ∧ b'.mem.length ≤ b'.cap) ∧
    (∀ data, ∃ b' : string_buffer, (write_string (.buffer b) data).1 = .buffer b' ∧
      b'.cap = b.cap ∧ b.pos ≤ b'.pos ∧ b'.pos ≤ b'.mem.length ∧ b'.mem.length ≤ b'.cap) ∧
    (∀ format arg out, c_printf format arg = .ok out →
      ∃ (b' : string_buffer) (n : Int),
        write_printf (.buffer b) format arg = .ok (.buffer b', n) ∧
        b'.cap = b.cap ∧ b.pos ≤ b'.pos ∧ b'.pos ≤ b'.mem.length ∧ b'.mem.length ≤ b'.cap) ∧
    (∀ sgn text context args sers, compile text = .ok context →
      args.length + 1 = context.count →
      List.Forall₂ (fun a s => json_print_arg sgn (.file []) a = .ok (.file s)) args sers →
      ∃ b' : string_buffer, json_print sgn (.buffer b) text context args = .ok (.buffer b') ∧
        b'.cap = b.cap ∧ b.pos ≤ b'.pos ∧ b'.pos ≤ b'.mem.length ∧ b'.mem.length ≤ b'.cap ∧
        b'.pos - b.pos ≤ b.cap) := by
  refine ⟨fun c => ?_, fun data => ?_, fun format arg out hout => ?_,
    fun sgn text context args sers hc hk hs => ?_⟩
  · obtain ⟨b', e, c1, p, m, l⟩ := (fills_char c).2 b h1 h2 h3
    simp only [Outcome.ok.injEq] at e
    exact ⟨b', e, c1, by rw [p]; omega, m, l⟩
  · obtain ⟨b', e, c1, p, m, l⟩ := (fills_string data).2 b h1 h2 h3
    simp only [Outcome.ok.injEq] at e
    exact ⟨b', e, c1, by rw [p]; omega, m, l⟩
  · obtain ⟨b', e, c1, p, m, l⟩ := (fills_printf hout).2 b h1 h2 h3
    obtain ⟨r, hr, hr1⟩ := Outcome.bind_eq_ok e
    simp only [Outcome.ok.injEq] at hr1
    obtain ⟨d, n⟩ := r
    dsimp only at hr1
    subst hr1
    exact ⟨b', n, hr, c1, by rw [p]; omega, m, l⟩
  · obtain ⟨b', e, c1, p, m, l⟩ :=
      (law_json_print fills_law sgn text context args sers hc hk hs).2 b h1 h2 h3
    exact ⟨b', e, c1, by rw [p]; omega, m, l, by rw [p]; omega⟩

/-- The lemma `sink_stays_inside_buffer` at a buffer of four bytes with its cursor at
offset 3: one byte of `hello` is stored and the cursor stops at the end. -/
theorem sink_stays_inside_buffer_witness :
    ∃ b' : string_buffer,
      (write_string (.buffer ⟨4, [97, 98, 99], 3⟩) (bytes "hello")).1 = .buffer b' ∧
      b'.cap = 4 ∧ 3 ≤ b'.pos ∧ b'.pos ≤ b'.mem.length ∧ b'.mem.length ≤ b'.cap :=
  (sink_stays_inside_buffer ⟨4, [97, 98, 99], 3⟩ (by decide) (by decide) (by decide)).2.1
    (bytes "hello")

/-- C26 (what the code does): with 2147483648 bytes remaining, `write_printf` takes the
minimum of the two characters of `42` and the remaining capacity converted to `int`,
which is -2147483648, and moves the cursor by that amount, to before the start of the
buffer, where the next write stores outside the buffer.  On the same buffer
`write_string` and `write_char` store `42` and leave the cursor at offset 2, inside the
buffer. -/
theorem write_printf_leaves_large_buffer :
    write_printf (.buffer ⟨2147483648, [], 0⟩) "%d" (.signed 42) = .undefined .bad_range ∧
    c_printf "%d" (.signed 42) = .ok (bytes "42") ∧
    min ((bytes "42").length : Int) (to_int ((2147483648 : Nat) - (0 : Nat)))
      = -2147483648 ∧
    (write_string (.buffer ⟨2147483648, [], 0⟩) (bytes "42")).1
      = .buffer ⟨2147483648, bytes "42", 2⟩ ∧
    write_char (write_char (.buffer ⟨2147483648, [], 0⟩) 52) 50
      = .buffer ⟨2147483648, bytes "42", 2⟩ := by
  decide

/-- C27 (what the code does): into a buffer of 4 bytes the template `?` with the value
123456 gives `123` and a NUL, with the cursor at the end, where the first 4 bytes of what
a stream receives are `1234`; and into a buffer of 6 bytes, exactly the length of the
output of the one-byte range `?`, it gives `12345` and a NUL.  `snprintf` keeps the last
byte of the space it is given for the terminating NUL, and `write_printf` counts that
byte as written. -/
theorem truncated_number_ends_in_nul :
    compile (bytes "?" ++ [0]) = .ok ⟨(parts_of [0]).set 2 (some 2), 2⟩ ∧
    json_sprint false 4 (bytes "?" ++ [0]) ⟨(parts_of [0]).set 2 (some 2), 2⟩ [.int 123456]
      = .ok (.buffer ⟨4, bytes "123" ++ [0], 4⟩) ∧
    json_fprint false [] (bytes "?" ++ [0]) ⟨(parts_of [0]).set 2 (some 2), 2⟩ [.int 123456]
      = .ok (.file (bytes "123456" ++ [0])) ∧
    (bytes "123456" ++ [0]).take (min 4 (bytes "123456" ++ [0]).length) = bytes "1234" ∧
    compile (bytes "?") = .ok ⟨(parts_of [0]).set 2 (some 1), 2⟩ ∧
    json_sprint false 6 (bytes "?") ⟨(parts_of [0]).set 2 (some 1), 2⟩ [.int 123456]
      = .ok (.buffer ⟨6, bytes "12345" ++ [0], 6⟩) ∧
    json_fprint false [] (bytes "?") ⟨(parts_of [0]).set 2 (some 1), 2⟩ [.int 123456]
      = .ok (.file (bytes "123456")) := by
  decide

/-- The advance of the cursor in a buffer of at most `INT_MAX` bytes, where the code does
what C28 says: for a compiled template, values that have a serialization and a buffer
of capacity `n`, `n` at most `INT_MAX`, `json_sprint` completes and the advance of the
buffer cursor is `min(n, L)`, where `L` is the length of the output not cut short; so the
output was cut short when the advance equals `n` (or fits exactly). -/
theorem json_sprint_cursor_advance (char_is_signed : Bool) (size : Nat) (text : List Nat)
    (context : json_print_context) (args : List Arg) (sers : List (List Nat))
    (hc : compile text = .ok context) (hk : args.length + 1 = context.count)
    (hs : List.Forall₂
      (fun a s => json_print_arg char_is_signed (.file []) a = .ok (.file s)) args sers)
    (hsize : size ≤ INT_MAX) :
    ∃ b : string_buffer,
      json_sprint char_is_signed size text context args = .ok (.buffer b) ∧
      b.cap = size ∧
      b.pos = min size (Spec.render text (placeholder_offsets context) sers).length ∧
      json_fprint char_is_signed [] text context args
        = .ok (.file (Spec.render text (placeholder_offsets context) sers)) := by
  have hf := law_json_print fills_law char_is_signed text context args sers hc hk hs
  obtain ⟨b, e, c, p, _, _⟩ := hf.2 ⟨size, [], 0⟩ (Nat.le_refl _) (Nat.zero_le _) hsize
  refine ⟨b, e, c, ?_, ?_⟩
  · rw [p]
    show min (0 + _) size = _
    rw [Nat.zero_add, Nat.min_comm]
  · have := hf.1 []
    simpa using this

/-- The lemma `json_sprint_cursor_advance` at the template `[?,?,?]` with the values 42,
false and the sequence of `hello`: in a buffer of 5 bytes the cursor advances by 5, the output being 21 bytes long. -/
theorem json_sprint_cursor_advance_witness :
    ∃ b : string_buffer,
      json_sprint false 5 (bytes "[?,?,?]" ++ [0])
        ⟨[some 0, some 1, some 3, some 5, some 8, none, none, none, none, none, none,
          none, none, none, none, none], 4⟩
        [.int 42, .bool false, .vector [.string (bytes "hello")]] = .ok (.buffer b) ∧
      b.pos = 5 := by
  obtain ⟨b, h1, _, h2, _⟩ := json_sprint_cursor_advance false 5 (bytes "[?,?,?]" ++ [0])
    ⟨[some 0, some 1, some 3, some 5, some 8, none, none, none, none, none, none,
      none, none, none, none, none], 4⟩
    [.int 42, .bool false, .vector [.string (bytes "hello")]]
    [bytes "42", bytes "false", bytes "[\"hello\"]"]
    (by decide) (by decide)
    (.cons (by decide) (.cons (by decide) (.cons (by decide) .nil)))
    (by decide)
  exact ⟨b, h1, h2.trans (by decide)⟩

/-- C28 (what the code does): for the template `?`, the value 42 and a capacity of
2147483648, the output is 3 bytes long, and `json_sprint` does not end with the cursor 3
bytes on: `write_printf` converts the remaining capacity to `int` and moves the cursor
before the start of the buffer.  With the text `hi` as the value, which goes through
`write_char` and `write_string`, the cursor of the same buffer ends 5 bytes on, the
length of the output. -/
theorem json_sprint_advance_on_large_buffer :
    compile (bytes "?" ++ [0]) = .ok ⟨(parts_of [0]).set 2 (some 2), 2⟩ ∧
    json_fprint false [] (bytes "?" ++ [0]) ⟨(parts_of [0]).set 2 (some 2), 2⟩ [.int 42]
      = .ok (.file (bytes "42" ++ [0])) ∧
    min 2147483648 (bytes "42" ++ [0]).length = 3 ∧
    (¬ ∃ b : string_buffer,
      json_sprint false 2147483648 (bytes "?" ++ [0]) ⟨(parts_of [0]).set 2 (some 2), 2⟩
        [.int 42] = .ok (.buffer b) ∧ b.pos = 3) ∧
    json_sprint false 2147483648 (bytes "?" ++ [0]) ⟨(parts_of [0]).set 2 (some 2), 2⟩
      [.string (bytes "hi")] = .ok (.buffer ⟨2147483648, bytes "\"hi\"" ++ [0], 5⟩) := by
  refine ⟨by decide, by decide, by decide, ?_, by decide⟩
  rintro ⟨b, h, _⟩
  have : json_sprint false 2147483648 (bytes "?" ++ [0])
      ⟨(parts_of [0]).set 2 (some 2), 2⟩ [.int 42] = .undefined .bad_range := by decide
  rw [this] at h
  cases h

theorem write_string_returns (b : string_buffer) (data : List Nat) :
    (write_string (.buffer b) data).2
      = to_int ((min data.length (b.cap - b.pos) : Nat) : Int) := rfl

/-- C29 (amended): on a buffer with its cursor inside it and at most `INT_MAX` bytes,
`write_char`, which returns nothing, advances the cursor by `min(1, remaining)`;
`write_string` returns `min(span length, remaining)` and advances the cursor by it; and
`write_printf` returns `min(formatted length, remaining)` and advances the cursor by
it. -/
theorem sink_operations_report_bytes (b : string_buffer) (h : b.pos ≤ b.cap)
    (hcap : b.cap ≤ INT_MAX) :
    (∀ c, ∃ b' : string_buffer, write_char (.buffer b) c = .buffer b' ∧
      b'.pos = b.pos + min 1 (b.cap - b.pos)) ∧
    (∀ data, ∃ b' : string_buffer,
      write_string (.buffer b) data
        = (.buffer b', ((min data.length (b.cap - b.pos) : Nat) : Int)) ∧
      b'.pos = b.pos + min data.length (b.cap - b.pos)) ∧
    (∀ format arg out, c_printf format arg = .ok out →
      ∃ b' : string_buffer,
        write_printf (.buffer b) format arg
          = .ok (.buffer b', ((min out.length (b.cap - b.pos) : Nat) : Int)) ∧
        b'.pos = b.pos + min out.length (b.cap - b.pos)) := by
  unfold INT_MAX at hcap
  refine ⟨fun c => ?_, fun data => ?_, fun format arg out hout => ?_⟩
  · by_cases hlt : b.pos < b.cap
    · refine ⟨{ b with mem := poke b.mem b.pos [c], pos := b.pos + 1 }, ?_, ?_⟩
      · simp only [write_char]; rw [if_pos hlt]
      · show b.pos + 1 = b.pos + min 1 (b.cap - b.pos)
        omega
    · refine ⟨b, ?_, ?_⟩
      · simp only [write_char]; rw [if_neg hlt]
      · omega
  · refine ⟨{ b with mem := poke b.mem b.pos (data.take (min data.length (b.cap - b.pos))),
                     pos := b.pos + min data.length (b.cap - b.pos) }, ?_, rfl⟩
    have : to_int ((min data.length (b.cap - b.pos) : Nat) : Int)
        = ((min data.length (b.cap - b.pos) : Nat) : Int) :=
      to_int_of_lt (by omega) (by omega)
    simp only [write_string, this]
  · have hmin : min (out.length : Int) (to_int ((b.cap : Int) - (b.pos : Int)))
        = ((min out.length (b.cap - b.pos) : Nat) : Int) := by
      rw [to_int_of_lt (by omega) (by omega)]; omega
    refine ⟨{ b with mem := snprintf_store b out,
                     pos := b.pos + min out.length (b.cap - b.pos) }, ?_, rfl⟩
    simp only [write_printf, hout, Outcome.bind_ok, hmin]
    rw [if_neg (by omega)]
    congr 3

/-- C29, at a buffer of four bytes with its cursor at offset 3: `write_string` of `hello`
returns 1. -/
theorem sink_operations_report_bytes_witness :
    ∃ b' : string_buffer,
      write_string (.buffer ⟨4, [97, 98, 99], 3⟩) (bytes "hello") = (.buffer b', 1) ∧
      b'.pos = 4 :=
  (sink_operations_report_bytes ⟨4, [97, 98, 99], 3⟩ (by decide) (by decide)).2.1
    (bytes "hello")

/-- C29 as stated fails when more than `INT_MAX` bytes are at stake: `write_string` of a
span of 2147483648 bytes into a buffer of 4294967296 bytes copies the whole span and
returns its length converted to `int`, which is -2147483648; and `write_printf` with
2147483648 bytes remaining has no defined result, its cursor being moved before the
start of the buffer. -/
theorem sink_operations_on_large_buffer :
    (write_string (.buffer ⟨4294967296, [], 0⟩) (List.replicate 2147483648 0)).2
      = -2147483648 ∧
    min (List.replicate 2147483648 0).length (4294967296 - 0) = 2147483648 ∧
    write_printf (.buffer ⟨2147483648, [], 0⟩) "%d" (.signed 42)
      = .undefined .bad_range := by
  refine ⟨?_, ?_, by decide⟩
  · rw [write_string_returns, List.length_replicate]
    decide
  · rw [List.length_replicate]
    decide

/-! ## The boundaries list the placeholders -/

theorem ExpectAt.of_ok_at {text : List Nat} {r : Outcome (Nat × json_print_context)}
    {p : Nat} {context : json_print_context} {qs : List Nat} (h : r = .ok (p, context))
    (hm : Marks text p context qs) : ExpectAt text r p qs [] := by
  unfold ExpectAt
  rw [if_pos (by have := hm.le_max; simp only [List.length_nil]; omega)]
  exact ⟨context, h, by simpa using hm⟩

theorem ExpectAt.bind_at {text : List Nat} {r1 : Outcome (Nat × json_print_context)}
    {g : Nat × json_print_context → Outcome (Nat × json_print_context)} {p q : Nat}
    {qs ps ps' : List Nat}
    (h1 : ExpectAt text r1 p qs ps)
    (h2 : ∀ context1 : json_print_context, Marks text p context1 (qs ++ ps) →
      ExpectAt text (g (p, context1)) q (qs ++ ps) ps') :
    ExpectAt text (r1.bind g) q qs (ps ++ ps') := by
  unfold ExpectAt at h1 ⊢
  by_cases hk : qs.length + ps.length ≤ JP_MAX_PLACEHOLDERS
  · rw [if_pos hk] at h1
    obtain ⟨context1, rfl, hm1⟩ := h1
    have := h2 context1 hm1
    unfold ExpectAt at this
    rw [Outcome.bind_ok]
    simp only [List.length_append] at this ⊢
    by_cases hk' : qs.length + (ps.length + ps'.length) ≤ JP_MAX_PLACEHOLDERS
    · rw [if_pos hk']
      rw [if_pos (by omega)] at this
      obtain ⟨context2, h, hm2⟩ := this
      exact ⟨context2, h, by rw [← List.append_assoc]; exact hm2⟩
    · rw [if_neg hk']
      rw [if_neg (by omega)] at this
      exact this
  · rw [if_neg hk] at h1
    rw [if_neg (by simp only [List.length_append]; omega), h1]
    rfl

theorem placeholder_at_parses (o : Nat) : ValueAtParses o [63] [o] := by
  intro fuel text b w post context qs hw h ho _ hm hfuel
  obtain ⟨f, rfl⟩ := fuel_succ hfuel
  rw [parse_value_head context hw h (by unfold Spec.ws_byte; omega)]
  simp only [show ¬ (63 = 91) by omega, show ¬ (63 = 123) by omega, show ¬ (63 = 34) by omega,
    show ¬ (63 = 110) by omega, show ¬ (63 = 116) by omega, show ¬ (63 = 102) by omega,
    show (decide (63 = 45) || is_decimal 63) = false by decide, if_false, if_true,
    Bool.false_eq_true]
  unfold ExpectAt
  simp only [List.length_singleton]
  have hcount := hm.count_eq
  by_cases hk : qs.length + 1 ≤ JP_MAX_PLACEHOLDERS
  · rw [if_pos hk, if_neg (by omega)]
    have h63 : text[b + w.length]? = some 63 := by
      have := h.add.rd_eq
      exact (rd_eq_ok this).2
    obtain ⟨context', hs, hm'⟩ := store_part_mark hm (by omega)
      (show b ≤ b + w.length by omega) h63
    rw [hs, Outcome.bind_ok]
    subst ho
    exact ⟨context', rfl, hm'⟩
  · rw [if_neg hk, if_pos (by have := hm.le_max; omega)]

theorem null_at_parses (o : Nat) : ValueAtParses o [110, 117, 108, 108] [] := by
  intro fuel text b w post context qs hw h _ _ hm hfuel
  obtain ⟨f, rfl⟩ := fuel_succ hfuel
  rw [parse_value_head context hw h (by unfold Spec.ws_byte; omega)]
  simp only [show ¬ (110 = 91) by omega, show ¬ (110 = 123) by omega,
    show ¬ (110 = 34) by omega,
    show (decide (110 = 45) || is_decimal 110) = false by decide, if_false, if_true,
    Bool.false_eq_true]
  rw [parse_null_complete h.add]
  exact ExpectAt.of_ok_at rfl (hm.mono (by omega))

theorem true_at_parses (o : Nat) : ValueAtParses o [116, 114, 117, 101] [] := by
  intro fuel text b w post context qs hw h _ _ hm hfuel
  obtain ⟨f, rfl⟩ := fuel_succ hfuel
  rw [parse_value_head context hw h (by unfold Spec.ws_byte; omega)]
  simp only [show ¬ (116 = 91) by omega, show ¬ (116 = 123) by omega,
    show ¬ (116 = 34) by omega, show ¬ (116 = 110) by omega,
    show (decide (116 = 45) || is_decimal 116) = false by decide, if_false, if_true,
    Bool.false_eq_true]
  rw [parse_true_complete h.add]
  exact ExpectAt.of_ok_at rfl (hm.mono (by omega))

theorem false_at_parses (o : Nat) : ValueAtParses o [102, 97, 108, 115, 101] [] := by
  intro fuel text b w post context qs hw h _ _ hm hfuel
  obtain ⟨f, rfl⟩ := fuel_succ hfuel
  rw [parse_value_head context hw h (by unfold Spec.ws_byte; omega)]
  simp only [show ¬ (102 = 91) by omega, show ¬ (102 = 123) by omega,
    show ¬ (102 = 34) by omega, show ¬ (102 = 110) by omega, show ¬ (102 = 116) by omega,
    show (decide (102 = 45) || is_decimal 102) = false by decide, if_false, if_true,
    Bool.false_eq_true]
  rw [parse_false_complete h.add]
  exact ExpectAt.of_ok_at rfl (hm.mono (by omega))

theorem string_at_parses (o : Nat) {s : List Nat} (hs : Spec.IsString s) :
    ValueAtParses o s [] := by
  intro fuel text b w post context qs hw h _ _ hm hfuel
  obtain ⟨f, rfl⟩ := fuel_succ hfuel
  have hs' := hs
  obtain ⟨body, _, rfl⟩ := hs
  rw [parse_value_head context hw (by simpa using h) (by unfold Spec.ws_byte; omega)]
  simp only [show ¬ (34 = 91) by omega, show ¬ (34 = 123) by omega, if_false, if_true]
  rw [parse_string_complete hs' h.add]
  exact ExpectAt.of_ok_at rfl (hm.mono (by omega))

theorem number_at_parses (o : Nat) {s : List Nat} (hs : Spec.IsNumber s) :
    ValueAtParses o s [] := by
  intro fuel text b w post context qs hw h _ hf hm hfuel
  obtain ⟨f, rfl⟩ := fuel_succ hfuel
  obtain ⟨c, rest, hcr, hws, _, _⟩ := (Spec.Value.number hs).head_byte
  have hnum := parse_number_complete hs hf h.add
  have hc' : (c = 45 ∨ Spec.digit c) := by
    obtain ⟨sign, i, fr, e, hsign, hi, _, _, rfl⟩ := hs
    obtain ⟨d, ds, rfl, hd⟩ := integer_head hi
    rcases hsign with rfl | rfl
    · simp only [List.nil_append, List.cons_append, List.cons.injEq] at hcr
      exact Or.inr (hcr.1 ▸ hd)
    · simp only [List.cons_append, List.cons.injEq] at hcr
      exact Or.inl hcr.1.symm
  subst hcr
  rw [parse_value_head context hw (by simpa using h) hws]
  have h1 : (decide (c = 45) || is_decimal c) = true := by
    rcases hc' with rfl | hd
    · rfl
    · simp [(is_decimal_iff c).mpr hd]
  have h2 : c ≠ 91 ∧ c ≠ 123 ∧ c ≠ 34 := by
    rcases hc' with rfl | hd
    · omega
    · unfold Spec.digit at hd; omega
  simp only [h2.1, h2.2.1, h2.2.2, h1, if_false, if_true]
  rw [hnum]
  exact ExpectAt.of_ok_at rfl (hm.mono (by omega))

theorem empty_array_at_parses (o : Nat) {w' : List Nat} (hw' : Spec.Ws w') :
    ValueAtParses o (91 :: (w' ++ [93])) [] := by
  intro fuel text b w post context qs hw h _ _ hm hfuel
  obtain ⟨f, rfl⟩ := fuel_succ hfuel
  have h' : At text b (w ++ 91 :: (w' ++ 93 :: post)) := by simpa using h
  have hlen := h'.add.length
  simp only [List.length_cons] at hlen
  obtain ⟨f', rfl⟩ := fuel_succ (n := 0) (m := f) (by omega)
  rw [parse_value_head context hw h' (by unfold Spec.ws_byte; omega)]
  simp only [if_true]
  rw [parse_array_empty context hw' h'.add]
  have e : b + w.length + (91 :: (w' ++ [93])).length = b + w.length + 1 + w'.length + 1 := by
    simp only [List.length_cons, List.length_append, List.length_nil]; omega
  rw [e]; exact ExpectAt.of_ok_at rfl (hm.mono (by omega))

theorem empty_object_at_parses (o : Nat) {w' : List Nat} (hw' : Spec.Ws w') :
    ValueAtParses o (123 :: (w' ++ [125])) [] := by
  intro fuel text b w post context qs hw h _ _ hm hfuel
  obtain ⟨f, rfl⟩ := fuel_succ hfuel
  have h' : At text b (w ++ 123 :: (w' ++ 125 :: post)) := by simpa using h
  have hlen := h'.add.length
  simp only [List.length_cons] at hlen
  obtain ⟨f', rfl⟩ := fuel_succ (n := 0) (m := f) (by omega)
  rw [parse_value_head context hw h' (by unfold Spec.ws_byte; omega)]
  simp only [show ¬ (123 = 91) by omega, if_false, if_true]
  rw [parse_object_empty context hw' h'.add]
  have e : b + w.length + (123 :: (w' ++ [125])).length = b + w.length + 1 + w'.length + 1 := by
    simp only [List.length_cons, List.length_append, List.length_nil]; omega
  rw [e]; exact ExpectAt.of_ok_at rfl (hm.mono (by omega))

theorem Spec.ValueAt.head_byte_at {o : Nat} {s ps : List Nat} (h : Spec.ValueAt o s ps) :
    ∃ c rest, s = c :: rest ∧ ¬ Spec.ws_byte c ∧ c ≠ 93 ∧ c ≠ 125 := by
  cases h with
  | placeholder => exact ⟨_, _, rfl, by unfold Spec.ws_byte; omega, by omega, by omega⟩
  | null => exact ⟨_, _, rfl, by unfold Spec.ws_byte; omega, by omega, by omega⟩
  | true_ => exact ⟨_, _, rfl, by unfold Spec.ws_byte; omega, by omega, by omega⟩
  | false_ => exact ⟨_, _, rfl, by unfold Spec.ws_byte; omega, by omega, by omega⟩
  | string hs => exact (Spec.Value.string hs).head_byte
  | number hn => exact (Spec.Value.number hn).head_byte
  | empty_array _ => exact ⟨_, _, rfl, by unfold Spec.ws_byte; omega, by omega, by omega⟩
  | array _ _ => exact ⟨_, _, rfl, by unfold Spec.ws_byte; omega, by omega, by omega⟩
  | empty_object _ => exact ⟨_, _, rfl, by unfold Spec.ws_byte; omega, by omega, by omega⟩
  | object _ _ => exact ⟨_, _, rfl, by unfold Spec.ws_byte; omega, by omega, by omega⟩

theorem Spec.ElementsAt.head_element_at {o : Nat} {es ps : List Nat}
    (h : Spec.ElementsAt o es ps) : ∃ c rest, es = c :: rest ∧ ¬ Spec.ws_byte c ∧ c ≠ 93 := by
  cases h with
  | last hv _ =>
    obtain ⟨c, rest, rfl, h1, h2, _⟩ := hv.head_byte_at
    exact ⟨c, _, rfl, h1, h2⟩
  | more hv _ _ _ =>
    obtain ⟨c, rest, rfl, h1, h2, _⟩ := hv.head_byte_at
    exact ⟨c, _, rfl, h1, h2⟩

theorem Spec.MembersAt.head_quote_at {o : Nat} {ms ps : List Nat}
    (h : Spec.MembersAt o ms ps) : ∃ rest, ms = 34 :: rest := by
  cases h with
  | last hn _ _ _ _ =>
    obtain ⟨body, _, rfl⟩ := hn
    exact ⟨_, rfl⟩
  | more hn _ _ _ _ _ _ =>
    obtain ⟨body, _, rfl⟩ := hn
    exact ⟨_, rfl⟩

theorem array_at_parses {o : Nat} {w' es ps : List Nat} (hw' : Spec.Ws w')
    (he : Spec.ElementsAt (o + 1 + w'.length) es ps)
    (ih : ElementsAtParse (o + 1 + w'.length) es ps) :
    ValueAtParses o (91 :: (w' ++ (es ++ [93]))) ps := by
  intro fuel text b w post context qs hw h ho _ hm hfuel
  obtain ⟨f, rfl⟩ := fuel_succ hfuel
  obtain ⟨c, rest, rfl, hcw, hc93⟩ := he.head_element_at
  have h' : At text b (w ++ 91 :: (w' ++ c :: (rest ++ 93 :: post))) := by simpa using h
  have hlen := h'.add.length
  simp only [List.length_cons] at hlen
  obtain ⟨f', rfl⟩ := fuel_succ (n := 0) (m := f) (by omega)
  rw [parse_value_head context hw h' (by unfold Spec.ws_byte; omega)]
  simp only [if_true]
  rw [parse_array_nonempty context hw' h'.add hcw hc93]
  have h2 : At text (b + w.length + 1 + w'.length) ([] ++ ((c :: rest) ++ 93 :: post)) := by
    simpa using h'.add.succ.add
  have := ih f' text _ [] post context qs (by intro x hx; cases hx) h2
    (by simp only [List.length_nil]; omega) (hm.mono (by omega)) (by omega)
  simp only [List.length_nil, Nat.add_zero] at this
  have e : b + w.length + (91 :: (w' ++ (c :: rest ++ [93]))).length
      = b + w.length + 1 + w'.length + (c :: rest).length + 1 := by
    simp only [List.length_cons, List.length_append, List.length_nil]; omega
  rw [e]; exact this

theorem object_at_parses {o : Nat} {w' ms ps : List Nat} (hw' : Spec.Ws w')
    (hms : Spec.MembersAt (o + 1 + w'.length) ms ps)
    (ih : MembersAtParse (o + 1 + w'.length) ms ps) :
    ValueAtParses o (123 :: (w' ++ (ms ++ [125]))) ps := by
  intro fuel text b w post context qs hw h ho _ hm hfuel
  obtain ⟨f, rfl⟩ := fuel_succ hfuel
  obtain ⟨rest, rfl⟩ := hms.head_quote_at
  have h' : At text b (w ++ 123 :: (w' ++ 34 :: (rest ++ 125 :: post))) := by simpa using h
  have hlen := h'.add.length
  simp only [List.length_cons] at hlen
  obtain ⟨f', rfl⟩ := fuel_succ (n := 0) (m := f) (by omega)
  rw [parse_value_head context hw h' (by unfold Spec.ws_byte; omega)]
  simp only [show ¬ (123 = 91) by omega, if_false, if_true]
  rw [parse_object_nonempty context hw' h'.add]
  have h2 : At text (b + w.length + 1 + w'.length) ((34 :: rest) ++ 125 :: post) := by
    simpa using h'.add.succ.add
  have := ih f' text _ post context qs h2 (by omega) (hm.mono (by omega)) (by omega)
  have e : b + w.length + (123 :: (w' ++ (34 :: rest ++ [125]))).length
      = b + w.length + 1 + w'.length + (34 :: rest).length + 1 := by
    simp only [List.length_cons, List.length_append, List.length_nil]; omega
  rw [e]; exact this

theorem ExpectAt.bind_last {text : List Nat} {r1 : Outcome (Nat × json_print_context)}
    {g : Nat × json_print_context → Outcome (Nat × json_print_context)} {p q : Nat}
    {qs ps : List Nat}
    (h1 : ExpectAt text r1 p qs ps)
    (h2 : ∀ context1 : json_print_context, Marks text p context1 (qs ++ ps) →
      ExpectAt text (g (p, context1)) q (qs ++ ps) []) :
    ExpectAt text (r1.bind g) q qs ps := by
  have := ExpectAt.bind_at h1 h2
  rwa [List.append_nil] at this

theorem elements_last_at_parses {o : Nat} {v w1 ps : List Nat} (hw1 : Spec.Ws w1)
    (ih : ValueAtParses o v ps) : ElementsAtParse o (v ++ w1) ps := by
  intro fuel text b w post context qs hw h ho hm hfuel
  obtain ⟨f, rfl⟩ := fuel_succ hfuel
  have h' : At text b (w ++ (v ++ (w1 ++ 93 :: post))) := by simpa using h
  have h1 : At text (b + w.length + v.length) (w1 ++ 93 :: post) := h'.add.add
  rw [parse_array_loop]
  simp only [Outcome.bind_eq_bind]
  refine ExpectAt.bind_last (p := b + w.length + v.length)
    (ih f text b w _ context qs hw h' ho (follow_of_head hw1 (Or.inl rfl)) hm (by omega))
    (fun context1 hm1 => ?_)
  dsimp only
  rw [h1.skip_whitespace_eq hw1 (head_not_ws ws_93)]
  simp only [Outcome.bind_ok]
  rw [if_neg h1.add.ne_length, h1.add.rd_eq]
  simp only [Outcome.bind_ok, if_true]
  have e : b + w.length + (v ++ w1).length + 1 = b + w.length + v.length + w1.length + 1 := by
    simp only [List.length_append]; omega
  rw [e]
  exact ExpectAt.of_ok_at rfl (hm1.mono (by omega))

theorem elements_more_at_parses {o : Nat} {v w1 w2 es ps ps' : List Nat}
    (hv : Spec.ValueAt o v ps) (hw1 : Spec.Ws w1) (hw2 : Spec.Ws w2)
    (ihv : ValueAtParses o v ps)
    (ihe : ElementsAtParse (o + v.length + w1.length + 1 + w2.length) es ps') :
    ElementsAtParse o (v ++ (w1 ++ 44 :: (w2 ++ es))) (ps ++ ps') := by
  intro fuel text b w post context qs hw h ho hm hfuel
  obtain ⟨f, rfl⟩ := fuel_succ hfuel
  have h' : At text b (w ++ (v ++ (w1 ++ 44 :: (w2 ++ (es ++ 93 :: post))))) := by
    simpa using h
  have h1 : At text (b + w.length + v.length) (w1 ++ 44 :: (w2 ++ (es ++ 93 :: post))) :=
    h'.add.add
  obtain ⟨c, rest, hcr, _, _, _⟩ := hv.head_byte_at
  have hvlen : 0 < v.length := by rw [hcr]; simp
  have hlen := h1.add.length
  simp only [List.length_cons] at hlen
  rw [parse_array_loop]
  simp only [Outcome.bind_eq_bind]
  refine ExpectAt.bind_at (p := b + w.length + v.length)
    (ihv f text b w _ context qs hw h' ho
      (follow_of_head hw1 (Or.inr (Or.inr (Or.inl rfl)))) hm (by omega))
    (fun context1 hm1 => ?_)
  dsimp only
  rw [h1.skip_whitespace_eq hw1 (head_not_ws ws_44)]
  simp only [Outcome.bind_ok]
  rw [if_neg h1.add.ne_length, h1.add.rd_eq]
  simp only [Outcome.bind_ok, show ¬ (44 = 93) by omega, ne_eq, not_true_eq_false, if_false]
  have := ihe f text _ w2 post context1 (qs ++ ps) hw2 h1.add.succ (by omega)
    (hm1.mono (by omega)) (by omega)
  have e : b + w.length + (v ++ (w1 ++ 44 :: (w2 ++ es))).length + 1
      = b + w.length + v.length + w1.length + 1 + w2.length + es.length + 1 := by
    simp only [List.length_append, List.length_cons]; omega
  rw [e]
  exact this

theorem members_last_at_parses {o : Nat} {n w1 w2 v w3 ps : List Nat}
    (hn : Spec.IsString n) (hw1 : Spec.Ws w1) (hw2 : Spec.Ws w2) (hw3 : Spec.Ws w3)
    (ih : ValueAtParses (o + n.length + w1.length + 1 + w2.length) v ps) :
    MembersAtParse o (n ++ (w1 ++ 58 :: (w2 ++ (v ++ w3)))) ps := by
  intro fuel text b post context qs h ho hm hfuel
  obtain ⟨f, rfl⟩ := fuel_succ hfuel
  have h' : At text b (n ++ (w1 ++ 58 :: (w2 ++ (v ++ (w3 ++ 125 :: post))))) := by
    simpa using h
  have h1 : At text (b + n.length) (w1 ++ 58 :: (w2 ++ (v ++ (w3 ++ 125 :: post)))) := h'.add
  have h2 := h1.add
  have h3 : At text (b + n.length + w1.length + 1 + w2.length + v.length)
      (w3 ++ 125 :: post) := h2.succ.add.add
  rw [parse_object_loop]
  simp only [Outcome.bind_eq_bind]
  rw [parse_string_complete hn h']
  simp only [Outcome.bind_ok]
  rw [h1.skip_whitespace_eq hw1 (head_not_ws ws_58)]
  simp only [Outcome.bind_ok]
  rw [if_neg h2.ne_length, h2.rd_eq]
  simp only [Outcome.bind_ok, ne_eq, not_true_eq_false, if_false]
  refine ExpectAt.bind_last (p := b + n.length + w1.length + 1 + w2.length + v.length)
    (ih f text _ w2 _ context qs hw2 h2.succ (by omega)
      (follow_of_head hw3 (Or.inr (Or.inl rfl))) (hm.mono (by omega)) (by omega))
    (fun context1 hm1 => ?_)
  dsimp only
  rw [h3.skip_whitespace_eq hw3 (head_not_ws ws_125)]
  simp only [Outcome.bind_ok]
  rw [if_neg h3.add.ne_length, h3.add.rd_eq]
  simp only [Outcome.bind_ok, if_true]
  have e : b + (n ++ (w1 ++ 58 :: (w2 ++ (v ++ w3)))).length + 1
      = b + n.length + w1.length + 1 + w2.length + v.length + w3.length + 1 := by
    simp only [List.length_append, List.length_cons]; omega
  rw [e]
  exact ExpectAt.of_ok_at rfl (hm1.mono (by omega))

theorem members_more_at_parses {o : Nat} {n w1 w2 v w3 w4 ms ps ps' : List Nat}
    (hn : Spec.IsString n) (hw1 : Spec.Ws w1) (hw2 : Spec.Ws w2) (hw3 : Spec.Ws w3)
    (hw4 : Spec.Ws w4)
    (hms : Spec.MembersAt
      (o + n.length + w1.length + 1 + w2.length + v.length + w3.length + 1 + w4.length) ms ps')
    (ihv : ValueAtParses (o + n.length + w1.length + 1 + w2.length) v ps)
    (ihm : MembersAtParse
      (o + n.length + w1.length + 1 + w2.length + v.length + w3.length + 1 + w4.length) ms ps') :
    MembersAtParse o (n ++ (w1 ++ 58 :: (w2 ++ (v ++ (w3 ++ 44 :: (w4 ++ ms))))))
      (ps ++ ps') := by
  intro fuel text b post context qs h ho hm hfuel
  obtain ⟨f, rfl⟩ := fuel_succ hfuel
  obtain ⟨rest, rfl⟩ := hms.head_quote_at
  have h' : At text b (n ++ (w1 ++ 58 :: (w2 ++ (v ++ (w3 ++ 44 :: (w4 ++
      (34 :: (rest ++ 125 :: post)))))))) := by
    simpa using h
  have h1 := h'.add
  have h2 := h1.add
  have h3 : At text (b + n.length + w1.length + 1 + w2.length + v.length)
      (w3 ++ 44 :: (w4 ++ (34 :: (rest ++ 125 :: post)))) := h2.succ.add.add
  have h4 := h3.add
  have h5 := h4.succ.add
  have hlen := h5.length
  simp only [List.length_cons] at hlen
  rw [parse_object_loop]
  simp only [Outcome.bind_eq_bind]
  rw [parse_string_complete hn h']
  simp only [Outcome.bind_ok]
  rw [h1.skip_whitespace_eq hw1 (head_not_ws ws_58)]
  simp only [Outcome.bind_ok]
  rw [if_neg h2.ne_length, h2.rd_eq]
  simp only [Outcome.bind_ok, ne_eq, not_true_eq_false, if_false]
  refine ExpectAt.bind_at (p := b + n.length + w1.length + 1 + w2.length + v.length)
    (ihv f text _ w2 _ context qs hw2 h2.succ (by omega)
      (follow_of_head hw3 (Or.inr (Or.inr (Or.inl rfl)))) (hm.mono (by omega)) (by omega))
    (fun context1 hm1 => ?_)
  dsimp only
  rw [h3.skip_whitespace_eq hw3 (head_not_ws ws_44)]
  simp only [Outcome.bind_ok]
  rw [if_neg h4.ne_length, h4.rd_eq]
  simp only [Outcome.bind_ok, show ¬ (44 = 125) by omega, ne_eq, not_true_eq_false, if_false]
  rw [h4.succ.skip_whitespace_eq hw4 (head_not_ws ws_34)]
  simp only [Outcome.bind_ok]
  have := ihm f text _ post context1 (qs ++ ps) (by simpa using h5) (by omega)
    (hm1.mono (by omega)) (by omega)
  have e : b + (n ++ (w1 ++ 58 :: (w2 ++ (v ++ (w3 ++ 44 :: (w4 ++ 34 :: rest)))))).length + 1
      = b + n.length + w1.length + 1 + w2.length + v.length + w3.length + 1 + w4.length
        + (34 :: rest).length + 1 := by
    simp only [List.length_append, List.length_cons]; omega
  rw [e]
  exact this

/-- Every derivation of the grammar with offsets is parsed by the function of its rule,
which records the placeholders at exactly those offsets. -/
theorem value_at_parses {o : Nat} {s ps : List Nat} (h : Spec.ValueAt o s ps) :
    ValueAtParses o s ps :=
  @Spec.ValueAt.rec
    (fun o s ps _ => ValueAtParses o s ps)
    (fun o es ps _ => ElementsAtParse o es ps)
    (fun o ms ps _ => MembersAtParse o ms ps)
    (fun {o} => placeholder_at_parses o) (fun {o} => null_at_parses o)
    (fun {o} => true_at_parses o) (fun {o} => false_at_parses o)
    (fun {o} _ hs => string_at_parses o hs) (fun {o} _ hn => number_at_parses o hn)
    (fun {o} _ hw => empty_array_at_parses o hw)
    (fun hw he ih => array_at_parses hw he ih)
    (fun {o} _ hw => empty_object_at_parses o hw)
    (fun hw hm ih => object_at_parses hw hm ih)
    (fun _ hw ih => elements_last_at_parses hw ih)
    (fun hv hw1 hw2 _ ihv ihe => elements_more_at_parses hv hw1 hw2 ihv ihe)
    (fun hn hw1 hw2 _ hw3 ih => members_last_at_parses hn hw1 hw2 hw3 ih)
    (fun hn hw1 hw2 _ hw3 hw4 hm ihv ihm =>
      members_more_at_parses hn hw1 hw2 hw3 hw4 hm ihv ihm)
    o s ps h

theorem follow_tail {w tail : List Nat} (hw : Spec.Ws w) (ht : tail = [] ∨ tail = [0]) :
    Spec.Follow (w ++ tail) := by
  rcases ht with rfl | rfl
  · intro c rest hl
    rw [List.append_nil] at hl
    have hc : Spec.ws_byte c := hw c (by rw [hl]; exact List.mem_cons_self _ _)
    unfold Spec.ws_byte at hc
    unfold Spec.digit
    omega
  · exact follow_of_head hw (Or.inr (Or.inr (Or.inr rfl)))

/-- The outcome of `compile` on a template that the grammar derives, with or without a
terminating NUL: the context lists the placeholders of the derivation. -/
theorem compile_template_at {t tail ps : List Nat} (h : Spec.TemplateAt t ps)
    (ht : tail = [] ∨ tail = [0]) :
    if ps.length ≤ JP_MAX_PLACEHOLDERS then
      ∃ context, compile (t ++ tail) = .ok context ∧ context.count = ps.length + 1 ∧
        context.parts = (some 0 :: ps.map some ++ [some (t ++ tail).length])
          ++ List.replicate (JP_MAX_PLACEHOLDERS - ps.length) none
    else compile (t ++ tail) = .throw "too many placeholder values" := by
  obtain ⟨w1, v, w2, hw1, hv, hw2, rfl⟩ := h
  have hat : At (w1 ++ (v ++ w2) ++ tail) 0 (w1 ++ (v ++ (w2 ++ tail))) :=
    ⟨by simp, Nat.zero_le _⟩
  have hm0 : Marks (w1 ++ (v ++ w2) ++ tail) 0 ⟨parts_of [], 0⟩ [] :=
    ⟨rfl, rfl, by simp, List.Pairwise.nil, by simp⟩
  have hp := value_at_parses hv (compile_fuel (w1 ++ (v ++ w2) ++ tail)) _ 0 w1 (w2 ++ tail)
    ⟨parts_of [], 0⟩ [] hw1 hat (by omega) (follow_tail hw2 ht) hm0
    (by unfold compile_fuel; omega)
  have h0 : store_part context_zero 0 0 = .ok ⟨parts_of [], 0⟩ := by decide
  unfold compile
  simp only [Outcome.bind_eq_bind]
  rw [h0, Outcome.bind_ok]
  unfold ExpectAt at hp
  simp only [Nat.zero_add, List.length_nil, List.nil_append] at hp
  split
  · next hk =>
    rw [if_pos hk] at hp
    obtain ⟨context1, hr, hc1⟩ := hp
    rw [hr, Outcome.bind_ok]
    dsimp only
    have h1 : At (w1 ++ (v ++ w2) ++ tail) (w1.length + v.length) (w2 ++ tail) := by
      have := hat.add.add
      simpa using this
    have hstore : store_part { context1 with count := context1.count + 1 }
        (context1.count + 1) (w1 ++ (v ++ w2) ++ tail).length
        = .ok ⟨(some 0 :: ps.map some ++ [some (w1 ++ (v ++ w2) ++ tail).length])
          ++ List.replicate (JP_MAX_PLACEHOLDERS - ps.length) none, ps.length + 1⟩ := by
      unfold store_part
      rw [if_pos (by have := hc1.count_eq; unfold JP_MAX_PLACEHOLDERS at *; omega)]
      simp only [hc1.parts_eq, hc1.count_eq]
      rw [parts_of_set_last ps _ hk]
    rcases ht with rfl | rfl
    · rw [h1.skip_whitespace_eq hw2 (fun c l hl => nomatch hl)]
      simp only [Outcome.bind_ok]
      rw [h1.add.at_is_eq_nil]
      simp only [Outcome.bind_ok, Bool.false_eq_true, if_false]
      have hlen := h1.add.length
      simp only [List.length_nil] at hlen
      rw [if_neg (by omega), hstore]
      exact ⟨_, rfl, rfl, rfl⟩
    · rw [h1.skip_whitespace_eq hw2 (head_not_ws (by unfold Spec.ws_byte; omega))]
      simp only [Outcome.bind_ok]
      rw [h1.add.at_is_eq]
      simp only [Outcome.bind_ok, beq_self_eq_true, if_true]
      have hlen := h1.add.length
      simp only [List.length_cons, List.length_nil] at hlen
      rw [if_neg (by omega), hstore]
      exact ⟨_, rfl, rfl, rfl⟩
  · next hk =>
    rw [if_neg hk] at hp
    rw [hp]; rfl

theorem parts_interior (qs : List Nat) (x : Option Nat) (rest : List (Option Nat)) (i : Nat)
    (hi : i < qs.length) :
    ((some 0 :: qs.map some ++ [x]) ++ rest)[i + 1]? = some (some qs[i]) := by
  simp only [List.cons_append, List.getElem?_cons_succ, List.append_assoc]
  rw [List.getElem?_append_left (by simpa using hi)]
  simp [hi]

theorem parts_interior_list (qs : List Nat) (x : Option Nat) (rest : List (Option Nat)) :
    ((((some 0 :: qs.map some ++ [x]) ++ rest).take (qs.length + 1)).drop 1) = qs.map some := by
  simp only [List.cons_append, List.take_succ_cons, List.drop_succ_cons, List.drop_zero,
    List.append_assoc]
  rw [List.take_append_of_le_length (by simp), List.take_of_length_le (by simp)]

/-- C30: for every successful `compile`, each interior boundary `parts[i]`, `1 ≤ i < count`,
is the offset of a `?` byte of the template, and the interior boundaries are strictly
increasing, so they stand in the order in which their `?` bytes occur.  They list the
placeholders from left to right: when the text (with or without its terminating NUL) is
a template of the grammar whose placeholders, read from left to right, stand at the
offsets `ps`, the interior boundaries are exactly `ps`; a `?` inside a string is not
among them. -/
theorem boundaries_list_placeholders (text : List Nat) (context : json_print_context)
    (h : compile text = .ok context) :
    (∀ i, 1 ≤ i → i < context.count →
      ∃ q, context.parts[i]? = some (some q) ∧ q < text.length ∧ text[q]? = some 63) ∧
    (∀ i j qi qj, 1 ≤ i → i < j → j < context.count →
      context.parts[i]? = some (some qi) → context.parts[j]? = some (some qj) → qi < qj) ∧
    (∀ t ps, (text = t ∨ text = t ++ [0]) → Spec.TemplateAt t ps →
      context.count = ps.length + 1 ∧
      (context.parts.take context.count).drop 1 = ps.map some ∧
      placeholder_offsets context = ps) := by
  obtain ⟨qs, hc, hle, hp, hs, hq⟩ := Outcome.sat_elim (compile_sat text) h
  refine ⟨fun i h1 hi => ?_, fun i j qi qj h1 hij hj hqi hqj => ?_, fun t ps ht htpl => ?_⟩
  · obtain ⟨i', rfl⟩ : ∃ i', i = i' + 1 := ⟨i - 1, by omega⟩
    have hi' : i' < qs.length := by omega
    refine ⟨qs[i'], ?_, hq _ (List.getElem_mem hi')⟩
    rw [hp]; exact parts_interior qs _ _ i' hi'
  · obtain ⟨i', rfl⟩ : ∃ i', i = i' + 1 := ⟨i - 1, by omega⟩
    obtain ⟨j', rfl⟩ : ∃ j', j = j' + 1 := ⟨j - 1, by omega⟩
    have hi' : i' < qs.length := by omega
    have hj' : j' < qs.length := by omega
    rw [hp, parts_interior qs _ _ i' hi'] at hqi
    rw [hp, parts_interior qs _ _ j' hj'] at hqj
    simp only [Option.some.injEq] at hqi hqj
    rw [← hqi, ← hqj]
    exact List.pairwise_iff_getElem.mp hs i' j' hi' hj' (by omega)
  · have key : ∃ tail, (tail = [] ∨ tail = [0]) ∧ text = t ++ tail := by
      rcases ht with rfl | rfl
      · exact ⟨[], Or.inl rfl, by simp⟩
      · exact ⟨[0], Or.inr rfl, rfl⟩
    obtain ⟨tail, htail, rfl⟩ := key
    have := compile_template_at htpl htail
    by_cases hk : ps.length ≤ JP_MAX_PLACEHOLDERS
    · rw [if_pos hk] at this
      obtain ⟨context', hc', hcount, hparts⟩ := this
      rw [h] at hc'
      simp only [Outcome.ok.injEq] at hc'
      subst hc'
      obtain ⟨parts, count⟩ := context
      dsimp only at hcount hparts ⊢
      subst hcount hparts
      exact ⟨rfl, parts_interior_list ps _ _, placeholder_offsets_eq ps _ _⟩
    · rw [if_neg hk, h] at this
      cases this

/-- C30, at the template `[?, "?", ?]`: the interior boundaries are the offsets 1 and 9 of
the two placeholders, and the `?` at offset 5, inside a string, is not listed. -/
theorem boundaries_list_placeholders_witness :
    compile (bytes "[?, \"?\", ?]" ++ [0])
      = .ok ⟨[some 0, some 1, some 9, some 12] ++ List.replicate 12 none, 3⟩ ∧
    Spec.TemplateAt (bytes "[?, \"?\", ?]") [1, 9] ∧
    (3 = [1, 9].length + 1 ∧
      (([some 0, some 1, some 9, some 12] ++ List.replicate 12 none).take 3).drop 1
        = [1, 9].map some ∧
      placeholder_offsets ⟨[some 0, some 1, some 9, some 12] ++ List.replicate 12 none, 3⟩
        = [1, 9]) :=
  have ws_nil : Spec.Ws [] := fun _ h => nomatch h
  have ws_sp : Spec.Ws [32] := fun c h => by
    simp only [List.mem_singleton] at h; subst h; exact Or.inl rfl
  have str : Spec.IsString [34, 63, 34] :=
    ⟨[63], Spec.StringBody.plain (by decide) (by decide) (by decide) Spec.StringBody.nil, rfl⟩
  have tpl : Spec.TemplateAt (bytes "[?, \"?\", ?]") [1, 9] :=
    ⟨[], _, [], ws_nil,
      @Spec.ValueAt.array 0 [] _ [1, 9] ws_nil
        (@Spec.ElementsAt.more 1 [63] [] [32] _ [1] [9] Spec.ValueAt.placeholder ws_nil ws_sp
          (@Spec.ElementsAt.more 4 [34, 63, 34] [] [32] _ [] [9] (Spec.ValueAt.string str)
            ws_nil ws_sp
            (@Spec.ElementsAt.last 9 [63] [] [9] Spec.ValueAt.placeholder ws_nil))),
      ws_nil, by decide⟩
  ⟨by decide, tpl,
    (boundaries_list_placeholders (bytes "[?, \"?\", ?]" ++ [0])
      ⟨[some 0, some 1, some 9, some 12] ++ List.replicate 12 none, 3⟩ (by decide)).2.2
      (bytes "[?, \"?\", ?]") [1, 9] (Or.inr rfl) tpl⟩

/-! ## Reads of the literal matchers on a range that is cut short -/

/-- C32: on a range that ends inside the word, without a NUL, the literal matchers read
a byte at the end of the range before they decide.  For the three bytes `tru` (at any
position of a range that ends with them) the test `end - begin < 4` holds, the
comparisons of `r` and `u` pass and `*(begin + 3)` is read where `begin + 3 = end`; the
same happens to `parse_false` on `fals` and to `parse_null` on `nul`, and so `compile`
of these ranges reads outside the range. -/
theorem literal_matcher_reads_past_end :
    (∀ pre : List Nat, parse_true (pre ++ bytes "tru") pre.length
      = .undefined .read_outside) ∧
    (∀ pre : List Nat, parse_false (pre ++ bytes "fals") pre.length
      = .undefined .read_outside) ∧
    (∀ pre : List Nat, parse_null (pre ++ bytes "nul") pre.length
      = .undefined .read_outside) ∧
    (bytes "tru").getLast? ≠ some 0 ∧ (bytes "fals").getLast? ≠ some 0 ∧
    compile (bytes "tru") = .undefined .read_outside ∧
    compile (bytes "fals") = .undefined .read_outside ∧
    compile (bytes "nul") = .undefined .read_outside ∧
    compile (bytes "[tru") = .undefined .read_outside := by
  have hb3 : (bytes "tru").length = 3 := rfl
  have hb4 : (bytes "fals").length = 4 := rfl
  have hn3 : (bytes "nul").length = 3 := rfl
  have rd_at : ∀ (pre l : List Nat) (i : Nat), rd (pre ++ l) (pre.length + i) = rd l i := by
    intro pre l i
    unfold rd
    rw [List.getElem?_append_right (by omega)]
    simp
  refine ⟨fun pre => ?_, fun pre => ?_, fun pre => ?_, by decide, by decide, by decide,
    by decide, by decide, by decide⟩
  · unfold parse_true
    rw [if_pos (by simp only [List.length_append, hb3]; omega)]
    simp only [Outcome.bind_eq_bind, rd_at]
    rfl
  · unfold parse_false
    rw [if_pos (by simp only [List.length_append, hb4]; omega)]
    simp only [Outcome.bind_eq_bind, rd_at]
    rfl
  · unfold parse_null
    rw [if_pos (by simp only [List.length_append, hn3]; omega)]
    simp only [Outcome.bind_eq_bind, rd_at]
    rfl

/-! ## A NUL-terminated range is never left -/

@[simp] theorem Outcome.safe_ok {α : Type} (a : α) (Q : α → Prop) :
    (Outcome.ok a).safe Q ↔ Q a := Iff.rfl

@[simp] theorem Outcome.safe_throw {α : Type} (w : String) (Q : α → Prop) :
    (Outcome.throw w : Outcome α).safe Q := trivial

theorem Outcome.safe_bind {α β : Type} {x : Outcome α} {g : α → Outcome β}
    {Q : α → Prop} {R : β → Prop} (hx : x.safe Q) (hg : ∀ a, Q a → (g a).safe R) :
    (x.bind g).safe R := by
  cases x with
  | ok a => exact hg a hx
  | throw w => trivial
  | undefined u => exact hx
  | out_of_fuel => exact hx

theorem Outcome.safe_mono {α : Type} {x : Outcome α} {Q R : α → Prop} (hx : x.safe Q)
    (h : ∀ a, Q a → R a) : x.safe R := by
  cases x with
  | ok a => exact h a hx
  | throw w => trivial
  | undefined u => exact hx
  | out_of_fuel => exact hx

theorem Outcome.safe_cases {α : Type} {x : Outcome α} {Q : α → Prop} (hx : x.safe Q) :
    (∃ a, x = .ok a ∧ Q a) ∨ ∃ w, x = .throw w := by
  cases x with
  | ok a => exact Or.inl ⟨a, rfl, hx⟩
  | throw w => exact Or.inr ⟨w, rfl⟩
  | undefined u => exact hx.elim
  | out_of_fuel => exact hx.elim

theorem rd_safe {text : List Nat} {p : Nat} (h : p < text.length) :
    (rd text p).safe (fun c => text[p]? = some c) := by
  unfold rd
  rw [List.getElem?_eq_getElem h]
  rfl

theorem NulTerminated.not_last {text : List Nat} (hz : NulTerminated text) {p c : Nat}
    (hp : text[p]? = some c) (hc : c ≠ 0) : p + 1 < text.length := by
  obtain ⟨t, rfl⟩ := hz
  have hlt := (List.getElem?_eq_some.mp hp).1
  simp only [List.length_append, List.length_singleton] at hlt ⊢
  by_contra hge
  have : p = t.length := by omega
  subst this
  rw [List.getElem?_append_right (Nat.le_refl _)] at hp
  simp at hp
  exact hc hp.symm

theorem NulTerminated.pos {text : List Nat} (hz : NulTerminated text) : 0 < text.length := by
  obtain ⟨t, rfl⟩ := hz
  simp

theorem skip_run_stop (q : Nat → Bool) {c : Nat} (hc : q c = false) :
    ∀ (l r : List Nat) (b : Nat), skip_run q (l ++ c :: r) b ≤ b + l.length
  | [], r, b => by simp [skip_run, hc]
  | a :: l, r, b => by
    have ih := skip_run_stop q hc l r (b + 1)
    rw [List.cons_append, skip_run]
    simp only [List.length_cons]
    split <;> omega

theorem skip_whitespace_safe {text : List Nat} {b : Nat} (hb : b ≤ text.length) :
    (skip_whitespace text b).safe (fun p => b ≤ p ∧ p ≤ text.length) := by
  unfold skip_whitespace
  rw [if_neg (by omega)]
  have := skip_run_bounds is_whitespace (text.drop b) b
  rw [List.length_drop] at this
  simp only [Outcome.safe_ok]
  omega

theorem skip_whitespace_before_nul {text : List Nat} {b : Nat} (hz : NulTerminated text)
    (hb : b < text.length) :
    (skip_whitespace text b).safe (fun p => b ≤ p ∧ p < text.length) := by
  obtain ⟨t, rfl⟩ := hz
  simp only [List.length_append, List.length_singleton] at hb ⊢
  unfold skip_whitespace
  rw [if_neg (by simp only [List.length_append, List.length_singleton]; omega)]
  simp only [Outcome.safe_ok]
  rw [List.drop_append_of_le_length (by omega)]
  have h1 := skip_run_stop is_whitespace (show is_whitespace 0 = false by decide)
    (t.drop b) [] b
  have h2 := skip_run_bounds is_whitespace (t.drop b ++ [0]) b
  rw [List.length_drop] at h1
  omega

theorem skip_decimal_safe {text : List Nat} {b : Nat} (hb : b ≤ text.length) :
    (skip_decimal text b).safe (fun p => b ≤ p ∧ p ≤ text.length) := by
  unfold skip_decimal
  rw [if_neg (by omega)]
  have := skip_run_bounds is_decimal (text.drop b) b
  rw [List.length_drop] at this
  simp only [Outcome.safe_ok]
  omega

theorem at_is_safe {text : List Nat} {b : Nat} (hb : b ≤ text.length) (q : Nat → Bool) :
    (at_is text b q).safe (fun r => r = true → b < text.length) := by
  unfold at_is
  split
  · simp
  · next hne =>
    have hlt : b < text.length := by omega
    exact Outcome.safe_bind (rd_safe hlt) (fun c _ => by simp [hlt])

theorem parse_string_loop_safe : ∀ (n : Nat) (l : List Nat) (b : Nat), l.length ≤ n →
    (parse_string_loop l b).safe (fun p => b ≤ p ∧ p ≤ b + l.length)
  | _, [], b, _ => by simp [parse_string_loop]
  | 0, _ :: _, _, hn => by simp at hn
  | n + 1, c :: rest, b, hn => by
    simp only [List.length_cons] at hn ⊢
    unfold parse_string_loop
    split
    · trivial
    · split
      · split
        · trivial
        · next e rest1 =>
          simp only [List.length_cons] at hn ⊢
          split
          · exact Outcome.safe_mono (parse_string_loop_safe n rest1 _ (by omega))
              (fun p hp => by omega)
          · split
            · split
              · next h1 h2 h3 h4 rest2 =>
                simp only [List.length_cons] at hn ⊢
                split
                · exact Outcome.safe_mono (parse_string_loop_safe n rest2 _ (by omega))
                    (fun p hp => by omega)
                · trivial
              · trivial
            · trivial
      · split
        · simp only [Outcome.safe_ok]; omega
        · exact Outcome.safe_mono (parse_string_loop_safe n rest _ (by omega))
            (fun p hp => by omega)

/-- Called on a position of the range, `parse_string` reads inside the range only. -/
theorem parse_string_safe {text : List Nat} {b : Nat} (hb : b < text.length) :
    (parse_string text b).safe (fun p => b < p ∧ p ≤ text.length) := by
  unfold parse_string
  rw [if_neg (by omega)]
  refine Outcome.safe_mono (parse_string_loop_safe _ _ _ (Nat.le_refl _)) (fun p hp => ?_)
  rw [List.length_drop] at hp
  omega

theorem number_exponent_safe {text : List Nat} {b : Nat} (hb : b ≤ text.length) :
    (number_exponent text b).safe (fun p => b ≤ p ∧ p ≤ text.length) := by
  unfold number_exponent
  refine Outcome.safe_bind (at_is_safe hb _) (fun ex hex => ?_)
  split
  · next h =>
    have hlt := hex h
    refine Outcome.safe_bind (at_is_safe (show b + 1 ≤ text.length by omega) _)
      (fun sign hsign => ?_)
    dsimp only
    have hb4 : b < (if sign = true then b + 2 else b + 1) ∧
        (if sign = true then b + 2 else b + 1) ≤ text.length := by
      split
      · next hs => have := hsign hs; omega
      · omega
    generalize (if sign = true then b + 2 else b + 1) = b4 at hb4 ⊢
    split
    · trivial
    · refine Outcome.safe_bind (rd_safe (by omega)) (fun c' _ => ?_)
      split
      · trivial
      · exact Outcome.safe_mono (skip_decimal_safe (by omega)) (fun p hp => by omega)
  · simp only [Outcome.safe_ok]; omega

theorem number_fraction_safe {text : List Nat} {b : Nat} (hb : b ≤ text.length) :
    (number_fraction text b).safe (fun p => b ≤ p ∧ p ≤ text.length) := by
  unfold number_fraction
  refine Outcome.safe_bind (at_is_safe hb _) (fun dot hdot => ?_)
  refine Outcome.safe_bind (Q := fun b3 => b ≤ b3 ∧ b3 ≤ text.length) ?_ (fun b3 h3 => ?_)
  · split
    · next h =>
      have hlt := hdot h
      split
      · trivial
      · refine Outcome.safe_bind (rd_safe (by omega)) (fun c' _ => ?_)
        split
        · trivial
        · exact Outcome.safe_mono (skip_decimal_safe (by omega)) (fun p hp => by omega)
    · simp only [Outcome.safe_ok]; omega
  · exact Outcome.safe_mono (number_exponent_safe h3.2) (fun p hp => by omega)

theorem number_integer_safe {text : List Nat} {b : Nat} (hb : b < text.length) :
    (number_integer text b).safe (fun p => b < p ∧ p ≤ text.length) := by
  unfold number_integer
  refine Outcome.safe_bind (rd_safe hb) (fun d _ => ?_)
  refine Outcome.safe_bind (Q := fun b2 => b < b2 ∧ b2 ≤ text.length) ?_ (fun b2 h2 => ?_)
  · split
    · simp only [Outcome.safe_ok]; omega
    · split
      · exact Outcome.safe_mono (skip_decimal_safe (by omega)) (fun p hp => by omega)
      · trivial
  · exact Outcome.safe_mono (number_fraction_safe h2.2) (fun p hp => by omega)

/-- Called on a position of the range, `parse_number` reads inside the range only. -/
theorem parse_number_safe {text : List Nat} {b : Nat} (hb : b < text.length) :
    (parse_number text b).safe (fun p => b < p ∧ p ≤ text.length) := by
  rw [parse_number_stages]
  refine Outcome.safe_bind (rd_safe hb) (fun c _ => ?_)
  refine Outcome.safe_bind (Q := fun b1 => b ≤ b1 ∧ b1 < text.length) ?_ (fun b1 h1 => ?_)
  · split
    · split
      · trivial
      · simp only [Outcome.safe_ok]; omega
    · simp only [Outcome.safe_ok]; omega
  · exact Outcome.safe_mono (number_integer_safe h1.2) (fun p hp => by omega)

/-- On a NUL-terminated range, called on a byte that is not the NUL, `parse_null` stops
comparing at the NUL at the latest. -/
theorem parse_null_safe {text : List Nat} {b : Nat} (hz : NulTerminated text)
    (hb : b + 1 < text.length) :
    (parse_null text b).safe (fun p => b < p ∧ p ≤ text.length) := by
  unfold parse_null
  split
  · simp only [Outcome.bind_eq_bind, ne_eq, ite_not]
    refine Outcome.safe_bind (rd_safe hb) (fun c1 h1 => ?_)
    split
    · next e1 =>
      have l1 := hz.not_last h1 (by omega)
      refine Outcome.safe_bind (rd_safe l1) (fun c2 h2 => ?_)
      split
      · next e2 =>
        have l2 := hz.not_last h2 (by omega)
        refine Outcome.safe_bind (rd_safe l2) (fun c3 h3 => ?_)
        split
        · next e3 =>
          have l3 := hz.not_last h3 (by omega)
          simp only [Outcome.safe_ok]; omega
        · trivial
      · trivial
    · trivial
  · simp only [Outcome.safe_ok]; omega

theorem parse_true_safe {text : List Nat} {b : Nat} (hz : NulTerminated text)
    (hb : b + 1 < text.length) :
    (parse_true text b).safe (fun p => b < p ∧ p ≤ text.length) := by
  unfold parse_true
  split
  · simp only [Outcome.bind_eq_bind, ne_eq, ite_not]
    refine Outcome.safe_bind (rd_safe hb) (fun c1 h1 => ?_)
    split
    · next e1 =>
      have l1 := hz.not_last h1 (by omega)
      refine Outcome.safe_bind (rd_safe l1) (fun c2 h2 => ?_)
      split
      · next e2 =>
        have l2 := hz.not_last h2 (by omega)
        refine Outcome.safe_bind (rd_safe l2) (fun c3 h3 => ?_)
        split
        · next e3 =>
          have l3 := hz.not_last h3 (by omega)
          simp only [Outcome.safe_ok]; omega
        · trivial
      · trivial
    · trivial
  · simp only [Outcome.safe_ok]; omega

theorem parse_false_safe {text : List Nat} {b : Nat} (hz : NulTerminated text)
    (hb : b + 1 < text.length) :
    (parse_false text b).safe (fun p => b < p ∧ p ≤ text.length) := by
  unfold parse_false
  split
  · simp only [Outcome.bind_eq_bind, ne_eq, ite_not]
    refine Outcome.safe_bind (rd_safe hb) (fun c1 h1 => ?_)
    split
    · next e1 =>
      have l1 := hz.not_last h1 (by omega)
      refine Outcome.safe_bind (rd_safe l1) (fun c2 h2 => ?_)
      split
      · next e2 =>
        have l2 := hz.not_last h2 (by omega)
        refine Outcome.safe_bind (rd_safe l2) (fun c3 h3 => ?_)
        split
        · next e3 =>
          have l3 := hz.not_last h3 (by omega)
          refine Outcome.safe_bind (rd_safe l3) (fun c4 h4 => ?_)
          split
          · next e4 =>
            have l4 := hz.not_last h4 (by omega)
            simp only [Outcome.safe_ok]; omega
          · trivial
        · trivial
      · trivial
    · trivial
  · simp only [Outcome.safe_ok]; omega

theorem parse_safe_step : ∀ fuel : Nat,
    SafeStep 2 fuel (parse_value fuel) ∧ SafeStep 1 fuel (parse_array fuel) ∧
      SafeStep 3 fuel (parse_array_loop fuel) ∧ SafeStep 1 fuel (parse_object fuel) ∧
      SafeStep 3 fuel (parse_object_loop fuel)
  | 0 => by
    refine ⟨?_, ?_, ?_, ?_, ?_⟩ <;> intro text b context qs _ _ _ hfuel <;> omega
  | fuel + 1 => by
    obtain ⟨ihv, iha, ihal, iho, ihol⟩ := parse_safe_step fuel
    have token : ∀ (text : List Nat) (b b1 : Nat) (context : json_print_context)
        (qs : List Nat) (x : Outcome Nat), Marks text b context qs → b ≤ b1 →
        x.safe (fun p => b1 < p ∧ p ≤ text.length) →
        (x.bind fun e => Outcome.ok (e, context)).safe fun r =>
          b < r.1 ∧ r.1 ≤ text.length ∧ ∃ qs', Marks text r.1 r.2 (qs ++ qs') := by
      intro text b b1 context qs x hm hb hx
      refine Outcome.safe_bind hx (fun p hp => ?_)
      simp only [Outcome.safe_ok]
      exact ⟨by omega, hp.2, [], by simpa using hm.mono (by omega)⟩
    refine ⟨?_, ?_, ?_, ?_, ?_⟩ <;> intro text b context qs hz hb hm hfuel
    · -- parse_value
      rw [parse_value]
      simp only [Outcome.bind_eq_bind]
      refine Outcome.safe_bind (skip_whitespace_before_nul hz hb) (fun b1 hb1 => ?_)
      refine Outcome.safe_bind (rd_safe hb1.2) (fun c hc => ?_)
      split
      · exact Outcome.safe_mono (iha text b1 context qs hz hb1.2 (hm.mono hb1.1) (by omega))
          (fun r hr => ⟨by omega, hr.2⟩)
      split
      · exact Outcome.safe_mono (iho text b1 context qs hz hb1.2 (hm.mono hb1.1) (by omega))
          (fun r hr => ⟨by omega, hr.2⟩)
      split
      · exact token _ _ _ _ _ _ hm hb1.1 (parse_string_safe hb1.2)
      split
      · exact token _ _ _ _ _ _ hm hb1.1 (parse_number_safe hb1.2)
      split
      · exact token _ _ _ _ _ _ hm hb1.1 (parse_null_safe hz (hz.not_last hc (by omega)))
      split
      · exact token _ _ _ _ _ _ hm hb1.1 (parse_true_safe hz (hz.not_last hc (by omega)))
      split
      · exact token _ _ _ _ _ _ hm hb1.1 (parse_false_safe hz (hz.not_last hc (by omega)))
      split
      · next h63 =>
        subst h63
        split
        · trivial
        · next hcount =>
          obtain ⟨context', hs, hm'⟩ := store_part_mark hm hcount hb1.1 hc
          rw [hs]
          simp only [Outcome.bind_ok, Outcome.safe_ok]
          exact ⟨by omega, by omega, [b1], hm'⟩
      · trivial
    · -- parse_array
      rw [parse_array]
      simp only [Outcome.bind_eq_bind]
      refine Outcome.safe_bind (skip_whitespace_safe (show b + 1 ≤ text.length by omega))
        (fun b1 hb1 => ?_)
      split
      · trivial
      refine Outcome.safe_bind (rd_safe (show b1 < text.length by omega)) (fun c hc => ?_)
      split
      · simp only [Outcome.safe_ok]
        exact ⟨by omega, by omega, [], by simpa using hm.mono (by omega)⟩
      · exact Outcome.safe_mono
          (ihal text b1 context qs hz (by omega) (hm.mono (by omega)) (by omega))
          (fun r hr => ⟨by omega, hr.2⟩)
    · -- parse_array_loop
      rw [parse_array_loop]
      simp only [Outcome.bind_eq_bind]
      refine Outcome.safe_bind (ihv text b context qs hz hb hm (by omega)) (fun r hr => ?_)
      obtain ⟨p, context1⟩ := r
      obtain ⟨hp1, hp2, qs1, hm1⟩ := hr
      dsimp only at hp1 hp2 hm1 ⊢
      refine Outcome.safe_bind (skip_whitespace_safe hp2) (fun b1 hb1 => ?_)
      split
      · trivial
      refine Outcome.safe_bind (rd_safe (show b1 < text.length by omega)) (fun c hc => ?_)
      split
      · simp only [Outcome.safe_ok]
        exact ⟨by omega, by omega, qs1, hm1.mono (by omega)⟩
      split
      · trivial
      · next h93 h44 =>
        have hnl := hz.not_last hc (by omega)
        refine Outcome.safe_mono
          (ihal text (b1 + 1) context1 _ hz hnl (hm1.mono (by omega)) (by omega))
          (fun r hr => ⟨by omega, hr.2.1, ?_⟩)
        obtain ⟨qs2, h2⟩ := hr.2.2
        exact ⟨qs1 ++ qs2, by simpa using h2⟩
    · -- parse_object
      rw [parse_object]
      simp only [Outcome.bind_eq_bind]
      refine Outcome.safe_bind (skip_whitespace_safe (show b + 1 ≤ text.length by omega))
        (fun b1 hb1 => ?_)
      split
      · trivial
      refine Outcome.safe_bind (rd_safe (show b1 < text.length by omega)) (fun c hc => ?_)
      split
      · simp only [Outcome.safe_ok]
        exact ⟨by omega, by omega, [], by simpa using hm.mono (by omega)⟩
      split
      · trivial
      · exact Outcome.safe_mono
          (ihol text b1 context qs hz (by omega) (hm.mono (by omega)) (by omega))
          (fun r hr => ⟨by omega, hr.2⟩)
    · -- parse_object_loop
      rw [parse_object_loop]
      simp only [Outcome.bind_eq_bind]
      refine Outcome.safe_bind (parse_string_safe hb) (fun b0 hb0 => ?_)
      refine Outcome.safe_bind (skip_whitespace_safe hb0.2) (fun b1 hb1 => ?_)
      split
      · trivial
      refine Outcome.safe_bind (rd_safe (show b1 < text.length by omega)) (fun c hc => ?_)
      split
      · trivial
      next h58 =>
      have hnl := hz.not_last hc (by omega)
      refine Outcome.safe_bind
        (ihv text (b1 + 1) context qs hz hnl (hm.mono (by omega)) (by omega)) (fun r hr => ?_)
      obtain ⟨p, context1⟩ := r
      obtain ⟨hp1, hp2, qs1, hm1⟩ := hr
      dsimp only at hp1 hp2 hm1 ⊢
      refine Outcome.safe_bind (skip_whitespace_safe hp2) (fun b2 hb2 => ?_)
      split
      · trivial
      refine Outcome.safe_bind (rd_safe (show b2 < text.length by omega)) (fun c2 hc2 => ?_)
      split
      · simp only [Outcome.safe_ok]
        exact ⟨by omega, by omega, qs1, hm1.mono (by omega)⟩
      split
      · trivial
      next h125 h44 =>
      have hnl2 := hz.not_last hc2 (by omega)
      refine Outcome.safe_bind (skip_whitespace_before_nul hz hnl2) (fun b3 hb3 => ?_)
      refine Outcome.safe_mono
        (ihol text b3 context1 _ hz hb3.2 (hm1.mono (by omega)) (by omega))
        (fun r hr => ⟨by omega, hr.2.1, ?_⟩)
      obtain ⟨qs2, h2⟩ := hr.2.2
      exact ⟨qs1 ++ qs2, by simpa using h2⟩

/-- On a NUL-terminated range `compile` completes or throws. -/
theorem compile_safe {text : List Nat} (hz : NulTerminated text) :
    (compile text).safe fun _ => True := by
  unfold compile
  simp only [Outcome.bind_eq_bind]
  have h0 : store_part context_zero 0 0 = .ok ⟨parts_of [], 0⟩ := by decide
  rw [h0, Outcome.bind_ok]
  have hm : Marks text 0 ⟨parts_of [], 0⟩ [] :=
    ⟨rfl, rfl, by simp, List.Pairwise.nil, by simp⟩
  refine Outcome.safe_bind
    ((parse_safe_step _).1 text 0 _ [] hz hz.pos hm (by unfold compile_fuel; omega))
    (fun r hr => ?_)
  obtain ⟨p, context⟩ := r
  obtain ⟨_, hp, qs, hq⟩ := hr
  simp only [List.nil_append] at hq
  dsimp only at hp hq ⊢
  refine Outcome.safe_bind (skip_whitespace_safe hp) (fun b1 hb1 => ?_)
  refine Outcome.safe_bind (at_is_safe hb1.2 _) (fun nul hnul => ?_)
  dsimp only
  generalize (if nul = true then b1 + 1 else b1) = b2
  split
  · trivial
  · unfold store_part
    have hle := hq.le_max
    rw [if_pos (by have := hq.count_eq; unfold JP_MAX_PLACEHOLDERS at *; omega)]
    trivial

theorem Outcome.not_safe_bind {α β : Type} {x : Outcome α} {g : α → Outcome β}
    (hx : ¬ x.safe fun _ => True) : ¬ (x.bind g).safe fun _ => True := by
  cases x with
  | ok a => exact absurd trivial hx
  | throw w => exact absurd trivial hx
  | undefined u => exact fun h => h
  | out_of_fuel => exact fun h => h

theorem rd_beyond {text : List Nat} {p : Nat} (h : text.length ≤ p) :
    rd text p = .undefined .read_outside := by
  unfold rd
  rw [List.getElem?_eq_none h]

theorem skip_whitespace_beyond {text : List Nat} {b : Nat} (h : text.length < b) :
    skip_whitespace text b = .undefined .read_outside := by
  unfold skip_whitespace
  rw [if_pos h]

/-- Called with a position greater than `end`, the token functions read outside the
range. -/
theorem token_beyond_end {text : List Nat} {b : Nat} (h : text.length < b) :
    parse_string text b = .undefined .read_outside ∧
    parse_number text b = .undefined .read_outside ∧
    parse_null text b = .undefined .read_outside ∧
    parse_true text b = .undefined .read_outside ∧
    parse_false text b = .undefined .read_outside := by
  refine ⟨?_, ?_, ?_, ?_, ?_⟩
  · unfold parse_string; rw [if_pos (by omega)]
  · rw [parse_number_stages, rd_beyond (by omega)]; rfl
  · unfold parse_null
    rw [if_pos (by omega)]
    simp only [Outcome.bind_eq_bind]
    rw [rd_beyond (by omega)]; rfl
  · unfold parse_true
    rw [if_pos (by omega)]
    simp only [Outcome.bind_eq_bind]
    rw [rd_beyond (by omega)]; rfl
  · unfold parse_false
    rw [if_pos (by omega)]
    simp only [Outcome.bind_eq_bind]
    rw [rd_beyond (by omega)]; rfl

/-- Called with a position greater than `end`, the recursive parser functions do not
complete and do not throw: their first step reads outside the range. -/
theorem parse_beyond_end {text : List Nat} {b : Nat} (h : text.length < b)
    (context : json_print_context) : ∀ fuel : Nat,
    (¬ (parse_value fuel text b context).safe fun _ => True) ∧
    (¬ (parse_array fuel text b context).safe fun _ => True) ∧
    (¬ (parse_array_loop fuel text b context).safe fun _ => True) ∧
    (¬ (parse_object fuel text b context).safe fun _ => True) ∧
    (¬ (parse_object_loop fuel text b context).safe fun _ => True)
  | 0 => by
    refine ⟨?_, ?_, ?_, ?_, ?_⟩ <;> exact fun h => h
  | fuel + 1 => by
    have ihv := (parse_beyond_end h context fuel).1
    refine ⟨?_, ?_, ?_, ?_, ?_⟩
    · rw [parse_value]
      simp only [Outcome.bind_eq_bind]
      rw [skip_whitespace_beyond h]
      exact fun h => h
    · rw [parse_array]
      simp only [Outcome.bind_eq_bind]
      rw [skip_whitespace_beyond (by omega)]
      exact fun h => h
    · rw [parse_array_loop]
      simp only [Outcome.bind_eq_bind]
      exact Outcome.not_safe_bind ihv
    · rw [parse_object]
      simp only [Outcome.bind_eq_bind]
      rw [skip_whitespace_beyond (by omega)]
      exact fun h => h
    · rw [parse_object_loop]
      simp only [Outcome.bind_eq_bind]
      rw [(token_beyond_end h).1]
      exact fun h => h

/-- C33: on a range that is not empty and ends with a NUL byte, `compile` completes or
throws, so it reads no byte outside the range.  Every parser function called at a
position inside such a range (the literal matchers on the letter that selects them, as
`parse_value` calls them) reads inside the range only and, when it returns, returns a
position that is at most `end`; and a parser function called with a position greater
than `end` would read outside the range at its first step, which therefore never
happens in a run of `compile`. -/
theorem nul_terminated_range_is_safe (text : List Nat) (hz : NulTerminated text) :
    ((∃ context, compile text = .ok context) ∨ ∃ what, compile text = .throw what) ∧
    (∀ fuel b context qs, b < text.length → Marks text b context qs →
      3 * (text.length - b) + 3 ≤ fuel →
      ((parse_value fuel text b context).safe fun r => b < r.1 ∧ r.1 ≤ text.length) ∧
      ((parse_array fuel text b context).safe fun r => b < r.1 ∧ r.1 ≤ text.length) ∧
      ((parse_array_loop fuel text b context).safe fun r => b < r.1 ∧ r.1 ≤ text.length) ∧
      ((parse_object fuel text b context).safe fun r => b < r.1 ∧ r.1 ≤ text.length) ∧
      ((parse_object_loop fuel text b context).safe fun r => b < r.1 ∧ r.1 ≤ text.length)) ∧
    (∀ b, b < text.length →
      ((parse_string text b).safe fun p => b < p ∧ p ≤ text.length) ∧
      ((parse_number text b).safe fun p => b < p ∧ p ≤ text.length)) ∧
    (∀ b, text[b]? = some 110 →
      (parse_null text b).safe fun p => b < p ∧ p ≤ text.length) ∧
    (∀ b, text[b]? = some 116 →
      (parse_true text b).safe fun p => b < p ∧ p ≤ text.length) ∧
    (∀ b, text[b]? = some 102 →
      (parse_false text b).safe fun p => b < p ∧ p ≤ text.length) ∧
    (∀ fuel b context, text.length < b →
      (¬ (parse_value fuel text b context).safe fun _ => True) ∧
      (¬ (parse_array fuel text b context).safe fun _ => True) ∧
      (¬ (parse_array_loop fuel text b context).safe fun _ => True) ∧
      (¬ (parse_object fuel text b context).safe fun _ => True) ∧
      (¬ (parse_object_loop fuel text b context).safe fun _ => True)) ∧
    (∀ b, text.length < b →
      parse_string text b = .undefined .read_outside ∧
      parse_number text b = .undefined .read_outside ∧
      parse_null text b = .undefined .read_outside ∧
      parse_true text b = .undefined .read_outside ∧
      parse_false text b = .undefined .read_outside) := by
  refine ⟨?_, fun fuel b context qs hb hm hfuel => ?_, fun b hb => ?_, fun b hb => ?_,
    fun b hb => ?_, fun b hb => ?_, fun fuel b context hb => parse_beyond_end hb context fuel,
    fun b hb => token_beyond_end hb⟩
  · rcases Outcome.safe_cases (compile_safe hz) with ⟨context, h, _⟩ | ⟨w, h⟩
    · exact Or.inl ⟨context, h⟩
    · exact Or.inr ⟨w, h⟩
  · obtain ⟨hv, ha, hal, ho, hol⟩ := parse_safe_step fuel
    exact ⟨Outcome.safe_mono (hv text b context qs hz hb hm (by omega)) (fun r hr => ⟨hr.1, hr.2.1⟩),
      Outcome.safe_mono (ha text b context qs hz hb hm (by omega)) (fun r hr => ⟨hr.1, hr.2.1⟩),
      Outcome.safe_mono (hal text b context qs hz hb hm (by omega)) (fun r hr => ⟨hr.1, hr.2.1⟩),
      Outcome.safe_mono (ho text b context qs hz hb hm (by omega)) (fun r hr => ⟨hr.1, hr.2.1⟩),
      Outcome.safe_mono (hol text b context qs hz hb hm (by omega)) (fun r hr => ⟨hr.1, hr.2.1⟩)⟩
  · exact ⟨parse_string_safe hb, parse_number_safe hb⟩
  · exact parse_null_safe hz (hz.not_last hb (by omega))
  · exact parse_true_safe hz (hz.not_last hb (by omega))
  · exact parse_false_safe hz (hz.not_last hb (by omega))

/-- C33, at the range `tr` followed by NUL: the comparison of `parse_true` stops at the
NUL and `compile` throws, where the range `tru` without a NUL is read past its end. -/
theorem nul_terminated_range_is_safe_witness :
    NulTerminated (bytes "tr" ++ [0]) ∧
    ((∃ context, compile (bytes "tr" ++ [0]) = .ok context) ∨
      ∃ what, compile (bytes "tr" ++ [0]) = .throw what) ∧
    compile (bytes "tr" ++ [0]) = .throw "unrecognized token" :=
  ⟨⟨bytes "tr", rfl⟩, (nul_terminated_range_is_safe (bytes "tr" ++ [0]) ⟨bytes "tr", rfl⟩).1,
    by decide⟩

/-! ## Every call moves forward -/

theorem Outcome.returns_of_sat {α : Type} {x : Outcome α} {Q : α → Prop} (h : x.sat Q) :
    x.returns Q := fun _ ha => Outcome.sat_elim h ha

theorem Outcome.returns_bind {α β : Type} {x : Outcome α} {g : α → Outcome β}
    {Q : α → Prop} {R : β → Prop} (hx : x.returns Q) (hg : ∀ a, Q a → (g a).returns R) :
    (x.bind g).returns R := by
  intro b hb
  obtain ⟨a, ha, hga⟩ := Outcome.bind_eq_ok hb
  exact hg a (hx a ha) b hga

theorem Outcome.returns_mono {α : Type} {x : Outcome α} {Q R : α → Prop} (hx : x.returns Q)
    (h : ∀ a, Q a → R a) : x.returns R := fun a ha => h a (hx a ha)

theorem Outcome.returns_ok {α : Type} {a : α} {Q : α → Prop} (h : Q a) :
    (Outcome.ok a).returns Q := by
  intro b hb
  simp only [Outcome.ok.injEq] at hb
  subst hb; exact h

theorem Outcome.returns_throw {α : Type} (w : String) (Q : α → Prop) :
    (Outcome.throw w : Outcome α).returns Q := by
  intro b hb; cases hb

theorem Outcome.returns_out_of_fuel {α : Type} (Q : α → Prop) :
    (Outcome.out_of_fuel : Outcome α).returns Q := by
  intro b hb; cases hb

theorem parse_progress : ∀ fuel : Nat,
    Progress (parse_value fuel) ∧ Progress (parse_array fuel) ∧
      Progress (parse_array_loop fuel) ∧ Progress (parse_object fuel) ∧
      Progress (parse_object_loop fuel)
  | 0 => by
    refine ⟨?_, ?_, ?_, ?_, ?_⟩ <;> intro text b context
    · rw [parse_value]; exact Outcome.returns_out_of_fuel _
    · rw [parse_array]; exact Outcome.returns_out_of_fuel _
    · rw [parse_array_loop]; exact Outcome.returns_out_of_fuel _
    · rw [parse_object]; exact Outcome.returns_out_of_fuel _
    · rw [parse_object_loop]; exact Outcome.returns_out_of_fuel _
  | fuel + 1 => by
    obtain ⟨ihv, iha, ihal, iho, ihol⟩ := parse_progress fuel
    have token : ∀ (text : List Nat) (b b1 : Nat) (context : json_print_context)
        (x : Outcome Nat), b ≤ b1 →
        x.sat (fun p => b1 < p ∧ p ≤ text.length) →
        (x.bind fun e => Outcome.ok (e, context)).returns fun r =>
          b < r.1 ∧ r.1 ≤ text.length := by
      intro text b b1 context x hb hx
      refine Outcome.returns_bind (Outcome.returns_of_sat hx) (fun p hp => ?_)
      exact Outcome.returns_ok ⟨by show b < p; omega, hp.2⟩
    refine ⟨?_, ?_, ?_, ?_, ?_⟩ <;> intro text b context
    · -- parse_value
      rw [parse_value]
      simp only [Outcome.bind_eq_bind]
      refine Outcome.returns_bind (Outcome.returns_of_sat (skip_whitespace_sat _ _))
        (fun b1 hb1 => ?_)
      refine Outcome.returns_bind (Outcome.returns_of_sat (rd_sat _ _)) (fun c hc => ?_)
      split
      · exact Outcome.returns_mono (iha text b1 context) (fun r hr => ⟨by omega, hr.2⟩)
      split
      · exact Outcome.returns_mono (iho text b1 context) (fun r hr => ⟨by omega, hr.2⟩)
      split
      · exact token _ _ _ _ _ hb1.1 (parse_string_sat _ _)
      split
      · exact token _ _ _ _ _ hb1.1 (parse_number_sat _ _)
      split
      · exact token _ _ _ _ _ hb1.1 (parse_null_sat _ _)
      split
      · exact token _ _ _ _ _ hb1.1 (parse_true_sat _ _)
      split
      · exact token _ _ _ _ _ hb1.1 (parse_false_sat _ _)
      split
      · split
        · exact Outcome.returns_throw _ _
        · refine Outcome.returns_bind (Q := fun _ => True) (fun _ _ => trivial)
            (fun context' _ => ?_)
          exact Outcome.returns_ok ⟨by show b < b1 + 1; omega, by show b1 + 1 ≤ _; omega⟩
      · exact Outcome.returns_throw _ _
    · -- parse_array
      rw [parse_array]
      simp only [Outcome.bind_eq_bind]
      refine Outcome.returns_bind (Outcome.returns_of_sat (skip_whitespace_sat _ _))
        (fun b1 hb1 => ?_)
      split
      · exact Outcome.returns_throw _ _
      refine Outcome.returns_bind (Outcome.returns_of_sat (rd_sat _ _)) (fun c hc => ?_)
      split
      · exact Outcome.returns_ok ⟨by show b < b1 + 1; omega, by show b1 + 1 ≤ _; omega⟩
      · exact Outcome.returns_mono (ihal text b1 context) (fun r hr => ⟨by omega, hr.2⟩)
    · -- parse_array_loop
      rw [parse_array_loop]
      simp only [Outcome.bind_eq_bind]
      refine Outcome.returns_bind (ihv text b context) (fun r hr => ?_)
      obtain ⟨p, context1⟩ := r
      dsimp only at hr ⊢
      refine Outcome.returns_bind (Outcome.returns_of_sat (skip_whitespace_sat _ _))
        (fun b1 hb1 => ?_)
      split
      · exact Outcome.returns_throw _ _
      refine Outcome.returns_bind (Outcome.returns_of_sat (rd_sat _ _)) (fun c hc => ?_)
      split
      · exact Outcome.returns_ok ⟨by show b < b1 + 1; omega, by show b1 + 1 ≤ _; omega⟩
      split
      · exact Outcome.returns_throw _ _
      · exact Outcome.returns_mono (ihal text (b1 + 1) context1)
          (fun r hr => ⟨by omega, hr.2⟩)
    · -- parse_object
      rw [parse_object]
      simp only [Outcome.bind_eq_bind]
      refine Outcome.returns_bind (Outcome.returns_of_sat (skip_whitespace_sat _ _))
        (fun b1 hb1 => ?_)
      split
      · exact Outcome.returns_throw _ _
      refine Outcome.returns_bind (Outcome.returns_of_sat (rd_sat _ _)) (fun c hc => ?_)
      split
      · exact Outcome.returns_ok ⟨by show b < b1 + 1; omega, by show b1 + 1 ≤ _; omega⟩
      split
      · exact Outcome.returns_throw _ _
      · exact Outcome.returns_mono (ihol text b1 context) (fun r hr => ⟨by omega, hr.2⟩)
    · -- parse_object_loop
      rw [parse_object_loop]
      simp only [Outcome.bind_eq_bind]
      refine Outcome.returns_bind (Outcome.returns_of_sat (parse_string_sat _ _))
        (fun b0 hb0 => ?_)
      refine Outcome.returns_bind (Outcome.returns_of_sat (skip_whitespace_sat _ _))
        (fun b1 hb1 => ?_)
      split
      · exact Outcome.returns_throw _ _
      refine Outcome.returns_bind (Outcome.returns_of_sat (rd_sat _ _)) (fun c hc => ?_)
      split
      · exact Outcome.returns_throw _ _
      refine Outcome.returns_bind (ihv text (b1 + 1) context) (fun r hr => ?_)
      obtain ⟨p, context1⟩ := r
      dsimp only at hr ⊢
      refine Outcome.returns_bind (Outcome.returns_of_sat (skip_whitespace_sat _ _))
        (fun b2 hb2 => ?_)
      split
      · exact Outcome.returns_throw _ _
      refine Outcome.returns_bind (Outcome.returns_of_sat (rd_sat _ _)) (fun c2 hc2 => ?_)
      split
      · exact Outcome.returns_ok ⟨by show b < b2 + 1; omega, by show b2 + 1 ≤ _; omega⟩
      split
      · exact Outcome.returns_throw _ _
      refine Outcome.returns_bind (Outcome.returns_of_sat (skip_whitespace_sat _ _))
        (fun b3 hb3 => ?_)
      exact Outcome.returns_mono (ihol text b3 context1) (fun r hr => ⟨by omega, hr.2⟩)

theorem Outcome.sat_ne_out_of_fuel {α : Type} {x : Outcome α} {Q : α → Prop} (h : x.sat Q) :
    x ≠ .out_of_fuel := by
  intro hx
  rw [hx] at h
  exact h

/-- C34: on a NUL-terminated range `compile` ends, with a context or with an exception.
Every completed call of `parse_value`, `parse_array`, `parse_object` (and of the loops of
the last two), `parse_string`, `parse_number`, `parse_null`, `parse_true` and
`parse_false` returns a position strictly greater than the one it was called with and
at most `end`, whatever the range; and the depth of the mutual recursion is bounded by
the number of bytes that remain: three units of fuel for each remaining byte and three
more are never used up. -/
theorem compile_terminates (text : List Nat) (hz : NulTerminated text) :
    ((∃ context, compile text = .ok context) ∨ ∃ what, compile text = .throw what) ∧
    (∀ fuel b context qs, Marks text b context qs → 3 * (text.length - b) + 3 ≤ fuel →
      parse_value fuel text b context ≠ .out_of_fuel ∧
      parse_array fuel text b context ≠ .out_of_fuel ∧
      parse_array_loop fuel text b context ≠ .out_of_fuel ∧
      parse_object fuel text b context ≠ .out_of_fuel ∧
      parse_object_loop fuel text b context ≠ .out_of_fuel) ∧
    (∀ fuel b context p context',
      (parse_value fuel text b context = .ok (p, context') → b < p ∧ p ≤ text.length) ∧
      (parse_array fuel text b context = .ok (p, context') → b < p ∧ p ≤ text.length) ∧
      (parse_array_loop fuel text b context = .ok (p, context') → b < p ∧ p ≤ text.length) ∧
      (parse_object fuel text b context = .ok (p, context') → b < p ∧ p ≤ text.length) ∧
      (parse_object_loop fuel text b context = .ok (p, context') →
        b < p ∧ p ≤ text.length)) ∧
    (∀ b p,
      (parse_string text b = .ok p → b < p ∧ p ≤ text.length) ∧
      (parse_number text b = .ok p → b < p ∧ p ≤ text.length) ∧
      (parse_null text b = .ok p → b < p ∧ p ≤ text.length) ∧
      (parse_true text b = .ok p → b < p ∧ p ≤ text.length) ∧
      (parse_false text b = .ok p → b < p ∧ p ≤ text.length)) := by
  refine ⟨?_, fun fuel b context qs hm hfuel => ?_, fun fuel b context p context' => ?_,
    fun b p => ?_⟩
  · rcases Outcome.safe_cases (compile_safe hz) with ⟨context, h, _⟩ | ⟨w, h⟩
    · exact Or.inl ⟨context, h⟩
    · exact Or.inr ⟨w, h⟩
  · obtain ⟨hv, ha, hal, ho, hol⟩ := parse_step fuel
    exact ⟨Outcome.sat_ne_out_of_fuel (hv text b context qs hm (by omega)),
      Outcome.sat_ne_out_of_fuel (ha text b context qs hm (by omega)),
      Outcome.sat_ne_out_of_fuel (hal text b context qs hm (by omega)),
      Outcome.sat_ne_out_of_fuel (ho text b context qs hm (by omega)),
      Outcome.sat_ne_out_of_fuel (hol text b context qs hm (by omega))⟩
  · obtain ⟨hv, ha, hal, ho, hol⟩ := parse_progress fuel
    exact ⟨hv text b context (p, context'), ha text b context (p, context'),
      hal text b context (p, context'), ho text b context (p, context'),
      hol text b context (p, context')⟩
  · exact ⟨Outcome.sat_elim (parse_string_sat text b), Outcome.sat_elim (parse_number_sat text b),
      Outcome.sat_elim (parse_null_sat text b), Outcome.sat_elim (parse_true_sat text b),
      Outcome.sat_elim (parse_false_sat text b)⟩

/-- C34, at the template `[[1],{"a":?}]` with its NUL: `compile` ends, and here it
returns a context. -/
theorem compile_terminates_witness :
    NulTerminated (bytes "[[1],\x7b\"a\":?\x7d]" ++ [0]) ∧
    ((∃ context, compile (bytes "[[1],\x7b\"a\":?\x7d]" ++ [0]) = .ok context) ∨
      ∃ what, compile (bytes "[[1],\x7b\"a\":?\x7d]" ++ [0]) = .throw what) ∧
    (compile (bytes "[[1],\x7b\"a\":?\x7d]" ++ [0])).isOk = true :=
  ⟨⟨_, rfl⟩,
    (compile_terminates (bytes "[[1],\x7b\"a\":?\x7d]" ++ [0]) ⟨_, rfl⟩).1, by decide⟩

/-! ## Leading whitespace moves the offsets and nothing else -/

@[simp] theorem Outcome.map_ok {α β : Type} (f : α → β) (a : α) :
    (Outcome.ok a).map f = .ok (f a) := rfl

@[simp] theorem Outcome.map_throw {α β : Type} (f : α → β) (w : String) :
    (Outcome.throw w : Outcome α).map f = .throw w := rfl

@[simp] theorem Outcome.map_undefined {α β : Type} (f : α → β) (u : Fault) :
    (Outcome.undefined u : Outcome α).map f = .undefined u := rfl

@[simp] theorem Outcome.map_out_of_fuel {α β : Type} (f : α → β) :
    (Outcome.out_of_fuel : Outcome α).map f = .out_of_fuel := rfl

theorem Outcome.map_bind {α β γ : Type} (x : Outcome α) (g : α → Outcome β) (f : β → γ) :
    (x.bind g).map f = x.bind (fun a => (g a).map f) := by
  cases x <;> rfl

theorem Outcome.bind_map {α β γ : Type} (x : Outcome α) (f : α → β) (g : β → Outcome γ) :
    (x.map f).bind g = x.bind (fun a => g (f a)) := by
  cases x <;> rfl

theorem Outcome.bind_congr {α β : Type} {x : Outcome α} {g g' : α → Outcome β}
    (h : ∀ a, g a = g' a) : x.bind g = x.bind g' := by
  cases x with
  | ok a => exact h a
  | throw w => rfl
  | undefined u => rfl
  | out_of_fuel => rfl

theorem Outcome.map_ite {α β : Type} (f : α → β) (c : Prop) [Decidable c]
    (x y : Outcome α) : (if c then x else y).map f = if c then x.map f else y.map f := by
  split <;> rfl

theorem rd_shift (pre text : List Nat) (b : Nat) :
    rd (pre ++ text) (b + pre.length) = rd text b := by
  unfold rd
  rw [List.getElem?_append_right (by omega), Nat.add_sub_cancel]

theorem skip_run_shift (q : Nat → Bool) (n : Nat) :
    ∀ (l : List Nat) (b : Nat), skip_run q l (b + n) = skip_run q l b + n
  | [], b => rfl
  | c :: l, b => by
    simp only [skip_run]
    split
    · rw [Nat.add_right_comm]; exact skip_run_shift q n l (b + 1)
    · rfl

theorem drop_shift (pre text : List Nat) (b : Nat) :
    (pre ++ text).drop (b + pre.length) = text.drop b := by
  rw [Nat.add_comm, List.drop_append]

theorem skip_whitespace_shift (pre text : List Nat) (b : Nat) :
    skip_whitespace (pre ++ text) (b + pre.length)
      = (skip_whitespace text b).map (· + pre.length) := by
  unfold skip_whitespace
  rw [drop_shift, skip_run_shift]
  by_cases h : text.length < b
  · rw [if_pos h, if_pos (by simp only [List.length_append]; omega)]; rfl
  · rw [if_neg h, if_neg (by simp only [List.length_append]; omega)]; rfl

theorem skip_decimal_shift (pre text : List Nat) (b : Nat) :
    skip_decimal (pre ++ text) (b + pre.length)
      = (skip_decimal text b).map (· + pre.length) := by
  unfold skip_decimal
  rw [drop_shift, skip_run_shift]
  by_cases h : text.length < b
  · rw [if_pos h, if_pos (by simp only [List.length_append]; omega)]; rfl
  · rw [if_neg h, if_neg (by simp only [List.length_append]; omega)]; rfl

theorem at_is_shift (pre text : List Nat) (b : Nat) (q : Nat → Bool) :
    at_is (pre ++ text) (b + pre.length) q = at_is text b q := by
  unfold at_is
  rw [rd_shift]
  by_cases h : b = text.length
  · rw [if_pos h, if_pos (by simp only [List.length_append]; omega)]
  · rw [if_neg h, if_neg (by simp only [List.length_append]; omega)]

theorem end_shift (pre text : List Nat) (b : Nat) :
    (b + pre.length = (pre ++ text).length) = (b = text.length) := by
  simp only [List.length_append, eq_iff_iff]
  omega

theorem parse_string_loop_shift (n : Nat) : ∀ (k : Nat) (l : List Nat) (b : Nat),
    l.length ≤ k → parse_string_loop l (b + n) = (parse_string_loop l b).map (· + n)
  | _, [], b, _ => by simp [parse_string_loop]
  | 0, _ :: _, _, hn => by simp at hn
  | k + 1, c :: rest, b, hn => by
    simp only [List.length_cons] at hn
    unfold parse_string_loop
    split
    · rfl
    · split
      · split
        · rfl
        · next e rest1 =>
          simp only [List.length_cons] at hn
          split
          · rw [Nat.add_right_comm]; exact parse_string_loop_shift n k rest1 _ (by omega)
          · split
            · split
              · next h1 h2 h3 h4 rest2 =>
                simp only [List.length_cons] at hn
                split
                · rw [Nat.add_right_comm]
                  exact parse_string_loop_shift n k rest2 _ (by omega)
                · rfl
              · rfl
            · rfl
      · split
        · simp only [Outcome.map_ok, Nat.add_right_comm]
        · rw [Nat.add_right_comm]; exact parse_string_loop_shift n k rest _ (by omega)

theorem parse_string_shift (pre text : List Nat) (b : Nat) :
    parse_string (pre ++ text) (b + pre.length)
      = (parse_string text b).map (· + pre.length) := by
  unfold parse_string
  rw [Nat.add_right_comm, drop_shift, parse_string_loop_shift _ _ _ _ (Nat.le_refl _)]
  by_cases h : text.length < b + 1
  · rw [if_pos h, if_pos (by simp only [List.length_append]; omega)]; rfl
  · rw [if_neg h, if_neg (by simp only [List.length_append]; omega)]

theorem number_exponent_shift (pre text : List Nat) (b : Nat) :
    number_exponent (pre ++ text) (b + pre.length)
      = (number_exponent text b).map (· + pre.length) := by
  unfold number_exponent
  rw [at_is_shift, Outcome.map_bind]
  refine Outcome.bind_congr (fun ex => ?_)
  cases ex
  · rfl
  · simp only [if_true]
    rw [Nat.add_right_comm b pre.length 1, at_is_shift, Outcome.map_bind]
    refine Outcome.bind_congr (fun sign => ?_)
    cases sign <;>
      simp only [Bool.false_eq_true, if_false, if_true, Nat.add_right_comm _ pre.length _,
        end_shift, rd_shift, skip_decimal_shift, Outcome.map_bind, Outcome.map_ite,
        Outcome.map_throw]

theorem number_fraction_shift (pre text : List Nat) (b : Nat) :
    number_fraction (pre ++ text) (b + pre.length)
      = (number_fraction text b).map (· + pre.length) := by
  unfold number_fraction
  rw [at_is_shift, Outcome.map_bind]
  refine Outcome.bind_congr (fun dot => ?_)
  cases dot
  · simp only [Bool.false_eq_true, if_false, Outcome.bind_ok, number_exponent_shift]
  · simp only [if_true, Nat.add_right_comm _ pre.length _, end_shift, rd_shift,
      skip_decimal_shift, Outcome.map_bind]
    by_cases h : b + 1 = text.length
    · simp only [h, if_true, Outcome.bind_throw, Outcome.map_throw]
    · simp only [h, if_false]
      cases rd text (b + 1) with
      | ok c =>
        simp only [Outcome.bind_ok]
        split
        · rfl
        · rw [Outcome.bind_map]
          exact Outcome.bind_congr (fun p => number_exponent_shift pre text p)
      | throw w => rfl
      | undefined u => rfl
      | out_of_fuel => rfl

theorem number_integer_shift (pre text : List Nat) (b : Nat) :
    number_integer (pre ++ text) (b + pre.length)
      = (number_integer text b).map (· + pre.length) := by
  unfold number_integer
  rw [rd_shift, Outcome.map_bind]
  refine Outcome.bind_congr (fun d => ?_)
  simp only [Nat.add_right_comm _ pre.length _, skip_decimal_shift, Outcome.map_bind]
  split
  · simp only [Outcome.bind_ok, number_fraction_shift]
  · split
    · rw [Outcome.bind_map]
      exact Outcome.bind_congr (fun p => number_fraction_shift pre text p)
    · rfl

theorem parse_number_shift (pre text : List Nat) (b : Nat) :
    parse_number (pre ++ text) (b + pre.length)
      = (parse_number text b).map (· + pre.length) := by
  rw [parse_number_stages, parse_number_stages, rd_shift, Outcome.map_bind]
  refine Outcome.bind_congr (fun c => ?_)
  simp only [Nat.add_right_comm _ pre.length _, end_shift, Outcome.map_bind]
  split
  · split
    · rfl
    · simp only [Outcome.bind_ok, number_integer_shift]
  · simp only [Outcome.bind_ok, number_integer_shift]

theorem parse_null_shift (pre text : List Nat) (b : Nat) :
    parse_null (pre ++ text) (b + pre.length) = (parse_null text b).map (· + pre.length) := by
  unfold parse_null
  simp only [Outcome.bind_eq_bind, Nat.add_right_comm _ pre.length _, rd_shift]
  by_cases h : text.length < b + 4
  · rw [if_pos h, if_pos (by simp only [List.length_append]; omega)]
    simp only [Outcome.map_bind, Outcome.map_ite, Outcome.map_throw, Outcome.map_ok]
  · rw [if_neg h, if_neg (by simp only [List.length_append]; omega)]
    rfl

theorem parse_true_shift (pre text : List Nat) (b : Nat) :
    parse_true (pre ++ text) (b + pre.length) = (parse_true text b).map (· + pre.length) := by
  unfold parse_true
  simp only [Outcome.bind_eq_bind, Nat.add_right_comm _ pre.length _, rd_shift]
  by_cases h : text.length < b + 4
  · rw [if_pos h, if_pos (by simp only [List.length_append]; omega)]
    simp only [Outcome.map_bind, Outcome.map_ite, Outcome.map_throw, Outcome.map_ok]
  · rw [if_neg h, if_neg (by simp only [List.length_append]; omega)]
    rfl

theorem parse_false_shift (pre text : List Nat) (b : Nat) :
    parse_false (pre ++ text) (b + pre.length)
      = (parse_false text b).map (· + pre.length) := by
  unfold parse_false
  simp only [Outcome.bind_eq_bind, Nat.add_right_comm _ pre.length _, rd_shift]
  by_cases h : text.length < b + 5
  · rw [if_pos h, if_pos (by simp only [List.length_append]; omega)]
    simp only [Outcome.map_bind, Outcome.map_ite, Outcome.map_throw, Outcome.map_ok]
  · rw [if_neg h, if_neg (by simp only [List.length_append]; omega)]
    rfl

theorem shift_parts_set (n : Nat) (parts : List (Option Nat)) (i p : Nat) :
    (shift_parts n parts).set (i + 1) (some (p + n))
      = shift_parts n (parts.set (i + 1) (some p)) := by
  cases parts with
  | nil => rfl
  | cons p0 rest =>
    simp only [shift_parts, List.set_cons_succ, List.map_set, Option.map_some']

theorem store_part_shift (n : Nat) (context : json_print_context) (i p : Nat) :
    store_part (shift_context n context) (i + 1) (p + n)
      = (store_part context (i + 1) p).map (shift_context n) := by
  unfold store_part
  split
  · simp only [Outcome.map_ok, shift_context, shift_parts_set]
  · rfl

theorem token_shift (n : Nat) (context : json_print_context) (x : Outcome Nat) :
    ((x.map (· + n)).bind fun e => Outcome.ok (e, shift_context n context))
      = (x.bind fun e => Outcome.ok (e, context)).map (shift_result n) := by
  cases x <;> rfl

theorem parse_value_shift_step {fuel : Nat} (iha : Shifts (parse_array fuel))
    (iho : Shifts (parse_object fuel)) :
    Shifts (parse_value (fuel + 1)) := by
  intro pre text b context
  rw [parse_value, parse_value]
  simp only [Outcome.bind_eq_bind]
  rw [skip_whitespace_shift, Outcome.bind_map, Outcome.map_bind]
  refine Outcome.bind_congr (fun b1 => ?_)
  rw [rd_shift, Outcome.map_bind]
  refine Outcome.bind_congr (fun c => ?_)
  split
  · exact iha pre text b1 context
  split
  · exact iho pre text b1 context
  split
  · rw [parse_string_shift]; exact token_shift _ _ _
  split
  · rw [parse_number_shift]; exact token_shift _ _ _
  split
  · rw [parse_null_shift]; exact token_shift _ _ _
  split
  · rw [parse_true_shift]; exact token_shift _ _ _
  split
  · rw [parse_false_shift]; exact token_shift _ _ _
  split
  · have hcount : (shift_context pre.length context).count = context.count := rfl
    rw [hcount]
    split
    · rfl
    · have : ({ parts := (shift_context pre.length context).parts,
                count := context.count + 1 } : json_print_context)
          = shift_context pre.length
              { parts := context.parts, count := context.count + 1 } := rfl
      rw [this, store_part_shift, Outcome.bind_map, Outcome.map_bind]
      refine Outcome.bind_congr (fun context' => ?_)
      simp only [Outcome.map_ok, shift_result, Nat.add_right_comm]
  · rfl

theorem parse_array_shift_step {fuel : Nat} (ihal : Shifts (parse_array_loop fuel)) :
    Shifts (parse_array (fuel + 1)) := by
  intro pre text b context
  rw [parse_array, parse_array]
  simp only [Outcome.bind_eq_bind]
  rw [Nat.add_right_comm, skip_whitespace_shift, Outcome.bind_map, Outcome.map_bind]
  refine Outcome.bind_congr (fun b1 => ?_)
  simp only [end_shift]
  split
  · rfl
  rw [rd_shift, Outcome.map_bind]
  refine Outcome.bind_congr (fun c => ?_)
  split
  · simp only [Outcome.map_ok, shift_result, Nat.add_right_comm]
  · exact ihal pre text b1 context

theorem parse_array_loop_shift_step {fuel : Nat} (ihv : Shifts (parse_value fuel))
    (ihal : Shifts (parse_array_loop fuel)) :
    Shifts (parse_array_loop (fuel + 1)) := by
  intro pre text b context
  rw [parse_array_loop, parse_array_loop]
  simp only [Outcome.bind_eq_bind]
  rw [ihv pre text b context, Outcome.bind_map, Outcome.map_bind]
  refine Outcome.bind_congr (fun r => ?_)
  obtain ⟨p, context1⟩ := r
  simp only [shift_result]
  rw [skip_whitespace_shift, Outcome.bind_map, Outcome.map_bind]
  refine Outcome.bind_congr (fun b1 => ?_)
  simp only [end_shift]
  split
  · rfl
  rw [rd_shift, Outcome.map_bind]
  refine Outcome.bind_congr (fun c => ?_)
  split
  · simp only [Outcome.map_ok, shift_result, Nat.add_right_comm]
  split
  · rfl
  · rw [Nat.add_right_comm]; exact ihal pre text (b1 + 1) context1

theorem parse_object_shift_step {fuel : Nat} (ihol : Shifts (parse_object_loop fuel)) :
    Shifts (parse_object (fuel + 1)) := by
  intro pre text b context
  rw [parse_object, parse_object]
  simp only [Outcome.bind_eq_bind]
  rw [Nat.add_right_comm, skip_whitespace_shift, Outcome.bind_map, Outcome.map_bind]
  refine Outcome.bind_congr (fun b1 => ?_)
  simp only [end_shift]
  split
  · rfl
  rw [rd_shift, Outcome.map_bind]
  refine Outcome.bind_congr (fun c => ?_)
  split
  · simp only [Outcome.map_ok, shift_result, Nat.add_right_comm]
  split
  · rfl
  · exact ihol pre text b1 context

theorem parse_object_loop_shift_step {fuel : Nat} (ihv : Shifts (parse_value fuel))
    (ihol : Shifts (parse_object_loop fuel)) :
    Shifts (parse_object_loop (fuel + 1)) := by
  intro pre text b context
  rw [parse_object_loop, parse_object_loop]
  simp only [Outcome.bind_eq_bind]
  rw [parse_string_shift, Outcome.bind_map, Outcome.map_bind]
  refine Outcome.bind_congr (fun b0 => ?_)
  rw [skip_whitespace_shift, Outcome.bind_map, Outcome.map_bind]
  refine Outcome.bind_congr (fun b1 => ?_)
  simp only [end_shift]
  split
  · rfl
  rw [rd_shift, Outcome.map_bind]
  refine Outcome.bind_congr (fun c => ?_)
  split
  · rfl
  rw [Nat.add_right_comm, ihv pre text (b1 + 1) context, Outcome.bind_map,
    Outcome.map_bind]
  refine Outcome.bind_congr (fun r => ?_)
  obtain ⟨p, context1⟩ := r
  simp only [shift_result]
  rw [skip_whitespace_shift, Outcome.bind_map, Outcome.map_bind]
  refine Outcome.bind_congr (fun b2 => ?_)
  simp only [end_shift]
  split
  · rfl
  rw [rd_shift, Outcome.map_bind]
  refine Outcome.bind_congr (fun c2 => ?_)
  split
  · simp only [Outcome.map_ok, shift_result, Nat.add_right_comm]
  split
  · rfl
  rw [Nat.add_right_comm, skip_whitespace_shift, Outcome.bind_map, Outcome.map_bind]
  refine Outcome.bind_congr (fun b3 => ?_)
  exact ihol pre text b3 context1

/-- The parser functions do the same on a text wherever it stands in the range. -/
theorem parse_shift : ∀ fuel : Nat,
    Shifts (parse_value fuel) ∧ Shifts (parse_array fuel) ∧ Shifts (parse_array_loop fuel) ∧
      Shifts (parse_object fuel) ∧ Shifts (parse_object_loop fuel)
  | 0 => by
    refine ⟨?_, ?_, ?_, ?_, ?_⟩ <;> intro pre text b context
    · rw [parse_value, parse_value]; rfl
    · rw [parse_array, parse_array]; rfl
    · rw [parse_array_loop, parse_array_loop]; rfl
    · rw [parse_object, parse_object]; rfl
    · rw [parse_object_loop, parse_object_loop]; rfl
  | fuel + 1 => by
    obtain ⟨ihv, iha, ihal, iho, ihol⟩ := parse_shift fuel
    exact ⟨parse_value_shift_step iha iho, parse_array_shift_step ihal,
      parse_array_loop_shift_step ihv ihal, parse_object_shift_step ihol,
      parse_object_loop_shift_step ihv ihol⟩

theorem bind_stable {α β : Type} {x x' : Outcome α} {g g' : α → Outcome β}
    (hx : x ≠ .out_of_fuel → x' = x) (hg : ∀ a, g a ≠ .out_of_fuel → g' a = g a) :
    x.bind g ≠ .out_of_fuel → x'.bind g' = x.bind g := by
  intro h
  cases x with
  | ok a => rw [hx (by simp)]; exact hg a h
  | throw w => rw [hx (by simp)]; rfl
  | undefined u => rw [hx (by simp)]; rfl
  | out_of_fuel => exact absurd rfl h

theorem ite_stable {α : Type} {c : Prop} [Decidable c] {A A' B B' : Outcome α}
    (hA : A ≠ .out_of_fuel → A' = A) (hB : B ≠ .out_of_fuel → B' = B) :
    (if c then A else B) ≠ .out_of_fuel → (if c then A' else B') = (if c then A else B) := by
  split
  · exact hA
  · exact hB

theorem parse_value_stable_step {fuel : Nat} (iha : FuelStable parse_array fuel)
    (iho : FuelStable parse_object fuel) : FuelStable parse_value (fuel + 1) := by
  intro text b context
  rw [parse_value, parse_value]
  simp only [Outcome.bind_eq_bind]
  refine bind_stable (fun _ => rfl) (fun b1 => ?_)
  refine bind_stable (fun _ => rfl) (fun c => ?_)
  exact ite_stable (iha text b1 context) (ite_stable (iho text b1 context) (fun _ => rfl))

theorem parse_array_stable_step {fuel : Nat} (ihal : FuelStable parse_array_loop fuel) :
    FuelStable parse_array (fuel + 1) := by
  intro text b context
  rw [parse_array, parse_array]
  simp only [Outcome.bind_eq_bind]
  refine bind_stable (fun _ => rfl) (fun b1 => ?_)
  refine ite_stable (fun _ => rfl) ?_
  refine bind_stable (fun _ => rfl) (fun c => ?_)
  exact ite_stable (fun _ => rfl) (ihal text b1 context)

theorem parse_array_loop_stable_step {fuel : Nat} (ihv : FuelStable parse_value fuel)
    (ihal : FuelStable parse_array_loop fuel) : FuelStable parse_array_loop (fuel + 1) := by
  intro text b context
  rw [parse_array_loop, parse_array_loop]
  simp only [Outcome.bind_eq_bind]
  refine bind_stable (ihv text b context) (fun r => ?_)
  obtain ⟨p, context1⟩ := r
  dsimp only
  refine bind_stable (fun _ => rfl) (fun b1 => ?_)
  refine ite_stable (fun _ => rfl) ?_
  refine bind_stable (fun _ => rfl) (fun c => ?_)
  exact ite_stable (fun _ => rfl) (ite_stable (fun _ => rfl) (ihal text (b1 + 1) context1))

theorem parse_object_stable_step {fuel : Nat} (ihol : FuelStable parse_object_loop fuel) :
    FuelStable parse_object (fuel + 1) := by
  intro text b context
  rw [parse_object, parse_object]
  simp only [Outcome.bind_eq_bind]
  refine bind_stable (fun _ => rfl) (fun b1 => ?_)
  refine ite_stable (fun _ => rfl) ?_
  refine bind_stable (fun _ => rfl) (fun c => ?_)
  exact ite_stable (fun _ => rfl) (ite_stable (fun _ => rfl) (ihol text b1 context))

theorem parse_object_loop_stable_step {fuel : Nat} (ihv : FuelStable parse_value fuel)
    (ihol : FuelStable parse_object_loop fuel) : FuelStable parse_object_loop (fuel + 1) := by
  intro text b context
  rw [parse_object_loop, parse_object_loop]
  simp only [Outcome.bind_eq_bind]
  refine bind_stable (fun _ => rfl) (fun b0 => ?_)
  refine bind_stable (fun _ => rfl) (fun b1 => ?_)
  refine ite_stable (fun _ => rfl) ?_
  refine bind_stable (fun _ => rfl) (fun c => ?_)
  refine ite_stable (fun _ => rfl) ?_
  refine bind_stable (ihv text (b1 + 1) context) (fun r => ?_)
  obtain ⟨p, context1⟩ := r
  dsimp only
  refine bind_stable (fun _ => rfl) (fun b2 => ?_)
  refine ite_stable (fun _ => rfl) ?_
  refine bind_stable (fun _ => rfl) (fun c2 => ?_)
  refine ite_stable (fun _ => rfl) (ite_stable (fun _ => rfl) ?_)
  exact bind_stable (fun _ => rfl) (fun b3 => ihol text b3 context1)

/-- A run of a parser function that did not use up its fuel is the same with one more
unit of fuel. -/
theorem parse_fuel_stable : ∀ fuel : Nat,
    FuelStable parse_value fuel ∧ FuelStable parse_array fuel ∧
      FuelStable parse_array_loop fuel ∧ FuelStable parse_object fuel ∧
      FuelStable parse_object_loop fuel
  | 0 => by
    refine ⟨?_, ?_, ?_, ?_, ?_⟩ <;> intro text b context h
    · rw [parse_value] at h; exact absurd rfl h
    · rw [parse_array] at h; exact absurd rfl h
    · rw [parse_array_loop] at h; exact absurd rfl h
    · rw [parse_object] at h; exact absurd rfl h
    · rw [parse_object_loop] at h; exact absurd rfl h
  | fuel + 1 => by
    obtain ⟨ihv, iha, ihal, iho, ihol⟩ := parse_fuel_stable fuel
    exact ⟨parse_value_stable_step iha iho, parse_array_stable_step ihal,
      parse_array_loop_stable_step ihv ihal, parse_object_stable_step ihol,
      parse_object_loop_stable_step ihv ihol⟩

theorem parse_value_more_fuel {fuel : Nat} {text : List Nat} {b : Nat}
    {context : json_print_context} (h : parse_value fuel text b context ≠ .out_of_fuel) :
    ∀ k, parse_value (fuel + k) text b context = parse_value fuel text b context
  | 0 => rfl
  | k + 1 => by
    have ih := parse_value_more_fuel h k
    rw [← Nat.add_assoc, (parse_fuel_stable (fuel + k)).1 text b context (by rw [ih]; exact h), ih]

theorem skip_run_leading (q : Nat → Bool) :
    ∀ (w rest : List Nat) (b : Nat), (∀ c ∈ w, q c = true) →
      skip_run q (w ++ rest) b = skip_run q rest (b + w.length)
  | [], rest, b, _ => rfl
  | c :: w, rest, b, h => by
    rw [List.cons_append, skip_run, if_pos (h c (List.mem_cons_self _ _)),
      skip_run_leading q w rest (b + 1) (fun d hd => h d (List.mem_cons_of_mem _ hd))]
    simp only [List.length_cons]
    rw [Nat.add_assoc, Nat.add_comm 1]

/-- With leading whitespace `w`, `parse_value` called at the start of the range does what
it does called after `w`. -/
theorem parse_value_after_ws (fuel : Nat) {w : List Nat} (hw : Spec.Ws w) (t : List Nat)
    (context : json_print_context) :
    parse_value fuel (w ++ t) 0 context = parse_value fuel (w ++ t) (0 + w.length) context := by
  cases fuel with
  | zero => rw [parse_value, parse_value]
  | succ f =>
    rw [parse_value, parse_value]
    have : skip_whitespace (w ++ t) 0 = skip_whitespace (w ++ t) (0 + w.length) := by
      rw [skip_whitespace_shift]
      unfold skip_whitespace
      rw [if_neg (by omega), if_neg (by omega)]
      simp only [List.drop_zero, Outcome.map_ok]
      rw [skip_run_leading is_whitespace w t 0 (fun c hc => (is_whitespace_iff c).mpr (hw c hc)),
        skip_run_shift]
    rw [this]

theorem shift_context_start (n : Nat) :
    shift_context n ⟨parts_of [], 0⟩ = ⟨parts_of [], 0⟩ := rfl

theorem filterMap_shift (n : Nat) : ∀ l : List (Option Nat),
    (l.map (Option.map (· + n))).filterMap id = (l.filterMap id).map (· + n)
  | [] => rfl
  | none :: l => by
    have ih := filterMap_shift n l
    simpa [List.filterMap_cons] using ih
  | some a :: l => by
    have ih := filterMap_shift n l
    simpa [List.filterMap_cons] using ih

/-- The placeholder offsets of a context moved on by `n`. -/
theorem placeholder_offsets_shift (n : Nat) (context : json_print_context) :
    placeholder_offsets (shift_context n context)
      = (placeholder_offsets context).map (· + n) := by
  obtain ⟨parts, count⟩ := context
  unfold placeholder_offsets shift_context
  dsimp only
  cases parts with
  | nil => simp [shift_parts]
  | cons p0 rest =>
    cases count with
    | zero => simp [shift_parts]
    | succ k =>
      simp only [shift_parts, List.take_succ_cons, List.drop_succ_cons, List.drop_zero]
      rw [← List.map_take, filterMap_shift]

/-- The outcome of `compile` on a range with the whitespace `w` put before it. -/
theorem compile_shift {w : List Nat} (hw : Spec.Ws w) (t : List Nat) :
    compile (w ++ t) = (compile t).map (shift_context w.length) := by
  have h0 : store_part context_zero 0 0 = .ok ⟨parts_of [], 0⟩ := by decide
  have hm : Marks t 0 ⟨parts_of [], 0⟩ [] :=
    ⟨rfl, rfl, by simp, List.Pairwise.nil, by simp⟩
  have hne : parse_value (compile_fuel t) t 0 ⟨parts_of [], 0⟩ ≠ .out_of_fuel :=
    Outcome.sat_ne_out_of_fuel
      ((parse_step _).1 t 0 _ [] hm (by unfold compile_fuel; omega))
  have hfuel : compile_fuel (w ++ t) = compile_fuel t + 3 * w.length := by
    unfold compile_fuel
    simp only [List.length_append]
    omega
  have hv : parse_value (compile_fuel (w ++ t)) (w ++ t) 0 ⟨parts_of [], 0⟩
      = (parse_value (compile_fuel t) t 0 ⟨parts_of [], 0⟩).map (shift_result w.length) := by
    rw [parse_value_after_ws _ hw]
    have := (parse_shift (compile_fuel (w ++ t))).1 w t 0 ⟨parts_of [], 0⟩
    rw [shift_context_start] at this
    rw [this, hfuel, parse_value_more_fuel hne]
  unfold compile
  simp only [Outcome.bind_eq_bind]
  rw [h0, Outcome.bind_ok, Outcome.bind_ok, hv, Outcome.bind_map, Outcome.map_bind]
  refine Outcome.bind_congr (fun r => ?_)
  obtain ⟨p, context⟩ := r
  simp only [shift_result]
  rw [skip_whitespace_shift, Outcome.bind_map, Outcome.map_bind]
  refine Outcome.bind_congr (fun b1 => ?_)
  rw [at_is_shift, Outcome.map_bind]
  refine Outcome.bind_congr (fun nul => ?_)
  have hend : ∀ x, (x + w.length ≠ (w ++ t).length) = (x ≠ t.length) := by
    intro x
    simp only [List.length_append, ne_eq, eq_iff_iff]
    omega
  have hlen : (w ++ t).length = t.length + w.length := by
    simp only [List.length_append]; omega
  have hstore : store_part
      { parts := (shift_context w.length context).parts,
        count := (shift_context w.length context).count + 1 }
      ((shift_context w.length context).count + 1) (w ++ t).length
      = (store_part { parts := context.parts, count := context.count + 1 }
          (context.count + 1) t.length).map (shift_context w.length) := by
    rw [hlen]
    exact store_part_shift w.length { parts := context.parts, count := context.count + 1 }
      context.count t.length
  cases nul
  · simp only [Bool.false_eq_true, if_false, hend, hstore, Outcome.map_ite, Outcome.map_throw]
  · simp only [if_true, Nat.add_right_comm _ w.length 1, hend, hstore, Outcome.map_ite,
      Outcome.map_throw]

/-- C31: whitespace before a template moves the offsets and changes nothing else.  For
every range `t` (a NUL-terminated template in particular) and every string `w` of
spaces, tabs, carriage returns and line feeds, `compile` has on `w ++ t` the outcome it
has on `t`, with every boundary but `parts[0]` moved on by the length of `w`: it
succeeds on the one exactly when it succeeds on the other, and then the two contexts
have the same `count` and every placeholder offset of `w ++ t` is the offset of `t` plus
the length of `w`. -/
theorem leading_whitespace_shifts_offsets (w t : List Nat) (hw : Spec.Ws w) :
    ((∃ context', compile (w ++ t) = .ok context') ↔ ∃ context, compile t = .ok context) ∧
    (∀ context, compile t = .ok context →
      ∃ context', compile (w ++ t) = .ok context' ∧ context'.count = context.count ∧
        placeholder_offsets context'
          = (placeholder_offsets context).map (fun q => q + w.length) ∧
        context'.parts[0]? = context.parts[0]?) ∧
    ∀ what, compile (w ++ t) = .throw what ↔ compile t = .throw what := by
  have h := compile_shift hw t
  refine ⟨⟨?_, ?_⟩, fun context hc => ?_, fun what => ⟨?_, ?_⟩⟩
  · rintro ⟨context', hc'⟩
    rw [hc'] at h
    cases hct : compile t with
    | ok context => exact ⟨context, rfl⟩
    | throw w' => rw [hct] at h; cases h
    | undefined u => rw [hct] at h; cases h
    | out_of_fuel => rw [hct] at h; cases h
  · rintro ⟨context, hc⟩
    rw [hc] at h
    exact ⟨_, h⟩
  · rw [hc] at h
    refine ⟨_, h, rfl, placeholder_offsets_shift _ _, ?_⟩
    obtain ⟨parts, count⟩ := context
    cases parts <;> simp [shift_context, shift_parts]
  · intro hc'
    rw [hc'] at h
    cases hct : compile t with
    | ok context => rw [hct] at h; cases h
    | throw w' =>
      rw [hct] at h
      simp only [Outcome.map_throw, Outcome.throw.injEq] at h
      rw [h]
    | undefined u => rw [hct] at h; cases h
    | out_of_fuel => rw [hct] at h; cases h
  · intro hc
    rw [hc] at h
    exact h

/-- C31, at the test "should parse a single placeholder with whitespace": two spaces
before the template `? ` move its placeholder from offset 0 to offset 2. -/
theorem leading_whitespace_shifts_offsets_witness :
    Spec.Ws [32, 32] ∧
    compile (bytes "? " ++ [0])
      = .ok ⟨[some 0, some 0, some 3, none, none, none, none, none, none, none, none, none,
          none, none, none, none], 2⟩ ∧
    ∃ context', compile ([32, 32] ++ (bytes "? " ++ [0])) = .ok context' ∧
      context'.count = 2 ∧
      placeholder_offsets context'
        = (placeholder_offsets ⟨[some 0, some 0, some 3, none, none, none, none, none, none,
            none, none, none, none, none, none, none], 2⟩).map (fun q => q + 2) ∧
      context'.parts[0]? = some (some 0) :=
  ⟨by decide, by decide,
    (leading_whitespace_shifts_offsets [32, 32] (bytes "? " ++ [0]) (by decide)).2.1
      ⟨[some 0, some 0, some 3, none, none, none, none, none, none, none, none, none,
        none, none, none, none], 2⟩ (by decide)⟩

/-! ## Bytes a string literal may hold -/

theorem string_body_plain {body : List Nat} (h : ∀ c ∈ body, 32 ≤ c ∧ c ≠ 34 ∧ c ≠ 92) :
    Spec.StringBody body := by
  induction body with
  | nil => exact Spec.StringBody.nil
  | cons c rest ih =>
    have hc := h c (List.mem_cons_self _ _)
    exact Spec.StringBody.plain hc.1 hc.2.1 hc.2.2
      (ih (fun d hd => h d (List.mem_cons_of_mem _ hd)))

/-- C40: `is_string_char` holds of every byte that is at least 0x20 and is neither a
double quote nor a backslash, 0x7F and the bytes from 0x80 on included; and a string
literal whose content is made of such bytes only compiles with `count = 1`, over a range
that ends with the closing quote or with a NUL after it. -/
theorem string_literal_accepts_plain_bytes (body : List Nat)
    (h : ∀ c ∈ body, 32 ≤ c ∧ c ≠ 34 ∧ c ≠ 92) :
    (∀ c ∈ body, is_string_char c = true) ∧
    (∃ context, compile (34 :: (body ++ [34]) ++ [0]) = .ok context ∧ context.count = 1 ∧
      context.parts[1]? = some (some (body.length + 3))) ∧
    (∃ context, compile (34 :: (body ++ [34])) = .ok context ∧ context.count = 1) := by
  have ws_nil : Spec.Ws [] := fun _ hx => nomatch hx
  have htpl : Spec.TemplateAt (34 :: (body ++ [34])) [] :=
    ⟨[], 34 :: (body ++ [34]), [], ws_nil,
      Spec.ValueAt.string ⟨body, string_body_plain h, rfl⟩, ws_nil, by simp⟩
  refine ⟨fun c hc => ?_, ?_, ?_⟩
  · have := h c hc
    simp only [is_string_char, JP_CONTROL, JP_OTHER_CONTROL, Bool.not_eq_true',
      Bool.or_eq_false_iff, Bool.and_eq_false_imp, decide_eq_false_iff_not, beq_eq_false_iff_ne,
      decide_eq_true_eq, ne_eq]
    omega
  · have := compile_template_at htpl (Or.inr rfl)
    rw [if_pos (by simp)] at this
    obtain ⟨context, hc, hcount, hparts⟩ := this
    refine ⟨context, hc, hcount, ?_⟩
    rw [hparts]
    simp
  · have := compile_template_at htpl (Or.inl rfl)
    rw [if_pos (by simp)] at this
    obtain ⟨context, hc, hcount, _⟩ := this
    rw [List.append_nil] at hc
    exact ⟨context, hc, hcount⟩

/-- C40, at the string literal of the test "should compile a string with UTF8 code
points" (the fifteen bytes of five code points, each a 0xE3 lead byte and two
continuation bytes) and at a literal that holds the byte 0x7F. -/
theorem string_literal_accepts_plain_bytes_witness :
    (∃ context,
      compile (34 :: ([227, 129, 147, 227, 130, 147, 227, 129, 171, 227, 129, 161, 227, 129, 175]
        ++ [34]) ++ [0]) = .ok context ∧ context.count = 1 ∧
      context.parts[1]?
        = some (some ([227, 129, 147, 227, 130, 147, 227, 129, 171, 227, 129, 161, 227, 129,
            175].length + 3))) ∧
    ∃ context, compile (34 :: ([127] ++ [34])) = .ok context ∧ context.count = 1 :=
  ⟨(string_literal_accepts_plain_bytes
      [227, 129, 147, 227, 130, 147, 227, 129, 171, 227, 129, 161, 227, 129, 175]
      (by decide)).2.1,
    (string_literal_accepts_plain_bytes [127] (by decide)).2.2⟩

/-! ## Rendering a range that holds its terminating NUL -/

theorem compile_offsets {text : List Nat} {context : json_print_context}
    (h : compile text = .ok context) :
    context.count = (placeholder_offsets context).length + 1 ∧
    (placeholder_offsets context).Pairwise (· < ·) ∧
    ∀ q ∈ placeholder_offsets context, q < text.length ∧ text[q]? = some 63 := by
  obtain ⟨qs, hc, _, hp, hs, hq⟩ := Outcome.sat_elim (compile_sat text) h
  obtain ⟨parts, count⟩ := context
  dsimp only at hc hp ⊢
  subst hc hp
  rw [placeholder_offsets_eq]
  exact ⟨rfl, hs, hq⟩

theorem render_no_placeholders (text : List Nat) : Spec.render text [] [] = text := by
  simp [Spec.render, Spec.slice, Spec.after]

theorem slice_append_left (t l : List Nat) (a b : Nat) (hb : b ≤ t.length) :
    Spec.slice (t ++ l) a b = Spec.slice t a b := by
  unfold Spec.slice
  by_cases ha : a ≤ t.length
  · rw [List.drop_append_of_le_length ha, List.take_append_of_le_length]
    rw [List.length_drop]; omega
  · have h0 : b - a = 0 := by omega
    rw [h0, List.take_zero, List.take_zero]

theorem slice_to_nul (t : List Nat) (a : Nat) (ha : a ≤ t.length) :
    Spec.slice (t ++ [0]) a (t ++ [0]).length = Spec.slice t a t.length ++ [0] := by
  unfold Spec.slice
  rw [List.drop_append_of_le_length ha, List.take_of_length_le, List.take_of_length_le]
  · rw [List.length_drop]
  · simp only [List.length_append, List.length_drop, List.length_singleton]; omega

theorem after_with_nul (t : List Nat) :
    ∀ (ps : List Nat) (p : Nat) (ss : List (List Nat)),
      (∀ q ∈ p :: ps, q < t.length) → ss.length = ps.length + 1 →
      Spec.after (t ++ [0]) (p :: ps ++ [(t ++ [0]).length]) ss
        = Spec.after t (p :: ps ++ [t.length]) ss ++ [0]
  | [], p, ss, hq, hl => by
    obtain ⟨s, ss', rfl⟩ : ∃ s ss', ss = s :: ss' := by
      cases ss with
      | nil => simp at hl
      | cons s ss' => exact ⟨s, ss', rfl⟩
    have hp := hq p (List.mem_cons_self _ _)
    simp only [List.cons_append, List.nil_append, Spec.after, List.append_nil]
    rw [slice_to_nul t (p + 1) (by omega), List.append_assoc]
  | q :: rest, p, ss, hq, hl => by
    obtain ⟨s, ss', rfl⟩ : ∃ s ss', ss = s :: ss' := by
      cases ss with
      | nil => simp at hl
      | cons s ss' => exact ⟨s, ss', rfl⟩
    have hq' := hq q (List.mem_cons_of_mem _ (List.mem_cons_self _ _))
    have ih := after_with_nul t rest q ss' (fun x hx => hq x (List.mem_cons_of_mem _ hx))
      (by simpa using hl)
    simp only [List.cons_append] at ih ⊢
    simp only [Spec.after]
    rw [ih, slice_append_left t [0] (p + 1) q (by omega)]
    simp only [List.append_assoc]

/-- The rendering of a range that ends with a NUL after the text `t` is the rendering of
`t` followed by that NUL. -/
theorem render_with_nul (t ps : List Nat) (ss : List (List Nat))
    (hq : ∀ q ∈ ps, q < t.length) (hl : ss.length = ps.length) :
    Spec.render (t ++ [0]) ps ss = Spec.render t ps ss ++ [0] := by
  cases ps with
  | nil =>
    have : ss = [] := List.eq_nil_of_length_eq_zero (by simpa using hl)
    subst this
    rw [render_no_placeholders, render_no_placeholders]
  | cons p ps =>
    unfold Spec.render
    rw [after_with_nul t ps p ss hq (by simpa using hl)]
    have hp := hq p (List.mem_cons_self _ _)
    simp only [List.cons_append, List.headD_cons]
    rw [slice_append_left t [0] 0 p (by omega), List.append_assoc]

theorem offsets_before_nul {t : List Nat} {context : json_print_context}
    (h : compile (t ++ [0]) = .ok context) : ∀ q ∈ placeholder_offsets context, q < t.length := by
  intro q hq
  obtain ⟨h1, h2⟩ := (compile_offsets h).2.2 q hq
  simp only [List.length_append, List.length_singleton] at h1
  by_contra hge
  have : q = t.length := by omega
  subst this
  rw [List.getElem?_append_right (Nat.le_refl _)] at h2
  simp at h2

/-- C35: a template of the grammar that has no placeholder in a value position, so that
every `?` byte it holds stands inside a string literal (a value or a member name),
compiles with `count = 1`, and rendering it with no values copies the whole range, the
`?` bytes included, to a stream and to any buffer with room for it. -/
theorem question_mark_in_string_is_text (char_is_signed : Bool) (text : List Nat)
    (h : Spec.Template text 0) :
    ∃ context, compile (text ++ [0]) = .ok context ∧ context.count = 1 ∧
      placeholder_offsets context = [] ∧
      (∀ f, json_fprint char_is_signed f (text ++ [0]) context []
        = .ok (.file (f ++ (text ++ [0])))) ∧
      Writes (fun d => json_print char_is_signed d (text ++ [0]) context []) (text ++ [0]) := by
  have := compile_template h
  rw [if_pos (Nat.zero_le _)] at this
  obtain ⟨context, hc, hcount⟩ := this
  have hoff : placeholder_offsets context = [] := by
    have := (compile_offsets hc).1
    exact List.eq_nil_of_length_eq_zero (by omega)
  have hw := json_print_writes char_is_signed (text ++ [0]) context [] [] hc
    (by simp [hcount]) .nil
  rw [hoff, render_no_placeholders] at hw
  exact ⟨context, hc, by simpa using hcount, hoff, fun f => hw.file f, hw⟩

/-- C35, at a template with a `?` in a member name and two in a string value. -/
theorem question_mark_in_string_is_text_witness :
    Spec.Template (bytes "\x7b\"a?\":\"?b?\"\x7d") 0 ∧
    ∃ context, compile (bytes "\x7b\"a?\":\"?b?\"\x7d" ++ [0]) = .ok context ∧
      context.count = 1 ∧ placeholder_offsets context = [] ∧
      (∀ f, json_fprint false f (bytes "\x7b\"a?\":\"?b?\"\x7d" ++ [0]) context []
        = .ok (.file (f ++ (bytes "\x7b\"a?\":\"?b?\"\x7d" ++ [0])))) ∧
      Writes (fun d => json_print false d (bytes "\x7b\"a?\":\"?b?\"\x7d" ++ [0]) context [])
        (bytes "\x7b\"a?\":\"?b?\"\x7d" ++ [0]) :=
  have ws_nil : Spec.Ws [] := fun _ h => nomatch h
  have name : Spec.IsString (bytes "\"a?\"") :=
    ⟨bytes "a?", string_body_plain (by decide), rfl⟩
  have val : Spec.IsString (bytes "\"?b?\"") :=
    ⟨bytes "?b?", string_body_plain (by decide), rfl⟩
  have tpl : Spec.Template (bytes "\x7b\"a?\":\"?b?\"\x7d") 0 :=
    ⟨[], _, [], ws_nil,
      Spec.Value.object ws_nil
        (@Spec.Members.last (bytes "\"a?\"") [] [] (bytes "\"?b?\"") [] 0 name ws_nil ws_nil
          (Spec.Value.string val) ws_nil),
      ws_nil, by decide⟩
  ⟨tpl, question_mark_in_string_is_text false (bytes "\x7b\"a?\":\"?b?\"\x7d") tpl⟩

theorem ws_no_nul {w : List Nat} (hw : Spec.Ws w) : 0 ∉ w := by
  intro h
  have := hw 0 h
  unfold Spec.ws_byte at this
  omega

theorem string_body_no_nul {s : List Nat} (h : Spec.StringBody s) : 0 ∉ s := by
  induction h with
  | nil => simp
  | plain h1 _ _ _ ih =>
    simp only [List.mem_cons, not_or]
    exact ⟨by omega, ih⟩
  | escape he _ ih =>
    simp only [List.mem_cons, not_or]
    unfold Spec.escape_letter at he
    exact ⟨by omega, by omega, ih⟩
  | unicode h1 h2 h3 h4 _ ih =>
    simp only [List.mem_cons, not_or]
    unfold Spec.hex_digit Spec.digit at h1 h2 h3 h4
    exact ⟨by omega, by omega, by omega, by omega, by omega, by omega, ih⟩

theorem string_no_nul {s : List Nat} (h : Spec.IsString s) : 0 ∉ s := by
  obtain ⟨body, hb, rfl⟩ := h
  have := string_body_no_nul hb
  simp [this]

theorem digits_no_nul {ds : List Nat} (h : Spec.Digits ds) : 0 ∉ ds := by
  intro h0
  have := h 0 h0
  unfold Spec.digit at this
  omega

theorem number_no_nul {s : List Nat} (h : Spec.IsNumber s) : 0 ∉ s := by
  obtain ⟨sign, i, f, e, hsign, hi, hf, he, rfl⟩ := h
  have h1 : 0 ∉ sign := by rcases hsign with rfl | rfl <;> simp
  have h2 : 0 ∉ i := by
    rcases hi with rfl | ⟨d, ds, hd1, hd2, hds, rfl⟩
    · simp
    · have := digits_no_nul hds
      simp only [List.mem_cons, not_or]
      exact ⟨by omega, this⟩
  have h3 : 0 ∉ f := by
    rcases hf with rfl | ⟨d, ds, hd, hds, rfl⟩
    · simp
    · have := digits_no_nul hds
      unfold Spec.digit at hd
      simp only [List.mem_cons, not_or]
      exact ⟨by omega, by omega, this⟩
  have h4 : 0 ∉ e := by
    rcases he with rfl | ⟨ex, sg, d, ds, hex, hsg, hd, hds, rfl⟩
    · simp
    · have := digits_no_nul hds
      unfold Spec.digit at hd
      have hs : 0 ∉ sg := by rcases hsg with rfl | rfl | rfl <;> simp
      simp only [List.mem_cons, List.mem_append, not_or]
      exact ⟨by omega, hs, by omega, this⟩
  simp [h1, h2, h3, h4]

/-- No text that the grammar derives holds a NUL byte. -/
theorem value_no_nul {s : List Nat} {k : Nat} (h : Spec.Value s k) : 0 ∉ s :=
  @Spec.Value.rec
    (fun s _ _ => 0 ∉ s) (fun es _ _ => 0 ∉ es) (fun ms _ _ => 0 ∉ ms)
    (by simp) (by simp) (by simp) (by simp)
    (fun hs => string_no_nul hs) (fun hn => number_no_nul hn)
    (fun hw => by simp [ws_no_nul hw])
    (fun hw _ ih => by simp [ws_no_nul hw, ih])
    (fun hw => by simp [ws_no_nul hw])
    (fun hw _ ih => by simp [ws_no_nul hw, ih])
    (fun _ hw ih => by simp [ws_no_nul hw, ih])
    (fun _ hw1 hw2 _ ihv ihe => by simp [ws_no_nul hw1, ws_no_nul hw2, ihv, ihe])
    (fun hn hw1 hw2 _ hw3 ih => by
      simp [string_no_nul hn, ws_no_nul hw1, ws_no_nul hw2, ws_no_nul hw3, ih])
    (fun hn hw1 hw2 _ hw3 hw4 _ ihv ihm => by
      simp [string_no_nul hn, ws_no_nul hw1, ws_no_nul hw2, ws_no_nul hw3, ws_no_nul hw4,
        ihv, ihm])
    s k h

theorem template_no_nul {t : List Nat} {k : Nat} (h : Spec.Template t k) : 0 ∉ t := by
  obtain ⟨w1, v, w2, hw1, hv, hw2, rfl⟩ := h
  simp [ws_no_nul hw1, ws_no_nul hw2, value_no_nul hv]

theorem forall₂_length_eq {α β : Type} {R : α → β → Prop} {l1 : List α} {l2 : List β}
    (h : List.Forall₂ R l1 l2) : l1.length = l2.length := by
  induction h with
  | nil => rfl
  | cons _ _ ih => simp [ih]

/-- C37: when the range compiled is a text `t` followed by its terminating NUL, the
placeholders all stand inside `t` and the rendering is the rendering of `t`, which is
`T[0,p1) ++ ser(v1) ++ ... ++ ser(vk) ++ T[pk+1,end)` over the text alone, followed by
one NUL byte: the last fragment written runs up to the end of the range and so takes the
NUL with it, on a stream and on a buffer with room.  A text that the grammar derives
holds no NUL byte of its own. -/
theorem render_ends_with_nul (char_is_signed : Bool) (t : List Nat)
    (context : json_print_context) (args : List Arg) (sers : List (List Nat))
    (hc : compile (t ++ [0]) = .ok context) (hk : args.length + 1 = context.count)
    (hs : List.Forall₂
      (fun a s => json_print_arg char_is_signed (.file []) a = .ok (.file s)) args sers) :
    (∀ q ∈ placeholder_offsets context, q < t.length) ∧
    context.parts[context.count]? = some (some (t.length + 1)) ∧
    (∀ f, json_fprint char_is_signed f (t ++ [0]) context args
      = .ok (.file (f ++ (Spec.render t (placeholder_offsets context) sers ++ [0])))) ∧
    Writes (fun d => json_print char_is_signed d (t ++ [0]) context args)
      (Spec.render t (placeholder_offsets context) sers ++ [0]) ∧
    (∀ k, Spec.Template t k → 0 ∉ t) := by
  have hq := offsets_before_nul hc
  have hlen : sers.length = (placeholder_offsets context).length := by
    have h1 := (compile_offsets hc).1
    have h2 := forall₂_length_eq hs
    omega
  have hw := json_print_writes char_is_signed (t ++ [0]) context args sers hc hk hs
  rw [render_with_nul t _ sers hq hlen] at hw
  refine ⟨hq, ?_, fun f => hw.file f, hw, fun k hk => template_no_nul hk⟩
  obtain ⟨qs, hcount, _, hp, _, _⟩ := Outcome.sat_elim (compile_sat (t ++ [0])) hc
  rw [hp, hcount]
  rw [List.getElem?_append_left (by simp)]
  have : (some 0 :: List.map some qs ++ [some (t ++ [0]).length])
      = (some 0 :: List.map some qs) ++ [some (t ++ [0]).length] := by simp
  rw [this, List.getElem?_append_right (by simp)]
  simp

/-- C37, at the template `[?]` compiled with its NUL and the value 42: a stream receives
`[42]` and one NUL. -/
theorem render_ends_with_nul_witness :
    json_fprint false [] (bytes "[?]" ++ [0])
      ⟨[some 0, some 1, some 4, none, none, none, none, none, none, none, none, none, none,
        none, none, none], 2⟩ [.int 42]
      = .ok (.file ([] ++ (Spec.render (bytes "[?]")
          (placeholder_offsets ⟨[some 0, some 1, some 4, none, none, none, none, none, none,
            none, none, none, none, none, none, none], 2⟩) [bytes "42"] ++ [0]))) ∧
    Spec.render (bytes "[?]") [1] [bytes "42"] ++ [0] = bytes "[42]" ++ [0] :=
  ⟨(render_ends_with_nul false (bytes "[?]")
      ⟨[some 0, some 1, some 4, none, none, none, none, none, none, none, none, none, none,
        none, none, none], 2⟩ [.int 42] [bytes "42"] (by decide) (by decide)
      (.cons (by decide) .nil)).2.2.1 [], by decide⟩

/-- A buffer one byte larger than the output and of at most `INT_MAX` bytes, where the
code does what C38 says: for a compiled template, as many values as it has placeholders,
each with a serialization, and an output of length `L` (the length not cut short),
`json_sprint` into a buffer of at least `L + 1` and at most `INT_MAX` bytes completes and the first `L`
bytes of the buffer are exactly that output, with the cursor after them. -/
theorem buffer_one_larger_suffices (char_is_signed : Bool) (size : Nat) (text : List Nat)
    (context : json_print_context) (args : List Arg) (sers : List (List Nat))
    (hc : compile text = .ok context) (hk : args.length + 1 = context.count)
    (hs : List.Forall₂
      (fun a s => json_print_arg char_is_signed (.file []) a = .ok (.file s)) args sers)
    (hroom : (Spec.render text (placeholder_offsets context) sers).length + 1 ≤ size)
    (hsize : size ≤ INT_MAX) :
    ∃ b : string_buffer,
      json_sprint char_is_signed size text context args = .ok (.buffer b) ∧
      b.mem.take (Spec.render text (placeholder_offsets context) sers).length
        = Spec.render text (placeholder_offsets context) sers ∧
      b.pos = (Spec.render text (placeholder_offsets context) sers).length ∧
      json_fprint char_is_signed [] text context args
        = .ok (.file (Spec.render text (placeholder_offsets context) sers)) := by
  have hw := json_print_writes char_is_signed text context args sers hc hk hs
  obtain ⟨dest', e, w, r, c⟩ := hw (.buffer { cap := size, mem := [], pos := 0 }) 0
    ⟨Nat.le_refl _, by simp only [Nat.add_zero, Nat.zero_add]; omega, hsize⟩
  cases dest' with
  | file f => simp [Dest.cap] at c
  | buffer b =>
    simp only [Dest.written, List.take_nil, List.nil_append] at w
    have hlen := congrArg List.length w
    rw [List.length_take] at hlen
    have hpos : b.pos ≤ b.mem.length := r.1
    have hp : b.pos = (Spec.render text (placeholder_offsets context) sers).length := by omega
    refine ⟨b, e, by rw [← hp]; exact w, hp, ?_⟩
    have := hw.file []
    simpa using this

/-- The lemma `buffer_one_larger_suffices` at the template `[?]` with the value 42: the
output `[42]` and the NUL of the range are 5 bytes, and a buffer of 6 bytes holds
them. -/
theorem buffer_one_larger_suffices_witness :
    ∃ b : string_buffer,
      json_sprint false 6 (bytes "[?]" ++ [0])
        ⟨[some 0, some 1, some 4, none, none, none, none, none, none, none, none, none, none,
          none, none, none], 2⟩ [.int 42] = .ok (.buffer b) ∧
      b.mem.take 5 = bytes "[42]" ++ [0] := by
  obtain ⟨b, h1, h2, _⟩ := buffer_one_larger_suffices false 6 (bytes "[?]" ++ [0])
    ⟨[some 0, some 1, some 4, none, none, none, none, none, none, none, none, none, none,
      none, none, none], 2⟩ [.int 42] [bytes "42"] (by decide) (by decide)
    (.cons (by decide) .nil) (by decide) (by decide)
  exact ⟨b, h1, h2⟩

/-- C38 (what the code does): for the template `[?]` and the value 7 the output is `[7]`
and the NUL of the range, 4 bytes, and the buffer has 4294967296 bytes; but after `[` the
remaining capacity converted to `int` is -1, so `write_printf` moves the cursor back by
one, and the buffer ends up holding `]` and two NUL bytes.  The value `true`, which goes
through `write_string`, is stored in the same buffer as C38 says. -/
theorem json_sprint_room_on_large_buffer :
    compile (bytes "[?]" ++ [0])
      = .ok ⟨[some 0, some 1, some 4, none, none, none, none, none, none, none, none, none,
          none, none, none, none], 2⟩ ∧
    json_fprint false [] (bytes "[?]" ++ [0])
      ⟨[some 0, some 1, some 4, none, none, none, none, none, none, none, none, none, none,
        none, none, none], 2⟩ [.int 7] = .ok (.file (bytes "[7]" ++ [0])) ∧
    (bytes "[7]" ++ [0]).length + 1 ≤ 4294967296 ∧
    json_sprint false 4294967296 (bytes "[?]" ++ [0])
      ⟨[some 0, some 1, some 4, none, none, none, none, none, none, none, none, none, none,
        none, none, none], 2⟩ [.int 7]
      = .ok (.buffer ⟨4294967296, bytes "]" ++ [0, 0], 2⟩) ∧
    json_sprint false 4294967296 (bytes "[?]" ++ [0])
      ⟨[some 0, some 1, some 4, none, none, none, none, none, none, none, none, none, none,
        none, none, none], 2⟩ [.bool true]
      = .ok (.buffer ⟨4294967296, bytes "[true]" ++ [0], 7⟩) := by
  decide

/-! ## A string value stays inside its quotes -/

theorem digitChar_is_digit : ∀ m, m < 10 →
    48 ≤ (Nat.digitChar m).toNat ∧ (Nat.digitChar m).toNat ≤ 57 := by
  decide

theorem toDigitsCore_digits : ∀ (fuel n : Nat) (ds : List Char),
    (∀ c ∈ ds, 48 ≤ c.toNat ∧ c.toNat ≤ 57) →
    ∀ c ∈ Nat.toDigitsCore 10 fuel n ds, 48 ≤ c.toNat ∧ c.toNat ≤ 57
  | 0, _, ds, h => by simpa [Nat.toDigitsCore] using h
  | fuel + 1, n, ds, h => by
    have hd := digitChar_is_digit (n % 10) (Nat.mod_lt _ (by omega))
    have h' : ∀ c ∈ Nat.digitChar (n % 10) :: ds, 48 ≤ c.toNat ∧ c.toNat ≤ 57 := by
      intro c hc
      rcases List.mem_cons.mp hc with rfl | hc
      · exact hd
      · exact h c hc
    unfold Nat.toDigitsCore
    dsimp only
    split
    · exact h'
    · exact toDigitsCore_digits fuel (n / 10) _ h'

theorem decimal_digits (n : Nat) : ∀ c ∈ decimal n, 48 ≤ c ∧ c ≤ 57 := by
  intro c hc
  unfold decimal at hc
  obtain ⟨ch, hch, rfl⟩ := List.mem_map.mp hc
  exact toDigitsCore_digits _ _ [] (fun _ h => nomatch h) ch hch

theorem zero_pad_digits (width n : Nat) : ∀ c ∈ zero_pad width (decimal n), 48 ≤ c ∧ c ≤ 57 := by
  intro c hc
  unfold zero_pad at hc
  rcases List.mem_append.mp hc with h | h
  · rw [List.eq_of_mem_replicate h]; omega
  · exact decimal_digits n c h

theorem zero_pad_ne_nil (n : Nat) : zero_pad 4 (decimal n) ≠ [] := by
  unfold zero_pad
  intro h
  have h1 := congrArg List.length h
  simp only [List.length_append, List.length_replicate, List.length_nil] at h1
  have : 4 - (decimal n).length = 0 ∧ (decimal n).length = 0 := by omega
  omega

theorem Enclosed.of_plain {l : List Nat} (h : ∀ c ∈ l, 32 ≤ c ∧ c ≠ 34 ∧ c ≠ 92) :
    Enclosed l := by
  induction l with
  | nil => exact Enclosed.nil
  | cons c rest ih =>
    have hc := h c (List.mem_cons_self _ _)
    exact Enclosed.plain hc.1 hc.2.1 hc.2.2 (ih (fun d hd => h d (List.mem_cons_of_mem _ hd)))

theorem Enclosed.append_enclosed {a b : List Nat} (ha : Enclosed a) (hb : Enclosed b) :
    Enclosed (a ++ b) := by
  induction ha with
  | nil => exact hb
  | plain h1 h2 h3 _ ih => exact Enclosed.plain h1 h2 h3 ih
  | pair h1 _ ih => exact Enclosed.pair h1 ih

theorem not_special_plain {sgn : Bool} {c : Nat} (h : is_special_character sgn c = false) :
    32 ≤ c ∧ c ≠ 34 ∧ c ≠ 92 := by
  simp only [is_special_character, char_value, Bool.or_eq_false_iff, decide_eq_false_iff_not,
    beq_eq_false_iff_ne, ne_eq] at h
  obtain ⟨⟨h1, h2⟩, h3⟩ := h
  refine ⟨?_, h3, h2⟩
  split at h1 <;> omega

theorem byte_image_enclosed (sgn : Bool) (c : Nat) : Enclosed (byte_image sgn c) := by
  unfold byte_image
  split
  · unfold escape_text
    have two : ∀ x, 32 ≤ x → Enclosed [92, x] := fun x hx => Enclosed.pair hx Enclosed.nil
    split
    · exact two _ (by omega)
    split
    · exact two _ (by omega)
    split
    · exact two _ (by omega)
    split
    · exact two _ (by omega)
    split
    · exact two _ (by omega)
    split
    · exact two _ (by omega)
    split
    · exact two _ (by omega)
    · generalize hn : to_unsigned (char_value sgn c) = n
      have hd := zero_pad_digits 4 n
      cases hz : zero_pad 4 (decimal n) with
      | nil => exact absurd hz (zero_pad_ne_nil n)
      | cons x rest =>
        rw [hz] at hd
        have hx := hd x (List.mem_cons_self _ _)
        exact Enclosed.pair (by omega) (Enclosed.of_plain (fun d hd' => by
          have := hd d (List.mem_cons_of_mem _ hd'); omega))
  · next h =>
    have := not_special_plain (Bool.eq_false_iff.mpr h)
    exact Enclosed.plain this.1 this.2.1 this.2.2 Enclosed.nil

theorem string_body_enclosed (sgn : Bool) : ∀ text : List Nat, Enclosed (string_body sgn text)
  | [] => Enclosed.nil
  | [c] => by
    unfold string_body
    split
    · exact Enclosed.nil
    · exact byte_image_enclosed sgn c
  | c :: d :: rest => by
    rw [string_body]
    · exact (byte_image_enclosed sgn c).append_enclosed (string_body_enclosed sgn (d :: rest))
    · intro h; cases h

theorem backslash_run_snoc (l : List Nat) (c : Nat) :
    backslash_run (l ++ [c]) = if c = 92 then backslash_run l + 1 else 0 := by
  unfold backslash_run
  rw [List.reverse_append, List.reverse_singleton, List.singleton_append, List.takeWhile_cons]
  by_cases h : c = 92
  · simp [h]
  · simp [h]

theorem Enclosed.bytes_ge {l : List Nat} (h : Enclosed l) : ∀ c ∈ l, 32 ≤ c := by
  induction h with
  | nil => intro c hc; cases hc
  | plain h1 _ _ _ ih =>
    intro c hc
    rcases List.mem_cons.mp hc with rfl | hc
    · exact h1
    · exact ih c hc
  | pair h1 _ ih =>
    intro c hc
    rcases List.mem_cons.mp hc with rfl | hc
    · omega
    · rcases List.mem_cons.mp hc with rfl | hc
      · exact h1
      · exact ih c hc

theorem Enclosed.quote_escaped {l : List Nat} (h : Enclosed l) :
    ∀ (pre : List Nat), backslash_run pre % 2 = 0 →
      ∀ i, l[i]? = some 34 → backslash_run (pre ++ l.take i) % 2 = 1 := by
  induction h with
  | nil => intro pre _ i hi; simp at hi
  | @plain c s h1 h2 h3 _ ih =>
    intro pre hpre i hi
    cases i with
    | zero => simp at hi; omega
    | succ j =>
      simp only [List.getElem?_cons_succ] at hi
      have := ih (pre ++ [c]) (by rw [backslash_run_snoc, if_neg h3]) j hi
      simpa using this
  | @pair x s h1 _ ih =>
    intro pre hpre i hi
    cases i with
    | zero => simp at hi
    | succ j =>
      cases j with
      | zero =>
        simp only [List.take_succ_cons, List.take_zero]
        rw [backslash_run_snoc, if_pos rfl]
        omega
      | succ k =>
        simp only [List.getElem?_cons_succ] at hi
        have hp : backslash_run (pre ++ [92, x]) % 2 = 0 := by
          have : pre ++ [92, x] = (pre ++ [92]) ++ [x] := by simp
          rw [this, backslash_run_snoc]
          split
          · rw [backslash_run_snoc, if_pos rfl]; omega
          · rfl
        have := ih (pre ++ [92, x]) hp k hi
        simpa using this

/-- C36: for every raw text, what `json_print_string` sends to a stream, and to a buffer
with room, is a double quote, a body and a double quote, where the body holds no byte in
0x00..0x1F and every double quote of the body has an odd number of consecutive
backslashes right before it. -/
theorem string_stays_inside_quotes (char_is_signed : Bool) (text : List Nat) :
    ∃ body : List Nat,
      (∀ f, json_print_string char_is_signed (.file f) text
        = .ok (.file (f ++ 34 :: (body ++ [34])))) ∧
      Writes (fun d => json_print_string char_is_signed d text) (34 :: (body ++ [34])) ∧
      (∀ c ∈ body, 32 ≤ c) ∧
      ∀ i, body[i]? = some 34 → backslash_run (body.take i) % 2 = 1 := by
  refine ⟨string_body char_is_signed text,
    fun f => (json_print_string_writes char_is_signed text).file f,
    json_print_string_writes char_is_signed text,
    (string_body_enclosed char_is_signed text).bytes_ge, fun i hi => ?_⟩
  have := (string_body_enclosed char_is_signed text).quote_escaped [] rfl i hi
  simpa using this

/-! ## The byte classes of the escaper and of the compiler -/

/-- C39 (what the code does): where plain `char` is signed, the escaper's
`is_special_character` and the compiler's `is_string_char` disagree on every byte from
0x80 to 0xFF: `c < 32` holds of the negative `char`, so the escaper takes the byte for
special, while the `switch` of the compiler takes it for a string character.  On the
bytes below 0x80, and on all 256 bytes where plain `char` is unsigned,
`is_special_character(c)` holds exactly when `is_string_char(c)` does not, which is for
the 32 control bytes, the backslash and the double quote. -/
theorem classifiers_differ_on_high_bytes :
    (∀ c, 128 ≤ c → c < 256 →
      is_special_character true c = true ∧ is_string_char c = true) ∧
    (is_special_character true 195 = true ∧ is_string_char 195 = true) ∧
    (∀ c, c < 128 → (is_special_character true c = true ↔ is_string_char c = false)) ∧
    (∀ c, c < 256 → (is_special_character false c = true ↔ is_string_char c = false)) ∧
    (∀ c, c < 256 → (is_string_char c = false ↔ c < 32 ∨ c = 92 ∨ c = 34)) := by
  have hs : ∀ c, is_string_char c = false ↔ c < 32 ∨ c = 92 ∨ c = 34 := by
    intro c
    simp only [is_string_char, JP_CONTROL, JP_OTHER_CONTROL, Bool.not_eq_false',
      Bool.or_eq_true, Bool.and_eq_true, decide_eq_true_eq, beq_iff_eq]
    omega
  have hu : ∀ c, is_special_character false c = true ↔ c < 32 ∨ c = 92 ∨ c = 34 := by
    intro c
    simp only [is_special_character, char_value, Bool.false_and, Bool.false_eq_true, if_false,
      Bool.or_eq_true, decide_eq_true_eq, beq_iff_eq]
    omega
  have hl : ∀ c, c < 128 → (is_special_character true c = true ↔ c < 32 ∨ c = 92 ∨ c = 34) := by
    intro c hc
    simp only [is_special_character, char_value, Bool.true_and, decide_eq_true_eq,
      if_neg (show ¬ 128 ≤ c by omega), Bool.or_eq_true, beq_iff_eq]
    omega
  have hh : ∀ c, 128 ≤ c → c < 256 → is_special_character true c = true := by
    intro c h1 h2
    simp only [is_special_character, char_value, Bool.true_and, decide_eq_true_eq,
      if_pos h1, Bool.or_eq_true, beq_iff_eq]
    omega
  have hh' : ∀ c, 128 ≤ c → is_string_char c = true := by
    intro c h1
    cases h : is_string_char c
    · have := (hs c).mp h; omega
    · rfl
  exact ⟨fun c h1 h2 => ⟨hh c h1 h2, hh' c h1⟩, ⟨hh 195 (by omega) (by omega), hh' 195 (by omega)⟩,
    fun c hc => (hl c hc).trans (hs c).symm, fun c _ => (hu c).trans (hs c).symm,
    fun c _ => hs c⟩


end JsonPrint
